import Mathlib

/-! # pmcpp: the PMNS pre-processor of Performance Co-Pilot

A shallow embedding of `src/pmcpp/pmcpp.c` and a verification of its
specification.

Conventions of the embedding.

* A C string is the list of its bytes before the terminating NUL, so the
  empty list is a pointer at the NUL and `cur ip` is `*ip`.  A pointer into a
  buffer is the suffix of the buffer that starts at the pointer; a pointer
  difference `ip - tp` is the difference of the two lengths.
* The `<ctype.h>` predicates are those of the "C" locale (pmcpp never calls
  `setlocale`).
* Every physical line is taken to fit `ibuf[256]`.  The bound of `tmp[256]`
  is in `do_macro_tmp`; `do_macro`, and with it the loop of `main()`, takes
  every expanded line to fit.
* `err()` prints a message and calls `exit(1)`: it is an error result.
* The `debug` flag is off; the counters only it prints are left out.
-/

namespace Pmcpp

/-! ## Bytes and `<ctype.h>` -/

/-- The NUL byte. -/
def NUL : Char := Char.ofNat 0

/-- The single quote byte. -/
def SQUOTE : Char := Char.ofNat 39

/-- The byte under a pointer: `*ip`. -/
def cur (ip : List Char) : Char := ip.headD NUL

def isupper (c : Char) : Bool := decide (65 ≤ c.toNat) && decide (c.toNat ≤ 90)

def islower (c : Char) : Bool := decide (97 ≤ c.toNat) && decide (c.toNat ≤ 122)

def isalpha (c : Char) : Bool := isupper c || islower c

def isdigit (c : Char) : Bool := decide (48 ≤ c.toNat) && decide (c.toNat ≤ 57)

def isalnum (c : Char) : Bool := isalpha c || isdigit c

/-- Space and horizontal tab. -/
def isblank (c : Char) : Bool := c == ' ' || c == '\t'

/-- Space, `\t`, `\n`, `\v`, `\f` and `\r`. -/
def isspace (c : Char) : Bool :=
  c == ' ' || (decide (9 ≤ c.toNat) && decide (c.toNat ≤ 13))

/-- The test `strncmp(a, b, n) == 0`. -/
def strncmp_eq (a b : List Char) (n : Nat) : Bool := a.take n == b.take n

deriving instance DecidableEq for Except

/-! ## Global state -/

/-- An entry of `macro[]`; `undef` sets `len` to 0. -/
structure macro_t where
  len : Nat
  name : List Char
  value : List Char
  deriving DecidableEq, Repr

abbrev IF_FALSE : Int := 0
abbrev IF_TRUE : Int := 1
abbrev IF_NONE : Int := 2

abbrev OP_DEFINE : Nat := 1
abbrev OP_UNDEF : Nat := 2
abbrev OP_IFDEF : Nat := 3
abbrev OP_IFNDEF : Nat := 4
abbrev OP_ELSE : Nat := 5
abbrev OP_ENDIF : Nat := 6

/-- The fatal errors, one for each message passed to `err()`. -/
inductive Err where
  /-- Message "Missing macro name" -/
  | MissingName
  /-- Message "Illegal character in macro name" -/
  | IllegalChar
  /-- Message "Unterminated value string in ?define" -/
  | UnterminatedValue
  /-- Message "Unexpected extra text in a control line" -/
  | TrailingText
  /-- Message "No matching ?ifdef or ?ifndef for ?endif" (`op` is `OP_ENDIF`) or
  "... for ?else" (`op` is `OP_ELSE`) -/
  | UnmatchedConditional (op : Nat)
  /-- Message "Nested ?ifdef or ?ifndef" -/
  | NestedConditional
  /-- Message "Macro redefinition" -/
  | Redefinition
  /-- Message "Unrecognized control line" -/
  | UnrecognizedDirective
  /-- Message "Expected \" or < after ?include" -/
  | IncludeNoOpen
  /-- Message "Expected \" after file name" -/
  | IncludeNoQuote
  /-- Message "Expected > after file name" -/
  | IncludeNoAngle
  /-- Message "?include nesting too deep" -/
  | TooDeep
  /-- Message "Unexpected extra text in ?include line" -/
  | IncludeTrailingText
  /-- Message "Cannot open file for ?include" -/
  | NotFound
  /-- Message "Comment at line %d not terminated before end of file" -/
  | UnterminatedComment (line : Nat)
  /-- Message "End of input and no matching ?endif for ?ifdef or ?ifndef at line %d" -/
  | UnterminatedConditional (line : Nat)
  /-- The text of `pmErrStr()`, when the file argument does not open -/
  | InputOpen
  deriving DecidableEq, Repr

/-- The globals `directive()` reads and writes: the table `macro[]` as `macros`
(`nmacro` is its length), `in_if` and `if_lineno`. -/
structure Tables where
  macros : List macro_t
  in_if : Int
  if_lineno : Nat
  deriving DecidableEq, Repr

/-! ## `directive()` -/

/-- What lines 146-225 of `directive()` leave in its locals. `name` and
`value` are pointers into `ibuf` (the empty list when still `NULL`). -/
structure Parsed where
  op : Nat
  name : List Char
  namelen : Nat
  value : List Char
  valuelen : Nat
  deriving DecidableEq, Repr

/-- The loop `while (*ip && isblank((int)*ip)) ip++;`. -/
def skip_blank : List Char → List Char
  | [] => []
  | c :: cs => if isblank c then skip_blank cs else c :: cs

/-- The keyword chain of lines 146-173: the opcode and `ip`, or `none` for
`return -1`. -/
def keyword (ibuf : List Char) : Option (Nat × List Char) :=
  if strncmp_eq (ibuf.drop 1) "define".toList "define".length then
    some (OP_DEFINE, ibuf.drop "?define".length)
  else if strncmp_eq (ibuf.drop 1) "undef".toList "undef".length then
    some (OP_UNDEF, ibuf.drop "?undef".length)
  else if strncmp_eq (ibuf.drop 1) "ifdef".toList "ifdef".length then
    some (OP_IFDEF, ibuf.drop "?ifdef".length)
  else if strncmp_eq (ibuf.drop 1) "ifndef".toList "ifndef".length then
    some (OP_IFNDEF, ibuf.drop "?ifndef".length)
  else if strncmp_eq (ibuf.drop 1) "endif".toList "endif".length then
    some (OP_ENDIF, ibuf.drop "?endif".length)
  else if strncmp_eq (ibuf.drop 1) "else".toList "else".length then
    some (OP_ELSE, ibuf.drop "?else".length)
  else
    none

/-- The name scan of lines 182-188; `first` is `ip == name`. Returns `ip`. -/
def scan_name : Bool → List Char → List Char
  | _, [] => []
  | first, c :: cs =>
    if isblank c then c :: cs
    else if isalpha c || c == '_' then scan_name false cs
    else if !first && (isdigit c || c == '_') then scan_name false cs
    else c :: cs

/-- The value scan of lines 205-207. Returns `ip`. -/
def scan_value (quote : Char) : List Char → List Char
  | [] => []
  | c :: cs =>
    if (quote == NUL && !isspace c) || (quote != NUL && c != quote) then
      scan_value quote cs
    else c :: cs

/-- The trailing-text check of lines 221-225. -/
def check_trailing (ip : List Char) (p : Parsed) : Except Err Parsed :=
  let ip := skip_blank ip
  if cur ip != '\n' && cur ip != NUL then .error .TrailingText else .ok p

/-- Lines 177-193: the name. Returns `name`, `namelen` and `ip`. -/
def parse_name (ip : List Char) : Except Err (List Char × Nat × List Char) :=
  if cur ip == '\n' || cur ip == NUL then .error .MissingName
  else
    let name := ip
    let ip := scan_name true ip
    if !isspace (cur ip) then .error .IllegalChar
    else .ok (name, name.length - ip.length, ip)

/-- Lines 195-215: the value of a `define`. Returns `value`, `valuelen` and
`ip`; the literal `""` is the empty list. -/
def parse_value (ip : List Char) : Except Err (List Char × Nat × List Char) :=
  if cur ip == '\n' || cur ip == NUL then .ok ([], 0, ip)
  else
    let ip := skip_blank ip
    let quote := if cur ip == SQUOTE || cur ip == '"' then cur ip else NUL
    let ip := if cur ip == SQUOTE || cur ip == '"' then ip.tail else ip
    let value := ip
    let ip := scan_value quote ip
    if quote != NUL && cur ip != quote then .error .UnterminatedValue
    else
      let valuelen := value.length - ip.length
      let ip := if quote != NUL then ip.tail else ip
      .ok (value, valuelen, ip)

/-- Lines 146-225 of `directive()`: `.ok none` is `return -1`. -/
def directive_parse (ibuf : List Char) : Except Err (Option Parsed) :=
  match keyword ibuf with
  | none => .ok none
  | some (op, ip) =>
    let ip := skip_blank ip
    if op != OP_ENDIF && op != OP_ELSE then
      match parse_name ip with
      | .error e => .error e
      | .ok (name, namelen, ip) =>
        if op == OP_DEFINE then
          match parse_value ip with
          | .error e => .error e
          | .ok (value, valuelen, ip) =>
            (check_trailing ip ⟨op, name, namelen, value, valuelen⟩).map some
        else
          (check_trailing ip ⟨op, name, namelen, [], 0⟩).map some
    else
      (check_trailing ip ⟨op, [], 0, [], 0⟩).map some

/-- The test of lines 256-258: the index of the first entry of `macro[]`
with `len == namelen` and `strncmp(name, macro[i].name, macro[i].len) == 0`. -/
def find_name (name : List Char) (namelen : Nat) : List macro_t → Option Nat
  | [] => none
  | m :: ms =>
    if m.len != namelen || !strncmp_eq name m.name m.len then
      (find_name name namelen ms).map (· + 1)
    else some 0

/-- The assignment `macro[i].len = 0`. -/
def clear_len : Nat → List macro_t → List macro_t
  | _, [] => []
  | 0, m :: ms => { m with len := 0 } :: ms
  | i + 1, m :: ms => m :: clear_len i ms

/-- Lines 227-317 of `directive()`; `lineno` is `currfile->lineno`. -/
def directive_act (s : Tables) (lineno : Nat) (p : Parsed) : Except Err (Int × Tables) :=
  if p.op == OP_ENDIF then
    if s.in_if != IF_NONE then .ok (0, { s with in_if := IF_NONE })
    else .error (.UnmatchedConditional OP_ENDIF)
  else
    let r : Except Err Tables :=
      if p.op == OP_ELSE then
        if s.in_if != IF_NONE then .ok { s with in_if := 1 - s.in_if }
        else .error (.UnmatchedConditional OP_ELSE)
      else if p.op == OP_IFDEF || p.op == OP_IFNDEF then
        if s.in_if != IF_NONE then .error .NestedConditional else .ok s
      else .ok s
    match r with
    | .error e => .error e
    | .ok s =>
      if s.in_if == IF_FALSE then .ok (1, s)
      else
        match find_name p.name p.namelen s.macros with
        | some i =>
          if p.op == OP_IFDEF then .ok (0, { s with in_if := IF_TRUE })
          else if p.op == OP_IFNDEF then .ok (1, { s with in_if := IF_FALSE })
          else if p.op == OP_UNDEF then .ok (0, { s with macros := clear_len i s.macros })
          else .error .Redefinition
        | none =>
          if p.op == OP_IFDEF then
            .ok (1, { s with in_if := IF_FALSE, if_lineno := lineno })
          else if p.op == OP_IFNDEF then
            .ok (0, { s with in_if := IF_TRUE, if_lineno := lineno })
          else if p.op == OP_UNDEF then .ok (0, s)
          else
            .ok (0, { s with macros := s.macros ++
              [⟨p.namelen, p.name.take p.namelen, p.value.take p.valuelen⟩] })

/-- The function `directive()`: the return value and the new globals, or the
error it exits with. -/
def directive (s : Tables) (lineno : Nat) (ibuf : List Char) : Except Err (Int × Tables) :=
  match directive_parse ibuf with
  | .error e => .error e
  | .ok none => .ok (-1, s)
  | .ok (some p) => directive_act s lineno p

/-! ## `do_macro()` -/

/-- The result of the token scan of `do_macro()`: the bytes written to `tmp`
and the count `sub`; `overrun` when `ip++` steps over the terminating NUL of
`ibuf`, so that the next test reads outside the line. -/
inductive Scan where
  | done (tmp : List Char) (sub : Nat)
  | overrun
  | nofuel
  deriving DecidableEq, Repr

/-- The loop condition of "get to the start of the next possible macro name":
the byte is copied when it cannot start a token. -/
def not_start (restricted : Bool) (ctl : Char) (c : Char) : Bool :=
  if restricted then c != ctl else !isalpha c && c != '_'

/-- The computation of `tok_end` (lines 354-390) with the `ip` it leaves: the
closing brace of the restricted grammar is stepped over. -/
def tok_end (restricted : Bool) (tp ip : List Char) : Bool × List Char :=
  let k := tp.length - ip.length
  if k == 0 then (false, ip)
  else if restricted then
    if k == 1 then
      if cur ip == '{' || isalnum (cur ip) then (false, ip) else (true, ip)
    else if k == 2 && cur (tp.drop 1) == '{' then
      if isalnum (cur ip) then (false, ip) else (true, ip)
    else if cur (tp.drop 1) != '{' && (isalnum (cur ip) || cur ip == '_') then (false, ip)
    else if cur (tp.drop 1) == '{' then
      if cur ip != '}' then (false, ip) else (true, ip.tail)
    else (true, ip)
  else
    if !isalnum (cur ip) && cur ip != '_' then (true, ip) else (false, ip)

/-- The loop of lines 420-433: the first entry with `tlen == macro[i].len`
and `strncmp(token, macro[i].name, tlen) == 0`. -/
def find_token (token : List Char) (tlen : Int) : List macro_t → Option macro_t
  | [] => none
  | m :: ms =>
    if tlen == (m.len : Int) && strncmp_eq token m.name tlen.toNat then some m
    else find_token token tlen ms

/-- Lines 394-439: what a token of `len` bytes at `tp` adds to `tmp`, and
whether it was substituted. -/
def expand_token (restricted : Bool) (macros : List macro_t) (tp : List Char) (len : Nat) :
    List Char × Bool :=
  let tlen : Int := len
  let token := tp
  let tlen : Int :=
    if restricted then
      if len < 2 then 0 else if cur (tp.drop 1) == '{' then tlen - 3 else tlen - 1
    else tlen
  let token :=
    if restricted then
      if len < 2 then token else if cur (tp.drop 1) == '{' then token.drop 2 else token.drop 1
    else token
  match (if tlen > 0 then find_token token tlen macros else none) with
  | some m => (m.value, true)
  | none => (tp.take len, false)

/-- The `for ( ; ; )` loop of lines 353-454, one iteration for each unit of
fuel. -/
def do_macro_loop (restricted : Bool) (ctl : Char) (macros : List macro_t) :
    Nat → List Char → List Char → List Char → Nat → Scan
  | 0, _, _, _, _ => .nofuel
  | fuel + 1, tp, ip, op, sub =>
    let (te, ip) := tok_end restricted tp ip
    if te then
      let len := tp.length - ip.length
      let (txt, hit) := if len > 0 then expand_token restricted macros tp len else ([], false)
      let op := op ++ txt
      let sub := if hit then sub + 1 else sub
      let op := op ++ ip.takeWhile (not_start restricted ctl)
      let ip := ip.dropWhile (not_start restricted ctl)
      match ip with
      | [] => .done op sub
      | _ :: ip1 => do_macro_loop restricted ctl macros fuel ip ip1 op sub
    else
      match ip with
      | [] => .overrun
      | _ :: ip1 => do_macro_loop restricted ctl macros fuel tp ip1 op sub

/-- The function `do_macro()` with `tmp[]` taken as long as the line written
needs: the new content of `ibuf`, or `none` when the scan runs over the end
of the line. Every iteration of the loop advances `ip`, so one more iteration
than the line has bytes is never reached. The bound of `tmp[256]` is in
`do_macro_tmp`. -/
def do_macro (restricted : Bool) (ctl : Char) (macros : List macro_t) (ibuf : List Char) :
    Option (List Char) :=
  let op := ibuf.takeWhile (not_start restricted ctl)
  let ip := ibuf.dropWhile (not_start restricted ctl)
  match ip with
  | [] => some ibuf
  | _ :: _ =>
    match do_macro_loop restricted ctl macros (ibuf.length + 1) ip ip op 0 with
    | .done tmp sub => if sub != 0 then some tmp else some ibuf
    | .overrun => none
    | .nofuel => none

/-- The number of bytes of `tmp[]` (line 334), which is that of `ibuf[]`
(line 57). -/
abbrev TMPSIZE : Nat := 256

/-- What a call of `do_macro()` leaves: the content of `ibuf` when it
returns; `overrun` when the scan steps over the terminating NUL of `ibuf`;
`overflow` when a byte is stored outside `tmp[256]`, with the number of bytes
stored through `op`. -/
inductive Stored where
  | line (ibuf : List Char)
  | overrun
  | overflow (stored : Nat)
  deriving DecidableEq, Repr

/-- The bytes stored in `tmp[]` and the count `sub` when `do_macro()` leaves
its loop, or returns at line 351 with the whole line copied. -/
def do_macro_scan (restricted : Bool) (ctl : Char) (macros : List macro_t)
    (ibuf : List Char) : Scan :=
  let op := ibuf.takeWhile (not_start restricted ctl)
  let ip := ibuf.dropWhile (not_start restricted ctl)
  match ip with
  | [] => .done op 0
  | _ :: _ => do_macro_loop restricted ctl macros (ibuf.length + 1) ip ip op 0

/-- The function `do_macro()` with the bound of `tmp[256]`. The stores
through `op` are unchecked (`*op++ = *ip++`, `strcpy(op, macro[i].value)`,
`strncpy(op, tp, len)`, and `*op = 0` when `sub` is set) and `op` only moves
forward, so a byte is stored outside `tmp[]` exactly when the bytes written,
and the closing NUL when `sub` is set, are more than `TMPSIZE`; the
`strcpy(ibuf, tmp)` of line 458 copies the same bytes into `ibuf[256]`. -/
def do_macro_tmp (restricted : Bool) (ctl : Char) (macros : List macro_t)
    (ibuf : List Char) : Stored :=
  match do_macro_scan restricted ctl macros ibuf with
  | .done tmp sub =>
    let stored := tmp.length + (if sub != 0 then 1 else 0)
    if stored > TMPSIZE then .overflow stored
    else if sub != 0 then .line tmp else .line ibuf
  | .overrun => .overrun
  | .nofuel => .overrun

/-! ## `main()` -/

abbrev MAXLEVEL : Nat := 5
abbrev STYLE_C : Nat := 1
abbrev STYLE_SH : Nat := 2

/-- An entry of `file_ctl[]`; `fin` is the list of lines `fgets` has still to
return from the stream, each as the C string left in `ibuf`. -/
structure Frame where
  fname : List Char
  fin : List (List Char)
  lineno : Nat
  deriving DecidableEq, Repr

/-- What the command line and the host give to `main()`. -/
structure Env where
  /-- The style: `STYLE_SH` after `-s` -/
  style : Nat
  /-- The control character: `%` after `-s` -/
  ctl : Char
  /-- True after `-r` -/
  restricted : Bool
  /-- The arguments of the `-D` options, in order -/
  defines : List (List Char)
  /-- The file argument, `none` to read `stdin` -/
  input : Option (List Char)
  /-- The lines of `stdin` -/
  stdin : List (List Char)
  /-- The result of `dirname()` on the file argument -/
  dir : List Char
  /-- The result of `__pmPathSeparator()` -/
  sep : Char
  /-- The result of `pmGetConfig("PCP_VAR_DIR")` -/
  var_dir : List Char
  /-- The function `openfile()`: the lines of the regular files that open -/
  openfile : List Char → Option (List (List Char))

/-- The state of the loop of `main()`: `currfile` is the frame the pointer
`currfile` is at, `below` the frames of `file_ctl[]` under it, nearest first;
`out` is what was written to `stdout`, one `printf` each. -/
structure State where
  t : Tables
  skip_if_false : Int
  incomment : Nat
  currfile : Frame
  below : List Frame
  out : List (List Char)
  deriving DecidableEq, Repr

/-- How a run ends: `exit(0)`, `err()`, or a read outside `ibuf`. -/
inductive Outcome where
  | exit0 (out : List (List Char))
  | fatal (e : Err) (out : List (List Char))
  | overrun (out : List (List Char))
  | nofuel
  deriving DecidableEq, Repr

/-- The result of one pass through the loop body. -/
inductive Next where
  | cont (s : State)
  | halt (o : Outcome)
  deriving DecidableEq, Repr

/-- The line `# <lineno+1> "<fname>"`. -/
def marker (f : Frame) : List Char :=
  "# ".toList ++ (Nat.repr (f.lineno + 1)).toList ++ " \"".toList ++ f.fname ++ "\"\n".toList

/-- The `printf` guarded by `style == STYLE_C`. -/
def put_c (e : Env) (out : List (List Char)) (l : List Char) : List (List Char) :=
  if e.style == STYLE_C then out ++ [l] else out

/-- The comment loop of lines 585-604 from `ip` on: the new `incomment` and
the bytes left in the buffer. -/
def strip_comments (lineno : Nat) : Nat → List Char → Nat × List Char
  | incomment, [] => (incomment, [])
  | incomment, [c] =>
    if incomment != 0 then (incomment, [' ']) else (incomment, [c])
  | incomment, c :: d :: cs =>
    if incomment != 0 then
      if c == '*' && d == '/' then
        let r := strip_comments lineno 0 cs
        (r.1, ' ' :: ' ' :: r.2)
      else
        let r := strip_comments lineno incomment (d :: cs)
        (r.1, ' ' :: r.2)
    else
      if c == '/' && d == '*' then
        let r := strip_comments lineno lineno cs
        (r.1, ' ' :: ' ' :: r.2)
      else
        let r := strip_comments lineno incomment (d :: cs)
        (r.1, c :: r.2)

/-- Lines 605-608: the trailing white space is cut and a newline is put. -/
def trim_line (buf : List Char) : List Char :=
  (buf.reverse.dropWhile isspace).reverse ++ ['\n']

/-- The file name scan of lines 640-642; `o` is `p[-1]`. Returns `pend`. -/
def scan_fname (o : Char) : List Char → List Char
  | [] => []
  | c :: cs =>
    if c != '\n' && ((o != '"' || c != '"') && (o != '<' || c != '>')) then scan_fname o cs
    else c :: cs

/-- Lines 661-698: the file that opens and the name it opened under. -/
def resolve (e : Env) (p : List Char) : Option (List Char × List (List Char)) :=
  match e.openfile p with
  | some f => some (p, f)
  | none =>
    let second :=
      if e.input.isSome then
        (e.openfile (e.dir ++ [e.sep] ++ p)).map (fun f => (e.dir ++ [e.sep] ++ p, f))
      else none
    match second with
    | some r => some r
    | none =>
      let third := e.var_dir ++ [e.sep] ++ "pmns".toList ++ [e.sep] ++ p
      (e.openfile third).map (fun f => (third, f))

/-- Lines 619-717: an `include` line. -/
def do_include (e : Env) (s : State) (ibuf : List Char) : Next :=
  if s.skip_if_false != 0 then .cont { s with out := put_c e s.out ['\n'] }
  else
    let p := skip_blank (ibuf.drop "?include".length)
    if cur p != '"' && cur p != '<' then .halt (.fatal .IncludeNoOpen s.out)
    else
      let o := cur p
      let p := p.tail
      let pend := scan_fname o p
      if o == '"' && cur pend != '"' then .halt (.fatal .IncludeNoQuote s.out)
      else if o == '<' && cur pend != '>' then .halt (.fatal .IncludeNoAngle s.out)
      else if s.below.length == MAXLEVEL - 1 then .halt (.fatal .TooDeep s.out)
      else if cur pend.tail != '\n' && cur pend.tail != NUL then
        .halt (.fatal .IncludeTrailingText s.out)
      else
        match resolve e (p.take (p.length - pend.length)) with
        | none => .halt (.fatal .NotFound s.out)
        | some (name, f) =>
          let frame : Frame := ⟨name, f, 0⟩
          .cont { s with currfile := frame, below := s.currfile :: s.below,
                         out := put_c e s.out (marker frame) }

/-- Lines 750-754, the label `process`. -/
def process (e : Env) (s : State) (ibuf : List Char) : Next :=
  if s.t.macros.length > 0 then
    match do_macro e.restricted e.ctl s.t.macros ibuf with
    | some ibuf => .cont { s with out := s.out ++ [ibuf] }
    | none => .halt (.overrun s.out)
  else .cont { s with out := s.out ++ [ibuf] }

/-- Lines 758-776: the end of the top level file. -/
def finish (s : State) : Outcome :=
  if s.incomment != 0 then .fatal (.UnterminatedComment s.incomment) s.out
  else if s.t.in_if != IF_NONE then .fatal (.UnterminatedConditional s.t.if_lineno) s.out
  else .exit0 s.out

/-- One pass through the body of the `for ( ; ; )` loop of lines 568-756. -/
def step (e : Env) (s : State) : Next :=
  match s.currfile.fin with
  | [] =>
    match s.below with
    | [] => .halt (finish s)
    | f :: fs => .cont { s with currfile := f, below := fs, out := put_c e s.out (marker f) }
  | line :: rest =>
    let lineno := s.currfile.lineno + 1
    let r := strip_comments lineno s.incomment line
    let ibuf := trim_line r.2
    let s := { s with currfile := { s.currfile with fin := rest, lineno := lineno },
                      incomment := r.1 }
    if s.incomment != 0 && cur ibuf == '\n' then .cont { s with out := put_c e s.out ['\n'] }
    else if cur ibuf == e.ctl then
      if strncmp_eq (ibuf.drop 1) "include".toList "include".length then do_include e s ibuf
      else
        match directive s.t lineno ibuf with
        | .error err => .halt (.fatal err s.out)
        | .ok (r, t) =>
          if r == -1 then
            if e.restricted then process e { s with t := t, skip_if_false := 0 } ibuf
            else .halt (.fatal .UnrecognizedDirective s.out)
          else .cont { s with t := t, skip_if_false := r, out := put_c e s.out ['\n'] }
    else if s.skip_if_false != 0 then .cont { s with out := put_c e s.out ['\n'] }
    else process e s ibuf

/-- The loop of `main()`, one pass for each unit of fuel. -/
def run (e : Env) : Nat → State → Outcome
  | 0, _ => .nofuel
  | fuel + 1, s =>
    match step e s with
    | .cont s1 => run e fuel s1
    | .halt o => o

/-- Lines 515-526: the `-D` option. The first `=` becomes a space and
`directive()` runs on the line `#define <arg>`; what it returns is dropped. -/
def subst_eq : List Char → List Char
  | [] => []
  | c :: cs => if c == '=' then ' ' :: cs else c :: subst_eq cs

def define_option (t : Tables) (optind : Nat) (optarg : List Char) : Except Err Tables :=
  (directive t optind ("#define ".toList ++ subst_eq optarg ++ ['\n'])).map (·.2)

/-- The options loop for the `-D` options. There `currfile->lineno` is
`opts.optind`; a `define` line does not read it and 0 stands for it. -/
def define_options : Tables → List (List Char) → Except Err Tables
  | t, [] => .ok t
  | t, a :: as =>
    match define_option t 0 a with
    | .error err => .error err
    | .ok t1 => define_options t1 as

/-- The state at line 568, before the first pass through the loop. -/
def start (e : Env) : Except Err State :=
  match define_options ⟨[], IF_NONE, 0⟩ e.defines with
  | .error err => .error err
  | .ok t =>
    let top : Option Frame :=
      match e.input with
      | none => some ⟨"<stdin>".toList, e.stdin, 0⟩
      | some name => (e.openfile name).map (fun f => ⟨name, f, 0⟩)
    match top with
    | none => .error .InputOpen
    | some f => .ok ⟨t, 0, 0, f, [], put_c e [] (marker f)⟩

/-- The function `main()`. -/
def main (e : Env) (fuel : Nat) : Outcome :=
  match start e with
  | .error err => .fatal err []
  | .ok s => run e fuel s

/-- The run of `pmcpp` with no option and no file argument on the lines of
`stdin`, where no file opens for an `include`. -/
def plain_env (input : List (List Char)) : Env :=
  ⟨STYLE_C, '#', false, [], none, input, [], '/', [], fun _ => none⟩

/-! ## Specification side -/

/-- The invariant of `macro[]`: an entry has `len` equal to the length of its
name, or 0 once it is undefined. -/
def wf_table (ms : List macro_t) : Bool :=
  ms.all (fun m => m.len == 0 || m.len == m.name.length)

/-- An entry that `undef` has not cleared and that carries the name `t`. -/
def active_named (t : List Char) (m : macro_t) : Bool := m.len != 0 && m.name == t

/-- The name `t` has an active entry. -/
def defined (ms : List macro_t) (t : List Char) : Bool := ms.any (active_named t)

/-- The value of the first active entry named `t`. -/
def lookup_value (ms : List macro_t) (t : List Char) : Option (List Char) :=
  (ms.find? (active_named t)).map (·.value)

/-- The table after the first active entry named `t`, if any, is cleared. -/
def undef_first (t : List Char) : List macro_t → List macro_t
  | [] => []
  | m :: ms => if active_named t m then { m with len := 0 } :: ms else m :: undef_first t ms

/-- No two active entries carry the same name. -/
def unique_active : List macro_t → Bool
  | [] => true
  | m :: ms => (m.len == 0 || !defined ms m.name) && unique_active ms

/-- The line is a well-formed directive line: lines 146-225 of `directive()`
accept it with opcode `op`, and the bytes they mark as the name and as the
value are `n` and `v`. -/
def parses_as (ibuf : List Char) (op : Nat) (n v : List Char) : Bool :=
  match directive_parse ibuf with
  | .ok (some p) => p.op == op && p.name.take p.namelen == n && p.value.take p.valuelen == v
  | _ => false

/-- The globals that calls of `directive()` can produce from the initial
ones. -/
inductive Reachable : Tables → Prop where
  | init : Reachable ⟨[], IF_NONE, 0⟩
  | call (s : Tables) (lineno : Nat) (ibuf : List Char) (r : Int) (s1 : Tables) :
      Reachable s → directive s lineno ibuf = .ok (r, s1) → Reachable s1

/-- A byte that can start a name: `[A-Za-z_]`. -/
def is_start (c : Char) : Bool := isalpha c || c == '_'

/-- A byte that can continue a name: `[A-Za-z0-9_]`. -/
def is_name_char (c : Char) : Bool := isalnum c || c == '_'

/-- The names `[A-Za-z_][A-Za-z0-9_]*`. -/
def is_ident : List Char → Bool
  | [] => false
  | c :: cs => is_start c && cs.all is_name_char

/-- A piece of a line: a token, or a byte outside every token. -/
inductive Seg where
  | tok (t : List Char)
  | chr (c : Char)
  deriving DecidableEq, Repr

def Seg.text : Seg → List Char
  | .tok t => t
  | .chr c => [c]

/-- The line a list of pieces spells. -/
def texts : List Seg → List Char
  | [] => []
  | s :: ss => s.text ++ texts ss

/-- The pieces are the maximal runs `[A-Za-z_][A-Za-z0-9_]*` of the line and
the bytes between them: a token is a name and no name byte follows it, and
a byte outside the tokens cannot start a name. -/
def tokenized : List Seg → Bool
  | [] => true
  | .chr c :: ss => !is_start c && tokenized ss
  | .tok t :: ss => is_ident t && !is_name_char (cur (texts ss)) && tokenized ss

/-- A token becomes the value of the first active entry with its name, when
there is one; every other piece stays. -/
def subst_seg (ms : List macro_t) : Seg → List Char
  | .tok t => (lookup_value ms t).getD t
  | .chr c => [c]

/-- The line after substitution of every piece. -/
def substs (ms : List macro_t) : List Seg → List Char
  | [] => []
  | s :: ss => subst_seg ms s ++ substs ms ss

/-- The end of an iteration of `do_macro_loop` that closed a token, in the
default grammar: the bytes up to the next start of a name are copied and the
loop goes on there, if the line has not ended. -/
def resume (ctl : Char) (ms : List macro_t) (fuel : Nat) (r op : List Char) (sub : Nat) : Scan :=
  match r.dropWhile (not_start false ctl) with
  | [] => .done (op ++ r.takeWhile (not_start false ctl)) sub
  | c :: ip1 =>
    do_macro_loop false ctl ms fuel (c :: ip1) ip1 (op ++ r.takeWhile (not_start false ctl)) sub

/-- The same end of an iteration in the restricted grammar: the bytes up to
the next control character are copied. -/
def resume_restricted (ctl : Char) (ms : List macro_t) (fuel : Nat) (r op : List Char)
    (sub : Nat) : Scan :=
  match r.dropWhile (not_start true ctl) with
  | [] => .done (op ++ r.takeWhile (not_start true ctl)) sub
  | c :: ip1 =>
    do_macro_loop true ctl ms fuel (c :: ip1) ip1 (op ++ r.takeWhile (not_start true ctl)) sub

/-- The number of tokens of a line that are substituted. -/
def hits (ms : List macro_t) : List Seg → Nat
  | [] => 0
  | .tok t :: ss => (if (lookup_value ms t).isSome then 1 else 0) + hits ms ss
  | .chr _ :: ss => hits ms ss

/-- What both grammars write for a use of the name `a` as a token: the text
`v` when `v` is given, the token as it stands when `v` is `none`. In the
default grammar the token is `a` between any other pieces of a line; in the
restricted grammar it is `CTLa` (before a byte that cannot continue a name)
or `CTL{a}`, `a` starting with a letter or digit, on a line with no other
control character. -/
def token_uses (ctl : Char) (ms : List macro_t) (a : List Char) (v : Option (List Char)) :
    Prop :=
  (∀ s1 s2 : List Seg, tokenized (s1 ++ Seg.tok a :: s2) = true →
    do_macro false ctl ms (texts s1 ++ a ++ texts s2) =
      some (substs ms s1 ++ v.getD a ++ substs ms s2)) ∧
  (∀ pre post : List Char, ctl ∉ pre → ctl ∉ post → isalnum (cur a) = true →
    a.all is_name_char = true → is_name_char (cur post) = false →
    do_macro true ctl ms (pre ++ ctl :: a ++ post) =
      some (pre ++ v.getD (ctl :: a) ++ post)) ∧
  (∀ pre post : List Char, ctl ∉ pre → ctl ∉ post → isalnum (cur a) = true →
    a.all is_name_char = true →
    do_macro true ctl ms (pre ++ ctl :: '{' :: a ++ '}' :: post) =
      some (pre ++ v.getD (ctl :: '{' :: a ++ ['}']) ++ post))

/-- The run of `pmcpp -r` on the lines of `stdin`: the restricted grammar. -/
def restricted_env (input : List (List Char)) : Env :=
  ⟨STYLE_C, '#', true, [], none, input, [], '/', [], fun _ => none⟩

/-- The run of `pmcpp -s` on the lines of `stdin`: the control character is
`%` and no position marker is written. -/
def shell_env (input : List (List Char)) : Env :=
  ⟨STYLE_SH, '%', false, [], none, input, [], '/', [], fun _ => none⟩

/-- The name of the file number `k` of a chain of includes. -/
def chain_name (k : Nat) : List Char := 'f' :: (Nat.repr k).toList

/-- A file system with a chain of `depth` files: the file number `k` holds
the line `#include "f<k+1>"` when `k < depth`, and the last one holds the
line `x`; nothing else opens. -/
def chain_fs (depth : Nat) (p : List Char) : Option (List (List Char)) :=
  ((List.range depth).find? (fun k => chain_name (k + 1) == p)).map (fun k =>
    if k + 1 < depth then ["#include \"".toList ++ chain_name (k + 2) ++ "\"\n".toList]
    else ["x\n".toList])

/-- The run of `pmcpp` with no option on a `stdin` that includes the first
file of a chain of `depth` files. -/
def chain_env (depth : Nat) : Env :=
  ⟨STYLE_C, '#', false, [], none, ["#include \"f1\"\n".toList], [], '/', [], chain_fs depth⟩

/-- The tests of lines 635-650 pass on an `include` line: the file name
opens with `"` or `<` and the scan stops on the matching `"` or `>`. -/
def include_wf (ibuf : List Char) : Bool :=
  let p := skip_blank (ibuf.drop "?include".length)
  (cur p == '"' && cur (scan_fname '"' p.tail) == '"') ||
    (cur p == '<' && cur (scan_fname '<' p.tail) == '>')

/-- The states of the loop of `main()` that a run can be in. -/
inductive Reach (e : Env) : State → Prop where
  | first (s : State) : start e = .ok s → Reach e s
  | next (s s1 : State) : Reach e s → step e s = .cont s1 → Reach e s1

/-- The line holds the byte `a` with the byte `b` right after it. -/
def has_pair (a b : Char) : List Char → Bool
  | c :: d :: cs => (c == a && d == b) || has_pair a b (d :: cs)
  | _ => false

/-- A piece of a line for the comment scan: bytes outside every comment, or
the bytes of one comment that lie on the line. A comment is `opened` when its
`/*` is on the line (it goes on from an earlier line otherwise) and `closed`
when its `*/` is on the line (it goes on to the next line otherwise). -/
inductive CPart where
  | text (t : List Char)
  | comment (opened : Bool) (body : List Char) (closed : Bool)
  deriving DecidableEq, Repr

/-- The bytes of a piece, the delimiters of a comment included. -/
def CPart.bytes : CPart → List Char
  | .text t => t
  | .comment o b c =>
    (if o then ['/', '*'] else []) ++ (b ++ (if c then ['*', '/'] else []))

/-- The piece after the scan: a space for every byte of a comment. -/
def CPart.blank : CPart → List Char
  | .text t => t
  | .comment o b c => List.replicate (CPart.bytes (.comment o b c)).length ' '

/-- The line a list of pieces spells. -/
def cbytes : List CPart → List Char
  | [] => []
  | p :: ps => p.bytes ++ cbytes ps

/-- The line with every comment blanked. -/
def cblank : List CPart → List Char
  | [] => []
  | p :: ps => p.blank ++ cblank ps

/-- The pieces split a line into its comments and the text outside them,
`inside` telling whether the line starts inside a comment. Text holds no
`/*` and runs up to the next comment or the end of the line; a comment is
opened on the line exactly when the line is outside a comment there, its body
runs up to the first `*/` (the body of an opened comment starts after the two
bytes `/*`, so `/*/` closes nothing), and only the last piece can be a comment
that is not closed. -/
def comment_parts : Bool → List CPart → Bool
  | _, [] => true
  | inside, .text t :: ps =>
    !inside && !has_pair '/' '*' t &&
      (match ps with
       | .text _ :: _ => false
       | _ => true) && comment_parts false ps
  | inside, .comment o b c :: ps =>
    (o == !inside) && !has_pair '*' '/' b && (c || ps.isEmpty) && comment_parts false ps

/-- The flag after the line: 0 when the line ends outside a comment, the
number `lineno` of the line when it ends in a comment opened on it, and the
flag `incomment` it was read with when it lies in a comment from end to end. -/
def flag_after (lineno : Nat) : Nat → List CPart → Nat
  | incomment, [] => incomment
  | incomment, .text _ :: ps => flag_after lineno incomment ps
  | incomment, .comment o _ c :: ps =>
    flag_after lineno (if c then 0 else if o then lineno else incomment) ps

/-- The line ends inside a comment. -/
def ends_inside : Bool → List CPart → Bool
  | inside, [] => inside
  | inside, .text _ :: ps => ends_inside inside ps
  | _, .comment _ _ c :: ps => ends_inside (!c) ps

/-- The passes through the loop of `main()` that are left before the end of
the top level file is seen, when every line is read and no file is opened:
one for each line of the current file and of the files below it, and one for
each return to a file below. -/
def pending (s : State) : Nat :=
  s.currfile.fin.length + (s.below.map (fun f => f.fin.length + 1)).sum

/-- The name `main()` gives to its input: the file argument, or `<stdin>`. -/
def input_name (e : Env) : List Char :=
  match e.input with
  | none => "<stdin>".toList
  | some name => name

/-- The lines of the input of `main()`: those of the file argument when it
opens, those of `stdin` when there is no file argument. -/
def input_lines (e : Env) : Option (List (List Char)) :=
  match e.input with
  | none => some e.stdin
  | some name => e.openfile name

/-- A line that `main()` writes as it stands when it reads it outside a
comment and outside a block: it ends in a newline with no white space before
it, holds no `/*`, does not start with the control character, and uses no
macro. In the default grammar no active name of the table `ms` occurs in it;
in the restricted grammar the table is empty or the line holds no control
character. -/
def clean_line (e : Env) (ms : List macro_t) (l : List Char) : Bool :=
  l.getLast? == some '\n' &&
  (match l.dropLast.getLast? with
   | some c => !isspace c
   | none => true) &&
  !has_pair '/' '*' l &&
  cur l != e.ctl &&
  (if e.restricted then ms.isEmpty || !l.contains e.ctl
   else ms.all (fun m => m.len == 0 || !decide (m.name <:+: l)))

/-- The paths an `include` of the file name `p` tries, in order: the name as
written; the name under the directory of the file argument, tried only when
there is a file argument; the name under `pmns` in the directory
`PCP_VAR_DIR`. -/
def candidates (e : Env) (p : List Char) : List (List Char) :=
  [p] ++ (if e.input.isSome then [e.dir ++ [e.sep] ++ p] else []) ++
    [e.var_dir ++ [e.sep] ++ "pmns".toList ++ [e.sep] ++ p]

/-- The first of these paths that opens, with the lines of the file. -/
def first_open (e : Env) (p : List Char) : Option (List Char × List (List Char)) :=
  (candidates e p).findSome? (fun q => (e.openfile q).map (fun f => (q, f)))

/-- An `include` line: the control character, `include`, blanks `b`, the file
name `p` between `"` and `"` or between `<` and `>`, and the newline. -/
def include_line (c0 : Char) (b : List Char) (angle : Bool) (p : List Char) : List Char :=
  c0 :: ("include".toList ++ b ++
    [if angle then '<' else '"'] ++ p ++ [if angle then '>' else '"'] ++ ['\n'])

/-- A host where the file argument is `dir/top` and one path opens: `x`
under `pmns` in the directory `/var/lib/pcp`, a file of one line. -/
def var_dir_env : Env :=
  ⟨STYLE_C, '#', false, [], some "dir/top".toList, [], "dir".toList, '/',
    "/var/lib/pcp".toList,
    fun q => if q == "/var/lib/pcp/pmns/x".toList then some ["one\n".toList] else none⟩

/-- A run on a `stdin` that includes, on its line 2, the file `x` of one
line; `style` and `ctl` are as the option `-s` leaves them when `shell` is
true. -/
def include_env (shell : Bool) : Env :=
  ⟨if shell then STYLE_SH else STYLE_C, if shell then '%' else '#', false, [], none,
    ["a\n".toList, (if shell then '%' else '#') :: "include <x>\n".toList, "b\n".toList],
    [], '/', [], fun q => if q == "x".toList then some ["one\n".toList] else none⟩

/-- What a pass through the loop of `main()` is, by the line it reads: the
end of the top level file, the end of an included file, a line that is blank
after the comment scan with a comment open, an `include` line, a line for
`directive()`, a line inside a false block, and a line that arrives at the
label `process`. -/
inductive Pass where
  | eof
  | pop
  | blanked
  | incl
  | control
  | suppressed
  | content
  deriving DecidableEq, Repr

/-- The kind of the pass from the state `s`. A control line arrives at
`process` in the restricted grammar when `directive()` knows no keyword on
it. -/
def pass_kind (e : Env) (s : State) : Pass :=
  match s.currfile.fin with
  | [] => if s.below.isEmpty then .eof else .pop
  | line :: _ =>
    let r := strip_comments (s.currfile.lineno + 1) s.incomment line
    let ibuf := trim_line r.2
    if r.1 != 0 && cur ibuf == '\n' then .blanked
    else if cur ibuf == e.ctl then
      if strncmp_eq (ibuf.drop 1) "include".toList "include".length then .incl
      else if e.restricted && (keyword ibuf).isNone then .content
      else .control
    else if s.skip_if_false != 0 then .suppressed
    else .content

/-- The number of passes of a run that arrive at `process` and go on. -/
def content_passes (e : Env) : Nat → State → Nat
  | 0, _ => 0
  | fuel + 1, s =>
    match step e s with
    | .cont s1 => (if pass_kind e s = .content then 1 else 0) + content_passes e fuel s1
    | .halt _ => 0

/-- What a run has written when it ends. -/
def Outcome.written : Outcome → List (List Char)
  | .exit0 out => out
  | .fatal _ out => out
  | .overrun out => out
  | .nofuel => []

/-- Lines 508-543 for the options `-r` and `-s`: `-r` sets `restrict`, and
`-s` sets `style` to `STYLE_SH` and `ctl` to `%`; the other fields are what
the rest of the command line and the host give. -/
def option_env (r s : Bool) (defines : List (List Char)) (input : Option (List Char))
    (stdin : List (List Char)) (dir : List Char) (sep : Char) (var_dir : List Char)
    (openfile : List Char → Option (List (List Char))) : Env :=
  ⟨if s then STYLE_SH else STYLE_C, if s then '%' else '#', r, defines, input, stdin, dir, sep,
    var_dir, openfile⟩

/-- The words a control line can start with after the control character. -/
def keywords : List (List Char) :=
  ["include".toList, "define".toList, "undef".toList, "ifdef".toList, "ifndef".toList,
    "endif".toList, "else".toList]

/-- The text `z` begins with one of the keywords. -/
def begins_with_keyword (z : List Char) : Bool := keywords.any (fun k => k.isPrefixOf z)

/-- The longest name `[A-Za-z_][A-Za-z0-9_]*` the text starts with, empty
when the text starts with no letter or underscore. -/
def name_run : List Char → List Char
  | [] => []
  | c :: cs => if is_start c then c :: cs.takeWhile is_name_char else []

/-- The keywords of the directives that carry a name. -/
def name_keywords : List (List Char) :=
  ["define".toList, "undef".toList, "ifdef".toList, "ifndef".toList]

/-- A run on a `stdin` of the two lines `#include <x>` and `b`, where the
file `x` holds the lines `body`. -/
def nested_env (body : List (List Char)) : Env :=
  ⟨STYLE_C, '#', false, [], none, ["#include <x>\n".toList, "b\n".toList], [], '/', [],
    fun q => if q == "x".toList then some body else none⟩

/-- The six keywords of `directive()`, each with its opcode. -/
def keyword_ops : List (List Char × Nat) :=
  [("define".toList, OP_DEFINE), ("undef".toList, OP_UNDEF), ("ifdef".toList, OP_IFDEF),
    ("ifndef".toList, OP_IFNDEF), ("endif".toList, OP_ENDIF), ("else".toList, OP_ELSE)]

/-- The name of an option argument `name` or `name=value`: the bytes before
the first `=`. -/
def arg_name (a : List Char) : List Char := a.takeWhile (fun c => c != '=')

/-- The value of an option argument: the bytes after the first `=`, `none`
when the argument has no `=`. -/
def arg_value (a : List Char) : Option (List Char) :=
  match a.dropWhile (fun c => c != '=') with
  | [] => none
  | _ :: v => some v

/-- The directive line `define name value` for the option argument `a`,
behind the byte `c0` and with its newline; the line `define name` when the
argument has no `=`. -/
def define_line (c0 : Char) (a : List Char) : List Char :=
  c0 :: ("define".toList ++ ([' '] ++ (arg_name a ++
    ((match arg_value a with
      | none => []
      | some v => ' ' :: v) ++ ['\n']))))

/-- A run with the options `-D` of `defines`, and `-s` when `shell` is true,
on the lines of `stdin`. -/
def defines_env (shell : Bool) (defines : List (List Char)) (input : List (List Char)) : Env :=
  option_env false shell defines none input [] '/' [] (fun _ => none)

/-- An entry as the invariant of the table wants it: its name is a name
`[A-Za-z_][A-Za-z0-9_]*` and its value holds no newline. -/
def entry_named (m : macro_t) : Bool := is_ident m.name && !m.value.contains '\n'

/-- Every entry of the table has such a name and such a value. -/
def entries_named (ms : List macro_t) : Bool := ms.all entry_named

/-- The text is one line: it ends in a newline and holds no other. -/
def one_line (l : List Char) : Bool := l.getLast? == some '\n' && !l.dropLast.contains '\n'

/-- No value of the table holds a newline. -/
def values_plain (ms : List macro_t) : Bool := ms.all (fun m => !m.value.contains '\n')

/-! ## Facts on bytes and lists -/

theorem is_start_name_char {c : Char} (h : is_start c = true) : is_name_char c = true := by
  unfold is_start at h
  unfold is_name_char isalnum
  cases ha : isalpha c <;> simp_all

theorem is_name_char_nul : is_name_char NUL = false := by decide

theorem cur_cons (c : Char) (cs : List Char) : cur (c :: cs) = c := rfl

theorem cur_nil : cur [] = NUL := rfl

theorem not_start_false_eq (ctl c : Char) : not_start false ctl c = !is_start c := by
  unfold not_start is_start
  cases isalpha c <;> cases hc : (c == '_') <;> simp [hc, bne]

theorem toNat_underscore : ('_' : Char).toNat = 95 := rfl

theorem isblank_isspace {c : Char} (h : isblank c = true) : isspace c = true := by
  simp only [isblank, Bool.or_eq_true, beq_iff_eq] at h
  rcases h with h | h <;> subst h <;> decide

theorem isspace_not_start {c : Char} (h : isspace c = true) : is_start c = false := by
  simp only [isspace, Bool.or_eq_true, beq_iff_eq, Bool.and_eq_true, decide_eq_true_eq] at h
  rcases h with h | h
  · subst h; decide
  · have hu : (c == '_') = false := by
      apply beq_eq_false_iff_ne.mpr
      intro hc
      subst hc
      simp [toNat_underscore] at h
    simp only [is_start, isalpha, isupper, islower, hu, Bool.or_false, Bool.or_eq_false_iff,
      Bool.and_eq_false_iff, decide_eq_false_iff_not]
    omega

theorem isblank_not_start {c : Char} (h : isblank c = true) : is_start c = false :=
  isspace_not_start (isblank_isspace h)

theorem isspace_nul : isspace NUL = false := by decide

theorem isblank_nul : isblank NUL = false := by decide

theorem is_start_nul : is_start NUL = false := by decide

theorem isspace_not_quote {c : Char} (h : isspace c = true) :
    (c == SQUOTE || c == '"') = false := by
  simp only [isspace, Bool.or_eq_true, beq_iff_eq, Bool.and_eq_true, decide_eq_true_eq] at h
  simp only [Bool.or_eq_false_iff]
  constructor <;> apply beq_eq_false_iff_ne.mpr <;> intro hc <;> subst hc <;> revert h <;> decide

/-! ## The scans of `directive()` -/

theorem skip_blank_suffix (ip : List Char) : skip_blank ip <:+ ip := by
  induction ip with
  | nil => exact List.suffix_refl _
  | cons c cs ih =>
    simp only [skip_blank]
    split
    · exact ih.trans (List.suffix_cons c cs)
    · exact List.suffix_refl _

theorem skip_blank_cur (ip : List Char) : isblank (cur (skip_blank ip)) = false := by
  induction ip with
  | nil => exact isblank_nul
  | cons c cs ih =>
    simp only [skip_blank]
    split
    · exact ih
    · rename_i h
      simpa [cur_cons] using h

theorem skip_blank_id {ip : List Char} (h : isblank (cur ip) = false) : skip_blank ip = ip := by
  cases ip with
  | nil => rfl
  | cons c cs =>
    rw [cur_cons] at h
    simp [skip_blank, h]

theorem skip_blank_append (b r : List Char) (hb : b.all isblank = true)
    (hr : isblank (cur r) = false) : skip_blank (b ++ r) = r := by
  induction b with
  | nil => exact skip_blank_id hr
  | cons c cs ih =>
    simp only [List.all_cons, Bool.and_eq_true] at hb
    simp [skip_blank, hb.1, ih hb.2]

theorem scan_name_false_spec (ip : List Char) :
    ∃ pre, ip = pre ++ scan_name false ip ∧ pre.all is_name_char = true := by
  induction ip with
  | nil => exact ⟨[], rfl, rfl⟩
  | cons c cs ih =>
    obtain ⟨pre, h1, h2⟩ := ih
    simp only [scan_name]
    by_cases hb : isblank c = true
    · simp only [hb, if_true]
      exact ⟨[], rfl, rfl⟩
    · simp only [hb, Bool.false_eq_true, if_false]
      by_cases hs : (isalpha c || c == '_') = true
      · simp only [hs, if_true]
        refine ⟨c :: pre, by rw [List.cons_append, ← h1], ?_⟩
        simp [h2, is_start_name_char (c := c) hs]
      · simp only [hs, Bool.false_eq_true, if_false, Bool.not_false, Bool.true_and]
        by_cases hd : (isdigit c || c == '_') = true
        · simp only [hd, if_true]
          refine ⟨c :: pre, by rw [List.cons_append, ← h1], ?_⟩
          have : is_name_char c = true := by
            simp only [is_name_char, isalnum]
            simp only [Bool.or_eq_true] at hd ⊢
            rcases hd with hd | hd
            · exact Or.inl (Or.inr hd)
            · exact Or.inr hd
          simp [h2, this]
        · simp only [hd, Bool.false_eq_true, if_false]
          exact ⟨[], rfl, rfl⟩

theorem scan_name_true_spec (ip : List Char) :
    (∃ pre, ip = pre ++ scan_name true ip ∧ is_ident pre = true) ∨
    (scan_name true ip = ip ∧ is_start (cur ip) = false) := by
  cases ip with
  | nil => exact Or.inr ⟨rfl, is_start_nul⟩
  | cons c cs =>
    simp only [scan_name, cur_cons]
    by_cases hb : isblank c = true
    · simp only [hb, if_true]
      exact Or.inr ⟨trivial, isblank_not_start hb⟩
    · simp only [hb, Bool.false_eq_true, if_false]
      by_cases hs : (isalpha c || c == '_') = true
      · simp only [hs, if_true]
        obtain ⟨pre, h1, h2⟩ := scan_name_false_spec cs
        refine Or.inl ⟨c :: pre, by rw [List.cons_append, ← h1], ?_⟩
        simp only [is_ident, h2, Bool.and_true]
        exact hs
      · simp only [hs, Bool.false_eq_true, if_false, Bool.not_true, Bool.false_and]
        refine Or.inr ⟨trivial, ?_⟩
        simpa [is_start] using hs

theorem scan_name_ident (t r : List Char) (ht : is_ident t = true)
    (hr : isblank (cur r) = true ∨ is_name_char (cur r) = false) :
    scan_name true (t ++ r) = r := by
  have key : ∀ (u : List Char), u.all is_name_char = true → scan_name false (u ++ r) = r := by
    intro u
    induction u with
    | nil =>
      intro _
      cases r with
      | nil => rfl
      | cons d ds =>
        rw [cur_cons] at hr
        simp only [List.nil_append, scan_name]
        rcases hr with hr | hr
        · simp [hr]
        · have h1 : (isalpha d || d == '_') = false := by
            by_contra hh
            simp only [Bool.not_eq_false] at hh
            rw [is_start_name_char (c := d) hh] at hr
            exact absurd hr (by simp)
          have h2 : (isdigit d || d == '_') = false := by
            simp only [is_name_char, isalnum, Bool.or_eq_false_iff] at hr
            simp [hr.1.2, hr.2]
          simp [h1, h2]
    | cons c cs ih =>
      intro hu
      simp only [List.all_cons, Bool.and_eq_true] at hu
      have hnb : isblank c = false := by
        by_contra hh
        simp only [Bool.not_eq_false] at hh
        have := isblank_not_start hh
        have h3 := hu.1
        simp only [is_name_char, isalnum, Bool.or_eq_true] at h3
        simp only [isblank, Bool.or_eq_true, beq_iff_eq] at hh
        rcases hh with hh | hh <;> subst hh <;> revert h3 <;> decide
      simp only [List.cons_append, scan_name, hnb, Bool.false_eq_true, if_false,
        Bool.not_false, Bool.true_and]
      by_cases hs : (isalpha c || c == '_') = true
      · simp [hs, ih hu.2]
      · have hd : (isdigit c || c == '_') = true := by
          have h3 := hu.1
          simp only [is_name_char, isalnum, Bool.or_eq_true] at h3 hs ⊢
          rcases h3 with (h3 | h3) | h3
          · exact absurd (Or.inl h3) hs
          · exact Or.inl h3
          · exact Or.inr h3
        simp [hs, hd, ih hu.2]
  cases t with
  | nil => simp [is_ident] at ht
  | cons c cs =>
    simp only [is_ident, Bool.and_eq_true] at ht
    have hnb : isblank c = false := by
      by_contra hh
      simp only [Bool.not_eq_false] at hh
      rw [isblank_not_start hh] at ht
      exact absurd ht.1 (by simp)
    have hs : (isalpha c || c == '_') = true := ht.1
    simp only [List.cons_append, scan_name, hnb, Bool.false_eq_true, if_false, hs, if_true]
    exact key cs ht.2

/-! ## The parse of `directive()` -/

theorem keyword_spec {ibuf ip : List Char} {op : Nat} (h : keyword ibuf = some (op, ip)) :
    (op = OP_DEFINE ∨ op = OP_UNDEF ∨ op = OP_IFDEF ∨ op = OP_IFNDEF ∨ op = OP_ELSE ∨
      op = OP_ENDIF) ∧ ip <:+ ibuf := by
  unfold keyword at h
  repeat' split at h
  all_goals first
    | (simp only [Option.some.injEq, Prod.mk.injEq] at h
       obtain ⟨h1, h2⟩ := h
       subst h1 h2
       exact ⟨by simp, List.drop_suffix _ _⟩)
    | exact absurd h (by simp)

theorem check_trailing_ok {ip : List Char} {p0 p : Parsed}
    (h : (check_trailing ip p0).map some = .ok (some p)) : p = p0 := by
  unfold check_trailing at h
  simp only at h
  split at h
  · simp [Except.map] at h
  · simp only [Except.map, Except.ok.injEq, Option.some.injEq] at h
    exact h.symm

theorem parse_name_ok {ip name ip1 : List Char} {n : Nat}
    (h : parse_name ip = .ok (name, n, ip1)) :
    name = ip ∧ isspace (cur ip1) = true ∧
      ((∃ pre, ip = pre ++ ip1 ∧ n = pre.length ∧ is_ident pre = true) ∨
       (ip1 = ip ∧ n = 0 ∧ cur ip ≠ '\n')) := by
  unfold parse_name at h
  split at h
  · exact absurd h (by simp)
  · rename_i h0
    simp only at h
    split at h
    · exact absurd h (by simp)
    · rename_i hsp
      simp only [Except.ok.injEq, Prod.mk.injEq] at h
      obtain ⟨h1, h2, h3⟩ := h
      simp only [Bool.not_eq_true, Bool.not_eq_false', Bool.not_eq_true'] at hsp
      rw [h3] at hsp h2
      refine ⟨h1.symm, by simpa using hsp, ?_⟩
      rcases scan_name_true_spec ip with ⟨pre, hp1, hp2⟩ | ⟨hq1, _⟩
      · rw [h3] at hp1
        refine Or.inl ⟨pre, hp1, ?_, hp2⟩
        have hl : ip.length = pre.length + ip1.length := by
          rw [hp1]
          simp
        omega
      · rw [h3] at hq1
        refine Or.inr ⟨hq1, ?_, ?_⟩
        · rw [← h2, hq1]; simp
        · intro hc
          simp [hc] at h0

theorem parse_value_ok {ip value ip1 : List Char} {n : Nat}
    (h : parse_value ip = .ok (value, n, ip1)) : value <:+ ip ∧ n ≤ value.length := by
  unfold parse_value at h
  by_cases h0 : (cur ip == '\n' || cur ip == NUL) = true
  · simp only [h0, if_true, Except.ok.injEq, Prod.mk.injEq] at h
    obtain ⟨h1, h2, _⟩ := h
    subst h1 h2
    exact ⟨List.nil_suffix, Nat.le_refl _⟩
  · simp only [h0, Bool.false_eq_true, if_false] at h
    by_cases hq : (cur (skip_blank ip) == SQUOTE || cur (skip_blank ip) == '"') = true
    · simp only [hq, if_true] at h
      split at h
      · exact absurd h (by simp)
      · simp only [Except.ok.injEq, Prod.mk.injEq] at h
        obtain ⟨h1, h2, _⟩ := h
        subst h1 h2
        exact ⟨(List.tail_suffix _).trans (skip_blank_suffix ip), Nat.sub_le _ _⟩
    · simp only [hq, Bool.false_eq_true, if_false] at h
      split at h
      · exact absurd h (by simp)
      · simp only [Except.ok.injEq, Prod.mk.injEq] at h
        obtain ⟨h1, h2, _⟩ := h
        subst h1 h2
        exact ⟨skip_blank_suffix ip, Nat.sub_le _ _⟩

/-- A name scan that stops at once on a byte of white space that is neither a
blank nor the newline: the rest of the parse reports trailing text. -/
theorem check_trailing_odd_space {ip : List Char} (p : Parsed)
    (hs : isspace (cur ip) = true) (hb : isblank (cur ip) = false) (hn : cur ip ≠ '\n') :
    check_trailing ip p = .error .TrailingText := by
  have hz : cur ip ≠ NUL := by
    intro hc
    rw [hc, isspace_nul] at hs
    exact absurd hs (by simp)
  simp [check_trailing, skip_blank_id hb, hn, hz]

theorem parse_value_odd_space {ip : List Char}
    (hs : isspace (cur ip) = true) (hb : isblank (cur ip) = false) (hn : cur ip ≠ '\n') :
    parse_value ip = .ok (ip, 0, ip) := by
  have hz : cur ip ≠ NUL := by
    intro hc
    rw [hc, isspace_nul] at hs
    exact absurd hs (by simp)
  have hq := isspace_not_quote hs
  have hsv : scan_value NUL ip = ip := by
    cases ip with
    | nil => rfl
    | cons c cs =>
      rw [cur_cons] at hs
      simp [scan_value, hs]
  simp [parse_value, skip_blank_id hb, hn, hz, hq, hsv]

/-- What a successful parse leaves: `else` and `endif` carry no name; the
other four carry a name `[A-Za-z_][A-Za-z0-9_]*` of `namelen` bytes at `name`,
and `name` and `value` point into the line. -/
theorem directive_parse_ok {ibuf : List Char} {p : Parsed}
    (h : directive_parse ibuf = .ok (some p)) :
    ((p.op = OP_ELSE ∨ p.op = OP_ENDIF) ∧ p.name = [] ∧ p.namelen = 0 ∧ p.value = [] ∧
        p.valuelen = 0) ∨
    ((p.op = OP_DEFINE ∨ p.op = OP_UNDEF ∨ p.op = OP_IFDEF ∨ p.op = OP_IFNDEF) ∧
      (∃ t r, p.name = t ++ r ∧ p.namelen = t.length ∧ is_ident t = true) ∧
      p.name <:+ ibuf ∧ p.value <:+ ibuf ∧ p.valuelen ≤ p.value.length) := by
  unfold directive_parse at h
  split at h
  · exact absurd h (by simp)
  · rename_i op ip hk
    obtain ⟨hop, hsuf⟩ := keyword_spec hk
    simp only at h
    split at h
    · rename_i hne
      have hop4 : op = OP_DEFINE ∨ op = OP_UNDEF ∨ op = OP_IFDEF ∨ op = OP_IFNDEF := by
        simp only [bne_iff_ne, ne_eq, Bool.and_eq_true, decide_eq_true_eq] at hne
        rcases hop with h1 | h1 | h1 | h1 | h1 | h1
        · exact Or.inl h1
        · exact Or.inr (Or.inl h1)
        · exact Or.inr (Or.inr (Or.inl h1))
        · exact Or.inr (Or.inr (Or.inr h1))
        · exact absurd h1 hne.2
        · exact absurd h1 hne.1
      split at h
      · exact absurd h (by simp)
      · rename_i name namelen ip1 hpn
        obtain ⟨hname, hsp, hcase⟩ := parse_name_ok hpn
        have hnsuf : name <:+ ibuf := by
          rw [hname]
          exact (skip_blank_suffix ip).trans hsuf
        rcases hcase with ⟨pre, hp1, hp2, hp3⟩ | ⟨hq1, hq2, hq3⟩
        · have hip1 : ip1 <:+ ibuf := by
            have : ip1 <:+ name := by
              rw [hname, hp1]
              exact List.suffix_append _ _
            exact this.trans hnsuf
          split at h
          · split at h
            · exact absurd h (by simp)
            · rename_i value valuelen ip2 hpv
              have := check_trailing_ok h
              subst this
              obtain ⟨hv1, hv2⟩ := parse_value_ok hpv
              exact Or.inr ⟨hop4, ⟨pre, ip1, by rw [← hp1, hname], hp2, hp3⟩, hnsuf,
                hv1.trans hip1, hv2⟩
          · have := check_trailing_ok h
            subst this
            exact Or.inr ⟨hop4, ⟨pre, ip1, by rw [← hp1, hname], hp2, hp3⟩, hnsuf,
              List.nil_suffix, Nat.le_refl _⟩
        · have hb : isblank (cur ip1) = false := by
            rw [hq1]; exact skip_blank_cur ip
          have hn : cur ip1 ≠ '\n' := by rw [hq1]; exact hq3
          split at h
          · rw [parse_value_odd_space hsp hb hn] at h
            simp only at h
            rw [check_trailing_odd_space _ hsp hb hn] at h
            exact absurd h (by simp [Except.map])
          · rw [check_trailing_odd_space _ hsp hb hn] at h
            exact absurd h (by simp [Except.map])
    · rename_i hne
      have := check_trailing_ok h
      subst this
      refine Or.inl ⟨?_, rfl, rfl, rfl, rfl⟩
      simp only [bne_iff_ne, ne_eq, Bool.and_eq_true, decide_eq_true_eq, not_and_or,
        not_not] at hne
      exact hne.symm

/-! ## The parse of a `define` line with a quoted value -/

theorem keyword_define (c0 : Char) (x : List Char) :
    keyword (c0 :: ("define".toList ++ x)) = some (OP_DEFINE, x) := by
  have h1 : "define".toList = ['d', 'e', 'f', 'i', 'n', 'e'] := rfl
  have h2 : "define".length = 6 := rfl
  have h3 : "?define".length = 7 := rfl
  simp [keyword, strncmp_eq, h1, h2, h3]

theorem isspace_not_name_char {c : Char} (h : isspace c = true) : is_name_char c = false := by
  have hs := isspace_not_start h
  simp only [is_start, Bool.or_eq_false_iff] at hs
  simp only [isspace, Bool.or_eq_true, beq_iff_eq, Bool.and_eq_true, decide_eq_true_eq] at h
  have hd : isdigit c = false := by
    rcases h with h | h
    · subst h; decide
    · simp only [isdigit, Bool.and_eq_false_iff, decide_eq_false_iff_not]
      omega
  simp [is_name_char, isalnum, hs.1, hs.2, hd]

theorem ident_cur {n : List Char} (hn : is_ident n = true) (r : List Char) :
    is_start (cur (n ++ r)) = true := by
  cases n with
  | nil => simp [is_ident] at hn
  | cons c cs =>
    simp only [is_ident, Bool.and_eq_true] at hn
    simpa [cur_cons] using hn.1

theorem parse_name_ident (n r : List Char) (hn : is_ident n = true)
    (hr : isspace (cur r) = true) :
    parse_name (n ++ r) = .ok (n ++ r, n.length, r) := by
  have hs := ident_cur hn r
  have h1 : (cur (n ++ r) == '\n' || cur (n ++ r) == NUL) = false := by
    simp only [Bool.or_eq_false_iff]
    constructor <;> apply beq_eq_false_iff_ne.mpr <;> intro hc <;> rw [hc] at hs <;>
      revert hs <;> decide
  have h2 : scan_name true (n ++ r) = r :=
    scan_name_ident n r hn (Or.inr (isspace_not_name_char hr))
  simp [parse_name, h1, h2, hr]

theorem scan_value_quoted (q : Char) (v t : List Char) (hq : q ≠ NUL) (hv : q ∉ v) :
    scan_value q (v ++ q :: t) = q :: t := by
  have hq1 : (q == NUL) = false := beq_eq_false_iff_ne.mpr hq
  induction v with
  | nil => simp [scan_value, hq1]
  | cons c cs ih =>
    simp only [List.mem_cons, not_or] at hv
    have hc : (c == q) = false := beq_eq_false_iff_ne.mpr (fun h => hv.1 h.symm)
    simp only [List.cons_append, scan_value, hq1, bne, hc, Bool.false_and, Bool.not_false,
      Bool.and_self, Bool.or_true, if_true]
    exact ih hv.2

theorem blank_head {b : List Char} (hb : b ≠ []) (hbb : b.all isblank = true) (r : List Char) :
    isblank (cur (b ++ r)) = true := by
  cases b with
  | nil => exact absurd rfl hb
  | cons c cs =>
    simp only [List.all_cons, Bool.and_eq_true] at hbb
    simpa [cur_cons] using hbb.1

theorem parse_value_quoted (q : Char) (b v t : List Char) (hb : b ≠ [])
    (hbb : b.all isblank = true) (hq : q = SQUOTE ∨ q = '"') (hv : q ∉ v) :
    parse_value (b ++ q :: (v ++ q :: t)) = .ok (v ++ q :: t, v.length, t) := by
  have hq0 : q ≠ NUL := by
    rcases hq with h | h <;> subst h <;> decide
  have hqb : isblank q = false := by
    rcases hq with h | h <;> subst h <;> decide
  have hbl := blank_head hb hbb (q :: (v ++ q :: t))
  have h1 : (cur (b ++ q :: (v ++ q :: t)) == '\n' ||
      cur (b ++ q :: (v ++ q :: t)) == NUL) = false := by
    simp only [Bool.or_eq_false_iff]
    constructor <;> apply beq_eq_false_iff_ne.mpr <;> intro hc <;> rw [hc] at hbl <;>
      revert hbl <;> decide
  have h2 : skip_blank (b ++ q :: (v ++ q :: t)) = q :: (v ++ q :: t) :=
    skip_blank_append b _ hbb (by simpa [cur_cons] using hqb)
  have h3 : (q == SQUOTE || q == '"') = true := by
    rcases hq with h | h <;> subst h <;> decide
  have h4 := scan_value_quoted q v t hq0 hv
  have h5 : (q != NUL) = true := by simpa [bne_iff_ne] using hq0
  simp [parse_value, h1, h2, cur_cons, h3, h4, h5]

theorem check_trailing_newline (b : List Char) (hb : b.all isblank = true) (p : Parsed) :
    check_trailing (b ++ ['\n']) p = .ok p := by
  have h : skip_blank (b ++ ['\n']) = ['\n'] := skip_blank_append b _ hb (by decide)
  simp [check_trailing, h, cur_cons]

/-- The parse of `define`, a name, and a value between quotes. -/
theorem parse_define_quoted (c0 q : Char) (b0 n b1 v b2 : List Char)
    (hb0 : b0.all isblank = true) (hn : is_ident n = true) (hb1 : b1 ≠ [])
    (hbb1 : b1.all isblank = true) (hq : q = SQUOTE ∨ q = '"') (hv : q ∉ v)
    (hb2 : b2.all isblank = true) :
    directive_parse (c0 :: ("define".toList ++ (b0 ++ (n ++ (b1 ++ q :: (v ++ q ::
        (b2 ++ ['\n'])))))))
      = .ok (some ⟨OP_DEFINE, n ++ (b1 ++ q :: (v ++ q :: (b2 ++ ['\n']))), n.length,
          v ++ q :: (b2 ++ ['\n']), v.length⟩) := by
  have hnb : isblank (cur (n ++ (b1 ++ q :: (v ++ q :: (b2 ++ ['\n']))))) = false := by
    have := ident_cur hn (b1 ++ q :: (v ++ q :: (b2 ++ ['\n'])))
    by_contra hc
    simp only [Bool.not_eq_false] at hc
    rw [isblank_not_start hc] at this
    exact absurd this (by simp)
  have h1 := skip_blank_append b0 _ hb0 hnb
  have h2 := parse_name_ident n (b1 ++ q :: (v ++ q :: (b2 ++ ['\n']))) hn
    (isblank_isspace (blank_head hb1 hbb1 _))
  have h3 := parse_value_quoted q b1 v (b2 ++ ['\n']) hb1 hbb1 hq hv
  simp only [directive_parse, keyword_define, h1, h2, h3]
  simp [check_trailing_newline b2 hb2, Except.map]

/-! ## The lookup loops -/

theorem take_eq_self_of_length {l : List Char} {n : Nat} (h : l.length = n) :
    l.take n = l := by
  subst h
  exact List.take_length l

/-- The test of the loop of `do_macro()` on a well-formed entry. -/
theorem token_test_eq (m : macro_t) (hm : m.len = 0 ∨ m.len = m.name.length)
    (t r : List Char) (ht : t ≠ []) :
    (((t.length : Int) == (m.len : Int)) && strncmp_eq (t ++ r) m.name (t.length : Int).toNat)
      = active_named t m := by
  have hpos : 0 < t.length := List.length_pos.mpr ht
  simp only [strncmp_eq, Int.toNat_ofNat, List.take_left', active_named]
  by_cases hl : m.len = t.length
  · have hn : m.name.length = t.length := by omega
    have h0 : m.len ≠ 0 := by omega
    rw [take_eq_self_of_length hn]
    by_cases he : m.name = t
    · simp [hl, he, Nat.pos_iff_ne_zero.mp hpos]
    · have he2 : (t == m.name) = false := beq_eq_false_iff_ne.mpr (fun h => he h.symm)
      have he3 : (m.name == t) = false := beq_eq_false_iff_ne.mpr he
      simp [hl, he2, he3]
  · have hl2 : ¬ ((t.length : Int) = (m.len : Int)) := by omega
    have he : ¬ (m.len ≠ 0 ∧ m.name = t) := by
      rintro ⟨h0, h1⟩
      subst h1
      omega
    have he3 : (m.len != 0 && m.name == t) = false := by
      simpa [bne_iff_ne] using he
    simp [hl2, he3]

theorem wf_table_cons {m : macro_t} {ms : List macro_t} (h : wf_table (m :: ms) = true) :
    (m.len = 0 ∨ m.len = m.name.length) ∧ wf_table ms = true := by
  simp [wf_table] at h ⊢
  exact h

theorem find_token_eq (ms : List macro_t) (hwf : wf_table ms = true) (t r : List Char)
    (ht : t ≠ []) :
    find_token (t ++ r) (t.length : Int) ms = ms.find? (active_named t) := by
  induction ms with
  | nil => rfl
  | cons m ms ih =>
    obtain ⟨hm, hms⟩ := wf_table_cons hwf
    simp only [find_token, List.find?, token_test_eq m hm t r ht, ih hms]
    cases active_named t m <;> rfl

/-- The test of the loop of `directive()` on a well-formed entry. -/
theorem name_test_eq (m : macro_t) (hm : m.len = 0 ∨ m.len = m.name.length)
    (t r : List Char) (ht : t ≠ []) :
    (m.len != t.length || !strncmp_eq (t ++ r) m.name m.len) = !active_named t m := by
  have hpos : 0 < t.length := List.length_pos.mpr ht
  simp only [strncmp_eq, active_named]
  by_cases hl : m.len = t.length
  · have hn : m.name.length = t.length := by omega
    have h0 : m.len ≠ 0 := by omega
    rw [hl, List.take_left' rfl, take_eq_self_of_length hn]
    by_cases he : m.name = t
    · simp [he, Nat.pos_iff_ne_zero.mp hpos]
    · have he2 : (t == m.name) = false := beq_eq_false_iff_ne.mpr (fun h => he h.symm)
      have he3 : (m.name == t) = false := beq_eq_false_iff_ne.mpr he
      simp [he2, he3]
  · have he : ¬ (m.len ≠ 0 ∧ m.name = t) := by
      rintro ⟨h0, h1⟩
      subst h1
      omega
    have he3 : (m.len != 0 && m.name == t) = false := by
      simpa [bne_iff_ne] using he
    have hl3 : (m.len != t.length) = true := by simpa [bne_iff_ne] using hl
    simp [hl3, he3]

theorem find_name_eq (ms : List macro_t) (hwf : wf_table ms = true) (t r : List Char)
    (ht : t ≠ []) :
    find_name (t ++ r) t.length ms = ms.findIdx? (active_named t) := by
  induction ms with
  | nil => rfl
  | cons m ms ih =>
    obtain ⟨hm, hms⟩ := wf_table_cons hwf
    simp only [find_name, name_test_eq m hm t r ht, ih hms, List.findIdx?_cons,
      List.findIdx?_succ, Nat.zero_add]
    cases active_named t m <;> simp

theorem findIdx_isSome_defined (ms : List macro_t) (t : List Char) :
    (ms.findIdx? (active_named t)).isSome = defined ms t := by
  induction ms with
  | nil => rfl
  | cons m ms ih =>
    simp only [List.findIdx?_cons, List.findIdx?_succ, defined, List.any_cons, Nat.zero_add]
    cases h : active_named t m
    · simpa [defined] using ih
    · simp

theorem findIdx_none_of_undefined {ms : List macro_t} {t : List Char}
    (h : defined ms t = false) : ms.findIdx? (active_named t) = none := by
  have := findIdx_isSome_defined ms t
  rw [h] at this
  cases hf : ms.findIdx? (active_named t) with
  | none => rfl
  | some i => rw [hf] at this; simp at this

theorem clear_len_findIdx (ms : List macro_t) (t : List Char) :
    (match ms.findIdx? (active_named t) with
      | some i => clear_len i ms
      | none => ms) = undef_first t ms := by
  induction ms with
  | nil => rfl
  | cons m ms ih =>
    simp only [List.findIdx?_cons, List.findIdx?_succ, Nat.zero_add, undef_first]
    cases h : active_named t m
    · simp only [Bool.false_eq_true, if_false]
      cases hf : ms.findIdx? (active_named t) with
      | none =>
        rw [hf] at ih
        simp [← ih]
      | some i =>
        rw [hf] at ih
        simp [clear_len, ← ih]
    · simp [clear_len]

/-! ## The actions of `directive()` -/

theorem parses_as_spec {ibuf : List Char} {op : Nat} {n v : List Char}
    (h : parses_as ibuf op n v = true) :
    ∃ p, directive_parse ibuf = .ok (some p) ∧ p.op = op ∧ p.name.take p.namelen = n ∧
      p.value.take p.valuelen = v := by
  unfold parses_as at h
  split at h
  · rename_i p hp
    simp only [Bool.and_eq_true, beq_iff_eq] at h
    exact ⟨p, hp, h.1.1, h.1.2, h.2⟩
  · exact absurd h (by simp)

theorem take_infix_of_suffix {a l : List Char} (h : a <:+ l) (n : Nat) : a.take n <:+: l :=
  ((List.take_prefix n a).isInfix).trans h.isInfix

/-- The name of a well-formed `define`, `undef`, `ifdef` or `ifndef` line. -/
theorem parses_as_named {ibuf : List Char} {op : Nat} {n v : List Char}
    (h : parses_as ibuf op n v = true)
    (hop : op = OP_DEFINE ∨ op = OP_UNDEF ∨ op = OP_IFDEF ∨ op = OP_IFNDEF) :
    ∃ p r, directive_parse ibuf = .ok (some p) ∧ p.op = op ∧ p.name = n ++ r ∧
      p.namelen = n.length ∧ p.value.take p.valuelen = v ∧ is_ident n = true ∧ n ≠ [] ∧
      n <:+: ibuf ∧ v <:+: ibuf := by
  obtain ⟨p, hp, h1, h2, h3⟩ := parses_as_spec h
  rcases directive_parse_ok hp with ⟨hx, _⟩ | ⟨_, ⟨t, r, ht1, ht2, ht3⟩, hs1, hs2, _⟩
  · rw [h1] at hx
    rcases hop with hop | hop | hop | hop <;> rcases hx with hx | hx <;> rw [hop] at hx <;>
      exact absurd hx (by decide)
  · have htn : t = n := by
      rw [← h2, ht1, ht2, List.take_left' rfl]
    subst htn
    have hne : t ≠ [] := by
      intro hc
      subst hc
      simp [is_ident] at ht3
    refine ⟨p, r, hp, h1, ht1, ht2, h3, ht3, hne, ?_, ?_⟩
    · have := take_infix_of_suffix hs1 p.namelen
      rwa [h2] at this
    · have := take_infix_of_suffix hs2 p.valuelen
      rwa [h3] at this

theorem directive_of_parse {ibuf : List Char} {p : Parsed} (s : Tables) (lineno : Nat)
    (hp : directive_parse ibuf = .ok (some p)) :
    directive s lineno ibuf = directive_act s lineno p := by
  simp [directive, hp]

theorem act_define (s : Tables) (lineno : Nat) (p : Parsed) (hop : p.op = OP_DEFINE)
    (hif : s.in_if ≠ IF_FALSE) :
    directive_act s lineno p =
      match find_name p.name p.namelen s.macros with
      | some _ => .error .Redefinition
      | none => .ok (0, { s with macros := s.macros ++
          [⟨p.namelen, p.name.take p.namelen, p.value.take p.valuelen⟩] }) := by
  cases h : find_name p.name p.namelen s.macros <;> simp [directive_act, hop, hif, h]

theorem act_undef (s : Tables) (lineno : Nat) (p : Parsed) (hop : p.op = OP_UNDEF)
    (hif : s.in_if ≠ IF_FALSE) :
    directive_act s lineno p =
      .ok (0, { s with macros :=
        match find_name p.name p.namelen s.macros with
        | some i => clear_len i s.macros
        | none => s.macros }) := by
  cases h : find_name p.name p.namelen s.macros <;> simp [directive_act, hop, hif, h]

theorem act_ifdef (s : Tables) (lineno : Nat) (p : Parsed) (hop : p.op = OP_IFDEF)
    (hif : s.in_if = IF_NONE) :
    directive_act s lineno p =
      match find_name p.name p.namelen s.macros with
      | some _ => .ok (0, { s with in_if := IF_TRUE })
      | none => .ok (1, { s with in_if := IF_FALSE, if_lineno := lineno }) := by
  cases h : find_name p.name p.namelen s.macros <;> simp [directive_act, hop, hif, h]

theorem act_ifndef (s : Tables) (lineno : Nat) (p : Parsed) (hop : p.op = OP_IFNDEF)
    (hif : s.in_if = IF_NONE) :
    directive_act s lineno p =
      match find_name p.name p.namelen s.macros with
      | some _ => .ok (1, { s with in_if := IF_FALSE })
      | none => .ok (0, { s with in_if := IF_TRUE, if_lineno := lineno }) := by
  cases h : find_name p.name p.namelen s.macros <;> simp [directive_act, hop, hif, h]

/-! ## Invariants of the table -/

theorem wf_table_append {ms : List macro_t} {m : macro_t} (h : wf_table ms = true)
    (hm : m.len = 0 ∨ m.len = m.name.length) : wf_table (ms ++ [m]) = true := by
  simp only [wf_table, List.all_append, List.all_cons, List.all_nil, Bool.and_true,
    Bool.and_eq_true, Bool.or_eq_true, beq_iff_eq]
  exact ⟨h, hm⟩

theorem wf_table_undef_first (t : List Char) (ms : List macro_t) (h : wf_table ms = true) :
    wf_table (undef_first t ms) = true := by
  induction ms with
  | nil => rfl
  | cons m ms ih =>
    obtain ⟨hm, hms⟩ := wf_table_cons h
    simp only [undef_first]
    split
    · simp only [wf_table, List.all_cons, Bool.and_eq_true, Bool.or_eq_true, beq_iff_eq]
      exact ⟨Or.inl trivial, hms⟩
    · simp only [wf_table, List.all_cons, Bool.and_eq_true, Bool.or_eq_true, beq_iff_eq]
      exact ⟨hm, ih hms⟩

theorem undef_first_of_undefined (t : List Char) (ms : List macro_t)
    (h : defined ms t = false) : undef_first t ms = ms := by
  induction ms with
  | nil => rfl
  | cons m ms ih =>
    simp only [defined, List.any_cons, Bool.or_eq_false_iff] at h
    simp only [undef_first, h.1, Bool.false_eq_true, if_false]
    rw [ih (by simpa [defined] using h.2)]

theorem undefined_after_undef (t : List Char) (ms : List macro_t)
    (h : unique_active ms = true) : defined (undef_first t ms) t = false := by
  induction ms with
  | nil => rfl
  | cons m ms ih =>
    simp only [unique_active, Bool.and_eq_true, Bool.or_eq_true, beq_iff_eq,
      Bool.not_eq_true'] at h
    simp only [undef_first]
    cases ha : active_named t m
    · simp only [Bool.false_eq_true, if_false, defined, List.any_cons, ha, Bool.false_or]
      exact ih h.2
    · simp only [if_true, defined, List.any_cons]
      simp only [active_named, Bool.and_eq_true, bne_iff_ne, ne_eq, beq_iff_eq] at ha
      have hd : defined ms t = false := by
        rcases h.1 with h0 | h0
        · exact absurd h0 ha.1
        · rw [← ha.2]; exact h0
      simp only [defined] at hd
      simp [active_named, hd]

theorem lookup_none_of_undefined {ms : List macro_t} {t : List Char}
    (h : defined ms t = false) : lookup_value ms t = none := by
  simp only [defined, List.any_eq_false] at h
  simp only [lookup_value, Option.map_eq_none', List.find?_eq_none]
  exact h

theorem texts_append (a b : List Seg) : texts (a ++ b) = texts a ++ texts b := by
  induction a with
  | nil => rfl
  | cons x xs ih => simp [texts, ih]

theorem substs_append (ms : List macro_t) (a b : List Seg) :
    substs ms (a ++ b) = substs ms a ++ substs ms b := by
  induction a with
  | nil => rfl
  | cons x xs ih => simp [substs, ih]

/-! ## The scan of `do_macro()` in the default grammar -/

theorem tok_end_advance (tp ip : List Char) (hk : ip.length < tp.length)
    (hc : is_name_char (cur ip) = true) : tok_end false tp ip = (false, ip) := by
  have hk0 : (tp.length - ip.length == 0) = false := by
    simp; omega
  unfold is_name_char at hc
  simp only [tok_end, hk0]
  cases h1 : isalnum (cur ip) <;> cases h2 : (cur ip == '_') <;> simp_all

theorem tok_end_stop (tp ip : List Char) (hk : ip.length < tp.length)
    (hc : is_name_char (cur ip) = false) : tok_end false tp ip = (true, ip) := by
  have hk0 : (tp.length - ip.length == 0) = false := by
    simp; omega
  unfold is_name_char at hc
  simp only [tok_end, hk0]
  cases h1 : isalnum (cur ip) <;> cases h2 : (cur ip == '_') <;> simp_all

theorem expand_token_default (ms : List macro_t) (hwf : wf_table ms = true)
    (t r : List Char) (ht : t ≠ []) :
    expand_token false ms (t ++ r) t.length =
      ((lookup_value ms t).getD t, (lookup_value ms t).isSome) := by
  have hpos : 0 < t.length := List.length_pos.mpr ht
  have hpos2 : (t.length : Int) > 0 := by omega
  have h := find_token_eq ms hwf t r ht
  simp only [expand_token, Bool.false_eq_true, if_false]
  rw [if_pos hpos2, h]
  simp only [lookup_value, List.take_left']
  cases List.find? (active_named t) ms <;> simp

theorem loop_token (ctl : Char) (ms : List macro_t) (u : List Char) :
    ∀ (pre r op : List Char) (sub fuel : Nat), pre ≠ [] →
      (∀ c ∈ u, is_name_char c = true) → is_name_char (cur r) = false →
      u.length + 1 ≤ fuel →
      do_macro_loop false ctl ms fuel (pre ++ (u ++ r)) (u ++ r) op sub =
        resume ctl ms (fuel - (u.length + 1)) r
          (op ++ (expand_token false ms (pre ++ (u ++ r)) (pre.length + u.length)).1)
          (if (expand_token false ms (pre ++ (u ++ r)) (pre.length + u.length)).2
            then sub + 1 else sub) := by
  induction u with
  | nil =>
    intro pre r op sub fuel hpre _ hr hf
    obtain ⟨f, rfl⟩ : ∃ f, fuel = f + 1 := ⟨fuel - 1, by omega⟩
    have hlen : 0 < pre.length := List.length_pos.mpr hpre
    have hk : r.length < (pre ++ r).length := by simp; omega
    have hlen2 : (pre ++ r).length - r.length = pre.length := by simp
    simp only [List.nil_append, List.length_nil, Nat.add_zero, Nat.zero_add,
      Nat.add_sub_cancel, do_macro_loop, tok_end_stop _ _ hk hr, if_true, hlen2, resume,
      gt_iff_lt, hlen]
    cases hd : List.dropWhile (not_start false ctl) r <;> simp
  | cons c u ih =>
    intro pre r op sub fuel hpre hu hr hf
    obtain ⟨f, rfl⟩ : ∃ f, fuel = f + 1 := ⟨fuel - 1, by omega⟩
    have hk : (c :: (u ++ r)).length < (pre ++ c :: (u ++ r)).length := by
      have hlen : 0 < pre.length := List.length_pos.mpr hpre
      simp; omega
    have hc : is_name_char (cur (c :: (u ++ r))) = true := hu c (List.mem_cons_self c u)
    have h1 : do_macro_loop false ctl ms (f + 1) (pre ++ c :: (u ++ r)) (c :: (u ++ r)) op sub
        = do_macro_loop false ctl ms f (pre ++ c :: (u ++ r)) (u ++ r) op sub := by
      rw [do_macro_loop, tok_end_advance _ _ hk hc]
      simp
    have h2 : pre ++ c :: (u ++ r) = (pre ++ [c]) ++ (u ++ r) := by simp
    have h3 : f + 1 - ((c :: u).length + 1) = f - (u.length + 1) := by simp
    have h4 : pre.length + (c :: u).length = (pre ++ [c]).length + u.length := by
      simp; omega
    rw [List.cons_append, h1, h3, h4, h2]
    exact ih (pre ++ [c]) r op sub f (by simp)
      (fun d hd => hu d (List.mem_cons_of_mem c hd)) hr (by simp at hf; omega)

theorem resume_chr (ctl : Char) (ms : List macro_t) (fuel : Nat) (c : Char)
    (r op : List Char) (sub : Nat) (hc : is_start c = false) :
    resume ctl ms fuel (c :: r) op sub = resume ctl ms fuel r (op ++ [c]) sub := by
  have hp : not_start false ctl c = true := by rw [not_start_false_eq, hc]; rfl
  simp only [resume, List.dropWhile_cons, List.takeWhile_cons, hp, if_true,
    List.append_assoc, List.singleton_append]

theorem resume_tok (ctl : Char) (ms : List macro_t) (hwf : wf_table ms = true) (fuel : Nat)
    (t r op : List Char) (sub : Nat) (ht : is_ident t = true)
    (hr : is_name_char (cur r) = false) (hf : t.length ≤ fuel) :
    resume ctl ms fuel (t ++ r) op sub =
      resume ctl ms (fuel - t.length) r (op ++ (lookup_value ms t).getD t)
        (if (lookup_value ms t).isSome then sub + 1 else sub) := by
  cases t with
  | nil => simp [is_ident] at ht
  | cons c u =>
    simp only [is_ident, Bool.and_eq_true, List.all_eq_true] at ht
    have hp : not_start false ctl c = false := by rw [not_start_false_eq, ht.1]; rfl
    have h1 : resume ctl ms fuel (c :: u ++ r) op sub =
        do_macro_loop false ctl ms fuel ([c] ++ (u ++ r)) (u ++ r) op sub := by
      simp [resume, hp]
    have h2 := expand_token_default ms hwf (c :: u) r (by simp)
    have h3 : [c] ++ (u ++ r) = c :: u ++ r := by simp
    have h4 : [c].length + u.length = (c :: u).length := by simp; omega
    rw [h1, loop_token ctl ms u [c] r op sub fuel (by simp) ht.2 hr (by simpa using hf),
      h3, h4, h2]
    simp only [List.length_cons]

theorem resume_segs (ctl : Char) (ms : List macro_t) (hwf : wf_table ms = true)
    (segs : List Seg) :
    tokenized segs = true → ∀ (fuel : Nat) (op : List Char) (sub : Nat),
      (texts segs).length ≤ fuel →
      resume ctl ms fuel (texts segs) op sub = .done (op ++ substs ms segs) (sub + hits ms segs) := by
  induction segs with
  | nil =>
    intro _ fuel op sub _
    simp [resume, texts, substs, hits]
  | cons sg ss ih =>
    intro htk fuel op sub hf
    cases sg with
    | chr c =>
      simp only [tokenized, Bool.and_eq_true, Bool.not_eq_true'] at htk
      simp only [texts, Seg.text, List.singleton_append, List.length_cons] at hf ⊢
      rw [resume_chr ctl ms fuel c _ op sub htk.1, ih htk.2 fuel _ sub (by omega)]
      simp [substs, subst_seg, hits]
    | tok t =>
      simp only [tokenized, Bool.and_eq_true, Bool.not_eq_true'] at htk
      simp only [texts, Seg.text, List.length_append] at hf ⊢
      rw [resume_tok ctl ms hwf fuel t _ op sub htk.1.1 htk.1.2 (by omega),
        ih htk.2 _ _ _ (by omega)]
      cases hl : lookup_value ms t with
      | none => simp [substs, subst_seg, hits, hl]
      | some v => simp [substs, subst_seg, hits, hl]; omega

theorem substs_of_no_hit (ms : List macro_t) (segs : List Seg) (h : hits ms segs = 0) :
    substs ms segs = texts segs := by
  induction segs with
  | nil => rfl
  | cons sg ss ih =>
    cases sg with
    | chr c =>
      simp only [hits] at h
      simp [substs, subst_seg, texts, Seg.text, ih h]
    | tok t =>
      simp only [hits] at h
      cases hl : lookup_value ms t with
      | none =>
        simp [hl] at h
        simp [substs, subst_seg, texts, Seg.text, ih h, hl]
      | some v => simp [hl] at h

theorem do_macro_resume (ctl : Char) (ms : List macro_t) (line : List Char) :
    do_macro false ctl ms line =
      match resume ctl ms line.length line [] 0 with
      | .done tmp sub => if sub != 0 then some tmp else some line
      | .overrun => none
      | .nofuel => none := by
  unfold do_macro resume
  cases hd : List.dropWhile (not_start false ctl) line with
  | nil => simp
  | cons c ip1 =>
    have h0 : tok_end false (c :: ip1) (c :: ip1) = (false, c :: ip1) := by
      simp [tok_end]
    simp only [do_macro_loop, h0, List.nil_append]
    simp

/-- The default grammar on a line given by its pieces. -/
theorem do_macro_segs (ctl : Char) (ms : List macro_t) (hwf : wf_table ms = true)
    (segs : List Seg) (htk : tokenized segs = true) :
    do_macro false ctl ms (texts segs) = some (substs ms segs) := by
  rw [do_macro_resume, resume_segs ctl ms hwf segs htk _ [] 0 (Nat.le_refl _)]
  by_cases h : hits ms segs = 0
  · simp [h, substs_of_no_hit ms segs h]
  · simp [h]

theorem dropWhile_name_char_cur (l : List Char) :
    is_name_char (cur (l.dropWhile is_name_char)) = false := by
  induction l with
  | nil => exact is_name_char_nul
  | cons c cs ih =>
    by_cases hc : is_name_char c = true
    · simp [List.dropWhile_cons, hc, ih]
    · simp only [Bool.not_eq_true] at hc
      simp [List.dropWhile_cons, hc, cur_cons]

/-- Every line has a decomposition into tokens and other bytes. -/
theorem exists_tokenized : ∀ (n : Nat) (line : List Char), line.length ≤ n →
    ∃ segs, tokenized segs = true ∧ texts segs = line := by
  intro n
  induction n with
  | zero =>
    intro line h
    have : line = [] := List.length_eq_zero.mp (by omega)
    exact ⟨[], rfl, this.symm⟩
  | succ n ih =>
    intro line h
    cases line with
    | nil => exact ⟨[], rfl, rfl⟩
    | cons c cs =>
      by_cases hc : is_start c = true
      · have hlen : (cs.dropWhile is_name_char).length ≤ n := by
          have := (List.dropWhile_sublist is_name_char (l := cs)).length_le
          simp at h; omega
        obtain ⟨ss, hs1, hs2⟩ := ih _ hlen
        refine ⟨.tok (c :: cs.takeWhile is_name_char) :: ss, ?_, ?_⟩
        · simp only [tokenized, is_ident, hc, hs1, hs2, dropWhile_name_char_cur,
            Bool.and_true, Bool.true_and, Bool.not_false, List.all_eq_true]
          intro x hx
          exact List.mem_takeWhile_imp hx
        · simp [texts, Seg.text, hs2, List.takeWhile_append_dropWhile]
      · simp only [Bool.not_eq_true] at hc
        obtain ⟨ss, hs1, hs2⟩ := ih cs (by simp at h; omega)
        exact ⟨.chr c :: ss, by simp [tokenized, hc, hs1], by simp [texts, Seg.text, hs2]⟩

/-! ## `define`, `undef`, `ifdef` and `ifndef` on a well-formed line -/

theorem directive_define_free (s : Tables) (lineno : Nat) (ibuf n v : List Char)
    (hp : parses_as ibuf OP_DEFINE n v = true) (hif : s.in_if ≠ IF_FALSE)
    (hwf : wf_table s.macros = true) (hfree : defined s.macros n = false) :
    directive s lineno ibuf =
      .ok (0, { s with macros := s.macros ++ [⟨n.length, n, v⟩] }) := by
  obtain ⟨p, r, hp1, hop, hn1, hn2, hv, _, hne, _, _⟩ := parses_as_named hp (Or.inl rfl)
  rw [directive_of_parse s lineno hp1, act_define s lineno p hop hif, hn1, hn2,
    find_name_eq s.macros hwf n r hne, findIdx_none_of_undefined hfree, List.take_left' rfl,
    hv]

theorem directive_undef (s : Tables) (lineno : Nat) (ibuf n v : List Char)
    (hp : parses_as ibuf OP_UNDEF n v = true) (hif : s.in_if ≠ IF_FALSE)
    (hwf : wf_table s.macros = true) :
    directive s lineno ibuf = .ok (0, { s with macros := undef_first n s.macros }) := by
  obtain ⟨p, r, hp1, hop, hn1, hn2, _, _, hne, _, _⟩ :=
    parses_as_named hp (Or.inr (Or.inl rfl))
  rw [directive_of_parse s lineno hp1, act_undef s lineno p hop hif, hn1, hn2,
    find_name_eq s.macros hwf n r hne, clear_len_findIdx]

theorem directive_ifdef (s : Tables) (lineno : Nat) (ibuf n v : List Char)
    (hp : parses_as ibuf OP_IFDEF n v = true) (hif : s.in_if = IF_NONE)
    (hwf : wf_table s.macros = true) :
    directive s lineno ibuf =
      if defined s.macros n then .ok (0, { s with in_if := IF_TRUE })
      else .ok (1, { s with in_if := IF_FALSE, if_lineno := lineno }) := by
  obtain ⟨p, r, hp1, hop, hn1, hn2, _, _, hne, _, _⟩ :=
    parses_as_named hp (Or.inr (Or.inr (Or.inl rfl)))
  rw [directive_of_parse s lineno hp1, act_ifdef s lineno p hop hif, hn1, hn2,
    find_name_eq s.macros hwf n r hne, ← findIdx_isSome_defined]
  cases List.findIdx? (active_named n) s.macros <;> simp

theorem directive_ifndef (s : Tables) (lineno : Nat) (ibuf n v : List Char)
    (hp : parses_as ibuf OP_IFNDEF n v = true) (hif : s.in_if = IF_NONE)
    (hwf : wf_table s.macros = true) :
    directive s lineno ibuf =
      if defined s.macros n then .ok (1, { s with in_if := IF_FALSE })
      else .ok (0, { s with in_if := IF_TRUE, if_lineno := lineno }) := by
  obtain ⟨p, r, hp1, hop, hn1, hn2, _, _, hne, _, _⟩ :=
    parses_as_named hp (Or.inr (Or.inr (Or.inr rfl)))
  rw [directive_of_parse s lineno hp1, act_ifndef s lineno p hop hif, hn1, hn2,
    find_name_eq s.macros hwf n r hne, ← findIdx_isSome_defined]
  cases List.findIdx? (active_named n) s.macros <;> simp

theorem defined_append (ms : List macro_t) (m : macro_t) (t : List Char) :
    defined (ms ++ [m]) t = (defined ms t || active_named t m) := by
  simp [defined]

theorem undef_first_append_last (ms : List macro_t) (n v : List Char)
    (hfree : defined ms n = false) (hne : n ≠ []) :
    undef_first n (ms ++ [⟨n.length, n, v⟩]) = ms ++ [⟨0, n, v⟩] := by
  induction ms with
  | nil =>
    have : n.length ≠ 0 := fun h => hne (List.length_eq_zero.mp h)
    simp [undef_first, active_named, this]
  | cons m ms ih =>
    simp only [defined, List.any_cons, Bool.or_eq_false_iff] at hfree
    rw [List.cons_append, undef_first, hfree.1, ih (by simpa [defined] using hfree.2)]
    simp

theorem lookup_append_of_undefined (ms ms2 : List macro_t) (t : List Char)
    (h : defined ms t = false) : lookup_value (ms ++ ms2) t = lookup_value ms2 t := by
  simp only [defined, List.any_eq_false] at h
  have : ms.find? (active_named t) = none := by
    rw [List.find?_eq_none]
    exact h
  simp [lookup_value, List.find?_append, this]

/-! ## The table invariant is kept by `directive()` -/

theorem unique_active_append {ms : List macro_t} {m : macro_t}
    (h : unique_active ms = true) (hm : m.len = 0 ∨ defined ms m.name = false) :
    unique_active (ms ++ [m]) = true := by
  induction ms with
  | nil => simp [unique_active, defined]
  | cons e es ih =>
    simp only [unique_active, Bool.and_eq_true, Bool.or_eq_true, beq_iff_eq,
      Bool.not_eq_true'] at h
    have hm2 : m.len = 0 ∨ defined es m.name = false := by
      rcases hm with hm | hm
      · exact Or.inl hm
      · simp only [defined, List.any_cons, Bool.or_eq_false_iff] at hm
        exact Or.inr (by simpa [defined] using hm.2)
    show ((e.len == 0 || !defined (es ++ [m]) e.name) && unique_active (es ++ [m])) = true
    rw [ih h.2 hm2, Bool.and_true]
    by_cases he : e.len = 0
    · simp [he]
    · have h0 : defined es e.name = false := by
        rcases h.1 with h0 | h0
        · exact absurd h0 he
        · exact h0
      have h1 : active_named e.name m = false := by
        rcases hm with hm | hm
        · simp [active_named, hm]
        · simp only [defined, List.any_cons, Bool.or_eq_false_iff] at hm
          have h2 := hm.1
          simp only [active_named, Bool.and_eq_false_iff, bne_eq_false_iff_eq,
            beq_eq_false_iff_ne, ne_eq] at h2 ⊢
          rcases h2 with h2 | h2
          · exact absurd h2 he
          · exact Or.inr (fun hc => h2 hc.symm)
      simp [defined_append, h0, h1]

theorem defined_undef_first_false (t x : List Char) (ms : List macro_t)
    (h : defined ms x = false) : defined (undef_first t ms) x = false := by
  induction ms with
  | nil => rfl
  | cons e es ih =>
    simp only [defined, List.any_cons, Bool.or_eq_false_iff] at h
    have h2 : defined es x = false := by simpa [defined] using h.2
    simp only [undef_first]
    split
    · simp only [defined, List.any_cons, Bool.or_eq_false_iff]
      exact ⟨by simp [active_named], h.2⟩
    · simp only [defined, List.any_cons, Bool.or_eq_false_iff]
      exact ⟨h.1, by simpa [defined] using ih h2⟩

theorem unique_active_undef_first (t : List Char) (ms : List macro_t)
    (h : unique_active ms = true) : unique_active (undef_first t ms) = true := by
  induction ms with
  | nil => rfl
  | cons e es ih =>
    simp only [unique_active, Bool.and_eq_true, Bool.or_eq_true, beq_iff_eq,
      Bool.not_eq_true'] at h
    simp only [undef_first]
    split
    · simp [unique_active, h.2]
    · simp only [unique_active, Bool.and_eq_true, Bool.or_eq_true, beq_iff_eq,
        Bool.not_eq_true', ih h.2, and_true]
      rcases h.1 with h0 | h0
      · exact Or.inl h0
      · exact Or.inr (defined_undef_first_false t e.name es h0)

theorem directive_keeps_table_inv (s : Tables) (lineno : Nat) (ibuf : List Char) (r : Int)
    (s1 : Tables) (hwf : wf_table s.macros = true) (hu : unique_active s.macros = true)
    (h : directive s lineno ibuf = .ok (r, s1)) :
    wf_table s1.macros = true ∧ unique_active s1.macros = true := by
  unfold directive at h
  split at h
  · exact absurd h (by simp)
  · simp only [Except.ok.injEq, Prod.mk.injEq] at h
    rw [← h.2]
    exact ⟨hwf, hu⟩
  · rename_i p hp
    rcases directive_parse_ok hp with ⟨hop, hn1, hn2, hv1, hv2⟩ |
      ⟨hop, ⟨t, q, ht1, ht2, ht3⟩, _, _, _⟩
    · rcases hop with hop | hop
      · simp only [directive_act, hop, hn1, hn2, hv1, hv2] at h
        by_cases h0 : s.in_if = IF_NONE
        · simp [h0] at h
        · by_cases h1 : 1 - s.in_if = IF_FALSE
          · simp [h0, h1] at h
            rw [← h.2]
            exact ⟨hwf, hu⟩
          · cases hf : find_name [] 0 s.macros with
            | some i => simp [h0, h1, hf] at h
            | none =>
              simp [h0, h1, hf] at h
              rw [← h.2]
              exact ⟨wf_table_append hwf (Or.inl rfl), unique_active_append hu (Or.inl rfl)⟩
      · simp only [directive_act, hop] at h
        by_cases h0 : s.in_if = IF_NONE
        · simp [h0] at h
        · simp [h0] at h
          rw [← h.2]
          exact ⟨hwf, hu⟩
    · have hne : t ≠ [] := by
        intro hc
        subst hc
        simp [is_ident] at ht3
      have hfn := find_name_eq s.macros hwf t q hne
      rw [← ht1, ← ht2] at hfn
      rcases hop with hop | hop | hop | hop
      · by_cases h1 : s.in_if = IF_FALSE
        · simp [directive_act, hop, h1] at h
          rw [← h.2]
          exact ⟨hwf, hu⟩
        · rw [act_define s lineno p hop h1, hfn] at h
          cases hf : List.findIdx? (active_named t) s.macros with
          | some i => simp [hf] at h
          | none =>
            have hd : defined s.macros t = false := by
              have := findIdx_isSome_defined s.macros t
              rw [hf] at this
              simpa using this.symm
            simp only [hf, Except.ok.injEq, Prod.mk.injEq] at h
            rw [← h.2, ht1, ht2, List.take_left' rfl]
            exact ⟨wf_table_append hwf (Or.inr rfl), unique_active_append hu (Or.inr hd)⟩
      · by_cases h1 : s.in_if = IF_FALSE
        · simp [directive_act, hop, h1] at h
          rw [← h.2]
          exact ⟨hwf, hu⟩
        · rw [act_undef s lineno p hop h1, hfn, clear_len_findIdx] at h
          simp only [Except.ok.injEq, Prod.mk.injEq] at h
          rw [← h.2]
          exact ⟨wf_table_undef_first t _ hwf, unique_active_undef_first t _ hu⟩
      · by_cases h0 : s.in_if = IF_NONE
        · rw [act_ifdef s lineno p hop h0] at h
          cases hf : find_name p.name p.namelen s.macros <;> simp [hf] at h <;>
            rw [← h.2] <;> exact ⟨hwf, hu⟩
        · simp [directive_act, hop, h0] at h
      · by_cases h0 : s.in_if = IF_NONE
        · rw [act_ifndef s lineno p hop h0] at h
          cases hf : find_name p.name p.namelen s.macros <;> simp [hf] at h <;>
            rw [← h.2] <;> exact ⟨hwf, hu⟩
        · simp [directive_act, hop, h0] at h
/-- Every table `directive()` can produce is well formed and has no two
active entries with one name. -/
theorem reachable_table_inv {s : Tables} (h : Reachable s) :
    wf_table s.macros = true ∧ unique_active s.macros = true := by
  induction h with
  | init => exact ⟨rfl, rfl⟩
  | call s lineno ibuf r s1 _ hd ih =>
    exact directive_keeps_table_inv s lineno ibuf r s1 ih.1 ih.2 hd

/-! ## The scan of `do_macro()` in the restricted grammar -/

theorem tok_end_r_first (tp ip : List Char) (hk : tp.length - ip.length = 1)
    (hc : (cur ip == '{' || isalnum (cur ip)) = true) : tok_end true tp ip = (false, ip) := by
  simp [tok_end, hk, hc]

theorem tok_end_r_name (tp ip : List Char) (hk : 2 ≤ tp.length - ip.length)
    (h1 : cur (tp.drop 1) ≠ '{') (hc : is_name_char (cur ip) = true) :
    tok_end true tp ip = (false, ip) := by
  have hk0 : (tp.length - ip.length == 0) = false := by simp; omega
  have hk1 : (tp.length - ip.length == 1) = false := by simp; omega
  have hb : (cur (tp.drop 1) == '{') = false := beq_eq_false_iff_ne.mpr h1
  unfold is_name_char at hc
  simp only [tok_end, hk0, hk1, hb, bne]
  simp [hc]

theorem tok_end_r_name_stop (tp ip : List Char) (hk : 2 ≤ tp.length - ip.length)
    (h1 : cur (tp.drop 1) ≠ '{') (hc : is_name_char (cur ip) = false) :
    tok_end true tp ip = (true, ip) := by
  have hk0 : (tp.length - ip.length == 0) = false := by simp; omega
  have hk1 : (tp.length - ip.length == 1) = false := by simp; omega
  have hb : (cur (tp.drop 1) == '{') = false := beq_eq_false_iff_ne.mpr h1
  unfold is_name_char at hc
  simp only [tok_end, hk0, hk1, hb, bne]
  simp [hc]

theorem tok_end_r_brace_first (tp ip : List Char) (hk : tp.length - ip.length = 2)
    (h1 : cur (tp.drop 1) = '{') (hc : isalnum (cur ip) = true) :
    tok_end true tp ip = (false, ip) := by
  have hb : (cur (tp.drop 1) == '{') = true := beq_iff_eq.mpr h1
  simp only [tok_end, hk, hb, hc]
  rfl

theorem tok_end_r_brace_in (tp ip : List Char) (hk : 3 ≤ tp.length - ip.length)
    (h1 : cur (tp.drop 1) = '{') (hc : cur ip ≠ '}') :
    tok_end true tp ip = (false, ip) := by
  have hk0 : (tp.length - ip.length == 0) = false := by simp; omega
  have hk1 : (tp.length - ip.length == 1) = false := by simp; omega
  have hk2 : (tp.length - ip.length == 2) = false := by simp; omega
  have hb : (cur (tp.drop 1) == '{') = true := beq_iff_eq.mpr h1
  have hc2 : (cur ip == '}') = false := beq_eq_false_iff_ne.mpr hc
  simp only [tok_end, hk0, hk1, hk2, hb, hc2, bne, Bool.false_and, Bool.not_true,
    Bool.not_false, Bool.false_eq_true, if_false, if_true]

theorem tok_end_r_brace_close (tp ip : List Char) (hk : 3 ≤ tp.length - ip.length)
    (h1 : cur (tp.drop 1) = '{') (hc : cur ip = '}') :
    tok_end true tp ip = (true, ip.tail) := by
  have hk0 : (tp.length - ip.length == 0) = false := by simp; omega
  have hk1 : (tp.length - ip.length == 1) = false := by simp; omega
  have hk2 : (tp.length - ip.length == 2) = false := by simp; omega
  have hb : (cur (tp.drop 1) == '{') = true := beq_iff_eq.mpr h1
  have hc2 : (cur ip == '}') = true := beq_iff_eq.mpr hc
  simp only [tok_end, hk0, hk1, hk2, hb, hc2, bne, Bool.false_and, Bool.not_true,
    Bool.not_false, Bool.false_eq_true, if_false, if_true]

theorem takeWhile_stop (p : Char → Bool) (pre r : List Char) (x : Char)
    (hpre : ∀ c ∈ pre, p c = true) (hx : p x = false) :
    (pre ++ x :: r).takeWhile p = pre ∧ (pre ++ x :: r).dropWhile p = x :: r := by
  induction pre with
  | nil => simp [List.takeWhile_cons, List.dropWhile_cons, hx]
  | cons c cs ih =>
    have hc := hpre c (List.mem_cons_self c cs)
    have := ih (fun d hd => hpre d (List.mem_cons_of_mem c hd))
    simp [List.takeWhile_cons, List.dropWhile_cons, hc, this.1, this.2]

theorem takeWhile_whole (p : Char → Bool) (l : List Char) (h : ∀ c ∈ l, p c = true) :
    l.takeWhile p = l ∧ l.dropWhile p = [] := by
  induction l with
  | nil => exact ⟨rfl, rfl⟩
  | cons c cs ih =>
    have hc := h c (List.mem_cons_self c cs)
    have := ih (fun d hd => h d (List.mem_cons_of_mem c hd))
    simp [List.takeWhile_cons, List.dropWhile_cons, hc, this.1, this.2]

theorem not_start_restricted (ctl : Char) (l : List Char) (h : ctl ∉ l) :
    ∀ c ∈ l, not_start true ctl c = true := by
  intro c hc
  simp only [not_start, if_true, bne_iff_ne, ne_eq]
  intro he
  exact h (he ▸ hc)

theorem resume_restricted_plain (ctl : Char) (ms : List macro_t) (fuel : Nat)
    (r op : List Char) (sub : Nat) (h : ctl ∉ r) :
    resume_restricted ctl ms fuel r op sub = .done (op ++ r) sub := by
  have := takeWhile_whole (not_start true ctl) r (not_start_restricted ctl r h)
  simp [resume_restricted, this.1, this.2]

theorem loop_name_restricted (ctl : Char) (ms : List macro_t) (u : List Char) :
    ∀ (pre r op tp : List Char) (sub fuel : Nat), tp = pre ++ (u ++ r) → 2 ≤ pre.length →
      cur (tp.drop 1) ≠ '{' → (∀ c ∈ u, is_name_char c = true) →
      is_name_char (cur r) = false → u.length + 1 ≤ fuel →
      do_macro_loop true ctl ms fuel tp (u ++ r) op sub =
        resume_restricted ctl ms (fuel - (u.length + 1)) r
          (op ++ (expand_token true ms tp (pre.length + u.length)).1)
          (if (expand_token true ms tp (pre.length + u.length)).2 then sub + 1 else sub) := by
  induction u with
  | nil =>
    intro pre r op tp sub fuel htp hpre h1 _ hr hf
    obtain ⟨f, rfl⟩ : ∃ f, fuel = f + 1 := ⟨fuel - 1, by omega⟩
    have hlen2 : tp.length - r.length = pre.length := by rw [htp]; simp
    have hk : 2 ≤ tp.length - r.length := by omega
    have hpos : 0 < pre.length := by omega
    simp only [List.nil_append, List.length_nil, Nat.add_zero, Nat.zero_add,
      Nat.add_sub_cancel, do_macro_loop, tok_end_r_name_stop _ _ hk h1 hr, if_true, hlen2,
      resume_restricted, gt_iff_lt, hpos]
    cases hd : List.dropWhile (not_start true ctl) r <;> simp
  | cons c u ih =>
    intro pre r op tp sub fuel htp hpre h1 hu hr hf
    obtain ⟨f, rfl⟩ : ∃ f, fuel = f + 1 := ⟨fuel - 1, by omega⟩
    have hk : 2 ≤ tp.length - (c :: (u ++ r)).length := by
      rw [htp]; simp; omega
    have hc : is_name_char (cur (c :: (u ++ r))) = true := hu c (List.mem_cons_self c u)
    have h2 : do_macro_loop true ctl ms (f + 1) tp (c :: (u ++ r)) op sub
        = do_macro_loop true ctl ms f tp (u ++ r) op sub := by
      rw [do_macro_loop, tok_end_r_name _ _ hk h1 hc]
      simp
    have h3 : f + 1 - ((c :: u).length + 1) = f - (u.length + 1) := by simp
    have h4 : pre.length + (c :: u).length = (pre ++ [c]).length + u.length := by
      simp; omega
    rw [List.cons_append, h2, h3, h4]
    exact ih (pre ++ [c]) r op tp sub f (by rw [htp]; simp) (by simp; omega) h1
      (fun d hd => hu d (List.mem_cons_of_mem c hd)) hr (by simp at hf; omega)

theorem loop_brace_restricted (ctl : Char) (ms : List macro_t) (w : List Char) :
    ∀ (pre r op tp : List Char) (sub fuel : Nat), tp = pre ++ (w ++ '}' :: r) →
      3 ≤ pre.length → cur (tp.drop 1) = '{' → '}' ∉ w → w.length + 1 ≤ fuel →
      do_macro_loop true ctl ms fuel tp (w ++ '}' :: r) op sub =
        resume_restricted ctl ms (fuel - (w.length + 1)) r
          (op ++ (expand_token true ms tp (pre.length + w.length + 1)).1)
          (if (expand_token true ms tp (pre.length + w.length + 1)).2 then sub + 1 else sub) := by
  induction w with
  | nil =>
    intro pre r op tp sub fuel htp hpre h1 _ hf
    obtain ⟨f, rfl⟩ : ∃ f, fuel = f + 1 := ⟨fuel - 1, by omega⟩
    have hlen2 : tp.length - r.length = pre.length + 1 := by rw [htp]; simp; omega
    have hk : 3 ≤ tp.length - ('}' :: r).length := by rw [htp]; simp; omega
    have hpos : 0 < pre.length + 1 := by omega
    simp only [List.nil_append, List.length_nil, Nat.add_zero, Nat.zero_add,
      Nat.add_sub_cancel, do_macro_loop, tok_end_r_brace_close _ _ hk h1 (cur_cons _ _),
      List.tail_cons, if_true, hlen2, resume_restricted, gt_iff_lt, hpos]
    cases hd : List.dropWhile (not_start true ctl) r <;> simp
  | cons c w ih =>
    intro pre r op tp sub fuel htp hpre h1 hw hf
    obtain ⟨f, rfl⟩ : ∃ f, fuel = f + 1 := ⟨fuel - 1, by omega⟩
    simp only [List.mem_cons, not_or] at hw
    have hk : 3 ≤ tp.length - (c :: (w ++ '}' :: r)).length := by
      rw [htp]; simp; omega
    have hc : cur (c :: (w ++ '}' :: r)) ≠ '}' := by
      rw [cur_cons]; exact fun h => hw.1 h.symm
    have h2 : do_macro_loop true ctl ms (f + 1) tp (c :: (w ++ '}' :: r)) op sub
        = do_macro_loop true ctl ms f tp (w ++ '}' :: r) op sub := by
      rw [do_macro_loop, tok_end_r_brace_in _ _ hk h1 hc]
      simp
    have h3 : f + 1 - ((c :: w).length + 1) = f - (w.length + 1) := by simp
    have h4 : pre.length + (c :: w).length + 1 = (pre ++ [c]).length + w.length + 1 := by
      simp; omega
    rw [List.cons_append, h2, h3, h4]
    exact ih (pre ++ [c]) r op tp sub f (by rw [htp]; simp) (by simp; omega) h1 hw.2
      (by simp at hf; omega)

theorem expand_token_restricted_name (ms : List macro_t) (hwf : wf_table ms = true)
    (c0 : Char) (a r : List Char) (ha : a ≠ []) (h1 : cur a ≠ '{') :
    expand_token true ms (c0 :: (a ++ r)) (a.length + 1) =
      ((lookup_value ms a).getD (c0 :: a), (lookup_value ms a).isSome) := by
  have hpos : 0 < a.length := List.length_pos.mpr ha
  have hlt : ¬ (a.length + 1 < 2) := by omega
  have hcur : cur (a ++ r) = cur a := by
    cases a with
    | nil => exact absurd rfl ha
    | cons x xs => rfl
  have hne : ¬ cur (a ++ r) = '{' := by rw [hcur]; exact h1
  have hpos2 : (0 : Int) < (a.length : Int) := by omega
  have h := find_token_eq ms hwf a r ha
  have htake : List.take (a.length + 1) (c0 :: (a ++ r)) = c0 :: a := by
    simp [List.take_left' rfl]
  cases hf : List.find? (active_named a) ms <;>
    simp [expand_token, hlt, hne, hpos2, h, htake, lookup_value, hf]

theorem expand_token_restricted_brace (ms : List macro_t) (hwf : wf_table ms = true)
    (c0 : Char) (a r : List Char) (ha : a ≠ []) :
    expand_token true ms (c0 :: '{' :: (a ++ '}' :: r)) (a.length + 3) =
      ((lookup_value ms a).getD (c0 :: '{' :: (a ++ ['}'])), (lookup_value ms a).isSome) := by
  have hpos : 0 < a.length := List.length_pos.mpr ha
  have hlt : ¬ (a.length + 3 < 2) := by omega
  have hpos2 : (0 : Int) < (a.length : Int) := by omega
  have h := find_token_eq ms hwf a ('}' :: r) ha
  have htake : List.take (a.length + 1) (a ++ '}' :: r) = a ++ ['}'] := by
    have h1 : a ++ '}' :: r = (a ++ ['}']) ++ r := by simp
    rw [h1]
    exact List.take_left' (by simp)
  cases hf : List.find? (active_named a) ms <;>
    simp [expand_token, hlt, hpos2, h, htake, lookup_value, hf, cur_cons]

theorem isalnum_not_brace {c : Char} (h : isalnum c = true) : c ≠ '{' ∧ c ≠ '}' := by
  constructor <;> intro hc <;> subst hc <;> revert h <;> decide

theorem isalnum_nul : isalnum NUL = false := by decide

/-- The restricted grammar on a line with one token `CTLname`. -/
theorem do_macro_restricted_name (ctl : Char) (ms : List macro_t) (hwf : wf_table ms = true)
    (pre a post : List Char) (hpre : ctl ∉ pre) (hpost : ctl ∉ post)
    (ha1 : isalnum (cur a) = true) (ha2 : a.all is_name_char = true)
    (hp : is_name_char (cur post) = false) :
    do_macro true ctl ms (pre ++ ctl :: (a ++ post)) =
      some (pre ++ (lookup_value ms a).getD (ctl :: a) ++ post) := by
  cases a with
  | nil => rw [cur_nil, isalnum_nul] at ha1; exact absurd ha1 (by simp)
  | cons c1 u =>
    rw [cur_cons] at ha1
    simp only [List.all_cons, Bool.and_eq_true, List.all_eq_true] at ha2
    have hx : not_start true ctl ctl = false := by simp [not_start]
    have htw := takeWhile_stop (not_start true ctl) pre (c1 :: u ++ post) ctl
      (not_start_restricted ctl pre hpre) hx
    have hlen : (pre ++ ctl :: (c1 :: u ++ post)).length = pre.length + u.length + post.length + 2 := by
      simp; omega
    have h0 : tok_end true (ctl :: (c1 :: u ++ post)) (ctl :: (c1 :: u ++ post)) =
        (false, ctl :: (c1 :: u ++ post)) := by simp [tok_end]
    have h1 : tok_end true (ctl :: (c1 :: u ++ post)) (c1 :: u ++ post) =
        (false, c1 :: u ++ post) :=
      tok_end_r_first _ _ (by simp) (by simp [cur_cons, ha1])
    have hbr : cur (List.drop 1 (ctl :: (c1 :: u ++ post))) ≠ '{' := by
      simpa [cur_cons] using (isalnum_not_brace ha1).1
    have h2 := loop_name_restricted ctl ms u [ctl, c1] post pre (ctl :: (c1 :: u ++ post)) 0
      (pre.length + u.length + post.length + 1) (by simp) (by simp) hbr ha2.2 hp (by omega)
    have h3 := expand_token_restricted_name ms hwf ctl (c1 :: u) post (by simp)
      (by rw [cur_cons]; exact (isalnum_not_brace ha1).1)
    have h4 : [ctl, c1].length + u.length = (c1 :: u).length + 1 := by simp; omega
    rw [h4, h3, resume_restricted_plain ctl ms _ post _ _ hpost] at h2
    unfold do_macro
    simp only [htw.1, htw.2, hlen]
    rw [show pre.length + u.length + post.length + 2 + 1 =
      (pre.length + u.length + post.length + 1) + 1 + 1 from by omega]
    rw [do_macro_loop, h0]
    simp only [Bool.false_eq_true, if_false]
    rw [do_macro_loop, h1]
    simp only [Bool.false_eq_true, if_false, List.cons_append]
    simp only [List.cons_append] at h2
    rw [h2]
    cases hl : lookup_value ms (c1 :: u) <;> simp

/-- The restricted grammar on a line with one token `CTL{name}`. -/
theorem do_macro_restricted_brace (ctl : Char) (ms : List macro_t) (hwf : wf_table ms = true)
    (pre a post : List Char) (hpre : ctl ∉ pre) (hpost : ctl ∉ post)
    (ha1 : isalnum (cur a) = true) (ha2 : '}' ∉ a) :
    do_macro true ctl ms (pre ++ ctl :: '{' :: (a ++ '}' :: post)) =
      some (pre ++ (lookup_value ms a).getD (ctl :: '{' :: (a ++ ['}'])) ++ post) := by
  cases a with
  | nil => rw [cur_nil, isalnum_nul] at ha1; exact absurd ha1 (by simp)
  | cons c1 w =>
    rw [cur_cons] at ha1
    simp only [List.mem_cons, not_or] at ha2
    have hx : not_start true ctl ctl = false := by simp [not_start]
    have htw := takeWhile_stop (not_start true ctl) pre ('{' :: (c1 :: w ++ '}' :: post)) ctl
      (not_start_restricted ctl pre hpre) hx
    have hlen : (pre ++ ctl :: '{' :: (c1 :: w ++ '}' :: post)).length =
        pre.length + w.length + post.length + 4 := by
      simp; omega
    have h0 : tok_end true (ctl :: '{' :: (c1 :: w ++ '}' :: post))
        (ctl :: '{' :: (c1 :: w ++ '}' :: post)) =
        (false, ctl :: '{' :: (c1 :: w ++ '}' :: post)) := by simp [tok_end]
    have h1 : tok_end true (ctl :: '{' :: (c1 :: w ++ '}' :: post))
        ('{' :: (c1 :: w ++ '}' :: post)) = (false, '{' :: (c1 :: w ++ '}' :: post)) :=
      tok_end_r_first _ _ (by simp) (by simp [cur_cons])
    have hbr : cur (List.drop 1 (ctl :: '{' :: (c1 :: w ++ '}' :: post))) = '{' := rfl
    have h1b : tok_end true (ctl :: '{' :: (c1 :: w ++ '}' :: post))
        (c1 :: w ++ '}' :: post) = (false, c1 :: w ++ '}' :: post) :=
      tok_end_r_brace_first _ _ (by simp) hbr (by simpa [cur_cons] using ha1)
    have h2 := loop_brace_restricted ctl ms w [ctl, '{', c1] post pre
      (ctl :: '{' :: (c1 :: w ++ '}' :: post)) 0
      (pre.length + w.length + post.length + 2) (by simp) (by simp) hbr ha2.2 (by omega)
    have h3 := expand_token_restricted_brace ms hwf ctl (c1 :: w) post (by simp)
    have h4 : [ctl, '{', c1].length + w.length + 1 = (c1 :: w).length + 3 := by
      simp; omega
    rw [h4, h3, resume_restricted_plain ctl ms _ post _ _ hpost] at h2
    unfold do_macro
    simp only [htw.1, htw.2, hlen]
    rw [show pre.length + w.length + post.length + 4 + 1 =
      (pre.length + w.length + post.length + 2) + 1 + 1 + 1 from by omega]
    rw [do_macro_loop, h0]
    simp only [Bool.false_eq_true, if_false]
    rw [do_macro_loop, h1]
    simp only [Bool.false_eq_true, if_false]
    rw [do_macro_loop, h1b]
    simp only [Bool.false_eq_true, if_false, List.cons_append]
    simp only [List.cons_append] at h2
    rw [h2]
    cases hl : lookup_value ms (c1 :: w) <;> simp

theorem name_chars_no_brace {a : List Char} (h : a.all is_name_char = true) : '}' ∉ a := by
  intro hc
  have := List.all_eq_true.mp h _ hc
  revert this
  decide

/-- In both grammars a use of the name `a` is written as the lookup says. -/
theorem token_uses_lookup (ctl : Char) (ms : List macro_t) (hwf : wf_table ms = true)
    (a : List Char) : token_uses ctl ms a (lookup_value ms a) := by
  refine ⟨?_, ?_, ?_⟩
  · intro s1 s2 htk
    have h := do_macro_segs ctl ms hwf (s1 ++ Seg.tok a :: s2) htk
    rw [texts_append, substs_append] at h
    simpa [texts, substs, subst_seg, Seg.text] using h
  · intro pre post hpre hpost ha1 ha2 hp
    have h := do_macro_restricted_name ctl ms hwf pre a post hpre hpost ha1 ha2 hp
    simpa using h
  · intro pre post hpre hpost ha1 ha2
    have h := do_macro_restricted_brace ctl ms hwf pre a post hpre hpost ha1
      (name_chars_no_brace ha2)
    simpa using h

/-! ## The loop of `main()` -/

theorem run_add (e : Env) (fuel k : Nat) (s : State) (o : Outcome)
    (h : run e fuel s = o) (ho : o ≠ .nofuel) : run e (fuel + k) s = o := by
  induction fuel generalizing s with
  | zero => exact absurd h.symm ho
  | succ f ih =>
    rw [Nat.add_right_comm]
    simp only [run] at h ⊢
    cases hs : step e s with
    | cont s1 =>
      rw [hs] at h
      exact ih s1 h
    | halt o1 =>
      rw [hs] at h
      exact h

theorem main_fuel (e : Env) (fuel n : Nat) (o : Outcome) (h : main e n = o)
    (ho : o ≠ .nofuel) (hn : n ≤ fuel) : main e fuel = o := by
  unfold main at h ⊢
  cases hs : start e with
  | error err =>
    rw [hs] at h
    exact h
  | ok s =>
    rw [hs] at h
    simp only at h ⊢
    obtain ⟨k, rfl⟩ : ∃ k, fuel = n + k := ⟨fuel - n, by omega⟩
    exact run_add e n k s o h ho

/-! ## The claims -/

/-- C2. Substitution is not recursive: where the name `a` stands as a
token and `v` is the value of the first active entry named `a`, the result
carries `v` itself at that place, whatever `v` contains (the name of another
active macro included): what is written is never scanned again. This holds
in both grammars. With `A` defined as `B` and `B` as `x` the line `A` becomes
`B`. -/
theorem do_macro_not_recursive (ctl : Char) (ms : List macro_t) (hwf : wf_table ms = true)
    (a v : List Char) (hv : lookup_value ms a = some v) :
    token_uses ctl ms a (some v) := by
  have h := token_uses_lookup ctl ms hwf a
  rwa [hv] at h

theorem do_macro_not_recursive_witness :
    lookup_value [⟨1, "A".toList, "B".toList⟩, ⟨1, "B".toList, "x".toList⟩] "B".toList
      = some "x".toList ∧
    do_macro false '#' [⟨1, "A".toList, "B".toList⟩, ⟨1, "B".toList, "x".toList⟩] "A\n".toList
      = some "B\n".toList ∧
    do_macro true '#' [⟨1, "A".toList, "B".toList⟩, ⟨1, "B".toList, "x".toList⟩]
      "-#\x7bA\x7d-\n".toList = some "-B-\n".toList :=
  ⟨by decide,
   (do_macro_not_recursive '#' [⟨1, "A".toList, "B".toList⟩, ⟨1, "B".toList, "x".toList⟩]
     (by decide) "A".toList "B".toList (by decide)).1 [] [.chr '\n'] (by decide),
   (do_macro_not_recursive '#' [⟨1, "A".toList, "B".toList⟩, ⟨1, "B".toList, "x".toList⟩]
     (by decide) "A".toList "B".toList (by decide)).2.2 "-".toList "-\n".toList
     (by decide) (by decide) (by decide) (by decide)⟩

/-- C4. A well-formed `define` line whose name has no active entry, read
while `in_if` is not `IF_FALSE`: `directive()` returns 0 and the table gains
one entry at its end, active, with the name and the value of the line, both
copied byte for byte from the line; `in_if` and `if_lineno` stay. -/
theorem define_appends_entry (s : Tables) (lineno : Nat) (ibuf n v : List Char)
    (hp : parses_as ibuf OP_DEFINE n v = true) (hif : s.in_if ≠ IF_FALSE)
    (hwf : wf_table s.macros = true) (hfree : defined s.macros n = false) :
    directive s lineno ibuf =
      .ok (0, { s with macros := s.macros ++ [⟨n.length, n, v⟩] }) ∧
    active_named n ⟨n.length, n, v⟩ = true ∧ is_ident n = true ∧
    n <:+: ibuf ∧ v <:+: ibuf := by
  obtain ⟨p, r, hp1, hop, hn1, hn2, hv, hid, hne, hi1, hi2⟩ :=
    parses_as_named hp (Or.inl rfl)
  have hlen : n.length ≠ 0 := fun h => hne (List.length_eq_zero.mp h)
  exact ⟨directive_define_free s lineno ibuf n v hp hif hwf hfree,
    by simp [active_named, hlen], hid, hi1, hi2⟩

theorem define_appends_entry_witness :
    parses_as "#define A B\n".toList OP_DEFINE "A".toList "B".toList = true ∧
    directive ⟨[⟨1, "B".toList, "x".toList⟩], IF_NONE, 0⟩ 2 "#define A B\n".toList =
      .ok (0, ⟨[⟨1, "B".toList, "x".toList⟩, ⟨1, "A".toList, "B".toList⟩], IF_NONE, 0⟩) :=
  ⟨by decide,
   (define_appends_entry ⟨[⟨1, "B".toList, "x".toList⟩], IF_NONE, 0⟩ 2 "#define A B\n".toList
     "A".toList "B".toList (by decide) (by decide) (by decide) (by decide)).1⟩

/-- C5. A well-formed `define` line whose name has an active entry, read
while `in_if` is not `IF_FALSE`: `directive()` exits with "Macro
redefinition", whatever the value on the line; no new table or flag comes
out of the call. -/
theorem define_active_name_fails (s : Tables) (lineno : Nat) (ibuf n v : List Char)
    (hp : parses_as ibuf OP_DEFINE n v = true) (hif : s.in_if ≠ IF_FALSE)
    (hwf : wf_table s.macros = true) (hdef : defined s.macros n = true) :
    directive s lineno ibuf = .error .Redefinition := by
  obtain ⟨p, r, hp1, hop, hn1, hn2, _, _, hne, _, _⟩ := parses_as_named hp (Or.inl rfl)
  rw [directive_of_parse s lineno hp1, act_define s lineno p hop hif, hn1, hn2,
    find_name_eq s.macros hwf n r hne]
  have h := findIdx_isSome_defined s.macros n
  rw [hdef] at h
  cases hf : List.findIdx? (active_named n) s.macros with
  | none => rw [hf] at h; exact absurd h (by simp)
  | some i => rfl

theorem define_active_name_fails_witness :
    directive ⟨[⟨1, "A".toList, "1".toList⟩], IF_TRUE, 0⟩ 2 "#define A 1\n".toList =
      .error .Redefinition :=
  define_active_name_fails ⟨[⟨1, "A".toList, "1".toList⟩], IF_TRUE, 0⟩ 2 "#define A 1\n".toList
    "A".toList "1".toList (by decide) (by decide) (by decide) (by decide)

/-- C8. The lookup loops of `directive()` and of `do_macro()`, run on a
token `t` (a non-empty name at the head of the rest `t ++ r` of the buffer)
over a well-formed table, both find the first entry in the order of
insertion that is active and whose name is `t`, byte for byte and in full;
when no active entry has exactly that name (a name only starting with `t`,
or only a start of `t`, does not count) both find nothing. -/
theorem lookup_first_active_exact (ms : List macro_t) (hwf : wf_table ms = true)
    (t r : List Char) (ht : t ≠ []) :
    find_name (t ++ r) t.length ms = ms.findIdx? (active_named t) ∧
    find_token (t ++ r) (t.length : Int) ms = ms.find? (active_named t) ∧
    ((∀ m ∈ ms, m.len ≠ 0 → m.name ≠ t) →
      find_name (t ++ r) t.length ms = none ∧
      find_token (t ++ r) (t.length : Int) ms = none) := by
  refine ⟨find_name_eq ms hwf t r ht, find_token_eq ms hwf t r ht, ?_⟩
  intro h
  have hp : ∀ m ∈ ms, active_named t m = false := by
    intro m hm
    by_cases h0 : m.len = 0
    · simp [active_named, h0]
    · have := h m hm h0
      simp [active_named, this]
  rw [find_name_eq ms hwf t r ht, find_token_eq ms hwf t r ht]
  constructor
  · rw [List.findIdx?_eq_none_iff]
    exact hp
  · rw [List.find?_eq_none]
    intro m hm
    simp [hp m hm]

theorem lookup_first_active_exact_witness :
    find_name "FO \n".toList 2 [⟨3, "FOO".toList, "baz".toList⟩] = none ∧
    find_token "FO \n".toList 2 [⟨3, "FOO".toList, "baz".toList⟩] = none ∧
    find_name "FOOBAR\n".toList 6 [⟨3, "FOO".toList, "baz".toList⟩] = none ∧
    find_token "FOOBAR\n".toList 6 [⟨3, "FOO".toList, "baz".toList⟩] = none :=
  ⟨((lookup_first_active_exact [⟨3, "FOO".toList, "baz".toList⟩] (by decide) "FO".toList
      " \n".toList (by decide)).2.2 (by decide)).1,
   ((lookup_first_active_exact [⟨3, "FOO".toList, "baz".toList⟩] (by decide) "FO".toList
      " \n".toList (by decide)).2.2 (by decide)).2,
   ((lookup_first_active_exact [⟨3, "FOO".toList, "baz".toList⟩] (by decide) "FOOBAR".toList
      "\n".toList (by decide)).2.2 (by decide)).1,
   ((lookup_first_active_exact [⟨3, "FOO".toList, "baz".toList⟩] (by decide) "FOOBAR".toList
      "\n".toList (by decide)).2.2 (by decide)).2⟩

/-- C3. A `define` line whose value stands between two quotes `q` (both
`'` or both `"`, none inside the value `v`): when the line is acted on (flag
not FALSE, name not active) the entry stored has exactly `v` as its value,
blanks kept and quotes left out. So the input `#define GREETING "hi there"`,
`GREETING!` gives the content line `hi there!`. -/
theorem define_quoted_value :
    (∀ (s : Tables) (lineno : Nat) (c0 q : Char) (b0 n b1 v b2 : List Char),
      b0.all isblank = true → is_ident n = true → b1 ≠ [] → b1.all isblank = true →
      (q = SQUOTE ∨ q = '"') → q ∉ v → b2.all isblank = true →
      s.in_if ≠ IF_FALSE → wf_table s.macros = true → defined s.macros n = false →
      directive s lineno
          (c0 :: ("define".toList ++ b0 ++ n ++ b1 ++ q :: v ++ q :: b2 ++ ['\n'])) =
        .ok (0, { s with macros := s.macros ++ [⟨n.length, n, v⟩] })) ∧
    ∀ fuel, 3 ≤ fuel →
      main (plain_env ["#define GREETING \"hi there\"\n".toList, "GREETING!\n".toList]) fuel =
        .exit0 ["# 1 \"<stdin>\"\n".toList, "\n".toList, "hi there!\n".toList] := by
  constructor
  · intro s lineno c0 q b0 n b1 v b2 hb0 hn hb1 hbb1 hq hv hb2 hif hwf hfree
    have hp := parse_define_quoted c0 q b0 n b1 v b2 hb0 hn hb1 hbb1 hq hv hb2
    have hpa : parses_as (c0 :: ("define".toList ++ (b0 ++ (n ++ (b1 ++ q :: (v ++ q ::
        (b2 ++ ['\n']))))))) OP_DEFINE n v = true := by
      unfold parses_as
      rw [hp]
      simp
    have h := directive_define_free s lineno _ n v hpa hif hwf hfree
    simpa only [List.append_assoc, List.cons_append] using h
  · intro fuel hf
    exact main_fuel _ fuel 3 _ (by decide) (by decide) hf

theorem define_quoted_value_witness :
    directive ⟨[], IF_NONE, 0⟩ 1 "#define GREETING \"hi there\" \n".toList =
      .ok (0, ⟨[⟨8, "GREETING".toList, "hi there".toList⟩], IF_NONE, 0⟩) ∧
    main (plain_env ["#define GREETING \"hi there\"\n".toList, "GREETING!\n".toList]) 3 =
      .exit0 ["# 1 \"<stdin>\"\n".toList, "\n".toList, "hi there!\n".toList] :=
  ⟨define_quoted_value.1 ⟨[], IF_NONE, 0⟩ 1 '#' '"' " ".toList "GREETING".toList " ".toList
      "hi there".toList " ".toList (by decide) (by decide) (by decide) (by decide)
      (by decide) (by decide) (by decide) (by decide) (by decide) (by decide),
   define_quoted_value.2 3 (by decide)⟩

/-- C6. A well-formed `undef` line read while `in_if` is not `IF_FALSE`:
`directive()` returns 0 and clears the first active entry with exactly that
name, nothing else; with no such entry the table stays as it is. After it,
in a table where active names are unique, the name has no active entry, and
in both grammars a line that uses the name as a token comes out with the
token as it stands. -/
theorem undef_clears_first_active (s : Tables) (lineno : Nat) (ibuf n v : List Char)
    (hp : parses_as ibuf OP_UNDEF n v = true) (hif : s.in_if ≠ IF_FALSE)
    (hwf : wf_table s.macros = true) :
    directive s lineno ibuf = .ok (0, { s with macros := undef_first n s.macros }) ∧
    (defined s.macros n = false → undef_first n s.macros = s.macros) ∧
    (unique_active s.macros = true →
      defined (undef_first n s.macros) n = false ∧
      ∀ ctl : Char, token_uses ctl (undef_first n s.macros) n none) := by
  refine ⟨directive_undef s lineno ibuf n v hp hif hwf,
    undef_first_of_undefined n s.macros, ?_⟩
  intro hu
  have hwf2 := wf_table_undef_first n s.macros hwf
  have hd := undefined_after_undef n s.macros hu
  refine ⟨hd, ?_⟩
  intro ctl
  have h := token_uses_lookup ctl _ hwf2 n
  rwa [lookup_none_of_undefined hd] at h

theorem undef_clears_first_active_witness :
    directive ⟨[⟨1, "A".toList, "1".toList⟩, ⟨1, "B".toList, "2".toList⟩], IF_NONE, 0⟩ 3
        "#undef B\n".toList =
      .ok (0, ⟨[⟨1, "A".toList, "1".toList⟩, ⟨0, "B".toList, "2".toList⟩], IF_NONE, 0⟩) ∧
    do_macro false '#' [⟨1, "A".toList, "1".toList⟩, ⟨0, "B".toList, "2".toList⟩]
        "A B\n".toList = some "1 B\n".toList :=
  ⟨(undef_clears_first_active
      ⟨[⟨1, "A".toList, "1".toList⟩, ⟨1, "B".toList, "2".toList⟩], IF_NONE, 0⟩ 3
      "#undef B\n".toList "B".toList [] (by decide) (by decide) (by decide)).1,
   (((undef_clears_first_active
      ⟨[⟨1, "A".toList, "1".toList⟩, ⟨1, "B".toList, "2".toList⟩], IF_NONE, 0⟩ 3
      "#undef B\n".toList "B".toList [] (by decide) (by decide) (by decide)).2.2
        (by decide)).2 '#').1 [.tok "A".toList, .chr ' '] [.chr '\n'] (by decide)⟩

/-- C7. From a table where `n` has no active entry and with `in_if` not
`IF_FALSE`, the three lines `define n v1`, `undef n`, `define n v2` all return
0: the second `define` is no redefinition. The table ends with the cleared
entry for `v1` and then the active entry for `v2`; the lookup of `n` passes
the cleared entry and gives `v2`, and in both grammars a use of `n` as a token
is written as `v2`. -/
theorem define_undef_define (s : Tables) (k1 k2 k3 : Nat) (l1 l2 l3 n v1 v2 : List Char)
    (h1 : parses_as l1 OP_DEFINE n v1 = true) (h2 : parses_as l2 OP_UNDEF n [] = true)
    (h3 : parses_as l3 OP_DEFINE n v2 = true) (hif : s.in_if ≠ IF_FALSE)
    (hwf : wf_table s.macros = true) (hfree : defined s.macros n = false) :
    directive s k1 l1 = .ok (0, { s with macros := s.macros ++ [⟨n.length, n, v1⟩] }) ∧
    directive { s with macros := s.macros ++ [⟨n.length, n, v1⟩] } k2 l2 =
      .ok (0, { s with macros := s.macros ++ [⟨0, n, v1⟩] }) ∧
    directive { s with macros := s.macros ++ [⟨0, n, v1⟩] } k3 l3 =
      .ok (0, { s with macros := s.macros ++ [⟨0, n, v1⟩, ⟨n.length, n, v2⟩] }) ∧
    lookup_value (s.macros ++ [⟨0, n, v1⟩, ⟨n.length, n, v2⟩]) n = some v2 ∧
    ∀ ctl : Char,
      token_uses ctl (s.macros ++ [⟨0, n, v1⟩, ⟨n.length, n, v2⟩]) n (some v2) := by
  obtain ⟨_, _, _, _, _, _, _, _, hne, _, _⟩ := parses_as_named h1 (Or.inl rfl)
  have hlen : n.length ≠ 0 := fun h => hne (List.length_eq_zero.mp h)
  have hwf1 : wf_table (s.macros ++ [⟨n.length, n, v1⟩]) = true :=
    wf_table_append hwf (Or.inr rfl)
  have hwf2 : wf_table (s.macros ++ [⟨0, n, v1⟩]) = true :=
    wf_table_append hwf (Or.inl rfl)
  have hfree2 : defined (s.macros ++ [⟨0, n, v1⟩]) n = false := by
    rw [defined_append, hfree]
    simp [active_named]
  have hwf3 : wf_table (s.macros ++ [⟨0, n, v1⟩, ⟨n.length, n, v2⟩]) = true := by
    have := wf_table_append (m := ⟨n.length, n, v2⟩) hwf2 (Or.inr rfl)
    simpa using this
  have hlk : lookup_value (s.macros ++ [⟨0, n, v1⟩, ⟨n.length, n, v2⟩]) n = some v2 := by
    have hb : (n.length != 0) = true := by simpa [bne_iff_ne] using hlen
    rw [lookup_append_of_undefined _ _ _ hfree]
    simp [lookup_value, List.find?, active_named, hb]
  refine ⟨directive_define_free s k1 l1 n v1 h1 hif hwf hfree, ?_, ?_, hlk, ?_⟩
  · have h := directive_undef { s with macros := s.macros ++ [⟨n.length, n, v1⟩] } k2 l2 n []
      h2 hif hwf1
    rw [h]
    simp only [undef_first_append_last s.macros n v1 hfree hne]
  · have h := directive_define_free { s with macros := s.macros ++ [⟨0, n, v1⟩] } k3 l3 n v2
      h3 hif hwf2 hfree2
    rw [h]
    simp
  · intro ctl
    have h := token_uses_lookup ctl _ hwf3 n
    rwa [hlk] at h

theorem define_undef_define_witness :
    directive ⟨[⟨0, "X".toList, "1".toList⟩], IF_NONE, 0⟩ 3 "#define X 2\n".toList =
      .ok (0, ⟨[⟨0, "X".toList, "1".toList⟩, ⟨1, "X".toList, "2".toList⟩], IF_NONE, 0⟩) ∧
    do_macro false '#' [⟨0, "X".toList, "1".toList⟩, ⟨1, "X".toList, "2".toList⟩]
      "X\n".toList = some "2\n".toList :=
  ⟨(define_undef_define ⟨[], IF_NONE, 0⟩ 1 2 3 "#define X 1\n".toList "#undef X\n".toList
      "#define X 2\n".toList "X".toList "1".toList "2".toList (by decide) (by decide)
      (by decide) (by decide) (by decide) (by decide)).2.2.1,
   ((define_undef_define ⟨[], IF_NONE, 0⟩ 1 2 3 "#define X 1\n".toList "#undef X\n".toList
      "#define X 2\n".toList "X".toList "1".toList "2".toList (by decide) (by decide)
      (by decide) (by decide) (by decide) (by decide)).2.2.2.2 '#').1 [] [.chr '\n']
      (by decide)⟩

/-- C9 (the code departs from it). An `else` that turns `in_if` from
`IF_FALSE` to `IF_TRUE` does not return: `directive()` runs on into the
lookup loop with an empty name. There every cleared entry (`len` 0) matches,
and the `else` exits with "Macro redefinition": so after `define Y`,
`undef Y` the block `ifdef X`, `a`, `else`, `b`, `endif` with `X` not
defined is fatal at its `else`. With no cleared entry the `else` appends
one, and the second such block of a run is fatal at its `else`. -/
theorem else_runs_into_lookup :
    main (plain_env ["#define Y 1\n".toList, "#undef Y\n".toList, "#ifdef X\n".toList,
        "a\n".toList, "#else\n".toList, "b\n".toList, "#endif\n".toList]) 8 =
      .fatal .Redefinition
        ["# 1 \"<stdin>\"\n".toList, "\n".toList, "\n".toList, "\n".toList, "\n".toList] ∧
    main (plain_env ["#ifdef X\n".toList, "a\n".toList, "#else\n".toList, "b\n".toList,
        "#endif\n".toList, "#ifdef X\n".toList, "a\n".toList, "#else\n".toList,
        "b\n".toList, "#endif\n".toList]) 11 =
      .fatal .Redefinition
        ["# 1 \"<stdin>\"\n".toList, "\n".toList, "\n".toList, "\n".toList, "b\n".toList,
          "\n".toList, "\n".toList, "\n".toList] ∧
    directive ⟨[⟨0, "Y".toList, "1".toList⟩], IF_FALSE, 3⟩ 5 "#else\n".toList =
      .error .Redefinition ∧
    directive ⟨[], IF_FALSE, 1⟩ 3 "#else\n".toList =
      .ok (0, ⟨[⟨0, [], []⟩], IF_TRUE, 1⟩) := by
  refine ⟨by decide, by decide, by decide, by decide⟩

/-- C10. With no conditional open (`in_if` is `IF_NONE`) and a well-formed
line: `ifdef` sets `in_if` to `IF_TRUE` (and returns 0) when the name has an
active entry and to `IF_FALSE` (returning 1) when it has none; `ifndef` sets
`IF_FALSE` (returning 1) when it has one and `IF_TRUE` (returning 0) when it
has none; the table stays. So `#ifndef Z`, `only-if-missing`, `#endif` with
`Z` never defined writes the line `only-if-missing`. -/
theorem ifdef_ifndef_set_flag :
    (∀ (s : Tables) (lineno : Nat) (ibuf n v : List Char),
      s.in_if = IF_NONE → wf_table s.macros = true →
      (parses_as ibuf OP_IFDEF n v = true →
        directive s lineno ibuf =
          if defined s.macros n then .ok (0, { s with in_if := IF_TRUE })
          else .ok (1, { s with in_if := IF_FALSE, if_lineno := lineno })) ∧
      (parses_as ibuf OP_IFNDEF n v = true →
        directive s lineno ibuf =
          if defined s.macros n then .ok (1, { s with in_if := IF_FALSE })
          else .ok (0, { s with in_if := IF_TRUE, if_lineno := lineno }))) ∧
    ∀ fuel, 4 ≤ fuel →
      main (plain_env ["#ifndef Z\n".toList, "only-if-missing\n".toList,
          "#endif\n".toList]) fuel =
        .exit0 ["# 1 \"<stdin>\"\n".toList, "\n".toList, "only-if-missing\n".toList,
          "\n".toList] := by
  constructor
  · intro s lineno ibuf n v hif hwf
    exact ⟨fun hp => directive_ifdef s lineno ibuf n v hp hif hwf,
      fun hp => directive_ifndef s lineno ibuf n v hp hif hwf⟩
  · intro fuel hf
    exact main_fuel _ fuel 4 _ (by decide) (by decide) hf

theorem ifdef_ifndef_set_flag_witness :
    directive ⟨[⟨1, "A".toList, "1".toList⟩], IF_NONE, 0⟩ 2 "#ifdef A\n".toList =
      .ok (0, ⟨[⟨1, "A".toList, "1".toList⟩], IF_TRUE, 0⟩) ∧
    directive ⟨[⟨1, "A".toList, "1".toList⟩], IF_NONE, 0⟩ 2 "#ifndef Z\n".toList =
      .ok (0, ⟨[⟨1, "A".toList, "1".toList⟩], IF_TRUE, 2⟩) ∧
    main (plain_env ["#ifndef Z\n".toList, "only-if-missing\n".toList,
        "#endif\n".toList]) 4 =
      .exit0 ["# 1 \"<stdin>\"\n".toList, "\n".toList, "only-if-missing\n".toList,
        "\n".toList] :=
  ⟨(ifdef_ifndef_set_flag.1 ⟨[⟨1, "A".toList, "1".toList⟩], IF_NONE, 0⟩ 2 "#ifdef A\n".toList
      "A".toList [] (by decide) (by decide)).1 (by decide),
   (ifdef_ifndef_set_flag.1 ⟨[⟨1, "A".toList, "1".toList⟩], IF_NONE, 0⟩ 2 "#ifndef Z\n".toList
      "Z".toList [] (by decide) (by decide)).2 (by decide),
   ifdef_ifndef_set_flag.2 4 (by decide)⟩

/-! ## The conditional directives -/

theorem keyword_endif (c0 : Char) (x : List Char) :
    keyword (c0 :: ("endif".toList ++ x)) = some (OP_ENDIF, x) := by
  have h1 : "endif".toList = ['e', 'n', 'd', 'i', 'f'] := rfl
  have h2 : "define".toList = ['d', 'e', 'f', 'i', 'n', 'e'] := rfl
  have h3 : "undef".toList = ['u', 'n', 'd', 'e', 'f'] := rfl
  have h4 : "ifdef".toList = ['i', 'f', 'd', 'e', 'f'] := rfl
  have h5 : "ifndef".toList = ['i', 'f', 'n', 'd', 'e', 'f'] := rfl
  have l1 : "endif".length = 5 := rfl
  have l2 : "define".length = 6 := rfl
  have l3 : "undef".length = 5 := rfl
  have l4 : "ifdef".length = 5 := rfl
  have l5 : "ifndef".length = 6 := rfl
  have l6 : "?endif".length = 6 := rfl
  simp [keyword, strncmp_eq, h1, h2, h3, h4, h5, l1, l2, l3, l4, l5, l6]

theorem keyword_else (c0 : Char) (x : List Char) :
    keyword (c0 :: ("else".toList ++ x)) = some (OP_ELSE, x) := by
  have h0 : "else".toList = ['e', 'l', 's', 'e'] := rfl
  have h1 : "endif".toList = ['e', 'n', 'd', 'i', 'f'] := rfl
  have h2 : "define".toList = ['d', 'e', 'f', 'i', 'n', 'e'] := rfl
  have h3 : "undef".toList = ['u', 'n', 'd', 'e', 'f'] := rfl
  have h4 : "ifdef".toList = ['i', 'f', 'd', 'e', 'f'] := rfl
  have h5 : "ifndef".toList = ['i', 'f', 'n', 'd', 'e', 'f'] := rfl
  have l0 : "else".length = 4 := rfl
  have l1 : "endif".length = 5 := rfl
  have l2 : "define".length = 6 := rfl
  have l3 : "undef".length = 5 := rfl
  have l4 : "ifdef".length = 5 := rfl
  have l5 : "ifndef".length = 6 := rfl
  have l6 : "?else".length = 5 := rfl
  simp [keyword, strncmp_eq, h0, h1, h2, h3, h4, h5, l0, l1, l2, l3, l4, l5, l6]

theorem parses_as_endif_line (c0 : Char) (b : List Char) (hb : b.all isblank = true) :
    parses_as (c0 :: ("endif".toList ++ b ++ ['\n'])) OP_ENDIF [] [] = true := by
  have h : skip_blank (b ++ ['\n']) = ['\n'] := skip_blank_append b _ hb (by decide)
  have hp : directive_parse (c0 :: ("endif".toList ++ (b ++ ['\n']))) =
      .ok (some ⟨OP_ENDIF, [], 0, [], 0⟩) := by
    simp only [directive_parse, keyword_endif, h]
    simp [check_trailing, cur_cons, Except.map, skip_blank, isblank]
  unfold parses_as
  rw [List.append_assoc, hp]
  rfl

theorem parses_as_else_line (c0 : Char) (b : List Char) (hb : b.all isblank = true) :
    parses_as (c0 :: ("else".toList ++ b ++ ['\n'])) OP_ELSE [] [] = true := by
  have h : skip_blank (b ++ ['\n']) = ['\n'] := skip_blank_append b _ hb (by decide)
  have hp : directive_parse (c0 :: ("else".toList ++ (b ++ ['\n']))) =
      .ok (some ⟨OP_ELSE, [], 0, [], 0⟩) := by
    simp only [directive_parse, keyword_else, h]
    simp [check_trailing, cur_cons, Except.map, skip_blank, isblank]
  unfold parses_as
  rw [List.append_assoc, hp]
  rfl

theorem act_endif (s : Tables) (lineno : Nat) (p : Parsed) (hop : p.op = OP_ENDIF) :
    directive_act s lineno p =
      if s.in_if ≠ IF_NONE then .ok (0, { s with in_if := IF_NONE })
      else .error (.UnmatchedConditional OP_ENDIF) := by
  by_cases h : s.in_if = IF_NONE <;> simp [directive_act, hop, h]

theorem act_else_unmatched (s : Tables) (lineno : Nat) (p : Parsed) (hop : p.op = OP_ELSE)
    (hif : s.in_if = IF_NONE) :
    directive_act s lineno p = .error (.UnmatchedConditional OP_ELSE) := by
  simp [directive_act, hop, hif]

theorem act_nested (s : Tables) (lineno : Nat) (p : Parsed)
    (hop : p.op = OP_IFDEF ∨ p.op = OP_IFNDEF) (hif : s.in_if ≠ IF_NONE) :
    directive_act s lineno p = .error .NestedConditional := by
  rcases hop with hop | hop <;> simp [directive_act, hop, hif]

theorem act_skipped (s : Tables) (lineno : Nat) (p : Parsed)
    (hop : p.op = OP_DEFINE ∨ p.op = OP_UNDEF) (hif : s.in_if = IF_FALSE) :
    directive_act s lineno p = .ok (1, s) := by
  rcases hop with hop | hop <;> simp [directive_act, hop, hif]

/-- The errors of lines 227-317 are those of the conditionals and of the
table, never those of the syntax. -/
theorem act_error_kind (s : Tables) (lineno : Nat) (p : Parsed) (e : Err)
    (h : directive_act s lineno p = .error e) :
    (∃ op, e = .UnmatchedConditional op) ∨ e = .NestedConditional ∨ e = .Redefinition := by
  by_cases h6 : p.op = OP_ENDIF
  · by_cases hn : s.in_if = IF_NONE <;> simp [directive_act, h6, hn] at h
    subst h
    simp
  · by_cases h5 : p.op = OP_ELSE
    · by_cases hn : s.in_if = IF_NONE
      · simp [directive_act, h5, hn] at h
        subst h
        simp
      · by_cases hf : 1 - s.in_if = IF_FALSE
        · simp [directive_act, h5, hn, hf] at h
        · cases hfn : find_name p.name p.namelen s.macros <;>
            simp [directive_act, h5, hn, hf, hfn] at h
          subst h
          simp
    · by_cases h34 : p.op = OP_IFDEF ∨ p.op = OP_IFNDEF
      · by_cases hn : s.in_if = IF_NONE
        · cases hfn : find_name p.name p.namelen s.macros <;>
            rcases h34 with h3 | h3 <;> simp [directive_act, h3, hn, hfn] at h
        · rw [act_nested s lineno p h34 hn] at h
          simp only [Except.error.injEq] at h
          exact Or.inr (Or.inl h.symm)
      · simp only [not_or] at h34
        by_cases hf : s.in_if = IF_FALSE
        · simp [directive_act, h6, h5, h34.1, h34.2, hf] at h
        · cases hfn : find_name p.name p.namelen s.macros
          · by_cases h2 : p.op = OP_UNDEF <;>
              simp [directive_act, h6, h5, h34.1, h34.2, hf, hfn, h2] at h
          · by_cases h2 : p.op = OP_UNDEF
            · simp [directive_act, h6, h5, h34.1, h34.2, hf, hfn, h2] at h
            · simp [directive_act, h6, h5, h34.1, h34.2, hf, hfn, h2] at h
              subst h
              simp

theorem directive_syntax_error (s0 s : Tables) (k lineno : Nat) (ibuf : List Char) (e : Err)
    (he : e = .MissingName ∨ e = .IllegalChar ∨ e = .UnterminatedValue ∨ e = .TrailingText)
    (h : directive s0 k ibuf = .error e) : directive s lineno ibuf = .error e := by
  unfold directive at h ⊢
  cases hp : directive_parse ibuf with
  | error e1 =>
    rw [hp] at h
    simpa using h
  | ok r =>
    rw [hp] at h
    cases r with
    | none => simp at h
    | some p =>
      simp only at h
      rcases act_error_kind s0 k p e h with ⟨op, h1⟩ | h1 | h1 <;>
        rcases he with h2 | h2 | h2 | h2 <;> rw [h1] at h2 <;> exact absurd h2 (by simp)

/-! ## The claims on the conditional directives -/

/-- C11. A well-formed `ifdef` or `ifndef` line read with a block open
(`in_if` not `IF_NONE`) ends in "Nested ?ifdef or ?ifndef"; a well-formed
`endif` or `else` line read with no block open ends in "No matching ?ifdef or
?ifndef"; `err()` exits, so no changed flag or table results. A well-formed
`endif` line read with a block open returns 0 and sets `in_if` to `IF_NONE`,
the table and `if_lineno` as they were. The lines `endif` and `else` followed
by blanks and a newline are well formed. -/
theorem conditional_nesting (s : Tables) (lineno : Nat) (ibuf n v : List Char) :
    ((parses_as ibuf OP_IFDEF n v = true ∨ parses_as ibuf OP_IFNDEF n v = true) →
      s.in_if ≠ IF_NONE → directive s lineno ibuf = .error .NestedConditional) ∧
    (parses_as ibuf OP_ENDIF n v = true → s.in_if = IF_NONE →
      directive s lineno ibuf = .error (.UnmatchedConditional OP_ENDIF)) ∧
    (parses_as ibuf OP_ELSE n v = true → s.in_if = IF_NONE →
      directive s lineno ibuf = .error (.UnmatchedConditional OP_ELSE)) ∧
    (parses_as ibuf OP_ENDIF n v = true → s.in_if ≠ IF_NONE →
      directive s lineno ibuf = .ok (0, { s with in_if := IF_NONE })) ∧
    (∀ (c0 : Char) (b : List Char), b.all isblank = true →
      parses_as (c0 :: ("endif".toList ++ b ++ ['\n'])) OP_ENDIF [] [] = true ∧
      parses_as (c0 :: ("else".toList ++ b ++ ['\n'])) OP_ELSE [] [] = true) := by
  refine ⟨?_, ?_, ?_, ?_, ?_⟩
  · intro hp hif
    rcases hp with hp | hp
    · obtain ⟨p, hp1, hop, _, _⟩ := parses_as_spec hp
      rw [directive_of_parse s lineno hp1, act_nested s lineno p (Or.inl hop) hif]
    · obtain ⟨p, hp1, hop, _, _⟩ := parses_as_spec hp
      rw [directive_of_parse s lineno hp1, act_nested s lineno p (Or.inr hop) hif]
  · intro hp hif
    obtain ⟨p, hp1, hop, _, _⟩ := parses_as_spec hp
    rw [directive_of_parse s lineno hp1, act_endif s lineno p hop]
    simp [hif]
  · intro hp hif
    obtain ⟨p, hp1, hop, _, _⟩ := parses_as_spec hp
    rw [directive_of_parse s lineno hp1, act_else_unmatched s lineno p hop hif]
  · intro hp hif
    obtain ⟨p, hp1, hop, _, _⟩ := parses_as_spec hp
    rw [directive_of_parse s lineno hp1, act_endif s lineno p hop]
    simp [hif]
  · intro c0 b hb
    exact ⟨parses_as_endif_line c0 b hb, parses_as_else_line c0 b hb⟩

theorem conditional_nesting_witness :
    directive ⟨[], IF_TRUE, 1⟩ 2 "#ifdef X\n".toList = .error .NestedConditional ∧
    directive ⟨[], IF_FALSE, 1⟩ 2 "#ifndef X\n".toList = .error .NestedConditional ∧
    directive ⟨[], IF_NONE, 0⟩ 2 "#endif\n".toList =
      .error (.UnmatchedConditional OP_ENDIF) ∧
    directive ⟨[], IF_NONE, 0⟩ 2 "#else\n".toList = .error (.UnmatchedConditional OP_ELSE) ∧
    directive ⟨[], IF_FALSE, 1⟩ 2 "#endif\n".toList = .ok (0, ⟨[], IF_NONE, 1⟩) :=
  ⟨(conditional_nesting ⟨[], IF_TRUE, 1⟩ 2 "#ifdef X\n".toList "X".toList []).1
      (Or.inl (by decide)) (by decide),
   (conditional_nesting ⟨[], IF_FALSE, 1⟩ 2 "#ifndef X\n".toList "X".toList []).1
      (Or.inr (by decide)) (by decide),
   (conditional_nesting ⟨[], IF_NONE, 0⟩ 2 "#endif\n".toList [] []).2.1
      (by decide) (by decide),
   (conditional_nesting ⟨[], IF_NONE, 0⟩ 2 "#else\n".toList [] []).2.2.1
      (by decide) (by decide),
   (conditional_nesting ⟨[], IF_FALSE, 1⟩ 2 "#endif\n".toList [] []).2.2.2.1
      (by decide) (by decide)⟩

/-- C12. While `in_if` is `IF_FALSE` a well-formed `define` or `undef` line
returns 1 and leaves the table, `in_if` and `if_lineno` as they were. A line
with a syntax error (missing name, illegal character, unterminated value,
trailing text) ends in that error whatever the globals are: the error it has
inside a false block is the one it has outside. -/
theorem false_block_define_undef (s : Tables) (lineno : Nat) (ibuf n v : List Char) :
    ((parses_as ibuf OP_DEFINE n v = true ∨ parses_as ibuf OP_UNDEF n v = true) →
      s.in_if = IF_FALSE → directive s lineno ibuf = .ok (1, s)) ∧
    (∀ (s0 : Tables) (k : Nat) (e : Err),
      (e = .MissingName ∨ e = .IllegalChar ∨ e = .UnterminatedValue ∨ e = .TrailingText) →
      directive s0 k ibuf = .error e → directive s lineno ibuf = .error e) := by
  constructor
  · intro hp hif
    rcases hp with hp | hp
    · obtain ⟨p, hp1, hop, _, _⟩ := parses_as_spec hp
      rw [directive_of_parse s lineno hp1, act_skipped s lineno p (Or.inl hop) hif]
    · obtain ⟨p, hp1, hop, _, _⟩ := parses_as_spec hp
      rw [directive_of_parse s lineno hp1, act_skipped s lineno p (Or.inr hop) hif]
  · intro s0 k e he h
    exact directive_syntax_error s0 s k lineno ibuf e he h

theorem false_block_define_undef_witness :
    directive ⟨[⟨1, "A".toList, "1".toList⟩], IF_FALSE, 1⟩ 3 "#define A 2\n".toList =
      .ok (1, ⟨[⟨1, "A".toList, "1".toList⟩], IF_FALSE, 1⟩) ∧
    directive ⟨[⟨1, "A".toList, "1".toList⟩], IF_FALSE, 1⟩ 3 "#undef A\n".toList =
      .ok (1, ⟨[⟨1, "A".toList, "1".toList⟩], IF_FALSE, 1⟩) ∧
    directive ⟨[], IF_FALSE, 1⟩ 3 "#define A \"x\n".toList = .error .UnterminatedValue ∧
    directive ⟨[], IF_FALSE, 1⟩ 3 "#undef 1A\n".toList = .error .IllegalChar :=
  ⟨(false_block_define_undef ⟨[⟨1, "A".toList, "1".toList⟩], IF_FALSE, 1⟩ 3
      "#define A 2\n".toList "A".toList "2".toList).1 (Or.inl (by decide)) (by decide),
   (false_block_define_undef ⟨[⟨1, "A".toList, "1".toList⟩], IF_FALSE, 1⟩ 3
      "#undef A\n".toList "A".toList []).1 (Or.inr (by decide)) (by decide),
   (false_block_define_undef ⟨[], IF_FALSE, 1⟩ 3 "#define A \"x\n".toList [] []).2
      ⟨[], IF_NONE, 0⟩ 1 .UnterminatedValue (Or.inr (Or.inr (Or.inl rfl))) (by decide),
   (false_block_define_undef ⟨[], IF_FALSE, 1⟩ 3 "#undef 1A\n".toList [] []).2
      ⟨[], IF_NONE, 0⟩ 1 .IllegalChar (Or.inr (Or.inl rfl)) (by decide)⟩

/-! ## The include stack -/

theorem process_frames (e : Env) (s s1 : State) (ibuf : List Char)
    (h : process e s ibuf = .cont s1) :
    s1.below = s.below ∧ s1.currfile = s.currfile ∧ s1.t = s.t ∧
      s1.skip_if_false = s.skip_if_false ∧ s1.incomment = s.incomment := by
  unfold process at h
  split at h
  · split at h
    · simp only [Next.cont.injEq] at h
      subst h
      simp
    · exact absurd h (by simp)
  · simp only [Next.cont.injEq] at h
    subst h
    simp

theorem do_include_frames (e : Env) (s s1 : State) (ibuf : List Char)
    (h : do_include e s ibuf = .cont s1) :
    s1.below = s.below ∨
      (s.below.length ≠ MAXLEVEL - 1 ∧ s1.below = s.currfile :: s.below) := by
  unfold do_include at h
  split at h
  · simp only [Next.cont.injEq] at h
    subst h
    exact Or.inl rfl
  · simp only at h
    split at h
    · exact absurd h (by simp)
    · split at h
      · exact absurd h (by simp)
      · split at h
        · exact absurd h (by simp)
        · split at h
          · exact absurd h (by simp)
          · rename_i hd
            split at h
            · exact absurd h (by simp)
            · split at h
              · exact absurd h (by simp)
              · simp only [Next.cont.injEq] at h
                subst h
                refine Or.inr ⟨?_, rfl⟩
                simpa using hd

theorem step_frames (e : Env) (s s1 : State) (h : step e s = .cont s1) :
    s1.below.length ≤ s.below.length ∨
      (s.below.length ≠ MAXLEVEL - 1 ∧ s1.below.length = s.below.length + 1) := by
  unfold step at h
  split at h
  · split at h
    · exact absurd h (by simp)
    · rename_i f fs hb
      simp only [Next.cont.injEq] at h
      subst h
      left
      simp [hb]
  · simp only at h
    split at h
    · simp only [Next.cont.injEq] at h
      subst h
      exact Or.inl (Nat.le_refl _)
    · split at h
      · split at h
        · rcases do_include_frames e _ s1 _ h with h1 | ⟨h1, h2⟩
          · left
            rw [h1]
          · right
            exact ⟨h1, by rw [h2]; rfl⟩
        · split at h
          · exact absurd h (by simp)
          · split at h
            · split at h
              · have := (process_frames e _ s1 _ h).1
                left
                rw [this]
              · exact absurd h (by simp)
            · simp only [Next.cont.injEq] at h
              subst h
              exact Or.inl (Nat.le_refl _)
      · split at h
        · simp only [Next.cont.injEq] at h
          subst h
          exact Or.inl (Nat.le_refl _)
        · have := (process_frames e _ s1 _ h).1
          left
          rw [this]

theorem start_frames (e : Env) (s : State) (h : start e = .ok s) : s.below = [] := by
  unfold start at h
  split at h
  · exact absurd h (by simp)
  · simp only at h
    split at h
    · exact absurd h (by simp)
    · simp only [Except.ok.injEq] at h
      subst h
      rfl

theorem reach_frames (e : Env) (s : State) (h : Reach e s) :
    s.below.length + 1 ≤ MAXLEVEL := by
  induction h with
  | first s hs => simp [start_frames e s hs]
  | next s s1 _ hstep ih =>
    rcases step_frames e s s1 hstep with h1 | ⟨h1, h2⟩
    · omega
    · simp only [MAXLEVEL] at ih h1 ⊢
      omega

theorem do_include_too_deep (e : Env) (s : State) (ibuf : List Char)
    (hwf : include_wf ibuf = true) (hskip : s.skip_if_false = 0)
    (hd : s.below.length + 1 = MAXLEVEL) :
    do_include e s ibuf = .halt (.fatal .TooDeep s.out) := by
  have hlen : s.below.length = 4 := by simp only [MAXLEVEL] at hd; omega
  simp only [include_wf, Bool.or_eq_true, Bool.and_eq_true, beq_iff_eq] at hwf
  rcases hwf with ⟨h1, h2⟩ | ⟨h1, h2⟩
  · simp [do_include, hskip, h1, h2, hlen]
  · simp [do_include, hskip, h1, h2, hlen]

theorem do_include_not_too_deep (e : Env) (s : State) (ibuf : List Char)
    (out : List (List Char)) (hd : s.below.length + 1 < MAXLEVEL) :
    do_include e s ibuf ≠ .halt (.fatal .TooDeep out) := by
  have hlen : ¬ s.below.length = 4 := by simp only [MAXLEVEL] at hd; omega
  intro h
  unfold do_include at h
  split at h
  · exact absurd h (by simp)
  · simp only at h
    split at h
    · exact absurd h (by simp)
    · split at h
      · exact absurd h (by simp)
      · split at h
        · exact absurd h (by simp)
        · split at h
          · rename_i hh
            simp only [MAXLEVEL, beq_iff_eq] at hh
            exact hlen hh
          · split at h
            · exact absurd h (by simp)
            · split at h
              · exact absurd h (by simp)
              · exact absurd h (by simp)

/-- C19. In every state of a run at most `MAXLEVEL` = 5 frames of `file_ctl[]`
are live: the one `currfile` is at and at most 4 under it. An `include` line
that passes the tests on its quotes, read outside a false block with 5 frames
live, ends in "?include nesting too deep" and no frame is pushed; with fewer
than 5 frames live an `include` line never ends in that error. -/
theorem include_depth (e : Env) :
    (∀ s, Reach e s → s.below.length + 1 ≤ MAXLEVEL) ∧
    (∀ (s : State) (ibuf : List Char), include_wf ibuf = true → s.skip_if_false = 0 →
      s.below.length + 1 = MAXLEVEL →
      do_include e s ibuf = .halt (.fatal .TooDeep s.out)) ∧
    (∀ (s : State) (ibuf : List Char) (out : List (List Char)),
      s.below.length + 1 < MAXLEVEL →
      do_include e s ibuf ≠ .halt (.fatal .TooDeep out)) :=
  ⟨reach_frames e, do_include_too_deep e, do_include_not_too_deep e⟩

theorem include_depth_witness :
    include_wf "#include <g>\n".toList = true ∧
    do_include (chain_env 5)
        ⟨⟨[], IF_NONE, 0⟩, 0, 0, ⟨"f4".toList, [], 1⟩,
          [⟨"f3".toList, [], 1⟩, ⟨"f2".toList, [], 1⟩, ⟨"f1".toList, [], 1⟩,
            ⟨"<stdin>".toList, [], 1⟩], []⟩
        "#include <g>\n".toList = .halt (.fatal .TooDeep []) :=
  ⟨by decide,
   (include_depth (chain_env 5)).2.1
      ⟨⟨[], IF_NONE, 0⟩, 0, 0, ⟨"f4".toList, [], 1⟩,
        [⟨"f3".toList, [], 1⟩, ⟨"f2".toList, [], 1⟩, ⟨"f1".toList, [], 1⟩,
          ⟨"<stdin>".toList, [], 1⟩], []⟩
      "#include <g>\n".toList (by decide) (by decide) (by decide)⟩

/-! ## The claims on the loop of `main()` -/

/-- C13 (the code departs from it). In the restricted grammar a control line
that is no directive, read inside a false block, sets `skip_if_false` to 0:
the line itself is written, and so is every content line after it, while
`in_if` is still `IF_FALSE`. With `-r` the input `#ifdef X`, `#x`, `hidden`,
`#endif` (`X` not defined) writes `#x` and `hidden`. -/
theorem false_block_reopened_by_control_line :
    main (restricted_env ["#ifdef X\n".toList, "#x\n".toList, "hidden\n".toList,
        "#endif\n".toList]) 5 =
      .exit0 ["# 1 \"<stdin>\"\n".toList, "\n".toList, "#x\n".toList, "hidden\n".toList,
        "\n".toList] ∧
    step (restricted_env [])
        ⟨⟨[], IF_FALSE, 1⟩, 1, 0, ⟨"<stdin>".toList, ["#x\n".toList, "hidden\n".toList], 1⟩,
          [], []⟩ =
      .cont ⟨⟨[], IF_FALSE, 1⟩, 0, 0, ⟨"<stdin>".toList, ["hidden\n".toList], 2⟩, [],
        ["#x\n".toList]⟩ ∧
    step (restricted_env [])
        ⟨⟨[], IF_FALSE, 1⟩, 0, 0, ⟨"<stdin>".toList, ["hidden\n".toList], 2⟩, [],
          ["#x\n".toList]⟩ =
      .cont ⟨⟨[], IF_FALSE, 1⟩, 0, 0, ⟨"<stdin>".toList, [], 3⟩, [],
        ["#x\n".toList, "hidden\n".toList]⟩ := by
  refine ⟨by decide, by decide, by decide⟩

/-- C14 (the code departs from it). The line number of the opening directive
is stored in `if_lineno` only where the lookup finds nothing (lines 281 and
286); where the macro is found (lines 260-267) it is not. An `ifdef` of a
defined macro, or an `ifndef` of one, left open at the end of the input is
reported with the old `if_lineno`: 0 at first, or the line of an earlier
block. -/
theorem if_lineno_stale_when_found :
    main (plain_env ["#define X 1\n".toList, "#ifdef X\n".toList, "a\n".toList]) 4 =
      .fatal (.UnterminatedConditional 0)
        ["# 1 \"<stdin>\"\n".toList, "\n".toList, "\n".toList, "a\n".toList] ∧
    main (plain_env ["#define X 1\n".toList, "#ifndef X\n".toList, "a\n".toList]) 4 =
      .fatal (.UnterminatedConditional 0)
        ["# 1 \"<stdin>\"\n".toList, "\n".toList, "\n".toList, "\n".toList] ∧
    main (plain_env ["#ifdef Y\n".toList, "#endif\n".toList, "#define X 1\n".toList,
        "#ifdef X\n".toList]) 5 =
      .fatal (.UnterminatedConditional 1)
        ["# 1 \"<stdin>\"\n".toList, "\n".toList, "\n".toList, "\n".toList, "\n".toList] ∧
    main (plain_env ["\n".toList, "#ifdef X\n".toList, "a\n".toList]) 4 =
      .fatal (.UnterminatedConditional 2)
        ["# 1 \"<stdin>\"\n".toList, "\n".toList, "\n".toList, "\n".toList] := by
  refine ⟨by decide, by decide, by decide, by decide⟩

/-- C20 (as the claim states it, refuted). A chain of 5 nested includes does
not succeed: the run ends in "?include nesting too deep" at the include of
the fifth file. -/
theorem five_nested_includes_fail :
    main (chain_env 5) 30 =
      .fatal .TooDeep ["# 1 \"<stdin>\"\n".toList, "# 1 \"f1\"\n".toList,
        "# 1 \"f2\"\n".toList, "# 1 \"f3\"\n".toList, "# 1 \"f4\"\n".toList] := by
  decide

/-- C20 (amended). A chain of 4 nested includes (the top level includes `f1`,
`f1` includes `f2`, `f2` includes `f3`, `f3` includes `f4`) runs to `exit(0)`;
with a fifth file in the chain the include of `f5` in `f4` ends in "?include
nesting too deep". -/
theorem four_nested_includes :
    (∀ fuel, 10 ≤ fuel →
      main (chain_env 4) fuel =
        .exit0 ["# 1 \"<stdin>\"\n".toList, "# 1 \"f1\"\n".toList, "# 1 \"f2\"\n".toList,
          "# 1 \"f3\"\n".toList, "# 1 \"f4\"\n".toList, "x\n".toList, "# 2 \"f3\"\n".toList,
          "# 2 \"f2\"\n".toList, "# 2 \"f1\"\n".toList, "# 2 \"<stdin>\"\n".toList]) ∧
    (∀ fuel, 5 ≤ fuel →
      main (chain_env 5) fuel =
        .fatal .TooDeep ["# 1 \"<stdin>\"\n".toList, "# 1 \"f1\"\n".toList,
          "# 1 \"f2\"\n".toList, "# 1 \"f3\"\n".toList, "# 1 \"f4\"\n".toList]) := by
  constructor
  · intro fuel hf
    exact main_fuel _ fuel 10 _ (by decide) (by decide) hf
  · intro fuel hf
    exact main_fuel _ fuel 5 _ (by decide) (by decide) hf

theorem four_nested_includes_witness :
    main (chain_env 4) 10 =
      .exit0 ["# 1 \"<stdin>\"\n".toList, "# 1 \"f1\"\n".toList, "# 1 \"f2\"\n".toList,
        "# 1 \"f3\"\n".toList, "# 1 \"f4\"\n".toList, "x\n".toList, "# 2 \"f3\"\n".toList,
        "# 2 \"f2\"\n".toList, "# 2 \"f1\"\n".toList, "# 2 \"<stdin>\"\n".toList] ∧
    main (chain_env 5) 5 =
      .fatal .TooDeep ["# 1 \"<stdin>\"\n".toList, "# 1 \"f1\"\n".toList,
        "# 1 \"f2\"\n".toList, "# 1 \"f3\"\n".toList, "# 1 \"f4\"\n".toList] :=
  ⟨four_nested_includes.1 10 (by decide), four_nested_includes.2 5 (by decide)⟩

/-! ## The comment scan -/

theorem strip_nil (ln inc : Nat) : strip_comments ln inc [] = (inc, []) := by
  simp [strip_comments]

/-- The scan steps over `/*` and goes on inside the comment. -/
theorem strip_open (ln : Nat) (r : List Char) :
    strip_comments ln 0 ('/' :: '*' :: r) =
      ((strip_comments ln ln r).1, ' ' :: ' ' :: (strip_comments ln ln r).2) := by
  simp [strip_comments]

/-- The scan steps over `*/` and goes on outside the comment. -/
theorem strip_close (ln inc : Nat) (hinc : inc ≠ 0) (r : List Char) :
    strip_comments ln inc ('*' :: '/' :: r) =
      ((strip_comments ln 0 r).1, ' ' :: ' ' :: (strip_comments ln 0 r).2) := by
  simp [strip_comments, hinc]

/-- Outside a comment, text with no `/*` that runs up to a `/*` or to the end
of the line is left as it is. -/
theorem strip_text (ln : Nat) (t r : List Char) (ht : has_pair '/' '*' t = false)
    (hr : r = [] ∨ ∃ r1, r = '/' :: '*' :: r1) :
    strip_comments ln 0 (t ++ r) =
      ((strip_comments ln 0 r).1, t ++ (strip_comments ln 0 r).2) := by
  induction t with
  | nil => rfl
  | cons c t ih =>
    cases hd : t ++ r with
    | nil =>
      have ht0 : t = [] := (List.append_eq_nil.mp hd).1
      have hr0 : r = [] := (List.append_eq_nil.mp hd).2
      subst ht0 hr0
      simp [strip_comments]
    | cons d rest =>
      have hnot : (c == '/' && d == '*') = false := by
        cases t with
        | nil =>
          simp only [List.nil_append] at hd
          rcases hr with hr | ⟨r1, hr⟩
          · rw [hr] at hd; exact absurd hd (by simp)
          · rw [hr] at hd
            simp only [List.cons.injEq] at hd
            rw [← hd.1]
            simp
        | cons d1 t1 =>
          simp only [List.cons_append, List.cons.injEq] at hd
          rw [← hd.1]
          simp only [has_pair, Bool.or_eq_false_iff] at ht
          exact ht.1
      have ht2 : has_pair '/' '*' t = false := by
        cases t with
        | nil => rfl
        | cons d1 t1 =>
          simp only [has_pair, Bool.or_eq_false_iff] at ht
          exact ht.2
      have ih2 := ih ht2
      rw [hd] at ih2
      rw [List.cons_append, hd]
      simp only [strip_comments, bne_self_eq_false, Bool.false_eq_true, if_false, hnot, ih2,
        List.cons_append]

/-- Inside a comment, a body with no `*/` that runs up to a `*/` or to the
end of the line is blanked. -/
theorem strip_body (ln inc : Nat) (hinc : inc ≠ 0) (b r : List Char)
    (hb : has_pair '*' '/' b = false) (hr : r = [] ∨ ∃ r1, r = '*' :: '/' :: r1) :
    strip_comments ln inc (b ++ r) =
      ((strip_comments ln inc r).1,
        List.replicate b.length ' ' ++ (strip_comments ln inc r).2) := by
  have hne : (inc != 0) = true := by simpa [bne_iff_ne] using hinc
  induction b with
  | nil => simp
  | cons c b ih =>
    cases hd : b ++ r with
    | nil =>
      have hb0 : b = [] := (List.append_eq_nil.mp hd).1
      have hr0 : r = [] := (List.append_eq_nil.mp hd).2
      subst hb0 hr0
      simp [strip_comments, hne]
    | cons d rest =>
      have hnot : (c == '*' && d == '/') = false := by
        cases b with
        | nil =>
          simp only [List.nil_append] at hd
          rcases hr with hr | ⟨r1, hr⟩
          · rw [hr] at hd; exact absurd hd (by simp)
          · rw [hr] at hd
            simp only [List.cons.injEq] at hd
            rw [← hd.1]
            simp
        | cons d1 b1 =>
          simp only [List.cons_append, List.cons.injEq] at hd
          rw [← hd.1]
          simp only [has_pair, Bool.or_eq_false_iff] at hb
          exact hb.1
      have hb2 : has_pair '*' '/' b = false := by
        cases b with
        | nil => rfl
        | cons d1 b1 =>
          simp only [has_pair, Bool.or_eq_false_iff] at hb
          exact hb.2
      have ih2 := ih hb2
      rw [hd] at ih2
      rw [List.cons_append, hd]
      simp only [strip_comments, hne, if_true, hnot, Bool.false_eq_true, if_false, ih2,
        List.length_cons, List.replicate_succ, List.cons_append]

/-- The scan of a line that is split into its comments and the text outside
them blanks the comments and leaves the flag the pieces give. -/
theorem strip_parts (ln : Nat) (hl : ln ≠ 0) (ps : List CPart) :
    ∀ inc, comment_parts (inc != 0) ps = true →
      strip_comments ln inc (cbytes ps) = (flag_after ln inc ps, cblank ps) := by
  induction ps with
  | nil => intro inc _; simp [cbytes, cblank, flag_after, strip_nil]
  | cons p ps ih =>
    intro inc hv
    cases p with
    | text t =>
      simp only [comment_parts, Bool.and_eq_true, Bool.not_eq_true', bne_eq_false_iff_eq] at hv
      obtain ⟨⟨⟨hinc, ht⟩, hnext⟩, hrest⟩ := hv
      subst hinc
      have hr : cbytes ps = [] ∨ ∃ r1, cbytes ps = '/' :: '*' :: r1 := by
        cases ps with
        | nil => left; rfl
        | cons q qs =>
          cases q with
          | text _ => simp at hnext
          | comment o b c =>
            right
            simp only [comment_parts, Bool.and_eq_true, beq_iff_eq, Bool.not_false] at hrest
            have ho : o = true := hrest.1.1.1
            subst ho
            exact ⟨b ++ ((if c then ['*', '/'] else []) ++ cbytes qs),
              by simp [cbytes, CPart.bytes]⟩
      have ih2 := ih 0 (by simpa using hrest)
      simp only [cbytes, cblank, flag_after, CPart.bytes, CPart.blank]
      rw [strip_text ln t _ ht hr, ih2]
    | comment o b c =>
      simp only [comment_parts, Bool.and_eq_true, beq_iff_eq, Bool.not_eq_true',
        Bool.or_eq_true, List.isEmpty_iff] at hv
      obtain ⟨⟨⟨ho, hb⟩, hc⟩, hrest⟩ := hv
      have ih0 := ih 0 (by simpa using hrest)
      -- the body and what follows it, read with a flag that is set
      have body : ∀ k, k ≠ 0 →
          strip_comments ln k (b ++ ((if c then ['*', '/'] else []) ++ cbytes ps)) =
            (flag_after ln (if c then 0 else k) ps,
              List.replicate (b.length + (if c then 2 else 0)) ' ' ++ cblank ps) := by
        intro k hk
        cases c with
        | true =>
          show strip_comments ln k (b ++ ('*' :: '/' :: cbytes ps)) =
            (flag_after ln 0 ps, List.replicate (b.length + 2) ' ' ++ cblank ps)
          rw [strip_body ln k hk b _ hb (Or.inr ⟨_, rfl⟩), strip_close ln k hk, ih0,
            List.replicate_add]
          simp only [List.append_assoc]
          rfl
        | false =>
          have hps : ps = [] := by simpa using hc
          subst hps
          rw [strip_body ln k hk b _ hb (Or.inl (by simp [cbytes]))]
          simp [cbytes, cblank, flag_after, strip_nil]
      cases o with
      | true =>
        have hinc : inc = 0 := by simpa using ho
        subst hinc
        simp only [cbytes, cblank, flag_after, CPart.bytes, CPart.blank, if_true,
          List.cons_append, List.nil_append, List.append_assoc]
        rw [strip_open, body ln hl]
        cases c
        · simp only [Bool.false_eq_true, if_false, List.length_cons, List.length_append,
            List.length_nil, Nat.add_zero]
          rfl
        · simp only [if_true, List.length_cons, List.length_append, List.length_nil]
          rfl
      | false =>
        have hinc : inc ≠ 0 := by simpa using ho
        simp only [cbytes, cblank, flag_after, CPart.bytes, CPart.blank, Bool.false_eq_true,
          if_false, List.nil_append, List.append_assoc]
        rw [body inc hinc]
        cases c
        · simp only [Bool.false_eq_true, if_false, List.length_cons, List.length_append,
            List.length_nil, Nat.add_zero]
        · simp only [if_true, List.length_cons, List.length_append, List.length_nil]

/-- A line that holds the pair `a b` splits at the first place it stands. -/
theorem has_pair_split (a b : Char) (l : List Char) :
    has_pair a b l = true →
      ∃ t r, l = t ++ a :: b :: r ∧ has_pair a b t = false := by
  induction l with
  | nil => intro h; simp [has_pair] at h
  | cons c l ih =>
    intro h
    cases l with
    | nil => simp [has_pair] at h
    | cons d l =>
      by_cases hcd : c = a ∧ d = b
      · exact ⟨[], l, by simp [hcd.1, hcd.2], rfl⟩
      · have h2 : has_pair a b (d :: l) = true := by
          simp only [has_pair, Bool.or_eq_true, Bool.and_eq_true, beq_iff_eq] at h
          rcases h with h | h
          · exact absurd h hcd
          · exact h
        obtain ⟨t, r, hl, ht⟩ := ih h2
        refine ⟨c :: t, r, by simp [hl], ?_⟩
        cases t with
        | nil => rfl
        | cons d1 t1 =>
          simp only [List.cons_append, List.cons.injEq] at hl
          have hd1 : d1 = d := hl.1.symm
          subst hd1
          simp only [has_pair, Bool.or_eq_false_iff, Bool.and_eq_false_iff, beq_eq_false_iff_ne]
          refine ⟨?_, ht⟩
          by_cases hc : c = a
          · right; intro hd; exact hcd ⟨hc, hd⟩
          · left; exact hc

/-- Every line splits into its comments and the text outside them, whether it
starts inside a comment or outside. -/
theorem exists_parts (n : Nat) :
    ∀ (line : List Char) (inside : Bool), line.length ≤ n →
      ∃ ps, comment_parts inside ps = true ∧ cbytes ps = line := by
  induction n with
  | zero =>
    intro line inside hn
    have : line = [] := List.length_eq_zero.mp (Nat.le_zero.mp hn)
    exact ⟨[], rfl, by simp [cbytes, this]⟩
  | succ n ih =>
    -- a comment whose body starts at `r`
    have inner : ∀ (r : List Char) (o : Bool), r.length ≤ n + 1 →
        ∃ b c qs, comment_parts (!o) (.comment o b c :: qs) = true ∧
          b ++ ((if c then ['*', '/'] else []) ++ cbytes qs) = r := by
      intro r o hr
      cases hp : has_pair '*' '/' r with
      | false =>
        exact ⟨r, false, [], by simp [comment_parts, hp], by simp [cbytes]⟩
      | true =>
        obtain ⟨b, r1, hrb, hb⟩ := has_pair_split '*' '/' r hp
        have hlen : r1.length ≤ n := by
          have := congrArg List.length hrb
          simp at this
          omega
        obtain ⟨qs, hq, hqs⟩ := ih r1 false hlen
        exact ⟨b, true, qs, by simp [comment_parts, hb, hq], by simp [hqs, hrb]⟩
    intro line inside hn
    cases inside with
    | true =>
      obtain ⟨b, c, qs, hv, hbytes⟩ := inner line false hn
      exact ⟨.comment false b c :: qs, by simpa using hv, by simp [cbytes, CPart.bytes, hbytes]⟩
    | false =>
      cases hp : has_pair '/' '*' line with
      | false =>
        exact ⟨[.text line], by simp [comment_parts, hp], by simp [cbytes, CPart.bytes]⟩
      | true =>
        obtain ⟨t, r, hlt, ht⟩ := has_pair_split '/' '*' line hp
        have hlen : r.length ≤ n + 1 := by
          have := congrArg List.length hlt
          simp at this
          omega
        obtain ⟨b, c, qs, hv, hbytes⟩ := inner r true hlen
        refine ⟨.text t :: .comment true b c :: qs, ?_, ?_⟩
        · simp only [comment_parts, Bool.not_false, Bool.true_and, ht, Bool.and_true] at hv ⊢
          simpa using hv
        · simp [cbytes, CPart.bytes, hbytes, hlt]

/-- The flag is set after the line exactly when the line ends inside a
comment. -/
theorem flag_after_ends (ln : Nat) (hl : ln ≠ 0) (ps : List CPart) :
    ∀ inc, comment_parts (inc != 0) ps = true →
      (flag_after ln inc ps != 0) = ends_inside (inc != 0) ps := by
  induction ps with
  | nil => intro inc _; rfl
  | cons p ps ih =>
    intro inc hv
    cases p with
    | text t =>
      simp only [comment_parts, Bool.and_eq_true, Bool.not_eq_true', bne_eq_false_iff_eq] at hv
      obtain ⟨⟨⟨hinc, _⟩, _⟩, hrest⟩ := hv
      subst hinc
      simpa [flag_after, ends_inside] using ih 0 (by simpa using hrest)
    | comment o b c =>
      simp only [comment_parts, Bool.and_eq_true, beq_iff_eq, Bool.not_eq_true',
        Bool.or_eq_true, List.isEmpty_iff] at hv
      obtain ⟨⟨⟨ho, _⟩, hc⟩, hrest⟩ := hv
      cases c with
      | true => simpa [flag_after, ends_inside] using ih 0 (by simpa using hrest)
      | false =>
        have hps : ps = [] := by simpa using hc
        subst hps
        cases o with
        | true => simp [flag_after, ends_inside, hl]
        | false =>
          have hinc : inc ≠ 0 := by simpa using ho
          simp [flag_after, ends_inside, hinc]

/-- The scan keeps the length of the line. -/
theorem strip_length (ln : Nat) (n : Nat) :
    ∀ (line : List Char) (inc : Nat), line.length ≤ n →
      (strip_comments ln inc line).2.length = line.length := by
  induction n with
  | zero =>
    intro line inc hn
    have : line = [] := List.length_eq_zero.mp (Nat.le_zero.mp hn)
    subst this
    simp [strip_comments]
  | succ n ih =>
    intro line inc hn
    match line, hn with
    | [], _ => simp [strip_comments]
    | [c], _ => simp only [strip_comments]; split <;> rfl
    | c :: d :: cs, hn =>
      have h1 : (d :: cs).length ≤ n := by simp at hn ⊢; omega
      have h2 : cs.length ≤ n := by simp at hn ⊢; omega
      simp only [strip_comments]
      split <;> split <;> simp [ih _ _ h1, ih _ _ h2]

/-- Inside a comment, a line with no `*/` is blanked and the flag is kept. -/
theorem strip_inside (ln inc : Nat) (hinc : inc ≠ 0) (line : List Char)
    (h : has_pair '*' '/' line = false) :
    strip_comments ln inc line = (inc, List.replicate line.length ' ') := by
  have := strip_body ln inc hinc line [] h (Or.inl rfl)
  simpa [strip_nil] using this

/-- Outside a comment, a line with no `/*` is left as it is. -/
theorem strip_outside (ln : Nat) (line : List Char) (h : has_pair '/' '*' line = false) :
    strip_comments ln 0 line = (0, line) := by
  have := strip_text ln line [] h (Or.inl rfl)
  simpa [strip_nil] using this

/-- The scan puts no newline before the last byte of a line that has none
there. -/
theorem strip_newline (ln : Nat) (n : Nat) :
    ∀ (line : List Char) (inc : Nat), line.length ≤ n → '\n' ∉ line.dropLast →
      '\n' ∉ (strip_comments ln inc line).2.dropLast := by
  induction n with
  | zero =>
    intro line inc hn _
    have : line = [] := List.length_eq_zero.mp (Nat.le_zero.mp hn)
    subst this
    simp [strip_comments]
  | succ n ih =>
    intro line inc hn hline
    match line, hn, hline with
    | [], _, _ => simp [strip_comments]
    | [c], _, _ => simp only [strip_comments]; split <;> simp
    | c :: d :: cs, hn, hline =>
      have h1 : (d :: cs).length ≤ n := by simp at hn ⊢; omega
      have h2 : cs.length ≤ n := by simp at hn ⊢; omega
      have hc : '\n' ≠ c := by
        intro hc
        exact hline (by simp only [List.dropLast, List.mem_cons]; exact Or.inl hc)
      have hd : '\n' ∉ (d :: cs).dropLast := by
        intro hd
        exact hline (by simp only [List.dropLast, List.mem_cons]; exact Or.inr hd)
      have hcs : '\n' ∉ cs.dropLast := by
        intro hx
        cases cs with
        | nil => simp at hx
        | cons x xs => exact hd (by simp only [List.dropLast, List.mem_cons]; exact Or.inr hx)
      -- a blank, or the byte `c`, in front of a scanned tail that is not empty
      have front : ∀ (x : Char) (k : Nat), '\n' ≠ x →
          '\n' ∉ (x :: (strip_comments ln k (d :: cs)).2).dropLast := by
        intro x k hx
        have hlen := strip_length ln n (d :: cs) k h1
        cases hr : (strip_comments ln k (d :: cs)).2 with
        | nil => rw [hr] at hlen; simp at hlen
        | cons y ys =>
          have := ih (d :: cs) k h1 hd
          rw [hr] at this
          simp only [List.dropLast, List.mem_cons, not_or]
          exact ⟨hx, this⟩
      -- two blanks in front of a scanned tail
      have pair : ∀ (k : Nat), '\n' ∉ (' ' :: ' ' :: (strip_comments ln k cs).2).dropLast := by
        intro k
        have := ih cs k h2 hcs
        cases hr : (strip_comments ln k cs).2 with
        | nil => simp [List.dropLast]
        | cons y ys =>
          rw [hr] at this
          simp only [List.dropLast, List.mem_cons, not_or]
          exact ⟨by decide, by decide, this⟩
      simp only [strip_comments]
      split
      · split
        · exact pair 0
        · exact front ' ' inc (by decide)
      · split
        · exact pair ln
        · exact front c inc hc

/-- The buffer without its trailing white space, as `trim_line` cuts it. -/
theorem trim_line_spec (buf : List Char) :
    ∃ t ws, buf = t ++ ws ∧ ws.all isspace = true ∧
      (∀ c, t.getLast? = some c → isspace c = false) ∧ trim_line buf = t ++ ['\n'] := by
  refine ⟨(buf.reverse.dropWhile isspace).reverse, (buf.reverse.takeWhile isspace).reverse,
    ?_, ?_, ?_, rfl⟩
  · rw [← List.reverse_append, List.takeWhile_append_dropWhile, List.reverse_reverse]
  · simp only [List.all_reverse, List.all_eq_true]
    intro c hc
    exact List.mem_takeWhile_imp hc
  · intro c hc
    rw [List.getLast?_reverse] at hc
    have := List.head?_dropWhile_not isspace buf.reverse
    rw [hc] at this
    simpa using this

/-! ## The claims on comments and lines -/

/-- C16. The comment scan of lines 585-604 maps the flag `incomment` and a
line, read as line number `lineno` of its file, to a new flag and a new line
such that: the new line is as long as the line; every line splits into pieces,
its comments (the delimiters included, the body of each running up to the first
`*/` after the two bytes of its `/*`) and the text outside them; for every such
split the new line has a space for each byte of a comment and the byte of the
line elsewhere, and the new flag is set exactly when the line ends inside a
comment; and a line read with the flag set that holds no `*/` is blanked from
end to end with the flag as it was. -/
theorem comment_scan (lineno : Nat) (hl : lineno ≠ 0) (incomment : Nat) (line : List Char) :
    (strip_comments lineno incomment line).2.length = line.length ∧
    (∃ ps, comment_parts (incomment != 0) ps = true ∧ cbytes ps = line) ∧
    (∀ ps, comment_parts (incomment != 0) ps = true → cbytes ps = line →
      strip_comments lineno incomment line = (flag_after lineno incomment ps, cblank ps) ∧
      ((strip_comments lineno incomment line).1 != 0) = ends_inside (incomment != 0) ps) ∧
    (incomment ≠ 0 → has_pair '*' '/' line = false →
      strip_comments lineno incomment line = (incomment, List.replicate line.length ' ')) := by
  refine ⟨strip_length lineno _ line incomment (Nat.le_refl _),
    exists_parts _ line _ (Nat.le_refl _), ?_, ?_⟩
  · intro ps hv hb
    have h := strip_parts lineno hl ps incomment hv
    rw [hb] at h
    refine ⟨h, ?_⟩
    rw [h]
    exact flag_after_ends lineno hl ps incomment hv
  · intro hinc hp
    exact strip_inside lineno incomment hinc line hp

theorem comment_scan_witness :
    3 ≠ 0 ∧
    strip_comments 3 0 "a /*/ b */ c /* d".toList = (3, "a          c     ".toList) ∧
    ((strip_comments 3 0 "a /*/ b */ c /* d".toList).1 != 0) = true := by
  have h := (comment_scan 3 (by decide) 0 "a /*/ b */ c /* d".toList).2.2.1
    [.text "a ".toList, .comment true "/ b ".toList true, .text " c ".toList,
      .comment true " d".toList false] (by decide) (by decide)
  exact ⟨by decide, h.1.trans (by decide), h.2.trans (by decide)⟩

/-- C17. A line that has no newline before its last byte, as `fgets` gives
it, goes on from the comment scan as the scanned line without its trailing
white space, with one newline after it: the scanned line is `t ++ ws` with
`ws` all white space and the last byte of `t`, if any, not white space, the
line handed on is `t` followed by a newline, and `t` holds no newline. A line
with no newline at all thus gains one. -/
theorem line_trimmed (lineno incomment : Nat) (line : List Char)
    (hline : '\n' ∉ line.dropLast) :
    ∃ t ws, (strip_comments lineno incomment line).2 = t ++ ws ∧ ws.all isspace = true ∧
      (∀ c, t.getLast? = some c → isspace c = false) ∧
      trim_line (strip_comments lineno incomment line).2 = t ++ ['\n'] ∧ '\n' ∉ t := by
  obtain ⟨t, ws, hb, hws, hlast, htrim⟩ := trim_line_spec (strip_comments lineno incomment line).2
  refine ⟨t, ws, hb, hws, hlast, htrim, ?_⟩
  have hq := strip_newline lineno _ line incomment (Nat.le_refl _) hline
  rw [hb] at hq
  intro hmem
  cases ws with
  | nil =>
    rw [List.append_nil] at hq
    rcases List.eq_nil_or_concat t with h0 | ⟨t0, x, hx⟩
    · rw [h0] at hmem; simp at hmem
    · rw [hx] at hq hmem hlast
      simp only [List.concat_eq_append, List.dropLast_concat] at hq
      simp only [List.concat_eq_append, List.mem_append, List.mem_singleton] at hmem
      rcases hmem with hmem | hmem
      · exact hq hmem
      · have := hlast x (by simp)
        rw [← hmem] at this
        exact absurd this (by decide)
  | cons w ws =>
    rw [List.dropLast_append_of_ne_nil _ (by simp)] at hq
    exact hq (List.mem_append_left _ hmem)

theorem line_trimmed_witness :
    ('\n' ∉ ("x = 1; /* one */ \t\n".toList).dropLast ∧
      trim_line (strip_comments 1 0 "x = 1; /* one */ \t\n".toList).2 = "x = 1;\n".toList) ∧
    ('\n' ∉ ("last".toList).dropLast ∧
      trim_line (strip_comments 2 0 "last".toList).2 = "last\n".toList) ∧
    ∃ t ws, (strip_comments 1 0 "x = 1; /* one */ \t\n".toList).2 = t ++ ws ∧
      ws.all isspace = true ∧ (∀ c, t.getLast? = some c → isspace c = false) ∧
      trim_line (strip_comments 1 0 "x = 1; /* one */ \t\n".toList).2 = t ++ ['\n'] ∧
      '\n' ∉ t :=
  ⟨⟨by decide, by decide⟩, ⟨by decide, by decide⟩,
    line_trimmed 1 0 "x = 1; /* one */ \t\n".toList (by decide)⟩

/-! ## The end of the input inside a comment -/

theorem check_trailing_error (ip : List Char) (p : Parsed) (e : Err)
    (h : check_trailing ip p = .error e) : e = .TrailingText := by
  unfold check_trailing at h
  simp only at h
  split at h
  · simp only [Except.error.injEq] at h
    exact h.symm
  · exact absurd h (by simp)

theorem parse_name_error (ip : List Char) (e : Err) (h : parse_name ip = .error e) :
    e = .MissingName ∨ e = .IllegalChar := by
  unfold parse_name at h
  split at h
  · simp only [Except.error.injEq] at h
    exact Or.inl h.symm
  · simp only at h
    split at h
    · simp only [Except.error.injEq] at h
      exact Or.inr h.symm
    · exact absurd h (by simp)

theorem parse_value_error (ip : List Char) (e : Err) (h : parse_value ip = .error e) :
    e = .UnterminatedValue := by
  unfold parse_value at h
  split at h
  · exact absurd h (by simp)
  · simp only at h
    split at h <;> split at h <;>
      first
        | exact (Except.error.inj h).symm
        | exact absurd h (by simp)

/-- The errors of the parse of a control line. -/
theorem directive_parse_error (ibuf : List Char) (e : Err)
    (h : directive_parse ibuf = .error e) :
    e = .MissingName ∨ e = .IllegalChar ∨ e = .UnterminatedValue ∨ e = .TrailingText := by
  have ct : ∀ ip p, (check_trailing ip p).map some = .error e → e = .TrailingText := by
    intro ip p hc
    cases hx : check_trailing ip p with
    | error e1 =>
      rw [hx] at hc
      simp only [Except.map, Except.error.injEq] at hc
      rw [← hc]
      exact check_trailing_error ip p e1 hx
    | ok q => rw [hx] at hc; simp [Except.map] at hc
  unfold directive_parse at h
  split at h
  · exact absurd h (by simp)
  · simp only at h
    split at h
    · split at h
      · rename_i e1 hn
        simp only [Except.error.injEq] at h
        rw [← h]
        rcases parse_name_error _ e1 hn with h1 | h1
        · exact Or.inl h1
        · exact Or.inr (Or.inl h1)
      · split at h
        · split at h
          · rename_i e1 hv
            simp only [Except.error.injEq] at h
            rw [← h]
            exact Or.inr (Or.inr (Or.inl (parse_value_error _ e1 hv)))
          · exact Or.inr (Or.inr (Or.inr (ct _ _ h)))
        · exact Or.inr (Or.inr (Or.inr (ct _ _ h)))
    · exact Or.inr (Or.inr (Or.inr (ct _ _ h)))

/-- The errors of `directive()`. -/
theorem directive_error (s : Tables) (lineno : Nat) (ibuf : List Char) (e : Err)
    (h : directive s lineno ibuf = .error e) :
    e = .MissingName ∨ e = .IllegalChar ∨ e = .UnterminatedValue ∨ e = .TrailingText ∨
      (∃ op, e = .UnmatchedConditional op) ∨ e = .NestedConditional ∨ e = .Redefinition := by
  unfold directive at h
  cases hp : directive_parse ibuf with
  | error e1 =>
    rw [hp] at h
    have he : e1 = e := by simpa using h
    subst he
    rcases directive_parse_error ibuf e1 hp with h1 | h1 | h1 | h1
    · exact Or.inl h1
    · exact Or.inr (Or.inl h1)
    · exact Or.inr (Or.inr (Or.inl h1))
    · exact Or.inr (Or.inr (Or.inr (Or.inl h1)))
  | ok r =>
    rw [hp] at h
    cases r with
    | none => simp at h
    | some p =>
      simp only at h
      exact Or.inr (Or.inr (Or.inr (Or.inr (act_error_kind s lineno p e h))))

theorem directive_not_comment_error (s : Tables) (lineno : Nat) (ibuf : List Char) (k : Nat) :
    directive s lineno ibuf ≠ .error (.UnterminatedComment k) := by
  intro h
  rcases directive_error s lineno ibuf _ h with h1 | h1 | h1 | h1 | ⟨_, h1⟩ | h1 | h1 <;>
    exact absurd h1 (by simp)

theorem process_halt (e : Env) (s : State) (ibuf : List Char) (o : Outcome)
    (h : process e s ibuf = .halt o) : o = .overrun s.out := by
  unfold process at h
  split at h
  · split at h
    · exact absurd h (by simp)
    · simp only [Next.halt.injEq] at h
      exact h.symm
  · exact absurd h (by simp)

theorem do_include_not_comment_error (e : Env) (s : State) (ibuf : List Char) (k : Nat)
    (out : List (List Char)) :
    do_include e s ibuf ≠ .halt (.fatal (.UnterminatedComment k) out) := by
  intro h
  unfold do_include at h
  split at h
  · exact absurd h (by simp)
  · simp only at h
    split at h
    · exact absurd h (by simp)
    · split at h
      · exact absurd h (by simp)
      · split at h
        · exact absurd h (by simp)
        · split at h
          · exact absurd h (by simp)
          · split at h
            · exact absurd h (by simp)
            · split at h
              · exact absurd h (by simp)
              · exact absurd h (by simp)

theorem do_include_incomment (e : Env) (s s1 : State) (ibuf : List Char)
    (h : do_include e s ibuf = .cont s1) : s1.incomment = s.incomment := by
  unfold do_include at h
  split at h
  · simp only [Next.cont.injEq] at h
    subst h
    rfl
  · simp only at h
    split at h
    · exact absurd h (by simp)
    · split at h
      · exact absurd h (by simp)
      · split at h
        · exact absurd h (by simp)
        · split at h
          · exact absurd h (by simp)
          · split at h
            · exact absurd h (by simp)
            · split at h
              · exact absurd h (by simp)
              · simp only [Next.cont.injEq] at h
                subst h
                rfl

/-- The loop stops on the comment error only at the end of the top level
file, with the flag set, and reports the flag. -/
theorem step_comment_error (e : Env) (s : State) (k : Nat) (out : List (List Char))
    (h : step e s = .halt (.fatal (.UnterminatedComment k) out)) :
    s.currfile.fin = [] ∧ s.below = [] ∧ s.incomment = k ∧ k ≠ 0 ∧ out = s.out := by
  unfold step at h
  split at h
  · rename_i hfin
    split at h
    · rename_i hb
      simp only [Next.halt.injEq, finish] at h
      split at h
      · rename_i hk
        simp only [Outcome.fatal.injEq, Err.UnterminatedComment.injEq] at h
        refine ⟨hfin, hb, h.1, ?_, h.2.symm⟩
        rw [← h.1]
        simpa using hk
      · split at h <;> exact absurd h (by simp)
    · exact absurd h (by simp)
  · simp only at h
    split at h
    · exact absurd h (by simp)
    · split at h
      · split at h
        · exact absurd h (do_include_not_comment_error e _ _ k out)
        · split at h
          · rename_i err hd
            simp only [Next.halt.injEq, Outcome.fatal.injEq] at h
            rw [h.1] at hd
            exact absurd hd (directive_not_comment_error _ _ _ k)
          · split at h
            · split at h
              · have := process_halt e _ _ _ h
                exact absurd this (by simp)
              · exact absurd h (by simp)
            · exact absurd h (by simp)
      · split at h
        · exact absurd h (by simp)
        · have := process_halt e _ _ _ h
          exact absurd this (by simp)

/-- The flag after a pass that goes on: the flag the scan of the line read
gives, and the flag as it was when the pass returns to the file below. -/
theorem step_incomment (e : Env) (s s1 : State) (h : step e s = .cont s1) :
    s1.incomment =
      match s.currfile.fin with
      | [] => s.incomment
      | l :: _ => (strip_comments (s.currfile.lineno + 1) s.incomment l).1 := by
  unfold step at h
  split at h
  · split at h
    · exact absurd h (by simp)
    · simp only [Next.cont.injEq] at h
      subst h
      rfl
  · simp only at h ⊢
    split at h
    · simp only [Next.cont.injEq] at h
      subst h
      rfl
    · split at h
      · split at h
        · exact do_include_incomment e _ s1 _ h
        · split at h
          · exact absurd h (by simp)
          · split at h
            · split at h
              · exact (process_frames e _ s1 _ h).2.2.2.2
              · exact absurd h (by simp)
            · simp only [Next.cont.injEq] at h
              subst h
              rfl
      · split at h
        · simp only [Next.cont.injEq] at h
          subst h
          rfl
        · exact (process_frames e _ s1 _ h).2.2.2.2

theorem trim_line_blank (n : Nat) : trim_line (List.replicate n ' ') = ['\n'] := by
  have h := (takeWhile_whole isspace (List.replicate n ' ') (by
    intro c hc
    rw [List.eq_of_mem_replicate hc]
    decide)).2
  simp [trim_line, List.reverse_replicate, h]

/-- The pass on a line that lies inside a comment from end to end: the line
is dropped (a newline is printed with the markers) and the flag stays. -/
theorem step_inside (e : Env) (s : State) (l : List Char) (rest : List (List Char))
    (hfin : s.currfile.fin = l :: rest) (hk : s.incomment ≠ 0)
    (hl : has_pair '*' '/' l = false) :
    step e s = .cont { s with
      currfile := { s.currfile with fin := rest, lineno := s.currfile.lineno + 1 },
      out := put_c e s.out ['\n'] } := by
  have hne : (s.incomment != 0) = true := by simpa [bne_iff_ne] using hk
  unfold step
  rw [hfin]
  simp only [strip_inside _ _ hk l hl, trim_line_blank, cur_cons, hne, beq_self_eq_true,
    Bool.and_self, if_true]

/-- With a comment open and no `*/` in the lines left, in the current file
and in the files below it, the run reads to the end of the top level file and
stops there on the comment error, with the flag as the line number. -/
theorem run_inside (e : Env) : ∀ (n : Nat) (s : State), pending s = n → s.incomment ≠ 0 →
    (∀ l ∈ s.currfile.fin, has_pair '*' '/' l = false) →
    (∀ f ∈ s.below, ∀ l ∈ f.fin, has_pair '*' '/' l = false) →
    ∃ out, run e (n + 1) s = .fatal (.UnterminatedComment s.incomment) out := by
  intro n
  induction n with
  | zero =>
    intro s hp hk _ _
    have hfin : s.currfile.fin = [] := by
      simp only [pending] at hp
      exact List.length_eq_zero.mp (by omega)
    have hb : s.below = [] := by
      cases hbl : s.below with
      | nil => rfl
      | cons f fs =>
        simp only [pending, hbl, List.map_cons, List.sum_cons] at hp
        omega
    have hne : (s.incomment != 0) = true := by simpa [bne_iff_ne] using hk
    exact ⟨s.out, by simp [run, step, hfin, hb, finish, hne]⟩
  | succ m ih =>
    intro s hp hk hc hbl
    cases hfin : s.currfile.fin with
    | nil =>
      cases hb : s.below with
      | nil => simp [pending, hfin, hb] at hp
      | cons f fs =>
        have hstep : step e s = .cont { s with
            currfile := f, below := fs, out := put_c e s.out (marker f) } := by
          simp [step, hfin, hb]
        obtain ⟨out, hrun⟩ := ih { s with
            currfile := f, below := fs, out := put_c e s.out (marker f) }
          (by
            simp only [pending, hfin, hb, List.map_cons, List.sum_cons, List.length_nil] at hp ⊢
            omega)
          hk
          (fun l hl => hbl f (by simp [hb]) l hl)
          (fun g hg l hl => hbl g (by simp [hb, hg]) l hl)
        exact ⟨out, by simp only [run, hstep]; exact hrun⟩
    | cons l rest =>
      have hstep := step_inside e s l rest hfin hk (hc l (by simp [hfin]))
      obtain ⟨out, hrun⟩ := ih { s with
          currfile := { s.currfile with fin := rest, lineno := s.currfile.lineno + 1 },
          out := put_c e s.out ['\n'] }
        (by
          simp only [pending, hfin, List.length_cons] at hp ⊢
          omega)
        hk
        (fun x hx => hc x (by simp [hfin, hx]))
        hbl
      exact ⟨out, by simp only [run, hstep]; exact hrun⟩

/-- A run that stops with an outcome stops at a state it reaches. -/
theorem run_halts_at (e : Env) (o : Outcome) (ho : o ≠ .nofuel) :
    ∀ (fuel : Nat) (s : State), Reach e s → run e fuel s = o →
      ∃ s1, Reach e s1 ∧ step e s1 = .halt o := by
  intro fuel
  induction fuel with
  | zero => intro s _ h; exact absurd h.symm ho
  | succ f ih =>
    intro s hr h
    simp only [run] at h
    cases hs : step e s with
    | cont s1 =>
      rw [hs] at h
      exact ih s1 (Reach.next s s1 hr hs) h
    | halt o1 =>
      rw [hs] at h
      simp only at h
      subst h
      exact ⟨s, hr, hs⟩

theorem define_options_nil (t : Tables) : define_options t [] = .ok t := rfl

theorem define_options_cons (t : Tables) (a : List Char) (args : List (List Char)) :
    define_options t (a :: args) =
      match define_option t 0 a with
      | .error err => .error err
      | .ok t1 => define_options t1 args := rfl

theorem define_options_error (args : List (List Char)) :
    ∀ (t : Tables) (err : Err) (k : Nat), define_options t args = .error err →
      err ≠ .UnterminatedComment k := by
  induction args with
  | nil =>
    intro t err k h
    rw [define_options_nil] at h
    exact absurd h (by simp)
  | cons a args ih =>
    intro t err k h
    rw [define_options_cons] at h
    split at h
    · rename_i e1 hd
      simp only [Except.error.injEq] at h
      subst h
      intro he
      subst he
      unfold define_option at hd
      cases hx : directive t 0 ("#define ".toList ++ subst_eq a ++ ['\n']) with
      | error e2 =>
        rw [hx] at hd
        simp only [Except.map, Except.error.injEq] at hd
        subst hd
        exact directive_not_comment_error _ _ _ k hx
      | ok r => rw [hx] at hd; simp [Except.map] at hd
    · exact ih _ err k h

/-- A run of `main()` that ends on the comment error reached the end of the
top level file with the flag set, and reports the flag. -/
theorem main_comment_error (e : Env) (fuel k : Nat) (out : List (List Char))
    (h : main e fuel = .fatal (.UnterminatedComment k) out) :
    ∃ s, Reach e s ∧ s.currfile.fin = [] ∧ s.below = [] ∧ s.incomment = k ∧ k ≠ 0 ∧
      out = s.out := by
  unfold main at h
  cases hs : start e with
  | error err =>
    rw [hs] at h
    simp only [Outcome.fatal.injEq] at h
    exfalso
    unfold start at hs
    split at hs
    · rename_i e1 hd
      simp only [Except.error.injEq] at hs
      rw [hs, h.1] at hd
      exact define_options_error _ _ _ k hd rfl
    · simp only at hs
      split at hs
      · simp only [Except.error.injEq] at hs
        rw [h.1] at hs
        exact absurd hs (by simp)
      · exact absurd hs (by simp)
  | ok s0 =>
    rw [hs] at h
    simp only at h
    obtain ⟨s1, hr, hstep⟩ := run_halts_at e _ (by simp) fuel s0 (Reach.first s0 hs) h
    exact ⟨s1, hr, step_comment_error e s1 k out hstep⟩

theorem flag_after_open (ln : Nat) (b : List Char) (ps : List CPart) :
    ∀ inc, flag_after ln inc (ps ++ [.comment true b false]) = ln := by
  induction ps with
  | nil => intro inc; rfl
  | cons p ps ih =>
    intro inc
    cases p with
    | text t => exact ih inc
    | comment o b1 c => exact ih _

/-- C15. The comment error comes with the flag `incomment` as line number, at
the end of the top level file and nowhere else: a pass that finds the end of
the top level file with the flag set stops on it; a run of `main()` that ends
on it reached the end of the top level file with the flag set to the number
reported, so a run that ends outside a comment never ends on it. The flag
after a pass is the flag the scan of the line read gives: the number of that
line in its file when the line ends in a comment opened on it, the flag as it
was when the line lies inside a comment from end to end; a return to the file
below leaves it. And from a state with the flag set, when no line left in the
current file and in the files below holds a `*/`, the run ends on the comment
error with that flag as line number. -/
theorem unterminated_comment (e : Env) :
    (∀ s : State, s.currfile.fin = [] → s.below = [] → s.incomment ≠ 0 →
      step e s = .halt (.fatal (.UnterminatedComment s.incomment) s.out)) ∧
    (∀ (fuel k : Nat) (out : List (List Char)),
      main e fuel = .fatal (.UnterminatedComment k) out →
      ∃ s, Reach e s ∧ s.currfile.fin = [] ∧ s.below = [] ∧ s.incomment = k ∧ k ≠ 0 ∧
        out = s.out) ∧
    (∀ s s1 : State, step e s = .cont s1 →
      (s.currfile.fin = [] → s1.incomment = s.incomment) ∧
      (∀ l rest ps, s.currfile.fin = l :: rest →
        comment_parts (s.incomment != 0) ps = true → cbytes ps = l →
        s1.incomment = flag_after (s.currfile.lineno + 1) s.incomment ps)) ∧
    (∀ (ln inc : Nat) (ps : List CPart) (b : List Char),
      flag_after ln inc (ps ++ [.comment true b false]) = ln ∧
      flag_after ln inc [.comment false b false] = inc) ∧
    (∀ s : State, s.incomment ≠ 0 →
      (∀ l ∈ s.currfile.fin, has_pair '*' '/' l = false) →
      (∀ f ∈ s.below, ∀ l ∈ f.fin, has_pair '*' '/' l = false) →
      ∀ fuel, pending s + 1 ≤ fuel →
        ∃ out, run e fuel s = .fatal (.UnterminatedComment s.incomment) out) := by
  refine ⟨?_, ?_, ?_, ?_, ?_⟩
  · intro s hfin hb hk
    have hne : (s.incomment != 0) = true := by simpa [bne_iff_ne] using hk
    simp [step, hfin, hb, finish, hne]
  · intro fuel k out h
    exact main_comment_error e fuel k out h
  · intro s s1 h
    have hi := step_incomment e s s1 h
    refine ⟨?_, ?_⟩
    · intro hfin
      rw [hfin] at hi
      exact hi
    · intro l rest ps hfin hv hb
      rw [hfin] at hi
      simp only at hi
      have hp := strip_parts (s.currfile.lineno + 1) (Nat.succ_ne_zero _) ps s.incomment hv
      rw [hb] at hp
      rw [hi, hp]
  · intro ln inc ps b
    exact ⟨flag_after_open ln b ps inc, rfl⟩
  · intro s hk hc hb fuel hfuel
    obtain ⟨out, hrun⟩ := run_inside e (pending s) s rfl hk hc hb
    obtain ⟨k, rfl⟩ : ∃ k, fuel = pending s + 1 + k := ⟨fuel - (pending s + 1), by omega⟩
    exact ⟨out, run_add e _ k s _ hrun (by simp)⟩

theorem unterminated_comment_witness :
    main (plain_env ["a\n".toList, "b /* never closed\n".toList, "c\n".toList]) 4 =
      .fatal (.UnterminatedComment 2)
        ["# 1 \"<stdin>\"\n".toList, "a\n".toList, "b\n".toList, "\n".toList] ∧
    main (plain_env ["a /* closed */\n".toList, "b\n".toList]) 3 =
      .exit0 ["# 1 \"<stdin>\"\n".toList, "a\n".toList, "b\n".toList] ∧
    ∃ out, run (plain_env []) 3
        ⟨⟨[], IF_NONE, 0⟩, 0, 2, ⟨"<stdin>".toList, ["c\n".toList, "d\n".toList], 2⟩, [], []⟩ =
      .fatal (.UnterminatedComment 2) out :=
  ⟨by decide, by decide,
    (unterminated_comment (plain_env [])).2.2.2.2
      ⟨⟨[], IF_NONE, 0⟩, 0, 2, ⟨"<stdin>".toList, ["c\n".toList, "d\n".toList], 2⟩, [], []⟩
      (by decide) (by decide) (by decide) 3 (by decide)⟩

/-! ## Lines that are written as they stand -/

/-- A line that ends in a newline with no white space before it is what
`trim_line` gives for it. -/
theorem trim_line_clean (l : List Char) (h1 : l.getLast? = some '\n')
    (h2 : ∀ c, l.dropLast.getLast? = some c → isspace c = false) : trim_line l = l := by
  have hl : l.dropLast ++ ['\n'] = l := List.dropLast_append_getLast? '\n' (by simp [h1])
  have hd : (l.dropLast.reverse).dropWhile isspace = l.dropLast.reverse := by
    cases hr : l.dropLast.reverse with
    | nil => rfl
    | cons c cs =>
      have hc : l.dropLast.getLast? = some c := by
        rw [← List.head?_reverse, hr]
        rfl
      simp [List.dropWhile_cons, h2 c hc]
  have hnl : isspace '\n' = true := by decide
  have : trim_line (l.dropLast ++ ['\n']) = l.dropLast ++ ['\n'] := by
    simp [trim_line, List.dropWhile_cons, hnl, hd]
  rw [hl] at this
  exact this

/-- A token of a line occurs in the line. -/
theorem tok_infix (t : List Char) (segs : List Seg) (h : Seg.tok t ∈ segs) :
    t <:+: texts segs := by
  induction segs with
  | nil => simp at h
  | cons sg ss ih =>
    rcases List.mem_cons.mp h with h1 | h1
    · subst h1
      exact ⟨[], texts ss, by simp [texts, Seg.text]⟩
    · obtain ⟨a, b, hab⟩ := ih h1
      exact ⟨sg.text ++ a, b, by simp [texts, ← hab]⟩

theorem hits_zero (ms : List macro_t) (segs : List Seg)
    (h : ∀ t, Seg.tok t ∈ segs → lookup_value ms t = none) : hits ms segs = 0 := by
  induction segs with
  | nil => rfl
  | cons sg ss ih =>
    have ih2 := ih (fun t ht => h t (List.mem_cons_of_mem _ ht))
    cases sg with
    | chr c => simpa [hits] using ih2
    | tok t =>
      have := h t (List.mem_cons_self _ _)
      simp [hits, this, ih2]

/-- In the default grammar a line in which no active name occurs is left as
it is. -/
theorem do_macro_no_name (ctl : Char) (ms : List macro_t) (hwf : wf_table ms = true)
    (l : List Char) (h : ∀ m ∈ ms, m.len ≠ 0 → ¬ m.name <:+: l) :
    do_macro false ctl ms l = some l := by
  obtain ⟨segs, htk, htx⟩ := exists_tokenized l.length l (Nat.le_refl _)
  have hz : hits ms segs = 0 := by
    apply hits_zero
    intro t ht
    cases hlk : lookup_value ms t with
    | none => rfl
    | some v =>
      exfalso
      simp only [lookup_value, Option.map_eq_some'] at hlk
      obtain ⟨m, hm, _⟩ := hlk
      have hmem := List.mem_of_find?_eq_some hm
      have hact := List.find?_some hm
      simp only [active_named, Bool.and_eq_true, bne_iff_ne, ne_eq, beq_iff_eq] at hact
      have := tok_infix t segs ht
      rw [htx, ← hact.2] at this
      exact h m hmem hact.1 this
  have := do_macro_segs ctl ms hwf segs htk
  rw [substs_of_no_hit ms segs hz, htx] at this
  exact this

/-- In the restricted grammar a line with no control character is left as it
is. -/
theorem do_macro_no_ctl (ctl : Char) (ms : List macro_t) (l : List Char) (h : ctl ∉ l) :
    do_macro true ctl ms l = some l := by
  have := takeWhile_whole (not_start true ctl) l (not_start_restricted ctl l h)
  simp [this.2, do_macro]

theorem process_clean (e : Env) (s : State) (l : List Char)
    (hwf : wf_table s.t.macros = true)
    (h : (if e.restricted then s.t.macros.isEmpty || !l.contains e.ctl
      else s.t.macros.all (fun m => m.len == 0 || !decide (m.name <:+: l))) = true) :
    process e s l = .cont { s with out := s.out ++ [l] } := by
  unfold process
  split
  · rename_i hlen
    have hm : do_macro e.restricted e.ctl s.t.macros l = some l := by
      cases hr : e.restricted with
      | true =>
        rw [hr] at h
        simp only [if_true, Bool.or_eq_true, List.isEmpty_iff, Bool.not_eq_true',
          List.contains_eq_any_beq, List.any_eq_false, beq_iff_eq] at h
        rcases h with h | h
        · rw [h] at hlen; simp at hlen
        · exact do_macro_no_ctl _ _ _ (fun hc => h _ hc rfl)
      | false =>
        rw [hr] at h
        simp only [Bool.false_eq_true, if_false, List.all_eq_true, Bool.or_eq_true, beq_iff_eq,
          Bool.not_eq_true', decide_eq_false_iff_not] at h
        apply do_macro_no_name _ _ hwf
        intro m hm hlen2
        rcases h m hm with h1 | h1
        · exact absurd h1 hlen2
        · exact h1
    rw [hm]
  · rfl

/-- The pass on a clean line, read outside a comment and outside a block
that is left out: the line is written as it stands. -/
theorem step_clean (e : Env) (s : State) (l : List Char) (rest : List (List Char))
    (hfin : s.currfile.fin = l :: rest) (hinc : s.incomment = 0) (hskip : s.skip_if_false = 0)
    (hwf : wf_table s.t.macros = true) (hl : clean_line e s.t.macros l = true) :
    step e s = .cont { s with
      currfile := { s.currfile with fin := rest, lineno := s.currfile.lineno + 1 },
      out := s.out ++ [l] } := by
  simp only [clean_line, Bool.and_eq_true, beq_iff_eq, Bool.not_eq_true', bne_iff_ne, ne_eq] at hl
  obtain ⟨⟨⟨⟨h1, h2⟩, h3⟩, h4⟩, h5⟩ := hl
  have htrim : trim_line l = l := by
    apply trim_line_clean l h1
    intro c hc
    rw [hc] at h2
    simpa using h2
  have hctl : (cur l == e.ctl) = false := by simpa using h4
  obtain ⟨t, skip, inc, cf, below, out⟩ := s
  simp only at hfin hinc hskip hwf h5
  subst hinc hskip
  have hp := process_clean e
    ⟨t, 0, 0, { cf with fin := rest, lineno := cf.lineno + 1 }, below, out⟩ l hwf h5
  unfold step
  simp only [hfin, strip_outside _ l h3, htrim, hctl, bne_self_eq_false,
    Bool.false_and, Bool.false_eq_true, if_false]
  exact hp

theorem run_cont (e : Env) (n : Nat) (s s1 : State) (h : step e s = .cont s1) :
    run e (n + 1) s = run e n s1 := by
  show (match step e s with
    | .cont s1 => run e n s1
    | .halt o => o) = _
  rw [h]

/-- The run over clean lines at the top level, with no comment and no block
open: the lines are written as they stand and the run ends with `exit(0)`. -/
theorem run_clean (e : Env) : ∀ (lines : List (List Char)) (s : State),
    s.currfile.fin = lines → s.below = [] → s.incomment = 0 → s.skip_if_false = 0 →
    s.t.in_if = IF_NONE → wf_table s.t.macros = true →
    (∀ l ∈ lines, clean_line e s.t.macros l = true) →
    run e (lines.length + 1) s = .exit0 (s.out ++ lines) := by
  intro lines
  induction lines with
  | nil =>
    intro s hfin hb hinc _ hif _ _
    simp [run, step, hfin, hb, finish, hinc, hif]
  | cons l rest ih =>
    intro s hfin hb hinc hskip hif hwf hl
    have hstep := step_clean e s l rest hfin hinc hskip hwf (hl l (List.mem_cons_self _ _))
    have := ih { s with
        currfile := { s.currfile with fin := rest, lineno := s.currfile.lineno + 1 },
        out := s.out ++ [l] } rfl hb hinc hskip hif hwf
      (fun x hx => hl x (List.mem_cons_of_mem _ hx))
    rw [List.length_cons, run_cont e _ s _ hstep, this]
    simp

/-! ## The `-D` options -/

theorem check_trailing_value (ip : List Char) (p q : Parsed)
    (h : (check_trailing ip p).map some = .ok (some q)) : q = p := by
  unfold check_trailing at h
  simp only at h
  split at h
  · simp [Except.map] at h
  · simp only [Except.map, Except.ok.injEq, Option.some.injEq] at h
    exact h.symm

theorem directive_parse_define_op (c0 : Char) (x : List Char) (p : Parsed)
    (h : directive_parse (c0 :: ("define".toList ++ x)) = .ok (some p)) : p.op = OP_DEFINE := by
  unfold directive_parse at h
  rw [keyword_define] at h
  simp only at h
  have h1 : (OP_DEFINE != OP_ENDIF && OP_DEFINE != OP_ELSE) = true := by decide
  have h2 : (OP_DEFINE == OP_DEFINE) = true := by decide
  rw [if_pos h1] at h
  split at h
  · exact absurd h (by simp)
  · rw [if_pos h2] at h
    split at h
    · exact absurd h (by simp)
    · rw [check_trailing_value _ _ _ h]

theorem act_define_in_if (s s1 : Tables) (lineno : Nat) (p : Parsed) (r : Int)
    (hop : p.op = OP_DEFINE) (h : directive_act s lineno p = .ok (r, s1)) :
    s1.in_if = s.in_if := by
  have e1 : (OP_DEFINE == OP_ENDIF) = false := by decide
  have e2 : (OP_DEFINE == OP_ELSE) = false := by decide
  have e3 : (OP_DEFINE == OP_IFDEF) = false := by decide
  have e4 : (OP_DEFINE == OP_IFNDEF) = false := by decide
  have e5 : (OP_DEFINE == OP_UNDEF) = false := by decide
  simp only [directive_act, hop, e1, e2, e3, e4, e5, Bool.false_eq_true, if_false,
    Bool.or_self] at h
  split at h
  · simp only [Except.ok.injEq, Prod.mk.injEq] at h
    rw [← h.2]
  · split at h
    · exact absurd h (by simp)
    · simp only [Except.ok.injEq, Prod.mk.injEq] at h
      rw [← h.2]

theorem define_option_inv (t t1 : Tables) (k : Nat) (a : List Char)
    (h : define_option t k a = .ok t1) (hr : Reachable t) :
    Reachable t1 ∧ t1.in_if = t.in_if := by
  unfold define_option at h
  have hline : "#define ".toList ++ subst_eq a ++ ['\n'] =
      '#' :: ("define".toList ++ (' ' :: (subst_eq a ++ ['\n']))) := by simp
  rw [hline] at h
  cases hd : directive t k ('#' :: ("define".toList ++ (' ' :: (subst_eq a ++ ['\n'])))) with
  | error err => rw [hd] at h; simp [Except.map] at h
  | ok rt =>
    obtain ⟨r, t2⟩ := rt
    rw [hd] at h
    simp only [Except.map, Except.ok.injEq] at h
    subst h
    refine ⟨Reachable.call t k _ r t2 hr hd, ?_⟩
    unfold directive at hd
    split at hd
    · exact absurd hd (by simp)
    · simp only [Except.ok.injEq, Prod.mk.injEq] at hd
      rw [← hd.2]
    · rename_i p hp
      exact act_define_in_if t t2 k p r (directive_parse_define_op _ _ p hp) hd

theorem define_options_inv (args : List (List Char)) :
    ∀ (t t1 : Tables), define_options t args = .ok t1 → Reachable t →
      Reachable t1 ∧ t1.in_if = t.in_if := by
  induction args with
  | nil =>
    intro t t1 h hr
    rw [define_options_nil] at h
    simp only [Except.ok.injEq] at h
    subst h
    exact ⟨hr, rfl⟩
  | cons a args ih =>
    intro t t1 h hr
    rw [define_options_cons] at h
    split at h
    · exact absurd h (by simp)
    · rename_i t2 hd
      obtain ⟨hr2, hif2⟩ := define_option_inv t t2 0 a hd hr
      obtain ⟨hr1, hif1⟩ := ih t2 t1 h hr2
      exact ⟨hr1, hif1.trans hif2⟩

/-- The state before the first pass, when the options are taken and the
input opens. -/
theorem start_ok (e : Env) (t : Tables) (lines : List (List Char))
    (ht : define_options ⟨[], IF_NONE, 0⟩ e.defines = .ok t)
    (hin : input_lines e = some lines) :
    start e = .ok ⟨t, 0, 0, ⟨input_name e, lines, 0⟩, [],
      put_c e [] (marker ⟨input_name e, lines, 0⟩)⟩ := by
  unfold start
  rw [ht]
  unfold input_lines at hin
  unfold input_name
  cases hi : e.input with
  | none =>
    rw [hi] at hin
    simp only [Option.some.injEq] at hin
    simp [hin]
  | some name =>
    rw [hi] at hin
    simp only at hin
    simp [hin]

/-! ## The claim on the round trip -/

/-- C18 (as the claim states it, refuted). Files with no control line, read
with no macro defined, are not written byte for byte: white space before the
newline is dropped, a comment is written as blanks, a last line with no
newline gains one, and in plain mode a line that ends inside a comment it
lies in from its start is not written at all. -/
theorem round_trip_not_identical :
    main (shell_env ["a \n".toList]) 2 = .exit0 ["a\n".toList] ∧
    main (plain_env ["a \n".toList]) 2 = .exit0 ["# 1 \"<stdin>\"\n".toList, "a\n".toList] ∧
    main (shell_env ["a /* c */ b\n".toList]) 2 = .exit0 ["a         b\n".toList] ∧
    main (shell_env ["a".toList]) 2 = .exit0 ["a\n".toList] ∧
    main (shell_env ["/* c\n".toList, "d */ e\n".toList]) 3 = .exit0 ["     e\n".toList] := by
  refine ⟨by decide, by decide, by decide, by decide, by decide⟩

/-- C18 (amended). For every run where the `-D` options are taken and the
input opens, and every line of the input is clean (it ends in a newline with
no white space before it, holds no `/*`, does not start with the control
character, and no macro is used in it: in the default grammar no active name
of the table occurs in it, in the restricted grammar the table is empty or
the line holds no control character): the run ends with `exit(0)`, what it
writes in plain mode is the input byte for byte, and what it writes in
annotated mode is the input after the one position marker of the start. -/
theorem round_trip_clean (e : Env) (t : Tables) (lines : List (List Char))
    (ht : define_options ⟨[], IF_NONE, 0⟩ e.defines = .ok t)
    (hin : input_lines e = some lines)
    (hclean : ∀ l ∈ lines, clean_line e t.macros l = true)
    (fuel : Nat) (hfuel : lines.length + 1 ≤ fuel) :
    (e.style ≠ STYLE_C → main e fuel = .exit0 lines) ∧
    (e.style = STYLE_C →
      main e fuel = .exit0 (marker ⟨input_name e, lines, 0⟩ :: lines)) := by
  obtain ⟨hreach, hif⟩ := define_options_inv e.defines _ t ht Reachable.init
  have hwf := (reachable_table_inv hreach).1
  have hrun := run_clean e lines
    ⟨t, 0, 0, ⟨input_name e, lines, 0⟩, [], put_c e [] (marker ⟨input_name e, lines, 0⟩)⟩
    rfl rfl rfl rfl hif hwf hclean
  have hmain : main e (lines.length + 1) =
      .exit0 (put_c e [] (marker ⟨input_name e, lines, 0⟩) ++ lines) := by
    unfold main
    rw [start_ok e t lines ht hin]
    exact hrun
  have hall := main_fuel e fuel _ _ hmain (by simp) hfuel
  constructor
  · intro hs
    have : (e.style == STYLE_C) = false := by simpa using hs
    simpa [put_c, this] using hall
  · intro hs
    have : (e.style == STYLE_C) = true := by simpa using hs
    simpa [put_c, this] using hall

theorem round_trip_clean_witness :
    main ⟨STYLE_SH, '%', false, ["N=3".toList], none,
        ["x = 1;\n".toList, "\n".toList, "  # not a control line here\n".toList],
        [], '/', [], fun _ => none⟩ 4 =
      .exit0 ["x = 1;\n".toList, "\n".toList, "  # not a control line here\n".toList] ∧
    main ⟨STYLE_C, '#', false, ["N=3".toList], none,
        ["x = 1;\n".toList, "\n".toList, "  # not a control line here\n".toList],
        [], '/', [], fun _ => none⟩ 4 =
      .exit0 ["# 1 \"<stdin>\"\n".toList,
        "x = 1;\n".toList, "\n".toList, "  # not a control line here\n".toList] :=
  ⟨(round_trip_clean ⟨STYLE_SH, '%', false, ["N=3".toList], none,
        ["x = 1;\n".toList, "\n".toList, "  # not a control line here\n".toList],
        [], '/', [], fun _ => none⟩
      ⟨[⟨1, "N".toList, "3".toList⟩], IF_NONE, 0⟩ _ (by decide) rfl (by decide) 4
      (by decide)).1 (by decide),
    (round_trip_clean ⟨STYLE_C, '#', false, ["N=3".toList], none,
        ["x = 1;\n".toList, "\n".toList, "  # not a control line here\n".toList],
        [], '/', [], fun _ => none⟩
      ⟨[⟨1, "N".toList, "3".toList⟩], IF_NONE, 0⟩ _ (by decide) rfl (by decide) 4
      (by decide)).2 rfl⟩

/-! ## The file an `include` opens -/

theorem resolve_first_open (e : Env) (p : List Char) : resolve e p = first_open e p := by
  unfold resolve first_open candidates
  generalize e.dir ++ [e.sep] ++ p = q2
  generalize e.var_dir ++ [e.sep] ++ "pmns".toList ++ [e.sep] ++ p = q3
  cases h1 : e.openfile p with
  | some f => simp [List.findSome?, h1]
  | none =>
    cases hi : e.input with
    | none =>
      cases h3 : e.openfile q3 <;> simp [List.findSome?, h1, h3]
    | some name =>
      cases h2 : e.openfile q2 with
      | some f => simp [List.findSome?, h1, h2]
      | none =>
        cases h3 : e.openfile q3 <;> simp [List.findSome?, h1, h2, h3]

/-- What `first_open` finds is a candidate that opens, and no candidate
before it opens. -/
theorem first_open_some (e : Env) (p name : List Char) (f : List (List Char))
    (h : first_open e p = some (name, f)) :
    e.openfile name = some f ∧
      ∃ pre post, candidates e p = pre ++ name :: post ∧ ∀ q ∈ pre, e.openfile q = none := by
  unfold first_open at h
  generalize candidates e p = cs at h
  induction cs with
  | nil => simp at h
  | cons c cs ih =>
    cases hc : e.openfile c with
    | some g =>
      simp only [List.findSome?, hc, Option.map_some', Option.some.injEq, Prod.mk.injEq] at h
      rw [← h.1, ← h.2]
      exact ⟨hc, [], cs, rfl, by simp⟩
    | none =>
      simp only [List.findSome?, hc, Option.map_none'] at h
      obtain ⟨ho, pre, post, hcs, hpre⟩ := ih h
      refine ⟨ho, c :: pre, post, by simp [hcs], ?_⟩
      intro q hq
      rcases List.mem_cons.mp hq with h1 | h1
      · rw [h1]; exact hc
      · exact hpre q h1

theorem first_open_none (e : Env) (p : List Char) :
    first_open e p = none ↔ ∀ q ∈ candidates e p, e.openfile q = none := by
  unfold first_open
  generalize candidates e p = cs
  induction cs with
  | nil => simp
  | cons c cs ih =>
    cases hc : e.openfile c with
    | some g => simp [List.findSome?, hc]
    | none => simp [List.findSome?, hc, ih]

theorem scan_fname_stop (o cl : Char) (p r : List Char)
    (ho : (o = '"' ∧ cl = '"') ∨ (o = '<' ∧ cl = '>'))
    (hp : cl ∉ p) (hn : '\n' ∉ p) : scan_fname o (p ++ cl :: r) = cl :: r := by
  induction p with
  | nil =>
    rcases ho with ⟨h1, h2⟩ | ⟨h1, h2⟩ <;> subst h1 h2 <;> simp [scan_fname]
  | cons c cs ih =>
    have hc1 : c ≠ cl := fun h => hp (by simp [h])
    have hc2 : c ≠ '\n' := fun h => hn (by simp [h])
    have ih2 := ih (fun h => hp (List.mem_cons_of_mem _ h)) (fun h => hn (List.mem_cons_of_mem _ h))
    rcases ho with ⟨h1, h2⟩ | ⟨h1, h2⟩ <;> subst h1 h2 <;>
      simp [scan_fname, hc1, hc2, ih2]

/-- An `include` line outside a false block, with a level of `file_ctl[]`
free: the file is the one `resolve` finds for the name between the
delimiters, and the include fails with "Cannot open file" when it finds
none. -/
theorem do_include_line (e : Env) (s : State) (c0 : Char) (b : List Char) (angle : Bool)
    (p : List Char) (hb : b.all isblank = true)
    (hp : (if angle then '>' else '"') ∉ p) (hn : '\n' ∉ p)
    (hskip : s.skip_if_false = 0) (hd : s.below.length + 1 < MAXLEVEL) :
    do_include e s (include_line c0 b angle p) =
      match resolve e p with
      | none => .halt (.fatal .NotFound s.out)
      | some (name, f) =>
        .cont { s with
          currfile := ⟨name, f, 0⟩, below := s.currfile :: s.below,
          out := put_c e s.out (marker ⟨name, f, 0⟩) } := by
  have hlen : ¬ s.below.length = 4 := by simp only [MAXLEVEL] at hd; omega
  have hdrop : (include_line c0 b angle p).drop "?include".length =
      b ++ ((if angle then '<' else '"') :: (p ++ (if angle then '>' else '"') :: ['\n'])) := by
    have h8 : "?include".length = 8 := rfl
    simp [include_line, h8]
  have hob : isblank (if angle then '<' else '"') = false := by cases angle <;> decide
  have hsk : skip_blank ((include_line c0 b angle p).drop "?include".length) =
      (if angle then '<' else '"') :: (p ++ (if angle then '>' else '"') :: ['\n']) := by
    rw [hdrop]
    exact skip_blank_append b _ hb (by rw [cur_cons]; exact hob)
  have hscan := scan_fname_stop (if angle then '<' else '"') (if angle then '>' else '"') p
    ['\n'] (by cases angle <;> simp) hp hn
  unfold do_include
  simp only [hskip, bne_self_eq_false, Bool.false_eq_true, if_false, hsk, cur_cons,
    List.tail_cons, hscan]
  cases angle <;>
    simp [hlen, MAXLEVEL]

/-- C21. On an `include` line that passes the tests on its form (the file
name `p` stands between `"` and `"` or between `<` and `>`, with a newline
right after), read outside a false block with a level of `file_ctl[]` free,
for every host function `openfile`: the paths tried are `p`, then `p` under
the directory of the file argument when there is a file argument, then `p`
under `pmns` in `PCP_VAR_DIR`; when `name` is the first of them that opens the
include pushes the frame of the file under that name, at line 0, and writes
its marker; and the include fails with "Cannot open file" exactly when none
of them opens. -/
theorem include_resolution (e : Env) (s : State) (c0 : Char) (b : List Char) (angle : Bool)
    (p : List Char) (hb : b.all isblank = true)
    (hp : (if angle then '>' else '"') ∉ p) (hn : '\n' ∉ p)
    (hskip : s.skip_if_false = 0) (hd : s.below.length + 1 < MAXLEVEL) :
    (e.input = none →
      candidates e p = [p, e.var_dir ++ [e.sep] ++ "pmns".toList ++ [e.sep] ++ p]) ∧
    (e.input.isSome = true →
      candidates e p =
        [p, e.dir ++ [e.sep] ++ p, e.var_dir ++ [e.sep] ++ "pmns".toList ++ [e.sep] ++ p]) ∧
    (∀ name f, first_open e p = some (name, f) →
      e.openfile name = some f ∧
      (∃ pre post, candidates e p = pre ++ name :: post ∧ ∀ q ∈ pre, e.openfile q = none) ∧
      do_include e s (include_line c0 b angle p) =
        .cont { s with
          currfile := ⟨name, f, 0⟩, below := s.currfile :: s.below,
          out := put_c e s.out (marker ⟨name, f, 0⟩) }) ∧
    (do_include e s (include_line c0 b angle p) = .halt (.fatal .NotFound s.out) ↔
      ∀ q ∈ candidates e p, e.openfile q = none) := by
  have hdo := do_include_line e s c0 b angle p hb hp hn hskip hd
  rw [resolve_first_open] at hdo
  refine ⟨?_, ?_, ?_, ?_⟩
  · intro hi
    simp [candidates, hi]
  · intro hi
    simp [candidates, hi]
  · intro name f h
    obtain ⟨ho, hpre⟩ := first_open_some e p name f h
    rw [h] at hdo
    exact ⟨ho, hpre, hdo⟩
  · rw [← first_open_none]
    constructor
    · intro h
      cases hf : first_open e p with
      | none => rfl
      | some r =>
        rw [hf, h] at hdo
        exact absurd hdo (by simp)
    · intro h
      rw [h] at hdo
      exact hdo

theorem include_resolution_witness :
    do_include var_dir_env
        ⟨⟨[], IF_NONE, 0⟩, 0, 0, ⟨"dir/top".toList, [], 1⟩, [], []⟩ "#include <x>\n".toList =
      .cont ⟨⟨[], IF_NONE, 0⟩, 0, 0, ⟨"/var/lib/pcp/pmns/x".toList, ["one\n".toList], 0⟩,
        [⟨"dir/top".toList, [], 1⟩], ["# 1 \"/var/lib/pcp/pmns/x\"\n".toList]⟩ ∧
    (do_include var_dir_env
        ⟨⟨[], IF_NONE, 0⟩, 0, 0, ⟨"dir/top".toList, [], 1⟩, [], []⟩ "#include \"y\"\n".toList =
      .halt (.fatal .NotFound []) ↔
     ∀ q ∈ ["y".toList, "dir/y".toList, "/var/lib/pcp/pmns/y".toList],
       var_dir_env.openfile q = none) :=
  ⟨((include_resolution var_dir_env
        ⟨⟨[], IF_NONE, 0⟩, 0, 0, ⟨"dir/top".toList, [], 1⟩, [], []⟩ '#' [' '] true "x".toList
        (by decide) (by decide) (by decide) (by decide) (by decide)).2.2.1
      "/var/lib/pcp/pmns/x".toList ["one\n".toList] (by decide)).2.2,
    (include_resolution var_dir_env
        ⟨⟨[], IF_NONE, 0⟩, 0, 0, ⟨"dir/top".toList, [], 1⟩, [], []⟩ '#' [' '] false "y".toList
        (by decide) (by decide) (by decide) (by decide) (by decide)).2.2.2⟩

/-! ## The position markers -/

theorem start_marker (e : Env) (s : State) (h : start e = .ok s) :
    s.out = put_c e [] (marker s.currfile) ∧ s.currfile.lineno = 0 ∧
      s.currfile.fname = input_name e ∧ s.below = [] := by
  unfold start at h
  split at h
  · exact absurd h (by simp)
  · simp only at h
    unfold input_name
    cases hi : e.input with
    | none =>
      rw [hi] at h
      simp only [Except.ok.injEq] at h
      subst h
      exact ⟨rfl, rfl, rfl, rfl⟩
    | some name =>
      rw [hi] at h
      simp only at h
      cases ho : e.openfile name with
      | none => rw [ho] at h; simp at h
      | some f =>
        rw [ho] at h
        simp only [Option.map_some', Except.ok.injEq] at h
        subst h
        exact ⟨rfl, rfl, rfl, rfl⟩

/-- The pass at the end of an included file: the file below is resumed and
its marker is written. -/
theorem step_pop (e : Env) (s : State) (f : Frame) (fs : List Frame)
    (hfin : s.currfile.fin = []) (hb : s.below = f :: fs) :
    step e s = .cont { s with
      currfile := f, below := fs, out := put_c e s.out (marker f) } := by
  simp [step, hfin, hb]

theorem include_line_trim (c0 : Char) (b : List Char) (angle : Bool) (p : List Char) :
    trim_line (include_line c0 b angle p) = include_line c0 b angle p := by
  have hl : include_line c0 b angle p =
      (c0 :: ("include".toList ++ b ++ [if angle then '<' else '"'] ++ p)) ++
        [if angle then '>' else '"'] ++ ['\n'] := by
    simp [include_line]
  apply trim_line_clean
  · rw [hl, List.getLast?_concat]
  · intro c hc
    rw [hl, List.dropLast_concat, List.getLast?_concat] at hc
    simp only [Option.some.injEq] at hc
    rw [← hc]
    cases angle <;> decide

theorem include_line_test (c0 : Char) (b : List Char) (angle : Bool) (p : List Char) :
    strncmp_eq ((include_line c0 b angle p).drop 1) "include".toList "include".length = true := by
  have h1 : "include".toList = ['i', 'n', 'c', 'l', 'u', 'd', 'e'] := rfl
  have h2 : "include".length = 7 := rfl
  simp [include_line, strncmp_eq, h1, h2]

/-- The pass on an `include` line, read outside a comment and outside a
false block: the file that opens is pushed, over the frame of the line read
with the number of that line. -/
theorem step_include (e : Env) (s : State) (b : List Char) (angle : Bool) (p : List Char)
    (rest : List (List Char))
    (hfin : s.currfile.fin = include_line e.ctl b angle p :: rest)
    (hb : b.all isblank = true) (hp : (if angle then '>' else '"') ∉ p) (hn : '\n' ∉ p)
    (hcom : has_pair '/' '*' (include_line e.ctl b angle p) = false)
    (hinc : s.incomment = 0) (hskip : s.skip_if_false = 0)
    (hd : s.below.length + 1 < MAXLEVEL) :
    step e s =
      match resolve e p with
      | none => .halt (.fatal .NotFound s.out)
      | some (name, f) =>
        .cont { s with
          currfile := ⟨name, f, 0⟩,
          below := ⟨s.currfile.fname, rest, s.currfile.lineno + 1⟩ :: s.below,
          out := put_c e s.out (marker ⟨name, f, 0⟩) } := by
  obtain ⟨t, skip, inc, cf, below, out⟩ := s
  simp only at hfin hinc hskip hd
  subst hinc hskip
  have hdo := do_include_line e
    ⟨t, 0, 0, { cf with fin := rest, lineno := cf.lineno + 1 }, below, out⟩ e.ctl b angle p
    hb hp hn rfl hd
  have hcur : cur (include_line e.ctl b angle p) = e.ctl := by
    simp [include_line, cur_cons]
  unfold step
  simp only [hfin, strip_outside _ _ hcom, include_line_trim, hcur, bne_self_eq_false,
    Bool.false_and, Bool.false_eq_true, if_false, beq_self_eq_true, if_true,
    include_line_test]
  rw [hdo]

/-- The passes over clean lines, read outside a comment and outside a false
block, in any file: the lines are written as they stand and counted. -/
theorem run_lines (e : Env) : ∀ (lines : List (List Char)) (s : State)
    (rest : List (List Char)) (fuel : Nat),
    s.currfile.fin = lines ++ rest → s.incomment = 0 → s.skip_if_false = 0 →
    wf_table s.t.macros = true → (∀ l ∈ lines, clean_line e s.t.macros l = true) →
    run e (fuel + lines.length) s =
      run e fuel { s with
        currfile := ⟨s.currfile.fname, rest, s.currfile.lineno + lines.length⟩,
        out := s.out ++ lines } := by
  intro lines
  induction lines with
  | nil =>
    intro s rest fuel hfin _ _ _ _
    obtain ⟨t, skip, inc, ⟨fname, fin, lineno⟩, below, out⟩ := s
    simp only [List.nil_append] at hfin
    subst hfin
    simp
  | cons l lines ih =>
    intro s rest fuel hfin hinc hskip hwf hl
    have hstep := step_clean e s l (lines ++ rest) hfin hinc hskip hwf
      (hl l (List.mem_cons_self _ _))
    have := ih { s with
        currfile := { s.currfile with fin := lines ++ rest, lineno := s.currfile.lineno + 1 },
        out := s.out ++ [l] } rest fuel rfl hinc hskip hwf
      (fun x hx => hl x (List.mem_cons_of_mem _ hx))
    rw [List.length_cons, ← Nat.add_assoc, run_cont e _ s _ hstep, this]
    simp [Nat.add_assoc, Nat.add_comm 1]

/-- An `include` of a file of clean lines, from the `include` line to the
return to the file that holds it: the marker of line 1 of the file, its lines,
and the marker of the file resumed with the number of the line after the
`include` line. -/
theorem run_include (e : Env) (s : State) (b : List Char) (angle : Bool) (p : List Char)
    (rest : List (List Char)) (name : List Char) (f : List (List Char)) (fuel : Nat)
    (hfin : s.currfile.fin = include_line e.ctl b angle p :: rest)
    (hb : b.all isblank = true) (hp : (if angle then '>' else '"') ∉ p) (hn : '\n' ∉ p)
    (hcom : has_pair '/' '*' (include_line e.ctl b angle p) = false)
    (hinc : s.incomment = 0) (hskip : s.skip_if_false = 0)
    (hd : s.below.length + 1 < MAXLEVEL) (hwf : wf_table s.t.macros = true)
    (hres : resolve e p = some (name, f))
    (hclean : ∀ l ∈ f, clean_line e s.t.macros l = true) :
    run e (fuel + 1 + f.length + 1) s =
      run e fuel { s with
        currfile := ⟨s.currfile.fname, rest, s.currfile.lineno + 1⟩,
        out := put_c e (put_c e s.out (marker ⟨name, f, 0⟩) ++ f)
          (marker ⟨s.currfile.fname, rest, s.currfile.lineno + 1⟩) } := by
  have h1 := step_include e s b angle p rest hfin hb hp hn hcom hinc hskip hd
  rw [hres] at h1
  simp only at h1
  rw [run_cont e _ s _ h1]
  have h2 := run_lines e f { s with
      currfile := ⟨name, f, 0⟩,
      below := ⟨s.currfile.fname, rest, s.currfile.lineno + 1⟩ :: s.below,
      out := put_c e s.out (marker ⟨name, f, 0⟩) } [] (fuel + 1) (by simp) hinc hskip hwf hclean
  rw [h2]
  rw [run_cont e fuel _ _ (step_pop e _ ⟨s.currfile.fname, rest, s.currfile.lineno + 1⟩
    s.below rfl rfl)]

/-- C22. With the markers on (`style == STYLE_C`): the first line written is
`# 1 "name"` for the name of the input; an `include` line that opens a file,
read as line `k` of its file outside a comment and a false block, pushes the
frame of the file at line 0 over the frame of the line read, which keeps the
number `k`, and writes `# 1 "name"` for the name the file opened under; the
pass at the end of an included file writes `# k+1 "name"` for the frame below,
`k` being its line number; and from the `include` line to the return from a
file of clean lines the run writes the marker of the file, its lines, and
`# k+1 "name"` for the file that holds the `include`. -/
theorem position_markers (e : Env) (he : e.style = STYLE_C) :
    (∀ s, start e = .ok s →
      s.out = ["# 1 \"".toList ++ input_name e ++ "\"\n".toList] ∧
      s.currfile.fname = input_name e ∧ s.currfile.lineno = 0) ∧
    (∀ f : Frame, marker f =
      "# ".toList ++ (Nat.repr (f.lineno + 1)).toList ++ " \"".toList ++ f.fname ++
        "\"\n".toList) ∧
    (∀ (s : State) (b : List Char) (angle : Bool) (p : List Char) (rest : List (List Char))
        (name : List Char) (f : List (List Char)),
      s.currfile.fin = include_line e.ctl b angle p :: rest →
      b.all isblank = true → (if angle then '>' else '"') ∉ p → '\n' ∉ p →
      has_pair '/' '*' (include_line e.ctl b angle p) = false →
      s.incomment = 0 → s.skip_if_false = 0 → s.below.length + 1 < MAXLEVEL →
      resolve e p = some (name, f) →
      step e s = .cont { s with
        currfile := ⟨name, f, 0⟩,
        below := ⟨s.currfile.fname, rest, s.currfile.lineno + 1⟩ :: s.below,
        out := s.out ++ ["# 1 \"".toList ++ name ++ "\"\n".toList] } ∧
      (wf_table s.t.macros = true → (∀ l ∈ f, clean_line e s.t.macros l = true) →
        ∀ fuel, run e (fuel + 1 + f.length + 1) s =
          run e fuel { s with
            currfile := ⟨s.currfile.fname, rest, s.currfile.lineno + 1⟩,
            out := s.out ++ ["# 1 \"".toList ++ name ++ "\"\n".toList] ++ f ++
              ["# ".toList ++ (Nat.repr (s.currfile.lineno + 1 + 1)).toList ++
                " \"".toList ++ s.currfile.fname ++ "\"\n".toList] })) ∧
    (∀ (s : State) (f : Frame) (fs : List Frame),
      s.currfile.fin = [] → s.below = f :: fs →
      step e s = .cont { s with
        currfile := f, below := fs,
        out := s.out ++ ["# ".toList ++ (Nat.repr (f.lineno + 1)).toList ++ " \"".toList ++
          f.fname ++ "\"\n".toList] }) := by
  have hc : (e.style == STYLE_C) = true := by simp [he]
  have hput : ∀ out l, put_c e out l = out ++ [l] := by
    intro out l
    simp [put_c, hc]
  have hm1 : ∀ name f, marker ⟨name, f, 0⟩ = "# 1 \"".toList ++ name ++ "\"\n".toList := by
    intro name f
    have h1 : (Nat.repr (0 + 1)).toList = ['1'] := by decide
    simp only [marker, h1]
    rfl
  refine ⟨?_, fun f => rfl, ?_, ?_⟩
  · intro s hs
    obtain ⟨h1, h2, h3, _⟩ := start_marker e s hs
    refine ⟨?_, h3, h2⟩
    rw [h1, hput, ← h3]
    have : s.currfile = ⟨s.currfile.fname, s.currfile.fin, 0⟩ := by
      rw [← h2]
    rw [this, hm1]
    rfl
  · intro s b angle p rest name f hfin hb hp hn hcom hinc hskip hd hres
    constructor
    · have h := step_include e s b angle p rest hfin hb hp hn hcom hinc hskip hd
      rw [hres] at h
      simp only at h
      rw [h, hput, hm1]
    · intro hwf hclean fuel
      have h := run_include e s b angle p rest name f fuel hfin hb hp hn hcom hinc hskip hd
        hwf hres hclean
      rw [h, hput, hput, hm1]
      rfl
  · intro s f fs hfin hb
    rw [step_pop e s f fs hfin hb, hput]
    rfl

theorem position_markers_witness :
    main (include_env false) 6 =
      .exit0 ["# 1 \"<stdin>\"\n".toList, "a\n".toList, "# 1 \"x\"\n".toList, "one\n".toList,
        "# 3 \"<stdin>\"\n".toList, "b\n".toList] ∧
    step (include_env false)
        ⟨⟨[], IF_NONE, 0⟩, 0, 0,
          ⟨"<stdin>".toList, ["#include <x>\n".toList, "b\n".toList], 1⟩, [], []⟩ =
      .cont ⟨⟨[], IF_NONE, 0⟩, 0, 0, ⟨"x".toList, ["one\n".toList], 0⟩,
        [⟨"<stdin>".toList, ["b\n".toList], 2⟩], ["# 1 \"x\"\n".toList]⟩ :=
  ⟨by decide,
    ((position_markers (include_env false) rfl).2.2.1
      ⟨⟨[], IF_NONE, 0⟩, 0, 0,
        ⟨"<stdin>".toList, ["#include <x>\n".toList, "b\n".toList], 1⟩, [], []⟩
      [' '] true "x".toList ["b\n".toList] "x".toList ["one\n".toList]
      rfl (by decide) (by decide) (by decide) (by decide) rfl rfl (by decide)
      (by decide)).1⟩

/-! ## What a pass writes -/

theorem act_ret (s s1 : Tables) (lineno : Nat) (p : Parsed) (r : Int)
    (h : directive_act s lineno p = .ok (r, s1)) : r = 0 ∨ r = 1 := by
  by_cases h6 : p.op = OP_ENDIF
  · by_cases hn : s.in_if = IF_NONE <;> simp [directive_act, h6, hn] at h
    exact Or.inl h.1.symm
  · by_cases h5 : p.op = OP_ELSE
    · by_cases hn : s.in_if = IF_NONE
      · simp [directive_act, h5, hn] at h
      · by_cases hf : 1 - s.in_if = IF_FALSE
        · simp [directive_act, h5, hn, hf] at h
          exact Or.inr h.1.symm
        · cases hfn : find_name p.name p.namelen s.macros <;>
            simp [directive_act, h5, hn, hf, hfn] at h
          exact Or.inl h.1.symm
    · by_cases h34 : p.op = OP_IFDEF ∨ p.op = OP_IFNDEF
      · by_cases hn : s.in_if = IF_NONE
        · cases hfn : find_name p.name p.namelen s.macros <;>
            rcases h34 with h3 | h3 <;> simp [directive_act, h3, hn, hfn] at h <;>
            first
              | exact Or.inl h.1.symm
              | exact Or.inr h.1.symm
        · rw [act_nested s lineno p h34 hn] at h
          exact absurd h (by simp)
      · simp only [not_or] at h34
        by_cases hf : s.in_if = IF_FALSE
        · simp [directive_act, h6, h5, h34.1, h34.2, hf] at h
          exact Or.inr h.1.symm
        · cases hfn : find_name p.name p.namelen s.macros <;>
            by_cases h2 : p.op = OP_UNDEF <;>
            simp [directive_act, h6, h5, h34.1, h34.2, hf, hfn, h2] at h <;>
            exact Or.inl h.1.symm

/-- The value `directive()` returns: -1 with the globals untouched when it
knows no keyword on the line, and 0 or 1 otherwise. -/
theorem directive_ret (t t1 : Tables) (lineno : Nat) (ibuf : List Char) (r : Int)
    (h : directive t lineno ibuf = .ok (r, t1)) :
    (keyword ibuf = none ∧ r = -1 ∧ t1 = t) ∨
      ((keyword ibuf).isSome = true ∧ (r = 0 ∨ r = 1)) := by
  unfold directive at h
  cases hp : directive_parse ibuf with
  | error err => rw [hp] at h; simp at h
  | ok q =>
    rw [hp] at h
    cases hk : keyword ibuf with
    | none =>
      have : directive_parse ibuf = .ok none := by simp [directive_parse, hk]
      rw [this] at hp
      simp only [Except.ok.injEq] at hp
      subst hp
      simp only [Except.ok.injEq, Prod.mk.injEq] at h
      exact Or.inl ⟨rfl, h.1.symm, h.2.symm⟩
    | some kp =>
      right
      refine ⟨rfl, ?_⟩
      cases q with
      | none =>
        exfalso
        obtain ⟨op, ip⟩ := kp
        unfold directive_parse at hp
        rw [hk] at hp
        simp only at hp
        split at hp
        · split at hp
          · exact absurd hp (by simp)
          · split at hp
            · split at hp
              · exact absurd hp (by simp)
              · cases hc : check_trailing _ _ <;> rw [hc] at hp <;> simp [Except.map] at hp
            · cases hc : check_trailing _ _ <;> rw [hc] at hp <;> simp [Except.map] at hp
        · cases hc : check_trailing _ _ <;> rw [hc] at hp <;> simp [Except.map] at hp
      | some p =>
        simp only at h
        exact act_ret t t1 lineno p r h

theorem process_out (e : Env) (s s1 : State) (ibuf : List Char)
    (h : process e s ibuf = .cont s1) : ∃ x, s1.out = s.out ++ [x] := by
  unfold process at h
  split at h
  · split at h
    · rename_i x _
      simp only [Next.cont.injEq] at h
      subst h
      exact ⟨x, rfl⟩
    · exact absurd h (by simp)
  · simp only [Next.cont.injEq] at h
    subst h
    exact ⟨ibuf, rfl⟩

theorem do_include_out (e : Env) (s s1 : State) (ibuf : List Char)
    (h : do_include e s ibuf = .cont s1) : ∃ l, s1.out = put_c e s.out l := by
  unfold do_include at h
  split at h
  · simp only [Next.cont.injEq] at h
    subst h
    exact ⟨_, rfl⟩
  · simp only at h
    split at h
    · exact absurd h (by simp)
    · split at h
      · exact absurd h (by simp)
      · split at h
        · exact absurd h (by simp)
        · split at h
          · exact absurd h (by simp)
          · split at h
            · exact absurd h (by simp)
            · split at h
              · exact absurd h (by simp)
              · simp only [Next.cont.injEq] at h
                subst h
                exact ⟨_, rfl⟩

/-- With the markers off, a pass that goes on writes one line when it
arrives at `process` and nothing otherwise. -/
theorem step_written (e : Env) (hs : e.style ≠ STYLE_C) (s s1 : State)
    (h : step e s = .cont s1) :
    (pass_kind e s ≠ .content → s1.out = s.out) ∧
      (pass_kind e s = .content → ∃ x, s1.out = s.out ++ [x]) := by
  have hc : (e.style == STYLE_C) = false := by simpa using hs
  have hput : ∀ out l, put_c e out l = out := by
    intro out l
    simp [put_c, hc]
  unfold pass_kind
  unfold step at h
  cases hfin : s.currfile.fin with
  | nil =>
    rw [hfin] at h
    simp only at h ⊢
    cases hb : s.below with
    | nil => rw [hb] at h; simp at h
    | cons f fs =>
      rw [hb] at h
      simp only [Next.cont.injEq] at h
      subst h
      simp [hput]
  | cons l rest =>
    rw [hfin] at h
    simp only at h ⊢
    generalize strip_comments (s.currfile.lineno + 1) s.incomment l = r at h ⊢
    generalize trim_line r.2 = ibuf at h ⊢
    by_cases c1 : (r.1 != 0 && cur ibuf == '\n') = true
    · simp only [c1, if_true, Next.cont.injEq] at h ⊢
      subst h
      simp [hput]
    · simp only [c1, Bool.false_eq_true, if_false] at h ⊢
      by_cases c2 : (cur ibuf == e.ctl) = true
      · simp only [c2, if_true] at h ⊢
        by_cases c3 : strncmp_eq (ibuf.drop 1) "include".toList "include".length = true
        · simp only [c3, if_true] at h ⊢
          obtain ⟨x, hx⟩ := do_include_out e _ s1 ibuf h
          rw [hput] at hx
          simp [hx]
        · simp only [c3, Bool.false_eq_true, if_false] at h ⊢
          cases hd : directive s.t (s.currfile.lineno + 1) ibuf with
          | error err => rw [hd] at h; simp at h
          | ok rt =>
            obtain ⟨r1, t1⟩ := rt
            rw [hd] at h
            simp only at h
            rcases directive_ret _ _ _ _ _ hd with ⟨hk, hr, _⟩ | ⟨hk, hr⟩
            · subst hr
              simp only [beq_self_eq_true, if_true] at h
              cases hres : e.restricted with
              | false => rw [hres] at h; simp at h
              | true =>
                rw [hres] at h
                simp only [if_true] at h
                obtain ⟨x, hx⟩ := process_out e _ s1 ibuf h
                simp [hk, hx]
            · have hne : (r1 == -1) = false := by
                rcases hr with hr | hr <;> subst hr <;> decide
              have hkn : (keyword ibuf).isNone = false := by
                cases hkk : keyword ibuf with
                | none => rw [hkk] at hk; simp at hk
                | some _ => rfl
              simp only [hne, Bool.false_eq_true, if_false, Next.cont.injEq] at h
              subst h
              simp [hkn, hput]
      · simp only [c2, Bool.false_eq_true, if_false] at h ⊢
        by_cases c4 : (s.skip_if_false != 0) = true
        · simp only [c4, if_true, Next.cont.injEq] at h ⊢
          subst h
          simp [hput]
        · simp only [c4, Bool.false_eq_true, if_false] at h ⊢
          obtain ⟨x, hx⟩ := process_out e _ s1 ibuf h
          simp [hx]

theorem do_include_halt (e : Env) (s : State) (ibuf : List Char) (o : Outcome)
    (h : do_include e s ibuf = .halt o) : o.written = s.out := by
  unfold do_include at h
  split at h
  · exact absurd h (by simp)
  · simp only at h
    repeat'
      first
        | (split at h)
    all_goals
      first
        | (simp only [Next.halt.injEq] at h; subst h; rfl)
        | exact absurd h (by simp)

/-- A pass that stops has written nothing. -/
theorem step_halt_written (e : Env) (s : State) (o : Outcome) (h : step e s = .halt o) :
    o.written = s.out := by
  unfold step at h
  split at h
  · split at h
    · simp only [Next.halt.injEq] at h
      subst h
      unfold finish
      split
      · rfl
      · split <;> rfl
    · exact absurd h (by simp)
  · rename_i ibuf0 _ _
    simp only at h
    split at h
    · exact absurd h (by simp)
    · split at h
      · split at h
        · have hw := do_include_halt e _ _ o h
          exact hw
        · split at h
          · simp only [Next.halt.injEq] at h
            subst h
            rfl
          · split at h
            · split at h
              · have hw := process_halt e _ _ _ h
                rw [hw]
                rfl
              · simp only [Next.halt.injEq] at h
                subst h
                rfl
            · exact absurd h (by simp)
      · split at h
        · exact absurd h (by simp)
        · have hw := process_halt e _ _ _ h
          rw [hw]
          rfl

/-- With the markers off, a run that ends has written as many lines as it
has passes that arrive at `process` and go on. -/
theorem run_written (e : Env) (hs : e.style ≠ STYLE_C) : ∀ (fuel : Nat) (s : State)
    (o : Outcome), run e fuel s = o → o ≠ .nofuel →
    o.written.length = s.out.length + content_passes e fuel s := by
  intro fuel
  induction fuel with
  | zero => intro s o h ho; exact absurd h.symm ho
  | succ n ih =>
    intro s o h ho
    simp only [run] at h
    simp only [content_passes]
    cases hstep : step e s with
    | cont s1 =>
      rw [hstep] at h
      simp only at h ⊢
      have hw := step_written e hs s s1 hstep
      rw [ih s1 o h ho]
      by_cases hk : pass_kind e s = .content
      · obtain ⟨x, hx⟩ := hw.2 hk
        simp [hk, hx]
        omega
      · simp [hk, hw.1 hk]
    | halt o1 =>
      rw [hstep] at h
      simp only at h ⊢
      subst h
      rw [step_halt_written e s o1 hstep]
      rfl

/-! ## The claims on the output -/

/-- C23. With the markers off (`style` is not `STYLE_C`, as after `-s`):
nothing is written before the first pass; a pass that goes on writes exactly
one line when it arrives at `process` and nothing when it is the return from
an included file, an `include` line, a directive line, a line inside a false
block or a line left blank inside a comment; an `include` line writes nothing;
a pass that stops writes nothing; so a run that ends has written as many
lines as it has passes that arrive at `process`. -/
theorem shell_mode_output (e : Env) (hs : e.style ≠ STYLE_C) :
    (∀ s, start e = .ok s → s.out = []) ∧
    (∀ s s1, step e s = .cont s1 →
      (pass_kind e s ≠ .content → s1.out = s.out) ∧
      (pass_kind e s = .content → ∃ x, s1.out = s.out ++ [x])) ∧
    (∀ s ibuf s1, do_include e s ibuf = .cont s1 → s1.out = s.out) ∧
    (∀ s o, step e s = .halt o → o.written = s.out) ∧
    (∀ fuel o, main e fuel = o → o ≠ .nofuel →
      o.written.length =
        match start e with
        | .ok s => content_passes e fuel s
        | .error _ => 0) := by
  have hc : (e.style == STYLE_C) = false := by simpa using hs
  have hput : ∀ out l, put_c e out l = out := by
    intro out l
    simp [put_c, hc]
  refine ⟨?_, step_written e hs, ?_, step_halt_written e, ?_⟩
  · intro s h
    rw [(start_marker e s h).1, hput]
  · intro s ibuf s1 h
    obtain ⟨l, hl⟩ := do_include_out e s s1 ibuf h
    rw [hl, hput]
  · intro fuel o h ho
    unfold main at h
    cases hst : start e with
    | error err =>
      rw [hst] at h
      simp only at h ⊢
      subst h
      rfl
    | ok s =>
      rw [hst] at h
      simp only at h ⊢
      have := run_written e hs fuel s o h ho
      rw [this, (start_marker e s hst).1, hput]
      simp

theorem shell_mode_output_witness :
    (include_env true).style ≠ STYLE_C ∧
    main (include_env true) 6 = .exit0 ["a\n".toList, "one\n".toList, "b\n".toList] ∧
    main (shell_env ["%define X 1\n".toList, "%ifdef Y\n".toList, "hidden\n".toList,
        "%endif\n".toList, "/* c\n".toList, "d */ e\n".toList, "X\n".toList]) 8 =
      .exit0 ["     e\n".toList, "1\n".toList] ∧
    (main (include_env true) 6).written.length =
      (match start (include_env true) with
       | .ok s => content_passes (include_env true) 6 s
       | .error _ => 0) :=
  ⟨by decide, by decide, by decide,
    (shell_mode_output (include_env true) (by decide)).2.2.2.2 6 _ rfl (by decide)⟩

/-! ## The control character -/

theorem strncmp_prefix (k : List Char) : ∀ a : List Char,
    strncmp_eq a k k.length = k.isPrefixOf a := by
  induction k with
  | nil => intro a; simp [strncmp_eq]
  | cons c k ih =>
    intro a
    cases a with
    | nil => simp [strncmp_eq, List.isPrefixOf]
    | cons d a =>
      have := ih a
      simp only [strncmp_eq, List.take_length] at this
      simp only [strncmp_eq, List.length_cons, List.take_succ_cons, List.take_length,
        List.isPrefixOf]
      rw [← this]
      by_cases hcd : d = c
      · subst hcd
        simp
      · have hdc : ¬ c = d := fun h => hcd h.symm
        have e1 : (d == c) = false := by simp [hcd]
        have e2 : (c == d) = false := by simp [hdc]
        show ((d == c) && (List.take k.length a == k)) = _
        rw [e1, e2]

/-- The chain of `directive()` knows a keyword on the line exactly when the
text after the first byte begins with one of its six keywords. -/
theorem keyword_isSome (c : Char) (z : List Char) :
    (keyword (c :: z)).isSome =
      ["define".toList, "undef".toList, "ifdef".toList, "ifndef".toList, "endif".toList,
        "else".toList].any (fun k => k.isPrefixOf z) := by
  have h1 : strncmp_eq z "define".toList "define".length = "define".toList.isPrefixOf z :=
    strncmp_prefix _ z
  have h2 : strncmp_eq z "undef".toList "undef".length = "undef".toList.isPrefixOf z :=
    strncmp_prefix _ z
  have h3 : strncmp_eq z "ifdef".toList "ifdef".length = "ifdef".toList.isPrefixOf z :=
    strncmp_prefix _ z
  have h4 : strncmp_eq z "ifndef".toList "ifndef".length = "ifndef".toList.isPrefixOf z :=
    strncmp_prefix _ z
  have h5 : strncmp_eq z "endif".toList "endif".length = "endif".toList.isPrefixOf z :=
    strncmp_prefix _ z
  have h6 : strncmp_eq z "else".toList "else".length = "else".toList.isPrefixOf z :=
    strncmp_prefix _ z
  simp only [keyword, List.drop_succ_cons, List.drop_zero, h1, h2, h3, h4, h5, h6,
    List.any_cons, List.any_nil, Bool.or_false]
  cases "define".toList.isPrefixOf z <;> cases "undef".toList.isPrefixOf z <;>
    cases "ifdef".toList.isPrefixOf z <;> cases "ifndef".toList.isPrefixOf z <;>
    cases "endif".toList.isPrefixOf z <;> cases "else".toList.isPrefixOf z <;> rfl

theorem begins_with_keyword_eq (c : Char) (z : List Char) :
    begins_with_keyword z =
      (strncmp_eq z "include".toList "include".length || (keyword (c :: z)).isSome) := by
  have h0 : strncmp_eq z "include".toList "include".length = "include".toList.isPrefixOf z :=
    strncmp_prefix _ z
  rw [keyword_isSome, h0]
  simp [begins_with_keyword, keywords]

/-- The function `directive()` does not read the first byte of the line. -/
theorem directive_first (t : Tables) (lineno : Nat) (c d : Char) (x : List Char) :
    directive t lineno (c :: x) = directive t lineno (d :: x) := by
  have l1 : "?define".length = 7 := rfl
  have l2 : "?undef".length = 6 := rfl
  have l3 : "?ifdef".length = 6 := rfl
  have l4 : "?ifndef".length = 7 := rfl
  have l5 : "?endif".length = 6 := rfl
  have l6 : "?else".length = 5 := rfl
  have hk : keyword (c :: x) = keyword (d :: x) := by
    simp only [keyword, l1, l2, l3, l4, l5, l6, List.drop_succ_cons]
  simp only [directive, directive_parse, hk]

theorem do_include_first (e : Env) (s : State) (c d : Char) (x : List Char) :
    do_include e s (c :: x) = do_include e s (d :: x) := by
  have h8 : "?include".length = 8 := rfl
  simp only [do_include, h8, List.drop_succ_cons]

theorem strip_head (ln : Nat) (c : Char) (x : List Char) (hc : c ≠ '/') :
    strip_comments ln 0 (c :: x) =
      ((strip_comments ln 0 x).1, c :: (strip_comments ln 0 x).2) := by
  cases x with
  | nil => simp [strip_comments]
  | cons d cs => simp [strip_comments, hc]

theorem trim_head (c : Char) (y : List Char) (hc : isspace c = false) :
    trim_line (c :: y) = c :: trim_line y := by
  have hd : (y.reverse ++ [c]).dropWhile isspace =
      (y.reverse.dropWhile isspace) ++ [c] := by
    generalize y.reverse = r
    induction r with
    | nil => simp [List.dropWhile_cons, hc]
    | cons a r ih =>
      by_cases ha : isspace a = true
      · simp only [List.cons_append, List.dropWhile_cons, ha, if_true]
        exact ih
      · simp [List.dropWhile_cons, ha]
  simp only [trim_line, List.reverse_cons, hd, List.reverse_append, List.reverse_singleton,
    List.singleton_append, List.cons_append, List.reverse_nil, List.nil_append]

theorem not_space_ne_newline {c : Char} (h : isspace c = false) : (c == '\n') = false := by
  cases hc : (c == '\n') with
  | false => rfl
  | true =>
    have : c = '\n' := by simpa using hc
    rw [this] at h
    exact absurd h (by decide)

/-- A control line that `main()` or `directive()` knows, or any control line
in the default grammar, read outside a comment: the pass is the same when the
control character is another byte and the line starts with that byte. -/
theorem step_first (e : Env) (s : State) (d : Char) (x : List Char) (rest : List (List Char))
    (hc1 : e.ctl ≠ '/') (hc2 : isspace e.ctl = false) (hd1 : d ≠ '/')
    (hd2 : isspace d = false) (hinc : s.incomment = 0)
    (hfin : s.currfile.fin = (e.ctl :: x) :: rest)
    (hrec : e.restricted = false ∨
      begins_with_keyword (trim_line (strip_comments (s.currfile.lineno + 1) 0 x).2) = true) :
    step e s =
      step { e with ctl := d }
        { s with currfile := { s.currfile with fin := (d :: x) :: rest } } := by
  obtain ⟨t, skip, inc, ⟨fname, fin, lineno⟩, below, out⟩ := s
  simp only at hinc hfin hrec
  subst hinc hfin
  have hcn := not_space_ne_newline hc2
  have hdn := not_space_ne_newline hd2
  unfold step
  simp only [strip_head _ _ _ hc1, strip_head _ _ _ hd1, trim_head _ _ hc2, trim_head _ _ hd2,
    cur_cons, hcn, hdn, Bool.and_false, Bool.false_eq_true, if_false, beq_self_eq_true,
    if_true, List.drop_succ_cons, List.drop_zero]
  generalize hz : trim_line (strip_comments (lineno + 1) 0 x).2 = z at hrec ⊢
  generalize (strip_comments (lineno + 1) 0 x).1 = flag
  by_cases c3 : strncmp_eq z "include".toList "include".length = true
  · simp only [c3, if_true]
    rw [do_include_first e _ e.ctl d z]
    rfl
  · simp only [c3, Bool.false_eq_true, if_false]
    rw [directive_first t (lineno + 1) e.ctl d z]
    cases hd : directive t (lineno + 1) (d :: z) with
    | error err => rfl
    | ok rt =>
      obtain ⟨r1, t1⟩ := rt
      simp only
      rcases directive_ret _ _ _ _ _ hd with ⟨hk, hr, _⟩ | ⟨hk, hr⟩
      · subst hr
        rcases hrec with hrec | hrec
        · simp [hrec]
        · rw [begins_with_keyword_eq d z, hk] at hrec
          simp only [Option.isSome_none, Bool.or_false] at hrec
          exact absurd hrec c3
      · have hne : (r1 == -1) = false := by
          rcases hr with hr | hr <;> subst hr <;> decide
        simp only [hne, Bool.false_eq_true, if_false]
        rfl

/-- A line that starts with a byte other than the control character, read
outside a comment: it is left out inside a false block and goes to `process`
otherwise. -/
theorem step_not_control (e : Env) (s : State) (c : Char) (x : List Char)
    (rest : List (List Char)) (hc0 : c ≠ e.ctl) (hc1 : c ≠ '/') (hc2 : isspace c = false)
    (hinc : s.incomment = 0) (hfin : s.currfile.fin = (c :: x) :: rest) :
    step e s =
      if s.skip_if_false ≠ 0 then
        .cont { s with
          currfile := ⟨s.currfile.fname, rest, s.currfile.lineno + 1⟩,
          incomment := (strip_comments (s.currfile.lineno + 1) 0 x).1,
          out := put_c e s.out ['\n'] }
      else
        process e { s with
            currfile := ⟨s.currfile.fname, rest, s.currfile.lineno + 1⟩,
            incomment := (strip_comments (s.currfile.lineno + 1) 0 x).1 }
          (c :: trim_line (strip_comments (s.currfile.lineno + 1) 0 x).2) := by
  obtain ⟨t, skip, inc, ⟨fname, fin, lineno⟩, below, out⟩ := s
  simp only at hinc hfin
  subst hinc hfin
  have hcn := not_space_ne_newline hc2
  have hctl : (c == e.ctl) = false := by simpa using hc0
  unfold step
  simp only [strip_head _ _ _ hc1, trim_head _ _ hc2, cur_cons, hcn, Bool.and_false,
    Bool.false_eq_true, if_false, hctl]
  by_cases hs : skip = 0
  · simp [hs]
  · simp [hs]

/-- In the default grammar `process` writes one line and goes on, with the
table as it was. -/
theorem process_default (e : Env) (s : State) (ibuf : List Char) (hr : e.restricted = false)
    (hwf : wf_table s.t.macros = true) :
    ∃ x, process e s ibuf = .cont { s with out := s.out ++ [x] } := by
  unfold process
  split
  · obtain ⟨segs, htk, htx⟩ := exists_tokenized ibuf.length ibuf (Nat.le_refl _)
    have := do_macro_segs e.ctl s.t.macros hwf segs htk
    rw [htx] at this
    rw [hr, this]
    exact ⟨_, rfl⟩
  · exact ⟨_, rfl⟩

/-- C24. The option `-s` sets the control character to `%` (and the style to
`STYLE_SH`); without it the control character is `#`. For a run with the
control character `%`: `directive()` does not read the first byte of the line,
so it does on `%` followed by a text what it does on `#` followed by that
text; the pass on a line `%...` that begins with a keyword (or any control
line in the default grammar), read outside a comment, is the pass on the line
`#...` of the run that differs by the control character `#` only; a line
that starts with `#`, read outside a comment, is no control line: it is left
out inside a false block and goes to `process` otherwise, the table and the
flag as they were; and in the default grammar `process` writes one line and
raises no error. -/
theorem shell_control_character (e : Env) (hctl : e.ctl = '%') :
    (∀ r defines input stdin dir sep var_dir openfile,
      (option_env r true defines input stdin dir sep var_dir openfile).ctl = '%' ∧
      (option_env r true defines input stdin dir sep var_dir openfile).style = STYLE_SH ∧
      (option_env r false defines input stdin dir sep var_dir openfile).ctl = '#' ∧
      (option_env r false defines input stdin dir sep var_dir openfile).style = STYLE_C) ∧
    (∀ t lineno x, directive t lineno ('%' :: x) = directive t lineno ('#' :: x)) ∧
    (∀ (s : State) (x : List Char) (rest : List (List Char)),
      s.incomment = 0 → s.currfile.fin = ('%' :: x) :: rest →
      (e.restricted = false ∨
        begins_with_keyword (trim_line (strip_comments (s.currfile.lineno + 1) 0 x).2) = true) →
      step e s =
        step { e with ctl := '#' }
          { s with currfile := { s.currfile with fin := ('#' :: x) :: rest } }) ∧
    (∀ (s : State) (x : List Char) (rest : List (List Char)),
      s.incomment = 0 → s.currfile.fin = ('#' :: x) :: rest →
      step e s =
        if s.skip_if_false ≠ 0 then
          .cont { s with
            currfile := ⟨s.currfile.fname, rest, s.currfile.lineno + 1⟩,
            incomment := (strip_comments (s.currfile.lineno + 1) 0 x).1,
            out := put_c e s.out ['\n'] }
        else
          process e { s with
              currfile := ⟨s.currfile.fname, rest, s.currfile.lineno + 1⟩,
              incomment := (strip_comments (s.currfile.lineno + 1) 0 x).1 }
            ('#' :: trim_line (strip_comments (s.currfile.lineno + 1) 0 x).2)) ∧
    (e.restricted = false → ∀ (s : State) (ibuf : List Char), wf_table s.t.macros = true →
      ∃ x, process e s ibuf = .cont { s with out := s.out ++ [x] }) := by
  refine ⟨?_, ?_, ?_, ?_, ?_⟩
  · intro r defines input stdin dir sep var_dir openfile
    exact ⟨rfl, rfl, rfl, rfl⟩
  · intro t lineno x
    exact directive_first t lineno '%' '#' x
  · intro s x rest hinc hfin hrec
    rw [← hctl] at hfin
    exact step_first e s '#' x rest (by rw [hctl]; decide) (by rw [hctl]; decide) (by decide)
      (by decide) hinc hfin hrec
  · intro s x rest hinc hfin
    exact step_not_control e s '#' x rest (by rw [hctl]; decide) (by decide) (by decide)
      hinc hfin
  · intro hr s ibuf hwf
    exact process_default e s ibuf hr hwf

theorem shell_control_character_witness :
    (shell_env []).ctl = '%' ∧
    main (shell_env ["%define X 1\n".toList, "X\n".toList]) 3 = .exit0 ["1\n".toList] ∧
    main (shell_env ["#define X 1\n".toList, "X\n".toList]) 3 =
      .exit0 ["#define X 1\n".toList, "X\n".toList] ∧
    main (plain_env ["#define X 1\n".toList, "X\n".toList]) 3 =
      .exit0 ["# 1 \"<stdin>\"\n".toList, "\n".toList, "1\n".toList] ∧
    directive ⟨[], IF_NONE, 0⟩ 1 "%define X 1\n".toList =
      directive ⟨[], IF_NONE, 0⟩ 1 "#define X 1\n".toList :=
  ⟨rfl, by decide, by decide, by decide,
    (shell_control_character (shell_env []) rfl).2.1 ⟨[], IF_NONE, 0⟩ 1 "define X 1\n".toList⟩

/-! ## The claims on the restricted grammar -/

/-- C25. In the restricted grammar with the control character `#` and `FOO`
defined as `baz`: `do_macro()` turns the line `#{FOO}bar` into `bazbar`, the
line `#FOO` into `baz`, and leaves the line `##` as it is; and `main()`, run
with `-r` on these lines after `#define FOO baz` (or with `-D FOO=baz`),
writes `bazbar`, `baz` and `##`. -/
theorem restricted_scenario :
    do_macro true '#' [⟨3, "FOO".toList, "baz".toList⟩] "#{FOO}bar\n".toList =
      some "bazbar\n".toList ∧
    do_macro true '#' [⟨3, "FOO".toList, "baz".toList⟩] "#FOO\n".toList = some "baz\n".toList ∧
    do_macro true '#' [⟨3, "FOO".toList, "baz".toList⟩] "##\n".toList = some "##\n".toList ∧
    main (restricted_env ["#define FOO baz\n".toList, "#{FOO}bar\n".toList, "#FOO\n".toList,
        "##\n".toList]) 5 =
      .exit0 ["# 1 \"<stdin>\"\n".toList, "\n".toList, "bazbar\n".toList, "baz\n".toList,
        "##\n".toList] ∧
    main (option_env true false ["FOO=baz".toList] none
        ["#{FOO}bar\n".toList, "#FOO\n".toList, "##\n".toList] [] '/' [] (fun _ => none)) 4 =
      .exit0 ["# 1 \"<stdin>\"\n".toList, "bazbar\n".toList, "baz\n".toList, "##\n".toList] := by
  refine ⟨by decide, by decide, by decide, by decide, by decide⟩

/-- In the restricted grammar a control character before a byte that is
neither `{` nor a letter or digit is a token of one byte: it is copied, and
so is the rest of a line with no other control character. -/
theorem do_macro_restricted_single (ctl : Char) (ms : List macro_t) (pre r : List Char)
    (hpre : ctl ∉ pre) (hr : ctl ∉ r) (h1 : cur r ≠ '{') (h2 : isalnum (cur r) = false) :
    do_macro true ctl ms (pre ++ ctl :: r) = some (pre ++ ctl :: r) := by
  have hx : not_start true ctl ctl = false := by simp [not_start]
  have htw := takeWhile_stop (not_start true ctl) pre r ctl (not_start_restricted ctl pre hpre) hx
  have hrw := takeWhile_whole (not_start true ctl) r (not_start_restricted ctl r hr)
  have hb : (cur r == '{') = false := beq_eq_false_iff_ne.mpr h1
  have t0 : tok_end true (ctl :: r) (ctl :: r) = (false, ctl :: r) := by simp [tok_end]
  have t1 : tok_end true (ctl :: r) r = (true, r) := by
    simp [tok_end, hb, h2]
  have hex : expand_token true ms (ctl :: r) 1 = ([ctl], false) := by
    simp [expand_token]
  have hloop : do_macro_loop true ctl ms ((pre ++ ctl :: r).length + 1) (ctl :: r) (ctl :: r)
      pre 0 = .done (pre ++ [ctl] ++ r) 0 := by
    have hf : (pre ++ ctl :: r).length + 1 = (pre.length + r.length) + 1 + 1 := by
      simp
      omega
    rw [hf]
    simp only [do_macro_loop, t0, t1, Bool.false_eq_true, if_false, if_true, List.length_cons,
      Nat.add_sub_cancel_left, Nat.lt_add_one, hex, hrw.1, hrw.2]
  simp only [htw.1, htw.2, hloop, do_macro]
  rfl

/-- In the restricted grammar a control character and `{` before a byte that
is no letter or digit is a token of two bytes with no name: it is copied, and
so is the rest of a line with no other control character. -/
theorem do_macro_restricted_brace_single (ctl : Char) (ms : List macro_t) (pre r : List Char)
    (hpre : ctl ∉ pre) (hr : ctl ∉ r) (h2 : isalnum (cur r) = false) :
    do_macro true ctl ms (pre ++ ctl :: '{' :: r) = some (pre ++ ctl :: '{' :: r) := by
  have hx : not_start true ctl ctl = false := by simp [not_start]
  have htw := takeWhile_stop (not_start true ctl) pre ('{' :: r) ctl
    (not_start_restricted ctl pre hpre) hx
  have hrw := takeWhile_whole (not_start true ctl) r (not_start_restricted ctl r hr)
  have t0 : tok_end true (ctl :: '{' :: r) (ctl :: '{' :: r) = (false, ctl :: '{' :: r) := by
    simp [tok_end]
  have t1 : tok_end true (ctl :: '{' :: r) ('{' :: r) = (false, '{' :: r) := by
    simp [tok_end, cur_cons]
  have hlen : (ctl :: '{' :: r).length - r.length = 2 := by
    simp only [List.length_cons]
    omega
  have hb1 : (cur (List.drop 1 (ctl :: '{' :: r)) == '{') = true := by simp [cur_cons]
  have t2 : tok_end true (ctl :: '{' :: r) r = (true, r) := by
    simp only [tok_end, hlen, hb1, h2]
    rfl
  have hex : expand_token true ms (ctl :: '{' :: r) 2 = ([ctl, '{'], false) := by
    simp [expand_token, cur_cons]
  have hloop : do_macro_loop true ctl ms ((pre ++ ctl :: '{' :: r).length + 1)
      (ctl :: '{' :: r) (ctl :: '{' :: r) pre 0 = .done (pre ++ [ctl, '{'] ++ r) 0 := by
    have hf : (pre ++ ctl :: '{' :: r).length + 1 = (pre.length + r.length) + 1 + 1 + 1 := by
      simp
      omega
    rw [hf]
    simp only [do_macro_loop, t0, t1, t2, Bool.false_eq_true, if_false, if_true, hlen, hex,
      hrw.1, hrw.2]
    simp
  simp only [htw.1, htw.2, hloop, do_macro]
  rfl

/-- C26 (the code departs from it). In the restricted grammar the byte
after the control character, and the byte after `CTL{`, must be a letter or a
digit (lines 358-367): a name that begins with `_` is never a token there.
For every table, a line with one control character that holds `CTLa` or
`CTL{a}` with `a` starting with `_` is left as it is, also when `a` is the
name of an active macro. Such names are accepted by `define`: with `-r`, after
`#define _X v` and `#define Y w`, the lines `a #_X b` and `a #{_X} b` are
written as they stand, while `#Y` and `#{Y}` become `w`. -/
theorem restricted_underscore_name :
    (∀ (ctl : Char) (ms : List macro_t) (pre a post : List Char),
      ctl ∉ pre → ctl ∉ a → ctl ∉ post → ctl ≠ '}' → cur a = '_' →
      do_macro true ctl ms (pre ++ ctl :: (a ++ post)) = some (pre ++ ctl :: (a ++ post)) ∧
      do_macro true ctl ms (pre ++ ctl :: '{' :: (a ++ '}' :: post)) =
        some (pre ++ ctl :: '{' :: (a ++ '}' :: post))) ∧
    directive ⟨[], IF_NONE, 0⟩ 1 "#define _X v\n".toList =
      .ok (0, ⟨[⟨2, "_X".toList, "v".toList⟩], IF_NONE, 0⟩) ∧
    do_macro true '#' [⟨2, "_X".toList, "v".toList⟩] "a #_X b\n".toList =
      some "a #_X b\n".toList ∧
    do_macro true '#' [⟨2, "_X".toList, "v".toList⟩] "a #{_X} b\n".toList =
      some "a #{_X} b\n".toList ∧
    main (restricted_env ["#define _X v\n".toList, "#define Y w\n".toList,
        "a #_X b\n".toList, "a #{_X} b\n".toList, "a #Y #{Y} b\n".toList]) 6 =
      .exit0 ["# 1 \"<stdin>\"\n".toList, "\n".toList, "\n".toList, "a #_X b\n".toList,
        "a #{_X} b\n".toList, "a w w b\n".toList] := by
  refine ⟨?_, by decide, by decide, by decide, by decide⟩
  intro ctl ms pre a post hpre ha hpost hb hu
  have hcur : ∀ r, cur (a ++ r) = '_' := by
    intro r
    cases a with
    | nil => rw [cur_nil] at hu; exact absurd hu (by decide)
    | cons c cs => rw [cur_cons] at hu; rw [List.cons_append, cur_cons, hu]
  constructor
  · apply do_macro_restricted_single ctl ms pre (a ++ post) hpre
    · simp [ha, hpost]
    · rw [hcur]; decide
    · rw [hcur]; decide
  · apply do_macro_restricted_brace_single ctl ms pre (a ++ '}' :: post) hpre
    · simp [ha, hpost, hb]
    · rw [hcur]; decide

/-- C27. In the restricted grammar, for every table and every line with no
control character in it: `do_macro()` leaves the line as it is, whatever names
of active macros it holds, and `process` writes it as it stands; so does the
pass of `main()` on such a line that ends in a newline with no white space
before it and holds no `/*`, read outside a comment and outside a false
block. -/
theorem restricted_needs_control_char (e : Env) (s : State) (l : List Char)
    (hr : e.restricted = true) (hl : e.ctl ∉ l) :
    do_macro true e.ctl s.t.macros l = some l ∧
    process e s l = .cont { s with out := s.out ++ [l] } ∧
    (∀ rest, s.currfile.fin = l :: rest → s.incomment = 0 → s.skip_if_false = 0 →
      wf_table s.t.macros = true → l.getLast? = some '\n' →
      (∀ c, l.dropLast.getLast? = some c → isspace c = false) →
      has_pair '/' '*' l = false →
      step e s = .cont { s with
        currfile := { s.currfile with fin := rest, lineno := s.currfile.lineno + 1 },
        out := s.out ++ [l] }) := by
  have hdo := do_macro_no_ctl e.ctl s.t.macros l hl
  refine ⟨hdo, ?_, ?_⟩
  · unfold process
    split
    · rw [hr, hdo]
    · rfl
  · intro rest hfin hinc hskip hwf h1 h2 h3
    apply step_clean e s l rest hfin hinc hskip hwf
    have hcur : (cur l != e.ctl) = true := by
      cases l with
      | nil => simp at h1
      | cons c cs =>
        rw [cur_cons]
        simp only [bne_iff_ne, ne_eq]
        intro hc
        exact hl (by simp [hc])
    have hnc : l.contains e.ctl = false := by
      simp only [List.contains_eq_any_beq, List.any_eq_false, beq_iff_eq]
      intro x hx hxe
      exact hl (hxe ▸ hx)
    have hlast : (match l.dropLast.getLast? with
        | some c => !isspace c
        | none => true) = true := by
      cases hd : l.dropLast.getLast? with
      | none => rfl
      | some c => simp [h2 c hd]
    simp only [clean_line, h1, beq_self_eq_true, hlast, h3, Bool.not_false, hcur, hr, if_true,
      hnc, Bool.or_true, Bool.and_self]

theorem restricted_needs_control_char_witness :
    '#' ∉ "X and X\n".toList ∧
    do_macro true '#' [⟨1, "X".toList, "1".toList⟩] "X and X\n".toList =
      some "X and X\n".toList ∧
    main (restricted_env ["#define X 1\n".toList, "X and X\n".toList, "#X\n".toList]) 4 =
      .exit0 ["# 1 \"<stdin>\"\n".toList, "\n".toList, "X and X\n".toList, "1\n".toList] :=
  ⟨by decide,
    (restricted_needs_control_char (restricted_env [])
      ⟨⟨[⟨1, "X".toList, "1".toList⟩], IF_NONE, 0⟩, 0, 0, ⟨"<stdin>".toList, [], 0⟩, [], []⟩
      "X and X\n".toList rfl (by decide)).1,
    by decide⟩

/-! ## Control lines with no keyword -/

theorem directive_unknown (t : Tables) (lineno : Nat) (ibuf : List Char)
    (hk : keyword ibuf = none) : directive t lineno ibuf = .ok (-1, t) := by
  simp [directive, directive_parse, hk]

/-- The pass on a control line whose text after the control character begins
with no keyword, read outside a comment: the run stops on "Unrecognized
control line" in the default grammar; in the restricted grammar
`skip_if_false` is set to 0 and the line goes to `process`. -/
theorem step_unrecognized (e : Env) (s : State) (x : List Char) (rest : List (List Char))
    (hc1 : e.ctl ≠ '/') (hc2 : isspace e.ctl = false) (hinc : s.incomment = 0)
    (hfin : s.currfile.fin = (e.ctl :: x) :: rest)
    (hkw : begins_with_keyword (trim_line (strip_comments (s.currfile.lineno + 1) 0 x).2) =
      false) :
    step e s =
      if e.restricted then
        process e { s with
            currfile := ⟨s.currfile.fname, rest, s.currfile.lineno + 1⟩,
            incomment := (strip_comments (s.currfile.lineno + 1) 0 x).1,
            skip_if_false := 0 }
          (e.ctl :: trim_line (strip_comments (s.currfile.lineno + 1) 0 x).2)
      else .halt (.fatal .UnrecognizedDirective s.out) := by
  obtain ⟨t, skip, inc, ⟨fname, fin, lineno⟩, below, out⟩ := s
  simp only at hinc hfin hkw
  subst hinc hfin
  have hcn := not_space_ne_newline hc2
  rw [begins_with_keyword_eq e.ctl, Bool.or_eq_false_iff] at hkw
  obtain ⟨hi, hk⟩ := hkw
  have hk2 : keyword (e.ctl :: trim_line (strip_comments (lineno + 1) 0 x).2) = none := by
    cases hkk : keyword (e.ctl :: trim_line (strip_comments (lineno + 1) 0 x).2) with
    | none => rfl
    | some _ => rw [hkk] at hk; simp at hk
  unfold step
  simp only [strip_head _ _ _ hc1, trim_head _ _ hc2, cur_cons, hcn, Bool.and_false,
    Bool.false_eq_true, if_false, beq_self_eq_true, if_true, List.drop_succ_cons,
    List.drop_zero, hi, directive_unknown _ _ _ hk2]

/-- C28 (the code departs from it in the restricted grammar). For every
control line whose text after the control character begins with none of
`include`, `define`, `undef`, `ifdef`, `ifndef`, `endif`, `else` (so for
`#DEFINE X`), read outside a comment: in the default grammar the run stops on
"Unrecognized control line"; in the restricted grammar the line goes to
`process` with `skip_if_false` set to 0. So in the restricted grammar the line
is not handled as a content line is: inside a false block it is written, and
so are the content lines after it (`#ifdef X`, `#x`, `hidden`, `#endif` writes
`#x` and `hidden`, where the content line `x` in place of `#x` writes
neither); and on `#{x`, with a macro defined, the scan of `do_macro()` runs
over the end of the line. -/
theorem unrecognized_control_line :
    (∀ (e : Env) (s : State) (x : List Char) (rest : List (List Char)),
      e.ctl ≠ '/' → isspace e.ctl = false → s.incomment = 0 →
      s.currfile.fin = (e.ctl :: x) :: rest →
      begins_with_keyword (trim_line (strip_comments (s.currfile.lineno + 1) 0 x).2) = false →
      step e s =
        if e.restricted then
          process e { s with
              currfile := ⟨s.currfile.fname, rest, s.currfile.lineno + 1⟩,
              incomment := (strip_comments (s.currfile.lineno + 1) 0 x).1,
              skip_if_false := 0 }
            (e.ctl :: trim_line (strip_comments (s.currfile.lineno + 1) 0 x).2)
        else .halt (.fatal .UnrecognizedDirective s.out)) ∧
    begins_with_keyword "DEFINE X\n".toList = false ∧
    main (plain_env ["#DEFINE X\n".toList]) 2 =
      .fatal .UnrecognizedDirective ["# 1 \"<stdin>\"\n".toList] ∧
    main (restricted_env ["#DEFINE X\n".toList]) 2 =
      .exit0 ["# 1 \"<stdin>\"\n".toList, "#DEFINE X\n".toList] ∧
    main (restricted_env ["#ifdef X\n".toList, "#x\n".toList, "hidden\n".toList,
        "#endif\n".toList]) 5 =
      .exit0 ["# 1 \"<stdin>\"\n".toList, "\n".toList, "#x\n".toList, "hidden\n".toList,
        "\n".toList] ∧
    main (restricted_env ["#ifdef X\n".toList, "x\n".toList, "hidden\n".toList,
        "#endif\n".toList]) 5 =
      .exit0 ["# 1 \"<stdin>\"\n".toList, "\n".toList, "\n".toList, "\n".toList,
        "\n".toList] ∧
    main (restricted_env ["#define A 1\n".toList, "#\x7bx\n".toList]) 3 =
      .overrun ["# 1 \"<stdin>\"\n".toList, "\n".toList] := by
  refine ⟨?_, by decide, by decide, by decide, by decide, by decide, by decide⟩
  intro e s x rest hc1 hc2 hinc hfin hkw
  exact step_unrecognized e s x rest hc1 hc2 hinc hfin hkw

/-! ## The name of a directive -/

theorem drop_takeWhile (p : Char → Bool) (l : List Char) :
    l.drop (l.takeWhile p).length = l.dropWhile p := by
  induction l with
  | nil => rfl
  | cons c cs ih =>
    by_cases hc : p c = true
    · simp [List.takeWhile_cons, List.dropWhile_cons, hc, ih]
    · simp [List.takeWhile_cons, List.dropWhile_cons, hc]

theorem scan_name_false_drop (ip : List Char) :
    scan_name false ip = ip.dropWhile is_name_char := by
  induction ip with
  | nil => rfl
  | cons c cs ih =>
    by_cases hb : isblank c = true
    · have := isspace_not_name_char (isblank_isspace hb)
      simp [scan_name, hb, List.dropWhile_cons, this]
    · simp only [Bool.not_eq_true] at hb
      by_cases hn : is_name_char c = true
      · have h1 : ((isalpha c || c == '_') || (isdigit c || c == '_')) = true := by
          unfold is_name_char isalnum at hn
          revert hn
          cases isalpha c <;> cases isdigit c <;> cases (c == '_') <;> simp
        simp only [scan_name, hb, Bool.false_eq_true, if_false, Bool.not_false, Bool.true_and,
          List.dropWhile_cons, hn, if_true]
        by_cases h2 : (isalpha c || c == '_') = true
        · simp [h2, ih]
        · have h3 : (isdigit c || c == '_') = true := by
            simp only [Bool.not_eq_true] at h2
            rw [h2] at h1
            simpa using h1
          simp [h2, h3, ih]
      · simp only [Bool.not_eq_true] at hn
        have h1 : (isalpha c || c == '_') = false ∧ (isdigit c || c == '_') = false := by
          unfold is_name_char isalnum at hn
          revert hn
          cases isalpha c <;> cases isdigit c <;> cases (c == '_') <;> simp
        simp [scan_name, hb, List.dropWhile_cons, hn, h1.1, h1.2]

theorem scan_name_true_run (ip : List Char) :
    scan_name true ip = ip.drop (name_run ip).length := by
  cases ip with
  | nil => rfl
  | cons c cs =>
    by_cases hs : is_start c = true
    · have hb : isblank c = false := by
        by_contra hc
        simp only [Bool.not_eq_false] at hc
        rw [isblank_not_start hc] at hs
        exact absurd hs (by simp)
      have h1 : (isalpha c || c == '_') = true := hs
      have hd : cs.dropWhile is_name_char = cs.drop (cs.takeWhile is_name_char).length :=
        (drop_takeWhile is_name_char cs).symm
      simp only [scan_name, hb, Bool.false_eq_true, if_false, h1, if_true, name_run, hs,
        List.length_cons, List.drop_succ_cons, scan_name_false_drop, hd]
    · simp only [Bool.not_eq_true] at hs
      have h1 : (isalpha c || c == '_') = false := hs
      simp [scan_name, name_run, hs, h1]

/-- The run is a name or empty, the text starts with it, and no name byte
follows a run that is not empty. -/
theorem name_run_spec (ip : List Char) :
    name_run ip ++ ip.drop (name_run ip).length = ip ∧
    (name_run ip = [] ∧ is_start (cur ip) = false ∨
      is_ident (name_run ip) = true ∧
        is_name_char (cur (ip.drop (name_run ip).length)) = false) := by
  cases ip with
  | nil => exact ⟨rfl, Or.inl ⟨rfl, is_start_nul⟩⟩
  | cons c cs =>
    by_cases hs : is_start c = true
    · have hrun : name_run (c :: cs) = c :: cs.takeWhile is_name_char := by
        simp [name_run, hs]
      rw [hrun]
      refine ⟨?_, Or.inr ⟨?_, ?_⟩⟩
      · simp only [List.length_cons, List.drop_succ_cons, List.cons_append, List.cons.injEq,
          true_and]
        rw [drop_takeWhile, List.takeWhile_append_dropWhile]
      · simp only [is_ident, hs, Bool.true_and, List.all_eq_true]
        intro x hx
        exact List.mem_takeWhile_imp hx
      · simp only [List.length_cons, List.drop_succ_cons]
        rw [drop_takeWhile]
        exact dropWhile_name_char_cur cs
    · simp only [Bool.not_eq_true] at hs
      have hrun : name_run (c :: cs) = [] := by simp [name_run, hs]
      rw [hrun]
      exact ⟨rfl, Or.inl ⟨rfl, hs⟩⟩

/-- The name step of `directive()` (lines 177-193). -/
theorem parse_name_spec (ip : List Char) :
    parse_name ip =
      if cur ip = '\n' ∨ cur ip = NUL then .error .MissingName
      else if isspace (cur (ip.drop (name_run ip).length)) = false then .error .IllegalChar
      else .ok (ip, (name_run ip).length, ip.drop (name_run ip).length) := by
  have hlen : ip.length - (ip.drop (name_run ip).length).length = (name_run ip).length := by
    have h := congrArg List.length (name_run_spec ip).1
    simp only [List.length_append] at h
    omega
  unfold parse_name
  by_cases h1 : cur ip = '\n' ∨ cur ip = NUL
  · have : (cur ip == '\n' || cur ip == NUL) = true := by simpa using h1
    simp [this, h1]
  · have : (cur ip == '\n' || cur ip == NUL) = false := by simpa using h1
    simp only [this, Bool.false_eq_true, if_false, h1, scan_name_true_run, hlen]
    cases isspace (cur (ip.drop (name_run ip).length)) <;> simp

theorem keyword_undef (c0 : Char) (x : List Char) :
    keyword (c0 :: ("undef".toList ++ x)) = some (OP_UNDEF, x) := by
  have h1 : "undef".toList = ['u', 'n', 'd', 'e', 'f'] := rfl
  have h2 : "undef".length = 5 := rfl
  have h3 : "?undef".length = 6 := rfl
  have d1 : "define".toList = ['d', 'e', 'f', 'i', 'n', 'e'] := rfl
  have d2 : "define".length = 6 := rfl
  simp [keyword, strncmp_eq, h1, h2, h3, d1, d2]

theorem keyword_ifdef (c0 : Char) (x : List Char) :
    keyword (c0 :: ("ifdef".toList ++ x)) = some (OP_IFDEF, x) := by
  have h1 : "ifdef".toList = ['i', 'f', 'd', 'e', 'f'] := rfl
  have h2 : "ifdef".length = 5 := rfl
  have h3 : "?ifdef".length = 6 := rfl
  have d1 : "define".toList = ['d', 'e', 'f', 'i', 'n', 'e'] := rfl
  have d2 : "define".length = 6 := rfl
  have u1 : "undef".toList = ['u', 'n', 'd', 'e', 'f'] := rfl
  have u2 : "undef".length = 5 := rfl
  simp [keyword, strncmp_eq, h1, h2, h3, d1, d2, u1, u2]

theorem keyword_ifndef (c0 : Char) (x : List Char) :
    keyword (c0 :: ("ifndef".toList ++ x)) = some (OP_IFNDEF, x) := by
  have h1 : "ifndef".toList = ['i', 'f', 'n', 'd', 'e', 'f'] := rfl
  have h2 : "ifndef".length = 6 := rfl
  have h3 : "?ifndef".length = 7 := rfl
  have d1 : "define".toList = ['d', 'e', 'f', 'i', 'n', 'e'] := rfl
  have d2 : "define".length = 6 := rfl
  have u1 : "undef".toList = ['u', 'n', 'd', 'e', 'f'] := rfl
  have u2 : "undef".length = 5 := rfl
  have i1 : "ifdef".toList = ['i', 'f', 'd', 'e', 'f'] := rfl
  have i2 : "ifdef".length = 5 := rfl
  simp [keyword, strncmp_eq, h1, h2, h3, d1, d2, u1, u2, i1, i2]

/-- The opcode of a keyword that carries a name. -/
theorem keyword_named (kw : List Char) (hkw : kw ∈ name_keywords) :
    ∃ op, (op = OP_DEFINE ∨ op = OP_UNDEF ∨ op = OP_IFDEF ∨ op = OP_IFNDEF) ∧
      (op = OP_DEFINE ↔ kw = "define".toList) ∧
      ∀ c0 x, keyword (c0 :: (kw ++ x)) = some (op, x) := by
  simp only [name_keywords, List.mem_cons, List.mem_singleton, List.not_mem_nil, or_false]
    at hkw
  rcases hkw with h | h | h | h <;> subst h
  · exact ⟨OP_DEFINE, by simp, by simp, keyword_define⟩
  · exact ⟨OP_UNDEF, by simp, by decide, keyword_undef⟩
  · exact ⟨OP_IFDEF, by simp, by decide, keyword_ifdef⟩
  · exact ⟨OP_IFNDEF, by simp, by decide, keyword_ifndef⟩

/-- Lines 175-225 on a line with a keyword that carries a name: the name
step on the text after the blanks, then the value step of `define`, then the
test for trailing text. -/
theorem directive_parse_named (c0 : Char) (kw b r : List Char) (op : Nat)
    (hop : op = OP_DEFINE ∨ op = OP_UNDEF ∨ op = OP_IFDEF ∨ op = OP_IFNDEF)
    (hk : ∀ c0 x, keyword (c0 :: (kw ++ x)) = some (op, x))
    (hb : b.all isblank = true) (hr : isblank (cur r) = false) :
    directive_parse (c0 :: (kw ++ (b ++ r))) =
      match parse_name r with
      | .error e => .error e
      | .ok (name, namelen, ip) =>
        if op == OP_DEFINE then
          match parse_value ip with
          | .error e => .error e
          | .ok (value, valuelen, ip) =>
            (check_trailing ip ⟨op, name, namelen, value, valuelen⟩).map some
        else
          (check_trailing ip ⟨op, name, namelen, [], 0⟩).map some := by
  have hne : (op != OP_ENDIF && op != OP_ELSE) = true := by
    rcases hop with h | h | h | h <;> subst h <;> decide
  simp only [directive_parse, hk, skip_blank_append b r hb hr, hne, if_true]

/-- The three ways the name step ends, on a line with a keyword that carries
a name. -/
theorem directive_parse_name_cases (c0 : Char) (kw b r : List Char)
    (hkw : kw ∈ name_keywords) (hb : b.all isblank = true) (hr : isblank (cur r) = false) :
    ((cur r = '\n' ∨ cur r = NUL) →
      directive_parse (c0 :: (kw ++ (b ++ r))) = .error .MissingName) ∧
    (¬ (cur r = '\n' ∨ cur r = NUL) → isspace (cur (r.drop (name_run r).length)) = false →
      directive_parse (c0 :: (kw ++ (b ++ r))) = .error .IllegalChar) ∧
    (¬ (cur r = '\n' ∨ cur r = NUL) → isspace (cur (r.drop (name_run r).length)) = true →
      directive_parse (c0 :: (kw ++ (b ++ r))) ≠ .error .MissingName ∧
      directive_parse (c0 :: (kw ++ (b ++ r))) ≠ .error .IllegalChar ∧
      ∀ p, directive_parse (c0 :: (kw ++ (b ++ r))) = .ok (some p) →
        p.name = r ∧ p.namelen = (name_run r).length) := by
  obtain ⟨op, hop, _, hk⟩ := keyword_named kw hkw
  have hdp := directive_parse_named c0 kw b r op hop hk hb hr
  have hpn := parse_name_spec r
  refine ⟨?_, ?_, ?_⟩
  · intro h
    rw [if_pos h] at hpn
    rw [hdp, hpn]
  · intro h1 h2
    rw [if_neg h1, if_pos h2] at hpn
    rw [hdp, hpn]
  · intro h1 h2
    have h2n : ¬ isspace (cur (r.drop (name_run r).length)) = false := by simp [h2]
    rw [if_neg h1, if_neg h2n] at hpn
    rw [hdp, hpn]
    simp only
    have ct : ∀ ip q (e : Err), (check_trailing ip q).map some = .error e →
        e = .TrailingText := by
      intro ip q e hc
      cases hx : check_trailing ip q with
      | error e1 =>
        rw [hx] at hc
        simp only [Except.map, Except.error.injEq] at hc
        rw [← hc]
        exact check_trailing_error ip q e1 hx
      | ok q1 => rw [hx] at hc; simp [Except.map] at hc
    have errs : ∀ e : Err,
        (if op == OP_DEFINE then
          match parse_value (r.drop (name_run r).length) with
          | .error e => .error e
          | .ok (value, valuelen, ip) =>
            (check_trailing ip ⟨op, r, (name_run r).length, value, valuelen⟩).map some
        else
          (check_trailing (r.drop (name_run r).length)
            ⟨op, r, (name_run r).length, [], 0⟩).map some) = .error e →
        e = .UnterminatedValue ∨ e = .TrailingText := by
      intro e he
      split at he
      · split at he
        · rename_i e1 hv
          simp only [Except.error.injEq] at he
          rw [← he]
          exact Or.inl (parse_value_error _ e1 hv)
        · exact Or.inr (ct _ _ e he)
      · exact Or.inr (ct _ _ e he)
    refine ⟨?_, ?_, ?_⟩
    · intro he
      rcases errs _ he with h | h <;> exact absurd h (by simp)
    · intro he
      rcases errs _ he with h | h <;> exact absurd h (by simp)
    · intro p hp
      split at hp
      · split at hp
        · exact absurd hp (by simp)
        · have := check_trailing_ok hp
          rw [this]
          exact ⟨rfl, rfl⟩
      · have := check_trailing_ok hp
        rw [this]
        exact ⟨rfl, rfl⟩

theorem parse_error_first (t : Tables) (lineno : Nat) (ibuf : List Char) (e : Err)
    (h : directive_parse ibuf = .error e) : directive t lineno ibuf = .error e := by
  simp [directive, h]

theorem isdigit_facts {c : Char} (h : isdigit c = true) :
    is_start c = false ∧ isspace c = false ∧ c ≠ '\n' ∧ c ≠ NUL := by
  simp only [isdigit, Bool.and_eq_true, decide_eq_true_eq] at h
  refine ⟨?_, ?_, ?_, ?_⟩
  · simp only [is_start, isalpha, isupper, islower, Bool.or_eq_false_iff, Bool.and_eq_false_iff,
      decide_eq_false_iff_not, beq_eq_false_iff_ne, ne_eq]
    refine ⟨⟨?_, ?_⟩, ?_⟩
    · left; omega
    · left; omega
    · intro hc
      rw [hc] at h
      revert h
      decide
  · simp only [isspace, Bool.or_eq_false_iff, Bool.and_eq_false_iff, decide_eq_false_iff_not,
      beq_eq_false_iff_ne, ne_eq]
    refine ⟨?_, ?_⟩
    · intro hc
      rw [hc] at h
      revert h
      decide
    · right; omega
  · intro hc
    rw [hc] at h
    revert h
    decide
  · intro hc
    rw [hc] at h
    revert h
    decide

/-- C29. On a line with `define`, `undef`, `ifdef` or `ifndef`, blanks `b`
and then a text `r` that starts with no blank: `directive()` stops on
"Missing macro name" exactly when `r` starts with the newline or is empty; it
stops on "Illegal character in macro name" exactly when it does not and the
byte after the longest name `[A-Za-z_][A-Za-z0-9_]*` at the start of `r` (the
first byte of `r` when `r` starts with no letter or underscore, as with a
digit) is no white space; these errors come whatever the table and the flag
are; and whenever the line is accepted its name is that longest name, which is
not empty and is followed by white space. -/
theorem name_parsing (c0 : Char) (kw b r : List Char) (hkw : kw ∈ name_keywords)
    (hb : b.all isblank = true) (hr : isblank (cur r) = false) :
    (directive_parse (c0 :: (kw ++ (b ++ r))) = .error .MissingName ↔
      (cur r = '\n' ∨ cur r = NUL)) ∧
    (directive_parse (c0 :: (kw ++ (b ++ r))) = .error .IllegalChar ↔
      (¬ (cur r = '\n' ∨ cur r = NUL) ∧
        isspace (cur (r.drop (name_run r).length)) = false)) ∧
    (isdigit (cur r) = true →
      directive_parse (c0 :: (kw ++ (b ++ r))) = .error .IllegalChar) ∧
    (∀ (e : Err) (t : Tables) (lineno : Nat),
      directive_parse (c0 :: (kw ++ (b ++ r))) = .error e →
      directive t lineno (c0 :: (kw ++ (b ++ r))) = .error e) ∧
    (∀ p, directive_parse (c0 :: (kw ++ (b ++ r))) = .ok (some p) →
      p.name.take p.namelen = name_run r ∧ is_ident (name_run r) = true ∧
      isspace (cur (r.drop (name_run r).length)) = true) ∧
    (name_run r ++ r.drop (name_run r).length = r ∧
      (name_run r = [] ∧ is_start (cur r) = false ∨
        is_ident (name_run r) = true ∧
          is_name_char (cur (r.drop (name_run r).length)) = false)) := by
  obtain ⟨hA, hB, hC⟩ := directive_parse_name_cases c0 kw b r hkw hb hr
  have hrun := name_run_spec r
  have hpre : ∀ n d : List Char, n ++ d = r → r.take n.length = n := by
    intro n d h
    rw [← h]
    exact List.take_left' rfl
  have htake : r.take (name_run r).length = name_run r := hpre _ _ hrun.1
  refine ⟨?_, ?_, ?_, ?_, ?_, hrun⟩
  · constructor
    · intro h
      by_contra hn
      cases hs : isspace (cur (r.drop (name_run r).length)) with
      | false => rw [hB hn hs] at h; exact absurd h (by simp)
      | true => exact (hC hn hs).1 h
    · exact hA
  · constructor
    · intro h
      by_cases hn : cur r = '\n' ∨ cur r = NUL
      · rw [hA hn] at h; exact absurd h (by simp)
      · refine ⟨hn, ?_⟩
        cases hs : isspace (cur (r.drop (name_run r).length)) with
        | false => rfl
        | true => exact absurd h (hC hn hs).2.1
    · intro h
      exact hB h.1 h.2
  · intro hd
    obtain ⟨h1, h2, h3, h4⟩ := isdigit_facts hd
    apply hB (by simp [h3, h4])
    have : name_run r = [] := by
      cases r with
      | nil => rfl
      | cons c cs =>
        rw [cur_cons] at h1
        simp [name_run, h1]
    rw [this]
    exact h2
  · intro e t lineno h
    exact parse_error_first t lineno _ e h
  · intro p hp
    by_cases hn : cur r = '\n' ∨ cur r = NUL
    · rw [hA hn] at hp; exact absurd hp (by simp)
    · cases hs : isspace (cur (r.drop (name_run r).length)) with
      | false => rw [hB hn hs] at hp; exact absurd hp (by simp)
      | true =>
        obtain ⟨hname, hlen⟩ := (hC hn hs).2.2 p hp
        rw [hname, hlen, htake]
        refine ⟨rfl, ?_, rfl⟩
        rcases directive_parse_ok hp with ⟨_, hn1, _⟩ | ⟨_, ⟨t, q, ht1, ht2, ht3⟩, _⟩
        · rw [hname] at hn1
          rw [hn1, cur_nil] at hn
          exact absurd (Or.inr rfl) hn
        · rw [hname] at ht1
          rw [hlen] at ht2
          have : name_run r = t := by
            rw [← htake, ht2]
            exact hpre t q ht1.symm
          rw [this]
          exact ht3

theorem name_parsing_witness :
    directive ⟨[], IF_NONE, 0⟩ 1 "#define\n".toList = .error .MissingName ∧
    directive ⟨[], IF_NONE, 0⟩ 1 "#define 1X\n".toList = .error .IllegalChar ∧
    directive ⟨[], IF_NONE, 0⟩ 1 "#define X=1\n".toList = .error .IllegalChar ∧
    name_run "FOO_1 bar\n".toList = "FOO_1".toList ∧
    (directive_parse "#ifdef  \n".toList = .error .MissingName ↔
      (cur "\n".toList = '\n' ∨ cur "\n".toList = NUL)) :=
  ⟨by decide, by decide, by decide, by decide,
    (name_parsing '#' "ifdef".toList "  ".toList "\n".toList (by decide) (by decide)
      (by decide)).1⟩

/-! ## The value of a `define` and the text after a directive -/

theorem ident_not_blank {n : List Char} (hn : is_ident n = true) (r : List Char) :
    isblank (cur (n ++ r)) = false := by
  have := ident_cur hn r
  by_contra hc
  simp only [Bool.not_eq_false] at hc
  rw [isblank_not_start hc] at this
  exact absurd this (by simp)

/-- The test of lines 221-225. -/
theorem check_trailing_spec (ip : List Char) (p : Parsed) :
    check_trailing ip p =
      if cur (skip_blank ip) = '\n' ∨ cur (skip_blank ip) = NUL then .ok p
      else .error .TrailingText := by
  unfold check_trailing
  by_cases h : cur (skip_blank ip) = '\n' ∨ cur (skip_blank ip) = NUL
  · rw [if_pos h]
    rcases h with h | h <;> simp [h]
  · rw [if_neg h]
    simp only [not_or] at h
    simp [h.1, h.2]

theorem check_trailing_text (b : List Char) (x : Char) (rest : List Char) (p : Parsed)
    (hb : b.all isblank = true) (hx : isspace x = false) (hx0 : x ≠ NUL) :
    check_trailing (b ++ x :: rest) p = .error .TrailingText := by
  have hxb : isblank x = false := by
    cases h : isblank x with
    | false => rfl
    | true => rw [isblank_isspace h] at hx; exact absurd hx (by simp)
  have hxn : x ≠ '\n' := by
    intro h
    rw [h] at hx
    exact absurd hx (by decide)
  rw [check_trailing_spec, skip_blank_append b (x :: rest) hb (by rw [cur_cons]; exact hxb),
    cur_cons]
  simp [hxn, hx0]

theorem scan_value_unquoted (v r : List Char) (hv : ∀ c ∈ v, isspace c = false)
    (hr : r = [] ∨ isspace (cur r) = true) : scan_value NUL (v ++ r) = r := by
  induction v with
  | nil =>
    rcases hr with hr | hr
    · rw [hr]; rfl
    · cases r with
      | nil => rfl
      | cons c cs =>
        rw [cur_cons] at hr
        simp [scan_value, hr]
  | cons c cs ih =>
    have hc := hv c (List.mem_cons_self _ _)
    have ih2 := ih (fun d hd => hv d (List.mem_cons_of_mem _ hd))
    simp [scan_value, hc, ih2]

/-- The value step on blanks and a value with no quote: the value is the
text up to the next white space. -/
theorem parse_value_unquoted (b v r : List Char) (hb : b ≠ []) (hbb : b.all isblank = true)
    (hv0 : v ≠ []) (hv : ∀ c ∈ v, isspace c = false) (hq : cur v ≠ SQUOTE ∧ cur v ≠ '"')
    (hr : r = [] ∨ isspace (cur r) = true) :
    parse_value (b ++ (v ++ r)) = .ok (v ++ r, v.length, r) := by
  have hbl := blank_head hb hbb (v ++ r)
  have h1 : (cur (b ++ (v ++ r)) == '\n' || cur (b ++ (v ++ r)) == NUL) = false := by
    simp only [Bool.or_eq_false_iff]
    constructor <;> apply beq_eq_false_iff_ne.mpr <;> intro hc <;> rw [hc] at hbl <;>
      revert hbl <;> decide
  obtain ⟨c, cs, hcs⟩ : ∃ c cs, v = c :: cs := by
    cases v with
    | nil => exact absurd rfl hv0
    | cons c cs => exact ⟨c, cs, rfl⟩
  have hcv : cur (v ++ r) = cur v := by rw [hcs]; rfl
  have hcb : isblank (cur (v ++ r)) = false := by
    rw [hcv, hcs, cur_cons]
    have := hv c (by rw [hcs]; exact List.mem_cons_self _ _)
    cases h : isblank c with
    | false => rfl
    | true => rw [isblank_isspace h] at this; exact absurd this (by simp)
  have h2 : skip_blank (b ++ (v ++ r)) = v ++ r := skip_blank_append b _ hbb hcb
  have h3 : (cur (v ++ r) == SQUOTE || cur (v ++ r) == '"') = false := by
    rw [hcv]
    simp [hq.1, hq.2]
  have h4 := scan_value_unquoted v r hv hr
  simp [parse_value, h1, h2, h3, h4]

theorem scan_value_no_quote (q : Char) (v : List Char) (hq0 : q ≠ NUL) (hv : q ∉ v) :
    scan_value q v = [] := by
  have hq1 : (q == NUL) = false := beq_eq_false_iff_ne.mpr hq0
  induction v with
  | nil => rfl
  | cons c cs ih =>
    simp only [List.mem_cons, not_or] at hv
    have hc : (c == q) = false := beq_eq_false_iff_ne.mpr (fun h => hv.1 h.symm)
    simp only [scan_value, hq1, bne, hc, Bool.false_and, Bool.not_false, Bool.and_self,
      Bool.or_true, if_true]
    exact ih hv.2

/-- The value step on blanks, a quote, and a text that does not hold that
quote: "Unterminated value string". -/
theorem parse_value_unterminated (q : Char) (b v : List Char) (hb : b ≠ [])
    (hbb : b.all isblank = true) (hq : q = SQUOTE ∨ q = '"') (hv : q ∉ v) :
    parse_value (b ++ q :: v) = .error .UnterminatedValue := by
  have hq0 : q ≠ NUL := by
    rcases hq with h | h <;> subst h <;> decide
  have hqb : isblank q = false := by
    rcases hq with h | h <;> subst h <;> decide
  have hbl := blank_head hb hbb (q :: v)
  have h1 : (cur (b ++ q :: v) == '\n' || cur (b ++ q :: v) == NUL) = false := by
    simp only [Bool.or_eq_false_iff]
    constructor <;> apply beq_eq_false_iff_ne.mpr <;> intro hc <;> rw [hc] at hbl <;>
      revert hbl <;> decide
  have h2 : skip_blank (b ++ q :: v) = q :: v :=
    skip_blank_append b _ hbb (by simpa [cur_cons] using hqb)
  have h3 : (q == SQUOTE || q == '"') = true := by
    rcases hq with h | h <;> subst h <;> decide
  have h4 := scan_value_no_quote q v hq0 hv
  have h5 : (q != NUL) = true := by simpa [bne_iff_ne] using hq0
  have h6 : (NUL != q) = true := by
    simp only [bne_iff_ne, ne_eq]
    exact fun h => hq0 h.symm
  simp [parse_value, h1, h2, cur_cons, h3, h4, h5, cur_nil, h6]

/-- A `define` line with a name: the value step on the text after the name,
then the test for trailing text. -/
theorem parse_define_line (c0 : Char) (b0 n r : List Char) (hb0 : b0.all isblank = true)
    (hn : is_ident n = true) (hr : isspace (cur r) = true) :
    directive_parse (c0 :: ("define".toList ++ (b0 ++ (n ++ r)))) =
      match parse_value r with
      | .error e => .error e
      | .ok (value, valuelen, ip) =>
        (check_trailing ip ⟨OP_DEFINE, n ++ r, n.length, value, valuelen⟩).map some := by
  rw [directive_parse_named c0 "define".toList b0 (n ++ r) OP_DEFINE (Or.inl rfl) keyword_define
    hb0 (ident_not_blank hn r), parse_name_ident n r hn hr]
  rfl

/-- An `undef`, `ifdef` or `ifndef` line with a name: the test for trailing
text on the text after the name. -/
theorem parse_named_line (c0 : Char) (kw b0 n r : List Char) (op : Nat)
    (hop : op = OP_UNDEF ∨ op = OP_IFDEF ∨ op = OP_IFNDEF)
    (hk : ∀ c0 x, keyword (c0 :: (kw ++ x)) = some (op, x))
    (hb0 : b0.all isblank = true) (hn : is_ident n = true) (hr : isspace (cur r) = true) :
    directive_parse (c0 :: (kw ++ (b0 ++ (n ++ r)))) =
      (check_trailing r ⟨op, n ++ r, n.length, [], 0⟩).map some := by
  have hne : (op == OP_DEFINE) = false := by
    rcases hop with h | h | h <;> subst h <;> decide
  rw [directive_parse_named c0 kw b0 (n ++ r) op (Or.inr hop) hk hb0 (ident_not_blank hn r),
    parse_name_ident n r hn hr]
  simp [hne]

theorem space_of_blanks (b r : List Char) (hb : b ≠ []) (hbb : b.all isblank = true) :
    isspace (cur (b ++ r)) = true := isblank_isspace (blank_head hb hbb r)

/-- C30. On `define` lines with blanks `b0` and a name `n` after the
keyword: with only blanks and the newline after the name the value is empty;
with blanks and a text `v` with no white space in it and no quote in front,
ended by blanks and the newline, the value is `v`; with blanks, a quote `q`
and a text that does not hold `q` again, `directive()` stops on "Unterminated
value string". And `directive()` stops on "Unexpected extra text", whatever
the table and the flag are, when a byte `x` that is no white space comes
after blanks that follow a value with no quote, after the closing quote of a
value and any blanks, after blanks that follow the name of an `undef`,
`ifdef` or `ifndef`, or after `else` or `endif` and any blanks. -/
theorem value_and_trailing_text (c0 : Char) (b0 n : List Char) (hb0 : b0.all isblank = true)
    (hn : is_ident n = true) :
    (∀ b, b.all isblank = true →
      parses_as (c0 :: ("define".toList ++ (b0 ++ (n ++ (b ++ ['\n']))))) OP_DEFINE n [] =
        true) ∧
    (∀ b1 v b2, b1 ≠ [] → b1.all isblank = true → v ≠ [] → (∀ c ∈ v, isspace c = false) →
      cur v ≠ SQUOTE → cur v ≠ '"' → b2.all isblank = true →
      parses_as (c0 :: ("define".toList ++ (b0 ++ (n ++ (b1 ++ (v ++ (b2 ++ ['\n'])))))))
        OP_DEFINE n v = true) ∧
    (∀ b1 q v (t : Tables) (lineno : Nat), b1 ≠ [] → b1.all isblank = true →
      (q = SQUOTE ∨ q = '"') → q ∉ v →
      directive t lineno (c0 :: ("define".toList ++ (b0 ++ (n ++ (b1 ++ q :: v))))) =
        .error .UnterminatedValue) ∧
    (∀ b1 v b2 x rest (t : Tables) (lineno : Nat), b1 ≠ [] → b1.all isblank = true →
      v ≠ [] → (∀ c ∈ v, isspace c = false) → cur v ≠ SQUOTE → cur v ≠ '"' →
      b2 ≠ [] → b2.all isblank = true → isspace x = false → x ≠ NUL →
      directive t lineno
          (c0 :: ("define".toList ++ (b0 ++ (n ++ (b1 ++ (v ++ (b2 ++ x :: rest))))))) =
        .error .TrailingText) ∧
    (∀ b1 q v b2 x rest (t : Tables) (lineno : Nat), b1 ≠ [] → b1.all isblank = true →
      (q = SQUOTE ∨ q = '"') → q ∉ v → b2.all isblank = true → isspace x = false → x ≠ NUL →
      directive t lineno
          (c0 :: ("define".toList ++ (b0 ++ (n ++ (b1 ++ q :: (v ++ q :: (b2 ++ x :: rest))))))) =
        .error .TrailingText) ∧
    (∀ kw ∈ ["undef".toList, "ifdef".toList, "ifndef".toList],
      ∀ b2 x rest (t : Tables) (lineno : Nat), b2 ≠ [] → b2.all isblank = true →
      isspace x = false → x ≠ NUL →
      directive t lineno (c0 :: (kw ++ (b0 ++ (n ++ (b2 ++ x :: rest))))) =
        .error .TrailingText) ∧
    (∀ kw ∈ ["else".toList, "endif".toList],
      ∀ b2 x rest (t : Tables) (lineno : Nat), b2.all isblank = true →
      isspace x = false → x ≠ NUL →
      directive t lineno (c0 :: (kw ++ (b2 ++ x :: rest))) = .error .TrailingText) := by
  refine ⟨?_, ?_, ?_, ?_, ?_, ?_, ?_⟩
  · intro b hb
    have hsp : isspace (cur (b ++ ['\n'])) = true := by
      cases b with
      | nil => decide
      | cons c cs => exact space_of_blanks (c :: cs) _ (by simp) hb
    have hp := parse_define_line c0 b0 n (b ++ ['\n']) hb0 hn hsp
    have hv : ∃ value ip, parse_value (b ++ ['\n']) = .ok (value, 0, ip) ∧
        skip_blank ip = ['\n'] := by
      by_cases hbn : b = []
      · subst hbn
        exact ⟨[], ['\n'], by simp [parse_value, cur_cons], by decide⟩
      · have hbl := blank_head hbn hb ['\n']
        have h1 : (cur (b ++ ['\n']) == '\n' || cur (b ++ ['\n']) == NUL) = false := by
          simp only [Bool.or_eq_false_iff]
          constructor <;> apply beq_eq_false_iff_ne.mpr <;> intro hc <;> rw [hc] at hbl <;>
            revert hbl <;> decide
        have h2 : skip_blank (b ++ ['\n']) = ['\n'] := skip_blank_append b _ hb (by decide)
        refine ⟨['\n'], ['\n'], ?_, by decide⟩
        have h3 : scan_value NUL ['\n'] = ['\n'] := by decide
        have h4 : (cur ['\n'] == SQUOTE || cur ['\n'] == '"') = false := by decide
        simp [parse_value, h1, h2, h3, h4]
    obtain ⟨value, ip, hpv, hip⟩ := hv
    rw [hpv] at hp
    simp only [check_trailing_spec, hip, cur_cons, true_or, if_true, Except.map] at hp
    unfold parses_as
    rw [hp]
    simp
  · intro b1 v b2 hb1 hbb1 hv0 hv hq1 hq2 hb2
    have hp := parse_define_line c0 b0 n (b1 ++ (v ++ (b2 ++ ['\n']))) hb0 hn
      (space_of_blanks b1 _ hb1 hbb1)
    have hsp : isspace (cur (b2 ++ ['\n'])) = true := by
      cases b2 with
      | nil => decide
      | cons c cs => exact space_of_blanks (c :: cs) _ (by simp) hb2
    rw [parse_value_unquoted b1 v (b2 ++ ['\n']) hb1 hbb1 hv0 hv ⟨hq1, hq2⟩ (Or.inr hsp)] at hp
    simp only [check_trailing_newline b2 hb2, Except.map] at hp
    unfold parses_as
    rw [hp]
    simp
  · intro b1 q v t lineno hb1 hbb1 hq hv
    apply parse_error_first
    rw [parse_define_line c0 b0 n (b1 ++ q :: v) hb0 hn (space_of_blanks b1 _ hb1 hbb1),
      parse_value_unterminated q b1 v hb1 hbb1 hq hv]
  · intro b1 v b2 x rest t lineno hb1 hbb1 hv0 hv hq1 hq2 hb2 hbb2 hx hx0
    apply parse_error_first
    rw [parse_define_line c0 b0 n (b1 ++ (v ++ (b2 ++ x :: rest))) hb0 hn
        (space_of_blanks b1 _ hb1 hbb1),
      parse_value_unquoted b1 v (b2 ++ x :: rest) hb1 hbb1 hv0 hv ⟨hq1, hq2⟩
        (Or.inr (space_of_blanks b2 _ hb2 hbb2))]
    simp only [check_trailing_text b2 x rest _ hbb2 hx hx0, Except.map]
  · intro b1 q v b2 x rest t lineno hb1 hbb1 hq hv hbb2 hx hx0
    apply parse_error_first
    rw [parse_define_line c0 b0 n (b1 ++ q :: (v ++ q :: (b2 ++ x :: rest))) hb0 hn
        (space_of_blanks b1 _ hb1 hbb1),
      parse_value_quoted q b1 v (b2 ++ x :: rest) hb1 hbb1 hq hv]
    simp only [check_trailing_text b2 x rest _ hbb2 hx hx0, Except.map]
  · intro kw hkw b2 x rest t lineno hb2 hbb2 hx hx0
    apply parse_error_first
    simp only [List.mem_cons, List.mem_singleton, List.not_mem_nil, or_false] at hkw
    have hsp := space_of_blanks b2 (x :: rest) hb2 hbb2
    rcases hkw with h | h | h <;> subst h
    · rw [parse_named_line c0 _ b0 n _ OP_UNDEF (Or.inl rfl) keyword_undef hb0 hn hsp]
      simp only [check_trailing_text b2 x rest _ hbb2 hx hx0, Except.map]
    · rw [parse_named_line c0 _ b0 n _ OP_IFDEF (Or.inr (Or.inl rfl)) keyword_ifdef hb0 hn hsp]
      simp only [check_trailing_text b2 x rest _ hbb2 hx hx0, Except.map]
    · rw [parse_named_line c0 _ b0 n _ OP_IFNDEF (Or.inr (Or.inr rfl)) keyword_ifndef hb0 hn
        hsp]
      simp only [check_trailing_text b2 x rest _ hbb2 hx hx0, Except.map]
  · intro kw hkw b2 x rest t lineno hbb2 hx hx0
    apply parse_error_first
    simp only [List.mem_cons, List.mem_singleton, List.not_mem_nil, or_false] at hkw
    have hxb : isblank x = false := by
      cases h : isblank x with
      | false => rfl
      | true => rw [isblank_isspace h] at hx; exact absurd hx (by simp)
    have hsk : skip_blank (b2 ++ x :: rest) = x :: rest :=
      skip_blank_append b2 _ hbb2 (by rw [cur_cons]; exact hxb)
    have hct : ∀ p, check_trailing (x :: rest) p = .error .TrailingText := by
      intro p
      exact check_trailing_text [] x rest p rfl hx hx0
    rcases hkw with h | h <;> subst h
    · simp only [directive_parse, keyword_else, hsk, hct]
      rfl
    · simp only [directive_parse, keyword_endif, hsk, hct]
      rfl

theorem value_and_trailing_text_witness :
    directive ⟨[], IF_NONE, 0⟩ 1 "#define X\n".toList =
      .ok (0, ⟨[⟨1, "X".toList, []⟩], IF_NONE, 0⟩) ∧
    directive ⟨[], IF_NONE, 0⟩ 1 "#define X abc\n".toList =
      .ok (0, ⟨[⟨1, "X".toList, "abc".toList⟩], IF_NONE, 0⟩) ∧
    directive ⟨[], IF_NONE, 0⟩ 1 "#define X \"abc\n".toList = .error .UnterminatedValue ∧
    directive ⟨[], IF_NONE, 0⟩ 1 "#define X a b\n".toList = .error .TrailingText ∧
    directive ⟨[], IF_TRUE, 1⟩ 2 "#endif x\n".toList = .error .TrailingText ∧
    parses_as "#define X abc\n".toList OP_DEFINE "X".toList "abc".toList = true :=
  ⟨by decide, by decide, by decide, by decide, by decide,
    (value_and_trailing_text '#' " ".toList "X".toList (by decide) (by decide)).2.1
      " ".toList "abc".toList [] (by decide) (by decide) (by decide) (by decide) (by decide)
      (by decide) (by decide)⟩

/-! ## The tables of a run -/

theorem do_include_tables (e : Env) (s s1 : State) (ibuf : List Char)
    (h : do_include e s ibuf = .cont s1) :
    s1.t = s.t ∧ s1.skip_if_false = s.skip_if_false := by
  unfold do_include at h
  split at h
  · simp only [Next.cont.injEq] at h
    subst h
    exact ⟨rfl, rfl⟩
  · simp only at h
    repeat'
      first
        | (split at h)
    all_goals
      first
        | (simp only [Next.cont.injEq] at h; subst h; exact ⟨rfl, rfl⟩)
        | exact absurd h (by simp)

/-- A pass leaves the globals of `directive()` as they are or as one call of
`directive()` leaves them. -/
theorem step_tables (e : Env) (s s1 : State) (h : step e s = .cont s1) :
    s1.t = s.t ∨ ∃ lineno ibuf r, directive s.t lineno ibuf = .ok (r, s1.t) := by
  unfold step at h
  split at h
  · split at h
    · exact absurd h (by simp)
    · simp only [Next.cont.injEq] at h
      subst h
      exact Or.inl rfl
  · simp only at h
    split at h
    · simp only [Next.cont.injEq] at h
      subst h
      exact Or.inl rfl
    · split at h
      · split at h
        · have := (do_include_tables e _ s1 _ h).1
          exact Or.inl this
        · split at h
          · exact absurd h (by simp)
          · rename_i r t hd
            split at h
            · split at h
              · have := (process_frames e _ s1 _ h).2.2.1
                exact Or.inr ⟨_, _, r, by rw [this]; exact hd⟩
              · exact absurd h (by simp)
            · simp only [Next.cont.injEq] at h
              subst h
              exact Or.inr ⟨_, _, r, hd⟩
      · split at h
        · simp only [Next.cont.injEq] at h
          subst h
          exact Or.inl rfl
        · have := (process_frames e _ s1 _ h).2.2.1
          exact Or.inl this

theorem start_tables (e : Env) (s : State) (h : start e = .ok s) : Reachable s.t := by
  unfold start at h
  split at h
  · exact absurd h (by simp)
  · rename_i t ht
    simp only at h
    split at h
    · exact absurd h (by simp)
    · simp only [Except.ok.injEq] at h
      subst h
      exact (define_options_inv e.defines _ t ht Reachable.init).1

/-- The globals of `directive()` in a state of a run come from calls of
`directive()`. -/
theorem reach_tables (e : Env) (s : State) (h : Reach e s) : Reachable s.t := by
  induction h with
  | first s hs => exact start_tables e s hs
  | next s s1 _ hstep ih =>
    rcases step_tables e s s1 hstep with h1 | ⟨lineno, ibuf, r, h1⟩
    · rw [h1]; exact ih
    · exact Reachable.call s.t lineno ibuf r s1.t ih h1

theorem unique_active_pair (a : List macro_t) : ∀ (m1 m2 : macro_t) (b c : List macro_t),
    unique_active (a ++ m1 :: (b ++ m2 :: c)) = true → m1.len ≠ 0 → m2.len ≠ 0 →
    m1.name ≠ m2.name := by
  induction a with
  | nil =>
    intro m1 m2 b c h h1 h2 hn
    simp only [List.nil_append, unique_active, Bool.and_eq_true, Bool.or_eq_true, beq_iff_eq,
      Bool.not_eq_true'] at h
    rcases h.1 with h0 | h0
    · exact h1 h0
    · simp only [defined, List.any_eq_false] at h0
      have := h0 m2 (by simp)
      simp [active_named, h2, hn] at this
  | cons x a ih =>
    intro m1 m2 b c h h1 h2
    simp only [List.cons_append, unique_active, Bool.and_eq_true] at h
    exact ih m1 m2 b c h.2 h1 h2

/-- C38. In every table that calls of `directive()` produce from the empty
one, whatever the lines and the flag are, no two active entries carry the same
name; the tables after the `-D` options and the tables of the states of a run
of `main()` are such tables. So two entries of such a table that are both
active have different names, and an active entry named `n` is the only active
entry named `n`: the first one a lookup finds is the only one. -/
theorem active_names_unique (e : Env) :
    (∀ t, Reachable t → unique_active t.macros = true) ∧
    (∀ args t, define_options ⟨[], IF_NONE, 0⟩ args = .ok t → Reachable t) ∧
    (∀ s, Reach e s → Reachable s.t) ∧
    (∀ ms, unique_active ms = true → ∀ a m1 b m2 c, ms = a ++ m1 :: (b ++ m2 :: c) →
      m1.len ≠ 0 → m2.len ≠ 0 → m1.name ≠ m2.name) ∧
    (∀ ms, unique_active ms = true → ∀ n pre m post, ms = pre ++ m :: post →
      active_named n m = true → ∀ m1 ∈ pre ++ post, active_named n m1 = false) := by
  refine ⟨fun t ht => (reachable_table_inv ht).2, ?_, reach_tables e, ?_, ?_⟩
  · intro args t h
    exact (define_options_inv args _ t h Reachable.init).1
  · intro ms h a m1 b m2 c hms h1 h2
    rw [hms] at h
    exact unique_active_pair a m1 m2 b c h h1 h2
  · intro ms h n pre m post hms hm m1 hm1
    simp only [active_named, Bool.and_eq_true, bne_iff_ne, ne_eq, beq_iff_eq] at hm
    cases hact : active_named n m1 with
    | false => rfl
    | true =>
      exfalso
      simp only [active_named, Bool.and_eq_true, bne_iff_ne, ne_eq, beq_iff_eq] at hact
      rw [hms] at h
      rcases List.mem_append.mp hm1 with hin | hin
      · obtain ⟨a, b, hab⟩ := List.append_of_mem hin
        rw [hab, List.append_assoc, List.cons_append] at h
        exact unique_active_pair a m1 m b post h hact.1 hm.1 (by rw [hact.2, hm.2])
      · obtain ⟨b, c, hbc⟩ := List.append_of_mem hin
        rw [hbc] at h
        exact unique_active_pair pre m m1 b c h hm.1 hact.1 (by rw [hact.2, hm.2])

theorem active_names_unique_witness :
    unique_active [⟨1, "X".toList, "1".toList⟩, ⟨0, "Y".toList, "2".toList⟩,
      ⟨1, "Y".toList, "3".toList⟩] = true ∧
    define_options ⟨[], IF_NONE, 0⟩ ["X=1".toList, "X=2".toList] = .error .Redefinition ∧
    ∀ m1 ∈ [] ++ [⟨0, "Y".toList, "2".toList⟩, ⟨1, "Y".toList, "3".toList⟩],
      active_named "X".toList m1 = false :=
  ⟨by decide, by decide,
    (active_names_unique (plain_env [])).2.2.2.2
      [⟨1, "X".toList, "1".toList⟩, ⟨0, "Y".toList, "2".toList⟩, ⟨1, "Y".toList, "3".toList⟩]
      (by decide) "X".toList [] ⟨1, "X".toList, "1".toList⟩
      [⟨0, "Y".toList, "2".toList⟩, ⟨1, "Y".toList, "3".toList⟩] rfl (by decide)⟩

/-! ## The claims on the flags and the include stack -/

/-- C39. In the default grammar, a control line whose text after the control
character begins with no keyword, read outside a comment, stops the run on
"Unrecognized control line" in every state, so also inside a false block
(`skip_if_false` set, `in_if == IF_FALSE`); and `directive()` returns -1 on
such a line for every table and every value of `in_if`, which it does not
read before. -/
theorem unrecognized_in_false_block (e : Env) (s : State) (x : List Char)
    (rest : List (List Char)) (hr : e.restricted = false) (hctl : e.ctl = '#' ∨ e.ctl = '%')
    (hinc : s.incomment = 0) (hfin : s.currfile.fin = (e.ctl :: x) :: rest)
    (hkw : begins_with_keyword (trim_line (strip_comments (s.currfile.lineno + 1) 0 x).2) =
      false) :
    step e s = .halt (.fatal .UnrecognizedDirective s.out) ∧
    ∀ (t : Tables) (lineno : Nat),
      directive t lineno (e.ctl :: trim_line (strip_comments (s.currfile.lineno + 1) 0 x).2) =
        .ok (-1, t) := by
  have hc1 : e.ctl ≠ '/' := by rcases hctl with h | h <;> rw [h] <;> decide
  have hc2 : isspace e.ctl = false := by rcases hctl with h | h <;> rw [h] <;> decide
  constructor
  · rw [step_unrecognized e s x rest hc1 hc2 hinc hfin hkw, hr]
    rfl
  · intro t lineno
    apply directive_unknown
    rw [begins_with_keyword_eq e.ctl, Bool.or_eq_false_iff] at hkw
    cases hk : keyword (e.ctl :: trim_line (strip_comments (s.currfile.lineno + 1) 0 x).2) with
    | none => rfl
    | some _ => rw [hk] at hkw; simp at hkw

theorem unrecognized_in_false_block_witness :
    main (plain_env ["#ifdef X\n".toList, "hidden\n".toList, "#foo\n".toList,
        "#endif\n".toList]) 4 =
      .fatal .UnrecognizedDirective ["# 1 \"<stdin>\"\n".toList, "\n".toList, "\n".toList] ∧
    step (plain_env [])
        ⟨⟨[], IF_FALSE, 1⟩, 1, 0, ⟨"<stdin>".toList, ["#foo\n".toList], 2⟩, [], []⟩ =
      .halt (.fatal .UnrecognizedDirective []) :=
  ⟨by decide,
    (unrecognized_in_false_block (plain_env [])
      ⟨⟨[], IF_FALSE, 1⟩, 1, 0, ⟨"<stdin>".toList, ["#foo\n".toList], 2⟩, [], []⟩
      "foo\n".toList [] rfl (by decide) rfl rfl (by decide)).1⟩

theorem directive_not_conditional_error (s : Tables) (lineno : Nat) (ibuf : List Char)
    (k : Nat) : directive s lineno ibuf ≠ .error (.UnterminatedConditional k) := by
  intro h
  rcases directive_error s lineno ibuf _ h with h1 | h1 | h1 | h1 | ⟨_, h1⟩ | h1 | h1 <;>
    exact absurd h1 (by simp)

theorem do_include_not_conditional_error (e : Env) (s : State) (ibuf : List Char) (k : Nat)
    (out : List (List Char)) :
    do_include e s ibuf ≠ .halt (.fatal (.UnterminatedConditional k) out) := by
  intro h
  unfold do_include at h
  split at h
  · exact absurd h (by simp)
  · simp only at h
    repeat'
      first
        | (split at h)
    all_goals exact absurd h (by simp)

/-- The loop stops on the error of an open block only at the end of the top
level file. -/
theorem step_conditional_error (e : Env) (s : State) (k : Nat) (out : List (List Char))
    (h : step e s = .halt (.fatal (.UnterminatedConditional k) out)) :
    s.currfile.fin = [] ∧ s.below = [] ∧ s.t.in_if ≠ IF_NONE ∧ s.t.if_lineno = k := by
  unfold step at h
  split at h
  · rename_i hfin
    split at h
    · rename_i hb
      simp only [Next.halt.injEq, finish] at h
      split at h
      · exact absurd h (by simp)
      · split at h
        · rename_i hk
          simp only [Outcome.fatal.injEq, Err.UnterminatedConditional.injEq] at h
          exact ⟨hfin, hb, by simpa using hk, h.1⟩
        · exact absurd h (by simp)
    · exact absurd h (by simp)
  · simp only at h
    split at h
    · exact absurd h (by simp)
    · split at h
      · split at h
        · exact absurd h (do_include_not_conditional_error e _ _ k out)
        · split at h
          · rename_i err hd
            simp only [Next.halt.injEq, Outcome.fatal.injEq] at h
            rw [h.1] at hd
            exact absurd hd (directive_not_conditional_error _ _ _ k)
          · split at h
            · split at h
              · have := process_halt e _ _ _ h
                exact absurd this (by simp)
              · exact absurd h (by simp)
            · exact absurd h (by simp)
      · split at h
        · exact absurd h (by simp)
        · have := process_halt e _ _ _ h
          exact absurd this (by simp)

/-- C40. The pass at the end of an included file (the current file has no
line left and a file lies below) goes on with the file below as the current
one and writes its marker; the table, `in_if`, `if_lineno`, `skip_if_false`
and `incomment` are as they were, and no error is raised. The errors of an
open comment and of an open block stop the loop only at the end of the top
level file. So a block or a comment left open in an included file is open in
the file that includes it. -/
theorem pop_keeps_flags (e : Env) (s : State) (f : Frame) (fs : List Frame)
    (hfin : s.currfile.fin = []) (hb : s.below = f :: fs) :
    step e s = .cont { s with
      currfile := f, below := fs, out := put_c e s.out (marker f) } ∧
    (∀ k out, step e s ≠ .halt (.fatal (.UnterminatedComment k) out)) ∧
    (∀ k out, step e s ≠ .halt (.fatal (.UnterminatedConditional k) out)) ∧
    (∀ (s0 : State) k out, step e s0 = .halt (.fatal (.UnterminatedComment k) out) →
      s0.currfile.fin = [] ∧ s0.below = []) ∧
    (∀ (s0 : State) k out, step e s0 = .halt (.fatal (.UnterminatedConditional k) out) →
      s0.currfile.fin = [] ∧ s0.below = []) := by
  have hstep := step_pop e s f fs hfin hb
  refine ⟨hstep, ?_, ?_, ?_, ?_⟩
  · intro k out h
    rw [hstep] at h
    exact absurd h (by simp)
  · intro k out h
    rw [hstep] at h
    exact absurd h (by simp)
  · intro s0 k out h
    have := step_comment_error e s0 k out h
    exact ⟨this.1, this.2.1⟩
  · intro s0 k out h
    have := step_conditional_error e s0 k out h
    exact ⟨this.1, this.2.1⟩

theorem pop_keeps_flags_witness :
    main (nested_env ["#ifdef X\n".toList, "a\n".toList]) 6 =
      .fatal (.UnterminatedConditional 1)
        ["# 1 \"<stdin>\"\n".toList, "# 1 \"x\"\n".toList, "\n".toList, "\n".toList,
          "# 2 \"<stdin>\"\n".toList, "\n".toList] ∧
    main (nested_env ["a /* open\n".toList]) 5 =
      .fatal (.UnterminatedComment 1)
        ["# 1 \"<stdin>\"\n".toList, "# 1 \"x\"\n".toList, "a\n".toList,
          "# 2 \"<stdin>\"\n".toList, "\n".toList] ∧
    step (nested_env [])
        ⟨⟨[], IF_FALSE, 1⟩, 1, 0, ⟨"x".toList, [], 2⟩,
          [⟨"<stdin>".toList, ["b\n".toList], 1⟩], []⟩ =
      .cont ⟨⟨[], IF_FALSE, 1⟩, 1, 0, ⟨"<stdin>".toList, ["b\n".toList], 1⟩, [],
        ["# 2 \"<stdin>\"\n".toList]⟩ :=
  ⟨by decide, by decide,
    (pop_keeps_flags (nested_env [])
      ⟨⟨[], IF_FALSE, 1⟩, 1, 0, ⟨"x".toList, [], 2⟩,
        [⟨"<stdin>".toList, ["b\n".toList], 1⟩], []⟩
      ⟨"<stdin>".toList, ["b\n".toList], 1⟩ [] rfl rfl).1⟩

/-! ## An include line in a false block -/

theorem include_chars : "include".toList = ['i', 'n', 'c', 'l', 'u', 'd', 'e'] := rfl

theorem strip_include (ln : Nat) (x : List Char) :
    strip_comments ln 0 ("include".toList ++ x) =
      ((strip_comments ln 0 x).1, "include".toList ++ (strip_comments ln 0 x).2) := by
  rw [include_chars]
  simp only [List.cons_append, List.nil_append]
  rw [strip_head _ 'i' _ (by decide), strip_head _ 'n' _ (by decide),
    strip_head _ 'c' _ (by decide), strip_head _ 'l' _ (by decide),
    strip_head _ 'u' _ (by decide), strip_head _ 'd' _ (by decide),
    strip_head _ 'e' _ (by decide)]

theorem trim_include (y : List Char) :
    trim_line ("include".toList ++ y) = "include".toList ++ trim_line y := by
  rw [include_chars]
  simp only [List.cons_append, List.nil_append]
  rw [trim_head 'i' _ (by decide), trim_head 'n' _ (by decide),
    trim_head 'c' _ (by decide), trim_head 'l' _ (by decide),
    trim_head 'u' _ (by decide), trim_head 'd' _ (by decide),
    trim_head 'e' _ (by decide)]

theorem include_test (y : List Char) :
    strncmp_eq ("include".toList ++ y) "include".toList "include".length = true := by
  have h7 : "include".length = 7 := rfl
  rw [include_chars, h7]
  simp [strncmp_eq]

/-- C34. An `include` line read with `skip_if_false` set has no effect on the
include stack: `do_include` goes on with the same current file and the same
files below, whatever the buffer holds (a malformed line, a name no path
opens) and however many files lie below, and raises no error; with the
annotations it writes one blank line, without them nothing. The pass of the
loop over such a line, read outside a comment, counts the line and does
nothing else to the stack. -/
theorem include_in_false_block (e : Env) (s : State) (x : List Char)
    (rest : List (List Char)) (hc1 : e.ctl ≠ '/') (hc2 : isspace e.ctl = false)
    (hinc : s.incomment = 0) (hskip : s.skip_if_false ≠ 0)
    (hfin : s.currfile.fin = (e.ctl :: ("include".toList ++ x)) :: rest) :
    step e s = .cont { s with
      currfile := ⟨s.currfile.fname, rest, s.currfile.lineno + 1⟩,
      incomment := (strip_comments (s.currfile.lineno + 1) 0 x).1,
      out := put_c e s.out ['\n'] } ∧
    (∀ ibuf, do_include e s ibuf = .cont { s with out := put_c e s.out ['\n'] }) ∧
    (e.style = STYLE_C → put_c e s.out ['\n'] = s.out ++ [['\n']]) ∧
    (e.style ≠ STYLE_C → put_c e s.out ['\n'] = s.out) := by
  refine ⟨?_, ?_, ?_, ?_⟩
  · obtain ⟨t, skip, inc, ⟨fname, fin, lineno⟩, below, out⟩ := s
    simp only at hinc hfin hskip
    subst hinc hfin
    have hcn := not_space_ne_newline hc2
    unfold step
    simp only [strip_head _ _ _ hc1, strip_include, trim_head _ _ hc2, trim_include, cur_cons,
      hcn, Bool.and_false, Bool.false_eq_true, if_false, beq_self_eq_true, if_true,
      List.drop_succ_cons, List.drop_zero, include_test, do_include, bne_iff_ne, ne_eq, hskip,
      not_false_eq_true]
  · intro ibuf
    simp only [do_include, bne_iff_ne, ne_eq, hskip, not_false_eq_true, if_true]
  · intro h
    simp [put_c, h]
  · intro h
    simp [put_c, h]

theorem include_in_false_block_witness :
    main (plain_env ["#ifdef X\n".toList, "#include\n".toList, "#include <nofile>\n".toList,
        "#include \"a\" b\n".toList, "#endif\n".toList, "c\n".toList]) 7 =
      .exit0 ["# 1 \"<stdin>\"\n".toList, "\n".toList, "\n".toList, "\n".toList, "\n".toList,
        "\n".toList, "c\n".toList] ∧
    main (shell_env ["%ifdef X\n".toList, "%include <nofile>\n".toList, "%endif\n".toList,
        "c\n".toList]) 5 = .exit0 ["c\n".toList] ∧
    do_include (plain_env [])
        ⟨⟨[], IF_FALSE, 1⟩, 1, 0, ⟨"e".toList, [], 1⟩,
          [⟨"d".toList, [], 1⟩, ⟨"c".toList, [], 1⟩, ⟨"b".toList, [], 1⟩,
            ⟨"a".toList, [], 1⟩], []⟩ "#include <x>\n".toList =
      .cont ⟨⟨[], IF_FALSE, 1⟩, 1, 0, ⟨"e".toList, [], 1⟩,
          [⟨"d".toList, [], 1⟩, ⟨"c".toList, [], 1⟩, ⟨"b".toList, [], 1⟩,
            ⟨"a".toList, [], 1⟩], [['\n']]⟩ ∧
    step (plain_env [])
        ⟨⟨[], IF_FALSE, 1⟩, 1, 0, ⟨"<stdin>".toList, ["#include <nofile>\n".toList], 1⟩,
          [], []⟩ =
      .cont ⟨⟨[], IF_FALSE, 1⟩, 1, 0, ⟨"<stdin>".toList, [], 2⟩, [], [['\n']]⟩ :=
  ⟨by decide, by decide, by decide,
    (include_in_false_block (plain_env [])
      ⟨⟨[], IF_FALSE, 1⟩, 1, 0, ⟨"<stdin>".toList, ["#include <nofile>\n".toList], 1⟩, [], []⟩
      " <nofile>\n".toList [] (by decide) (by decide) rfl (by decide) rfl).1⟩

/-! ## Keywords as prefixes -/

theorem strip_letters (ln : Nat) (k x : List Char) (hk : ∀ c ∈ k, c ≠ '/') :
    strip_comments ln 0 (k ++ x) =
      ((strip_comments ln 0 x).1, k ++ (strip_comments ln 0 x).2) := by
  induction k with
  | nil => rfl
  | cons c k ih =>
    rw [List.cons_append, strip_head _ c _ (hk c (List.mem_cons_self _ _)),
      ih (fun d hd => hk d (List.mem_cons_of_mem _ hd))]
    rfl

theorem trim_letters (k y : List Char) (hk : ∀ c ∈ k, isspace c = false) :
    trim_line (k ++ y) = k ++ trim_line y := by
  induction k with
  | nil => rfl
  | cons c k ih =>
    rw [List.cons_append, trim_head c _ (hk c (List.mem_cons_self _ _)),
      ih (fun d hd => hk d (List.mem_cons_of_mem _ hd))]
    rfl

theorem keyword_ops_letters :
    ∀ p ∈ keyword_ops, ∀ c ∈ p.1, c ≠ '/' ∧ isspace c = false := by decide

theorem keyword_ops_keyword (kw : List Char) (op : Nat) (h : (kw, op) ∈ keyword_ops)
    (c0 : Char) (x : List Char) : keyword (c0 :: (kw ++ x)) = some (op, x) := by
  simp only [keyword_ops, List.mem_cons, Prod.mk.injEq, List.mem_singleton, List.not_mem_nil,
    or_false] at h
  rcases h with h | h | h | h | h | h <;> obtain ⟨h1, h2⟩ := h <;> subst h1 h2
  · exact keyword_define c0 x
  · exact keyword_undef c0 x
  · exact keyword_ifdef c0 x
  · exact keyword_ifndef c0 x
  · exact keyword_endif c0 x
  · exact keyword_else c0 x

theorem keyword_ops_not_include (kw : List Char) (op : Nat) (h : (kw, op) ∈ keyword_ops)
    (y : List Char) : strncmp_eq (kw ++ y) "include".toList "include".length = false := by
  have h7 : "include".length = 7 := rfl
  have h0 : "else".toList = ['e', 'l', 's', 'e'] := rfl
  have h1 : "endif".toList = ['e', 'n', 'd', 'i', 'f'] := rfl
  have h2 : "define".toList = ['d', 'e', 'f', 'i', 'n', 'e'] := rfl
  have h3 : "undef".toList = ['u', 'n', 'd', 'e', 'f'] := rfl
  have h4 : "ifdef".toList = ['i', 'f', 'd', 'e', 'f'] := rfl
  have h5 : "ifndef".toList = ['i', 'f', 'n', 'd', 'e', 'f'] := rfl
  simp only [keyword_ops, List.mem_cons, Prod.mk.injEq, List.mem_singleton, List.not_mem_nil,
    or_false] at h
  rcases h with h | h | h | h | h | h <;> obtain ⟨h1, h2⟩ := h <;> subst h1 h2 <;>
    simp [strncmp_eq, include_chars, h7, h0, h1, h2, h3, h4, h5]

/-- The pass over a control line that begins with one of the six keywords,
read outside a comment: the line goes to `directive()`, and the pass ends on
its error or goes on with its result; the label `process` is not reached. -/
theorem step_keyword (e : Env) (s : State) (kw : List Char) (op : Nat) (x : List Char)
    (rest : List (List Char)) (hk : (kw, op) ∈ keyword_ops)
    (hc1 : e.ctl ≠ '/') (hc2 : isspace e.ctl = false) (hinc : s.incomment = 0)
    (hfin : s.currfile.fin = (e.ctl :: (kw ++ x)) :: rest) :
    step e s =
      match directive s.t (s.currfile.lineno + 1)
          (e.ctl :: (kw ++ trim_line (strip_comments (s.currfile.lineno + 1) 0 x).2)) with
      | .error err => .halt (.fatal err s.out)
      | .ok (r, t) =>
        .cont { s with
          currfile := ⟨s.currfile.fname, rest, s.currfile.lineno + 1⟩,
          incomment := (strip_comments (s.currfile.lineno + 1) 0 x).1,
          t := t, skip_if_false := r, out := put_c e s.out ['\n'] } := by
  obtain ⟨t, skip, inc, ⟨fname, fin, lineno⟩, below, out⟩ := s
  simp only at hinc hfin
  subst hinc hfin
  have hcn := not_space_ne_newline hc2
  have hl1 : ∀ c ∈ kw, c ≠ '/' := fun c hc => (keyword_ops_letters _ hk c hc).1
  have hl2 : ∀ c ∈ kw, isspace c = false := fun c hc => (keyword_ops_letters _ hk c hc).2
  unfold step
  simp only [strip_head _ _ _ hc1, strip_letters _ _ _ hl1, trim_head _ _ hc2,
    trim_letters _ _ hl2, cur_cons, hcn, Bool.and_false, Bool.false_eq_true, if_false,
    beq_self_eq_true, if_true, List.drop_succ_cons, List.drop_zero,
    keyword_ops_not_include kw op hk]
  cases hd : directive t (lineno + 1)
      (e.ctl :: (kw ++ trim_line (strip_comments (lineno + 1) 0 x).2)) with
  | error err => rfl
  | ok p =>
    obtain ⟨r, t1⟩ := p
    have hr := directive_ret _ _ _ _ _ hd
    rw [keyword_ops_keyword kw op hk] at hr
    have hr1 : r = 0 ∨ r = 1 := by
      rcases hr with ⟨h, _⟩ | ⟨_, h⟩
      · exact absurd h (by simp)
      · exact h
    rcases hr1 with h | h <;> subst h <;> simp

/-- C35. The keyword chain tests a prefix of the text after the first byte:
a line that begins, after its first byte, with one of the six keywords is
given the opcode of that keyword and scanned on from the byte after the
keyword, whatever that byte is, and `directive()` does not return -1 on it.
So `define` directly followed by a name parses as `define`, a blank and the
name do (`#defineX 1` defines `X` as `1`); `else` and `endif` followed by
blanks and a byte that is no white space stop on "Unexpected extra text"
(`#elsewhere`, `#endif_x`); and the pass of the loop over such a line, in
either grammar, ends on the error of `directive()` or goes on with its
result, without a call of `do_macro()`. -/
theorem keyword_matched_as_prefix :
    (∀ kw op, (kw, op) ∈ keyword_ops → ∀ c0 x, keyword (c0 :: (kw ++ x)) = some (op, x)) ∧
    (∀ kw op, (kw, op) ∈ keyword_ops → ∀ t lineno c0 x r t1,
      directive t lineno (c0 :: (kw ++ x)) = .ok (r, t1) → r = 0 ∨ r = 1) ∧
    (∀ c0 n r, is_ident n = true → isspace (cur r) = true →
      directive_parse (c0 :: ("define".toList ++ (n ++ r))) =
        directive_parse (c0 :: ("define".toList ++ ([' '] ++ (n ++ r))))) ∧
    directive ⟨[], IF_NONE, 0⟩ 1 "#defineX 1\n".toList =
      .ok (0, ⟨[⟨1, ['X'], ['1']⟩], IF_NONE, 0⟩) ∧
    (∀ t lineno c0 kw b c rest, kw = "else".toList ∨ kw = "endif".toList →
      b.all isblank = true → isspace c = false → c ≠ NUL →
      directive t lineno (c0 :: (kw ++ (b ++ c :: rest))) = .error .TrailingText) ∧
    (∀ t, directive t 1 "#elsewhere\n".toList = .error .TrailingText) ∧
    (∀ t, directive t 1 "#endif_x\n".toList = .error .TrailingText) ∧
    (∀ (e : Env) (s : State) kw op x rest, (kw, op) ∈ keyword_ops →
      e.ctl ≠ '/' → isspace e.ctl = false → s.incomment = 0 →
      s.currfile.fin = (e.ctl :: (kw ++ x)) :: rest →
      step e s =
        match directive s.t (s.currfile.lineno + 1)
            (e.ctl :: (kw ++ trim_line (strip_comments (s.currfile.lineno + 1) 0 x).2)) with
        | .error err => .halt (.fatal err s.out)
        | .ok (r, t) =>
          .cont { s with
            currfile := ⟨s.currfile.fname, rest, s.currfile.lineno + 1⟩,
            incomment := (strip_comments (s.currfile.lineno + 1) 0 x).1,
            t := t, skip_if_false := r, out := put_c e s.out ['\n'] }) ∧
    main (restricted_env ["#define A 1\n".toList, "#defineX 2\n".toList,
        "#A #X\n".toList]) 4 =
      .exit0 ["# 1 \"<stdin>\"\n".toList, "\n".toList, "\n".toList, "1 2\n".toList] ∧
    main (restricted_env ["#define A 1\n".toList, "#elsewhere #A\n".toList]) 3 =
      .fatal .TrailingText ["# 1 \"<stdin>\"\n".toList, "\n".toList] ∧
    main (restricted_env ["#define A 1\n".toList, "#endif_x\n".toList]) 3 =
      .fatal .TrailingText ["# 1 \"<stdin>\"\n".toList, "\n".toList] := by
  have htrail : ∀ (t : Tables) (lineno : Nat) (c0 : Char) (kw b : List Char) (c : Char)
      (rest : List Char), kw = "else".toList ∨ kw = "endif".toList →
      b.all isblank = true → isspace c = false → c ≠ NUL →
      directive t lineno (c0 :: (kw ++ (b ++ c :: rest))) = .error .TrailingText := by
    intro t lineno c0 kw b c rest hkw hb hc hc0
    have hbl : isblank (cur (c :: rest)) = false := by
      rw [cur_cons]
      cases hbc : isblank c with
      | false => rfl
      | true =>
        have : isspace c = true := by
          simp only [isblank, Bool.or_eq_true, beq_iff_eq] at hbc
          rcases hbc with h | h <;> subst h <;> decide
        rw [this] at hc
        exact absurd hc (by simp)
    have hs : skip_blank (b ++ c :: rest) = c :: rest := skip_blank_append b _ hb hbl
    have hct : ∀ p, check_trailing (c :: rest) p = .error .TrailingText := fun p =>
      check_trailing_text [] c rest p rfl hc hc0
    rcases hkw with h | h <;> subst h
    · simp only [directive, directive_parse, keyword_else, hs, hct]
      rfl
    · simp only [directive, directive_parse, keyword_endif, hs, hct]
      rfl
  refine ⟨keyword_ops_keyword, ?_, ?_, by decide, htrail, ?_, ?_, step_keyword, by decide,
    by decide, by decide⟩
  · intro kw op hk t lineno c0 x r t1 hd
    have hr := directive_ret _ _ _ _ _ hd
    rw [keyword_ops_keyword kw op hk] at hr
    rcases hr with ⟨h, _⟩ | ⟨_, h⟩
    · exact absurd h (by simp)
    · exact h
  · intro c0 n r hn hr
    have h1 := parse_define_line c0 [] n r rfl hn hr
    have h2 := parse_define_line c0 [' '] n r (by decide) hn hr
    rw [List.nil_append] at h1
    rw [h1, h2]
  · intro t
    exact htrail t 1 '#' "else".toList [] 'w' "here\n".toList (Or.inl rfl) rfl (by decide)
      (by decide)
  · intro t
    exact htrail t 1 '#' "endif".toList [] '_' "x\n".toList (Or.inr rfl) rfl (by decide)
      (by decide)

/-! ## The option `-D` -/

theorem subst_eq_split (a : List Char) :
    subst_eq a = arg_name a ++
      (match arg_value a with
       | none => []
       | some v => ' ' :: v) := by
  induction a with
  | nil => rfl
  | cons c cs ih =>
    by_cases hc : c = '='
    · subst hc
      rfl
    · have h1 : (c == '=') = false := by simpa using hc
      have h2 : (c != '=') = true := by simpa using hc
      simp only [subst_eq, h1, arg_name, arg_value, List.takeWhile_cons, List.dropWhile_cons,
        h2, if_true, Bool.false_eq_true, if_false, List.cons_append, List.cons.injEq, true_and]
      exact ih

theorem subst_eq_name (n : List Char) (hn : ∀ c ∈ n, c ≠ '=') :
    subst_eq n = n ∧ ∀ v, subst_eq (n ++ '=' :: v) = n ++ ' ' :: v := by
  induction n with
  | nil => exact ⟨rfl, fun _ => rfl⟩
  | cons c cs ih =>
    have hc : (c == '=') = false := by simpa using hn c (List.mem_cons_self _ _)
    have := ih (fun d hd => hn d (List.mem_cons_of_mem _ hd))
    refine ⟨?_, fun v => ?_⟩
    · simp only [subst_eq, hc, Bool.false_eq_true, if_false, this.1]
    · have h2 := this.2 v
      show subst_eq (c :: (cs ++ '=' :: v)) = c :: (cs ++ ' ' :: v)
      simp only [subst_eq, hc, Bool.false_eq_true, if_false, h2]

theorem ident_name_chars {n : List Char} (hn : is_ident n = true) :
    ∀ c ∈ n, is_name_char c = true := by
  cases n with
  | nil => simp [is_ident] at hn
  | cons d ds =>
    simp only [is_ident, Bool.and_eq_true, List.all_eq_true] at hn
    intro c hc
    rcases List.mem_cons.mp hc with h | h
    · rw [h]
      exact is_start_name_char hn.1
    · exact hn.2 c h

theorem ident_no_eq {n : List Char} (hn : is_ident n = true) : ∀ c ∈ n, c ≠ '=' := by
  intro c hc h
  have := ident_name_chars hn c hc
  rw [h] at this
  exact absurd this (by decide)

theorem option_line (a : List Char) :
    "#define ".toList ++ subst_eq a ++ ['\n'] = define_line '#' a := by
  have h0 : "#define ".toList = '#' :: ("define".toList ++ [' ']) := rfl
  rw [h0, subst_eq_split]
  simp only [define_line, List.cons_append, List.append_assoc, List.singleton_append,
    List.nil_append]

theorem define_line_bare (c0 : Char) (n : List Char) (hn : ∀ c ∈ n, c ≠ '=') :
    define_line c0 n = c0 :: ("define".toList ++ ([' '] ++ (n ++ ['\n']))) := by
  have hw := takeWhile_whole (fun c => c != '=') n (fun c hc => by simpa using hn c hc)
  have h1 : arg_name n = n := hw.1
  have h2 : arg_value n = none := by
    simp only [arg_value, hw.2]
  simp only [define_line, h1, h2, List.nil_append]

theorem define_line_value (c0 : Char) (n v : List Char) (hn : ∀ c ∈ n, c ≠ '=') :
    define_line c0 (n ++ '=' :: v) =
      c0 :: ("define".toList ++ ([' '] ++ (n ++ (' ' :: (v ++ ['\n']))))) := by
  have hs := takeWhile_stop (fun c => c != '=') n v '=' (fun c hc => by simpa using hn c hc)
    (by decide)
  have h1 : arg_name (n ++ '=' :: v) = n := hs.1
  have h2 : arg_value (n ++ '=' :: v) = some v := by
    simp only [arg_value, hs.2]
  simp only [define_line, h1, h2, List.cons_append]

theorem define_line_parse_bare (c0 : Char) (n : List Char) (hn : is_ident n = true) :
    parses_as (c0 :: ("define".toList ++ ([' '] ++ (n ++ ['\n'])))) OP_DEFINE n [] = true := by
  have hp := parse_define_line c0 [' '] n ['\n'] (by decide) hn (by decide)
  have hv : parse_value ['\n'] = .ok ([], 0, ['\n']) := by decide
  have hc := check_trailing_newline [] rfl ⟨OP_DEFINE, n ++ ['\n'], n.length, [], 0⟩
  rw [List.nil_append] at hc
  rw [hv] at hp
  simp only [hc, Except.map] at hp
  unfold parses_as
  rw [hp]
  simp [List.take_left']

theorem define_line_parse_value (c0 : Char) (n v : List Char) (hn : is_ident n = true)
    (hv : ∀ c ∈ v, isspace c = false) (hq : cur v ≠ SQUOTE ∧ cur v ≠ '"') :
    parses_as (c0 :: ("define".toList ++ ([' '] ++ (n ++ (' ' :: (v ++ ['\n'])))))) OP_DEFINE
      n v = true := by
  have hp := parse_define_line c0 [' '] n (' ' :: (v ++ ['\n'])) (by decide) hn
    (by rw [cur_cons]; decide)
  have hpv : parse_value (' ' :: (v ++ ['\n'])) = .ok (v ++ ['\n'], v.length, ['\n']) := by
    by_cases hv0 : v = []
    · subst hv0
      decide
    · exact parse_value_unquoted [' '] v ['\n'] (by simp) (by decide) hv0 hv hq
        (Or.inr (by decide))
  have hc := check_trailing_newline [] rfl
    ⟨OP_DEFINE, n ++ (' ' :: (v ++ ['\n'])), n.length, v ++ ['\n'], v.length⟩
  rw [List.nil_append] at hc
  rw [hpv] at hp
  simp only [hc, Except.map] at hp
  unfold parses_as
  rw [hp]
  simp [List.take_left']

theorem directive_define_defined (s : Tables) (lineno : Nat) (ibuf n v : List Char)
    (hp : parses_as ibuf OP_DEFINE n v = true) (hif : s.in_if ≠ IF_FALSE)
    (hwf : wf_table s.macros = true) (hdef : defined s.macros n = true) :
    directive s lineno ibuf = .error .Redefinition := by
  obtain ⟨p, r, hp1, hop, hn1, hn2, _, _, hne, _, _⟩ := parses_as_named hp (Or.inl rfl)
  rw [directive_of_parse s lineno hp1, act_define s lineno p hop hif, hn1, hn2,
    find_name_eq s.macros hwf n r hne]
  have h := findIdx_isSome_defined s.macros n
  rw [hdef] at h
  cases hf : List.findIdx? (active_named n) s.macros with
  | none => rw [hf] at h; exact absurd h (by simp)
  | some i => rfl

/-- A `define` line read while `in_if` is not `IF_FALSE` returns 0. -/
theorem directive_define_ret (t t1 : Tables) (lineno : Nat) (c0 : Char) (x : List Char)
    (r : Int) (hif : t.in_if ≠ IF_FALSE)
    (h : directive t lineno (c0 :: ("define".toList ++ x)) = .ok (r, t1)) : r = 0 := by
  unfold directive at h
  split at h
  · exact absurd h (by simp)
  · have hk := keyword_define c0 x
    rename_i hp
    unfold directive_parse at hp
    rw [hk] at hp
    simp only at hp
    repeat'
      first
        | (split at hp)
    all_goals first
      | exact absurd hp (by simp)
      | skip
    all_goals
      rename_i hx
      cases hc : check_trailing _ _ <;> rw [hc] at hp <;> simp [Except.map] at hp
  · rename_i p hp
    rw [act_define t lineno p (directive_parse_define_op c0 x p hp) hif] at h
    split at h
    · exact absurd h (by simp)
    · simp only [Except.ok.injEq, Prod.mk.injEq] at h
      exact h.1.symm

theorem define_option_line (t : Tables) (k : Nat) (c0 : Char) (a : List Char) :
    define_option t k a = (directive t k (define_line c0 a)).map (fun p => p.2) := by
  unfold define_option
  rw [option_line]
  have : directive t k (define_line '#' a) = directive t k (define_line c0 a) :=
    directive_first t k '#' c0 _
  rw [this]

/-- The pass of the loop over the line `define name value` of an option
argument, where the line holds no `/*` and ends in no white space before its
newline: the table or the error of the option. -/
theorem step_define_line (e : Env) (s : State) (a : List Char) (rest : List (List Char))
    (hc2 : isspace e.ctl = false) (hinc : s.incomment = 0) (hskip : s.skip_if_false = 0)
    (hif : s.t.in_if ≠ IF_FALSE)
    (hpair : has_pair '/' '*' (define_line e.ctl a) = false)
    (htrim : trim_line (define_line e.ctl a) = define_line e.ctl a)
    (hfin : s.currfile.fin = define_line e.ctl a :: rest) :
    step e s =
      match define_option s.t (s.currfile.lineno + 1) a with
      | .error err => .halt (.fatal err s.out)
      | .ok t1 =>
        .cont { s with
          currfile := ⟨s.currfile.fname, rest, s.currfile.lineno + 1⟩,
          t := t1, out := put_c e s.out ['\n'] } := by
  obtain ⟨t, skip, inc, ⟨fname, fin, lineno⟩, below, out⟩ := s
  simp only at hinc hfin hskip hif
  subst hinc hfin hskip
  have hcn := not_space_ne_newline hc2
  rw [define_option_line t (lineno + 1) e.ctl a]
  unfold step
  simp only [strip_outside _ _ hpair, htrim]
  have hl : define_line e.ctl a = e.ctl :: ("define".toList ++ ([' '] ++ (arg_name a ++
      ((match arg_value a with
        | none => []
        | some v => ' ' :: v) ++ ['\n'])))) := rfl
  generalize hy : ([' '] ++ (arg_name a ++
      ((match arg_value a with
        | none => []
        | some v => ' ' :: v) ++ ['\n']))) = y at hl
  have hni := keyword_ops_not_include "define".toList OP_DEFINE (by decide) y
  cases hd : directive t (lineno + 1) (define_line e.ctl a) with
  | error err =>
    simp only [hl, cur_cons, hcn, Bool.and_false, Bool.false_eq_true, if_false,
      beq_self_eq_true, if_true, List.drop_succ_cons, List.drop_zero, hni]
    rfl
  | ok p =>
    obtain ⟨r, t1⟩ := p
    have hr : r = 0 := by
      rw [hl] at hd
      exact directive_define_ret t t1 _ e.ctl y r hif hd
    subst hr
    simp only [hl, cur_cons, hcn, Bool.and_false, Bool.false_eq_true, if_false,
      beq_self_eq_true, if_true, List.drop_succ_cons, List.drop_zero, hni]
    rfl

/-- C31. The option `-D` on the argument `a` leaves the table, or the error,
that `directive()` gives on the line `define name value` built from the part
of `a` before its first `=` and the part after it (the line `define name`
when `a` has no `=`), behind any first byte, so behind `%` as behind `#`. For
a name `[A-Za-z_][A-Za-z0-9_]*` with no active entry the option appends the
entry of that name with the empty value when there is no `=`, and with the
bytes after the first `=` as the value when these hold no white space and
start with no quote (a later `=` is a byte of the value); for a name with an
active entry, so one defined by an earlier `-D`, it stops on "Macro
redefinition"; the empty argument stops on "Missing macro name", `1X` and
`X-Y=1` on "Illegal character in macro name", `X=a b` on "Unexpected extra
text". The options run before the first line is read. The pass of the loop
over the same line at the start of a run, where the line holds no `/*` and
ends in no white space, gives the same table or error. -/
theorem define_option_refines :
    (∀ t k c0 a, define_option t k a = (directive t k (define_line c0 a)).map (fun p => p.2)) ∧
    (∀ t k n, t.in_if ≠ IF_FALSE → wf_table t.macros = true → is_ident n = true →
      defined t.macros n = false →
      define_option t k n = .ok { t with macros := t.macros ++ [⟨n.length, n, []⟩] }) ∧
    (∀ t k n v, t.in_if ≠ IF_FALSE → wf_table t.macros = true → is_ident n = true →
      (∀ c ∈ v, isspace c = false) → cur v ≠ SQUOTE ∧ cur v ≠ '"' →
      defined t.macros n = false →
      define_option t k (n ++ '=' :: v) =
        .ok { t with macros := t.macros ++ [⟨n.length, n, v⟩] }) ∧
    (∀ t k n v, t.in_if ≠ IF_FALSE → wf_table t.macros = true → is_ident n = true →
      (∀ c ∈ v, isspace c = false) → cur v ≠ SQUOTE ∧ cur v ≠ '"' →
      defined t.macros n = true →
      define_option t k n = .error .Redefinition ∧
      define_option t k (n ++ '=' :: v) = .error .Redefinition) ∧
    (∀ t k, define_option t k [] = .error .MissingName ∧
      define_option t k "1X".toList = .error .IllegalChar ∧
      define_option t k "X-Y=1".toList = .error .IllegalChar ∧
      define_option t k "X=a b".toList = .error .TrailingText) ∧
    (∀ e err, define_options ⟨[], IF_NONE, 0⟩ e.defines = .error err →
      ∀ fuel, main e fuel = .fatal err []) ∧
    (∀ e s, start e = .ok s → define_options ⟨[], IF_NONE, 0⟩ e.defines = .ok s.t) ∧
    (∀ (e : Env) (s : State) a rest, isspace e.ctl = false → s.incomment = 0 →
      s.skip_if_false = 0 → s.t.in_if ≠ IF_FALSE →
      has_pair '/' '*' (define_line e.ctl a) = false →
      trim_line (define_line e.ctl a) = define_line e.ctl a →
      s.currfile.fin = define_line e.ctl a :: rest →
      step e s =
        match define_option s.t (s.currfile.lineno + 1) a with
        | .error err => .halt (.fatal err s.out)
        | .ok t1 =>
          .cont { s with
            currfile := ⟨s.currfile.fname, rest, s.currfile.lineno + 1⟩,
            t := t1, out := put_c e s.out ['\n'] }) ∧
    define_options ⟨[], IF_NONE, 0⟩ ["X=1".toList, "Y".toList, "Z=a=b".toList] =
      .ok ⟨[⟨1, ['X'], ['1']⟩, ⟨1, ['Y'], []⟩, ⟨1, ['Z'], "a=b".toList⟩], IF_NONE, 0⟩ ∧
    main (defines_env true ["X=1".toList] ["X X\n".toList]) 2 = .exit0 ["1 1\n".toList] ∧
    main (defines_env true [] ["%define X 1\n".toList, "X X\n".toList]) 3 =
      .exit0 ["1 1\n".toList] ∧
    main (defines_env false ["X=1".toList, "X=2".toList] ["X\n".toList]) 2 =
      .fatal .Redefinition [] ∧
    main (defines_env false [] ["#define X 1\n".toList, "#define X 2\n".toList]) 3 =
      .fatal .Redefinition ["# 1 \"<stdin>\"\n".toList, "\n".toList] := by
  refine ⟨define_option_line, ?_, ?_, ?_, ?_, ?_, ?_, step_define_line, by decide, by decide,
    by decide, by decide, by decide⟩
  · intro t k n hif hwf hn hfree
    rw [define_option_line t k '#' n, define_line_bare '#' n (ident_no_eq hn),
      directive_define_free t k _ n [] (define_line_parse_bare '#' n hn) hif hwf hfree]
    rfl
  · intro t k n v hif hwf hn hv hq hfree
    rw [define_option_line t k '#' _, define_line_value '#' n v (ident_no_eq hn),
      directive_define_free t k _ n v (define_line_parse_value '#' n v hn hv hq) hif hwf hfree]
    rfl
  · intro t k n v hif hwf hn hv hq hdef
    constructor
    · rw [define_option_line t k '#' n, define_line_bare '#' n (ident_no_eq hn),
        directive_define_defined t k _ n [] (define_line_parse_bare '#' n hn) hif hwf hdef]
      rfl
    · rw [define_option_line t k '#' _, define_line_value '#' n v (ident_no_eq hn),
        directive_define_defined t k _ n v (define_line_parse_value '#' n v hn hv hq) hif hwf
          hdef]
      rfl
  · intro t k
    have h1 : directive_parse ("#define ".toList ++ subst_eq [] ++ ['\n']) =
        .error .MissingName := by decide
    have h2 : directive_parse ("#define ".toList ++ subst_eq "1X".toList ++ ['\n']) =
        .error .IllegalChar := by decide
    have h3 : directive_parse ("#define ".toList ++ subst_eq "X-Y=1".toList ++ ['\n']) =
        .error .IllegalChar := by decide
    have h4 : directive_parse ("#define ".toList ++ subst_eq "X=a b".toList ++ ['\n']) =
        .error .TrailingText := by decide
    refine ⟨?_, ?_, ?_, ?_⟩
    · unfold define_option
      rw [parse_error_first t k _ _ h1]
      rfl
    · unfold define_option
      rw [parse_error_first t k _ _ h2]
      rfl
    · unfold define_option
      rw [parse_error_first t k _ _ h3]
      rfl
    · unfold define_option
      rw [parse_error_first t k _ _ h4]
      rfl
  · intro e err h fuel
    simp only [main, start, h]
  · intro e s h
    unfold start at h
    split at h
    · exact absurd h (by simp)
    · rename_i t ht
      simp only at h
      split at h
      · exact absurd h (by simp)
      · simp only [Except.ok.injEq] at h
        rw [ht, ← h]

theorem define_option_refines_witness :
    define_option ⟨[], IF_NONE, 0⟩ 0 "X=1".toList =
      .ok { (⟨[], IF_NONE, 0⟩ : Tables) with
        macros := [] ++ [⟨"X".toList.length, "X".toList, "1".toList⟩] } :=
  define_option_refines.2.2.1 ⟨[], IF_NONE, 0⟩ 0 "X".toList "1".toList (by decide) (by decide)
    (by decide) (by decide) (by decide) (by decide)

theorem keyword_matched_as_prefix_witness :
    keyword ('#' :: ("define".toList ++ "X 1\n".toList)) = some (OP_DEFINE, "X 1\n".toList) :=
  keyword_matched_as_prefix.1 "define".toList OP_DEFINE (by decide) '#' "X 1\n".toList

/-! ## What a call of `directive()` does to the table -/

theorem directive_parse_op {ibuf ip : List Char} {op : Nat} {p : Parsed}
    (hk : keyword ibuf = some (op, ip)) (h : directive_parse ibuf = .ok (some p)) :
    p.op = op := by
  unfold directive_parse at h
  rw [hk] at h
  simp only at h
  split at h
  · split at h
    · exact absurd h (by simp)
    · split at h
      · split at h
        · exact absurd h (by simp)
        · rw [check_trailing_value _ _ _ h]
      · rw [check_trailing_value _ _ _ h]
  · rw [check_trailing_value _ _ _ h]

theorem find_name_split (name : List Char) (namelen : Nat) :
    ∀ (ms : List macro_t) (i : Nat), find_name name namelen ms = some i →
      ∃ pre m post, ms = pre ++ m :: post ∧ m.len = namelen ∧
        clear_len i ms = pre ++ { m with len := 0 } :: post := by
  intro ms
  induction ms with
  | nil => intro i h; exact absurd h (by simp [find_name])
  | cons m ms ih =>
    intro i h
    unfold find_name at h
    split at h
    · cases hf : find_name name namelen ms with
      | none => rw [hf] at h; exact absurd h (by simp)
      | some j =>
        rw [hf] at h
        simp only [Option.map_some', Option.some.injEq] at h
        obtain ⟨pre, m1, post, h1, h2, h3⟩ := ih j hf
        refine ⟨m :: pre, m1, post, by rw [h1]; rfl, h2, ?_⟩
        rw [← h]
        simp only [clear_len, h3, List.cons_append]
    · rename_i hc
      simp only [Option.some.injEq] at h
      simp only [Bool.or_eq_true, bne_iff_ne, ne_eq, Bool.not_eq_true', not_or, not_not,
        Bool.not_eq_false] at hc
      exact ⟨[], m, ms, rfl, hc.1, by rw [← h]; rfl⟩

theorem find_name_empty (ms : List macro_t) (h : ∀ m ∈ ms, m.len ≠ 0) :
    find_name [] 0 ms = none := by
  induction ms with
  | nil => rfl
  | cons m ms ih =>
    have hm : (m.len != 0) = true := by simpa using h m (List.mem_cons_self _ _)
    simp only [find_name, hm, Bool.true_or, if_true,
      ih (fun d hd => h d (List.mem_cons_of_mem _ hd)), Option.map_none']

/-- The table after a call of `directive()` that returns, by the keyword of
the line. -/
theorem directive_frame (s : Tables) (lineno : Nat) (ibuf ip : List Char) (op : Nat) (r : Int)
    (s1 : Tables) (hk : keyword ibuf = some (op, ip))
    (h : directive s lineno ibuf = .ok (r, s1)) :
    ((op = OP_IFDEF ∨ op = OP_IFNDEF ∨ op = OP_ENDIF) → s1.macros = s.macros) ∧
    (op = OP_DEFINE → s1.macros = s.macros ∨
      ∃ m, m.len ≠ 0 ∧ s1.macros = s.macros ++ [m]) ∧
    (op = OP_UNDEF → s1.macros = s.macros ∨
      ∃ pre m post, s.macros = pre ++ m :: post ∧ m.len ≠ 0 ∧
        s1.macros = pre ++ { m with len := 0 } :: post) ∧
    (op = OP_ELSE → (s.in_if = IF_TRUE ∧ s1.macros = s.macros) ∨
      (s.in_if ≠ IF_TRUE ∧ s1.macros = s.macros ++ [⟨0, [], []⟩])) := by
  unfold directive at h
  split at h
  · exact absurd h (by simp)
  · rename_i hp
    unfold directive_parse at hp
    rw [hk] at hp
    simp only at hp
    repeat'
      first
        | (split at hp)
    all_goals first
      | exact absurd hp (by simp)
      | skip
    all_goals
      cases hc : check_trailing _ _ <;> rw [hc] at hp <;> simp [Except.map] at hp
  · rename_i p hp
    have hpo := directive_parse_op hk hp
    rcases directive_parse_ok hp with ⟨hop, hn1, hn2, hv1, hv2⟩ |
      ⟨hop, ⟨t, q, ht1, ht2, ht3⟩, _, _, _⟩
    · rcases hop with hop | hop
      · have hop1 : op = OP_ELSE := by rw [← hpo, hop]
        subst hop1
        refine ⟨fun hx => ?_, fun hx => absurd hx (by decide), fun hx => absurd hx (by decide),
          fun _ => ?_⟩
        · rcases hx with hx | hx | hx <;> exact absurd hx (by decide)
        · simp only [directive_act, hop, hn1, hn2, hv1, hv2] at h
          by_cases h0 : s.in_if = IF_NONE
          · simp [h0] at h
          · by_cases h1 : 1 - s.in_if = IF_FALSE
            · simp [h0, h1] at h
              left
              refine ⟨?_, by rw [← h.2]⟩
              have : (1 : Int) - s.in_if = 0 := h1
              show s.in_if = 1
              omega
            · right
              have hne : s.in_if ≠ IF_TRUE := by
                intro hc
                rw [hc] at h1
                exact h1 (by decide)
              cases hf : find_name [] 0 s.macros with
              | some i => simp [h0, h1, hf] at h
              | none =>
                simp [h0, h1, hf] at h
                exact ⟨hne, by rw [← h.2]⟩
      · have hop1 : op = OP_ENDIF := by rw [← hpo, hop]
        subst hop1
        refine ⟨fun _ => ?_, fun hx => absurd hx (by decide), fun hx => absurd hx (by decide),
          fun hx => absurd hx (by decide)⟩
        simp only [directive_act, hop] at h
        by_cases h0 : s.in_if = IF_NONE
        · simp [h0] at h
        · simp [h0] at h
          rw [← h.2]
    · have hne : t ≠ [] := by
        intro hc
        subst hc
        simp [is_ident] at ht3
      have hlen : p.namelen ≠ 0 := by
        rw [ht2]
        exact fun hc => hne (List.length_eq_zero.mp hc)
      rcases hop with hop | hop | hop | hop
      · have hop1 : op = OP_DEFINE := by rw [← hpo, hop]
        subst hop1
        refine ⟨fun hx => ?_, fun _ => ?_, fun hx => absurd hx (by decide),
          fun hx => absurd hx (by decide)⟩
        · rcases hx with hx | hx | hx <;> exact absurd hx (by decide)
        · by_cases h1 : s.in_if = IF_FALSE
          · rw [act_skipped s lineno p (Or.inl hop) h1] at h
            simp only [Except.ok.injEq, Prod.mk.injEq] at h
            left
            rw [← h.2]
          · rw [act_define s lineno p hop h1] at h
            split at h
            · exact absurd h (by simp)
            · simp only [Except.ok.injEq, Prod.mk.injEq] at h
              right
              exact ⟨_, hlen, by rw [← h.2]⟩
      · have hop1 : op = OP_UNDEF := by rw [← hpo, hop]
        subst hop1
        refine ⟨fun hx => ?_, fun hx => absurd hx (by decide), fun _ => ?_,
          fun hx => absurd hx (by decide)⟩
        · rcases hx with hx | hx | hx <;> exact absurd hx (by decide)
        · by_cases h1 : s.in_if = IF_FALSE
          · rw [act_skipped s lineno p (Or.inr hop) h1] at h
            simp only [Except.ok.injEq, Prod.mk.injEq] at h
            left
            rw [← h.2]
          · rw [act_undef s lineno p hop h1] at h
            simp only [Except.ok.injEq, Prod.mk.injEq] at h
            cases hf : find_name p.name p.namelen s.macros with
            | none =>
              rw [hf] at h
              left
              rw [← h.2]
            | some i =>
              rw [hf] at h
              obtain ⟨pre, m, post, hm1, hm2, hm3⟩ := find_name_split _ _ _ i hf
              right
              refine ⟨pre, m, post, hm1, by rw [hm2]; exact hlen, ?_⟩
              rw [← h.2]
              exact hm3
      · have hop1 : op = OP_IFDEF := by rw [← hpo, hop]
        subst hop1
        refine ⟨fun _ => ?_, fun hx => absurd hx (by decide), fun hx => absurd hx (by decide),
          fun hx => absurd hx (by decide)⟩
        by_cases h0 : s.in_if = IF_NONE
        · rw [act_ifdef s lineno p hop h0] at h
          split at h <;> simp only [Except.ok.injEq, Prod.mk.injEq] at h <;> rw [← h.2]
        · rw [act_nested s lineno p (Or.inl hop) h0] at h
          exact absurd h (by simp)
      · have hop1 : op = OP_IFNDEF := by rw [← hpo, hop]
        subst hop1
        refine ⟨fun _ => ?_, fun hx => absurd hx (by decide), fun hx => absurd hx (by decide),
          fun hx => absurd hx (by decide)⟩
        by_cases h0 : s.in_if = IF_NONE
        · rw [act_ifndef s lineno p hop h0] at h
          split at h <;> simp only [Except.ok.injEq, Prod.mk.injEq] at h <;> rw [← h.2]
        · rw [act_nested s lineno p (Or.inr hop) h0] at h
          exact absurd h (by simp)

/-- An `else` read with `in_if` at `IF_FALSE` over a table with no cleared
entry. -/
theorem directive_else_appends (s : Tables) (lineno : Nat) (hif : s.in_if = IF_FALSE)
    (h : ∀ m ∈ s.macros, m.len ≠ 0) :
    directive s lineno "#else\n".toList =
      .ok (0, ⟨s.macros ++ [⟨0, [], []⟩], IF_TRUE, s.if_lineno⟩) := by
  have hp : directive_parse "#else\n".toList = .ok (some ⟨OP_ELSE, [], 0, [], 0⟩) := by decide
  rw [directive_of_parse s lineno hp]
  simp [directive_act, hif, find_name_empty s.macros h]

/-! ## The entries of the table -/

theorem scan_value_split (q : Char) (v : List Char) :
    ∃ pre, v = pre ++ scan_value q v ∧ (q = NUL → ∀ c ∈ pre, isspace c = false) := by
  induction v with
  | nil => exact ⟨[], rfl, fun _ _ h => absurd h (List.not_mem_nil _)⟩
  | cons c cs ih =>
    obtain ⟨pre, h1, h2⟩ := ih
    simp only [scan_value]
    split
    · rename_i hc
      refine ⟨c :: pre, by rw [List.cons_append, ← h1], fun hq d hd => ?_⟩
      rcases List.mem_cons.mp hd with h | h
      · subst h
        subst hq
        simpa using hc
      · exact h2 hq d h
    · exact ⟨[], rfl, fun _ _ h => absurd h (List.not_mem_nil _)⟩

theorem inner_no_newline {a pre rest x : List Char} (h : a ++ (pre ++ rest) = x ++ ['\n'])
    (hr : rest ≠ []) (hx : '\n' ∉ x) : '\n' ∉ pre := by
  have hr1 : rest = rest.dropLast ++ [rest.getLast hr] :=
    (List.dropLast_append_getLast hr).symm
  rw [hr1, ← List.append_assoc, ← List.append_assoc] at h
  have := (List.append_inj' h rfl).1
  intro hc
  apply hx
  rw [← this]
  simp [hc]

theorem parse_value_no_newline {ip value ip1 x : List Char} {n : Nat}
    (h : parse_value ip = .ok (value, n, ip1)) (hs : ip <:+ x ++ ['\n']) (hx : '\n' ∉ x) :
    '\n' ∉ value.take n := by
  unfold parse_value at h
  by_cases hc : (cur ip == '\n' || cur ip == NUL) = true
  · rw [if_pos hc] at h
    simp only [Except.ok.injEq, Prod.mk.injEq] at h
    rw [← h.2.1]
    simp
  · rw [if_neg hc] at h
    simp only at h
    by_cases hquote : (cur (skip_blank ip) == SQUOTE || cur (skip_blank ip) == '"') = true
    · rw [if_pos hquote, if_pos hquote] at h
      by_cases hq : (cur (skip_blank ip) != NUL &&
          cur (scan_value (cur (skip_blank ip)) (skip_blank ip).tail) !=
            cur (skip_blank ip)) = true
      · rw [if_pos hq] at h
        exact absurd h (by simp)
      · rw [if_neg hq] at h
        simp only [Except.ok.injEq, Prod.mk.injEq] at h
        obtain ⟨h1, h2, _⟩ := h
        obtain ⟨pre, hp1, _⟩ := scan_value_split (cur (skip_blank ip)) value
        rw [h1] at h2 hq
        have hq0 : cur (skip_blank ip) ≠ NUL := by
          simp only [Bool.or_eq_true, beq_iff_eq] at hquote
          rcases hquote with hh | hh <;> rw [hh] <;> decide
        have hcur : cur (scan_value (cur (skip_blank ip)) value) = cur (skip_blank ip) := by
          simp only [bne_iff_ne, ne_eq, Bool.and_eq_true, not_and, not_not] at hq
          exact hq hq0
        have hne : scan_value (cur (skip_blank ip)) value ≠ [] := by
          intro hc
          rw [hc, cur_nil] at hcur
          exact hq0 hcur.symm
        have hlen := congrArg List.length hp1
        rw [List.length_append] at hlen
        have hn : n = pre.length := by omega
        have htake : value.take n = pre := by
          rw [hn, hp1]
          exact List.take_left' rfl
        rw [htake]
        have hsuf : value <:+ x ++ ['\n'] := by
          rw [← h1]
          exact ((List.tail_suffix _).trans (skip_blank_suffix ip)).trans hs
        obtain ⟨a, ha⟩ := hsuf
        rw [hp1] at ha
        exact inner_no_newline ha hne hx
    · rw [if_neg hquote, if_neg hquote] at h
      simp only [bne_self_eq_false, Bool.false_and, Bool.false_eq_true, if_false,
        Except.ok.injEq, Prod.mk.injEq] at h
      obtain ⟨h1, h2, _⟩ := h
      obtain ⟨pre, hp1, hp2⟩ := scan_value_split NUL value
      rw [h1] at h2
      have hlen := congrArg List.length hp1
      rw [List.length_append] at hlen
      have hn : n = pre.length := by omega
      have htake : value.take n = pre := by
        rw [hn, hp1]
        exact List.take_left' rfl
      rw [htake]
      intro hc
      have := hp2 rfl _ hc
      exact absurd this (by decide)

/-- The name and the value that a parsed line marks: the name is empty or a
name `[A-Za-z_][A-Za-z0-9_]*`, and the value of a line with one newline, at
its end, holds no newline. -/
theorem directive_parse_entry {x : List Char} {p : Parsed}
    (h : directive_parse (x ++ ['\n']) = .ok (some p)) (hx : '\n' ∉ x) :
    (p.namelen = 0 ∨ is_ident (p.name.take p.namelen) = true) ∧
    '\n' ∉ p.value.take p.valuelen := by
  constructor
  · rcases directive_parse_ok h with ⟨_, _, h2, _, _⟩ | ⟨_, ⟨t, r, h1, h2, h3⟩, _, _, _⟩
    · exact Or.inl h2
    · right
      rw [h1, h2, List.take_left' rfl]
      exact h3
  · unfold directive_parse at h
    split at h
    · exact absurd h (by simp)
    · rename_i op ip hk
      simp only at h
      split at h
      · split at h
        · exact absurd h (by simp)
        · rename_i name namelen ip1 hn
          split at h
          · split at h
            · exact absurd h (by simp)
            · rename_i value valuelen ip2 hv
              rw [check_trailing_value _ _ _ h]
              have hs : ip1 <:+ x ++ ['\n'] := by
                have h1 := (keyword_spec hk).2
                have h2 := skip_blank_suffix ip
                obtain ⟨hn1, _, hn3⟩ := parse_name_ok hn
                have h3 : ip1 <:+ skip_blank ip := by
                  rcases hn3 with ⟨pre, hp, _, _⟩ | ⟨hp, _, _⟩
                  · rw [hp]
                    exact List.suffix_append _ _
                  · rw [hp]
                exact (h3.trans h2).trans h1
              exact parse_value_no_newline hv hs hx
          · rw [check_trailing_value _ _ _ h]
            simp
      · rw [check_trailing_value _ _ _ h]
        simp

theorem act_frame (s s1 : Tables) (lineno : Nat) (p : Parsed) (r : Int)
    (h : directive_act s lineno p = .ok (r, s1)) :
    s1.macros = s.macros ∨
    (∃ pre m post, s.macros = pre ++ m :: post ∧
      s1.macros = pre ++ { m with len := 0 } :: post) ∨
    s1.macros = s.macros ++ [⟨p.namelen, p.name.take p.namelen, p.value.take p.valuelen⟩] := by
  by_cases h6 : p.op = OP_ENDIF
  · by_cases hn : s.in_if = IF_NONE <;> simp [directive_act, h6, hn] at h
    left
    rw [← h.2]
  · by_cases h5 : p.op = OP_ELSE
    · by_cases hn : s.in_if = IF_NONE
      · simp [directive_act, h5, hn] at h
      · by_cases hf : 1 - s.in_if = IF_FALSE
        · simp [directive_act, h5, hn, hf] at h
          left
          rw [← h.2]
        · cases hfn : find_name p.name p.namelen s.macros <;>
            simp [directive_act, h5, hn, hf, hfn] at h
          right
          right
          rw [← h.2]
    · by_cases h34 : p.op = OP_IFDEF ∨ p.op = OP_IFNDEF
      · by_cases hn : s.in_if = IF_NONE
        · cases hfn : find_name p.name p.namelen s.macros <;>
            rcases h34 with h3 | h3 <;> simp [directive_act, h3, hn, hfn] at h <;>
            exact Or.inl (by rw [← h.2])
        · rw [act_nested s lineno p h34 hn] at h
          exact absurd h (by simp)
      · simp only [not_or] at h34
        by_cases hf : s.in_if = IF_FALSE
        · simp [directive_act, h6, h5, h34.1, h34.2, hf] at h
          left
          rw [← h.2]
        · by_cases h2 : p.op = OP_UNDEF
          · rw [act_undef s lineno p h2 hf] at h
            simp only [Except.ok.injEq, Prod.mk.injEq] at h
            cases hfn : find_name p.name p.namelen s.macros with
            | none =>
              rw [hfn] at h
              left
              rw [← h.2]
            | some i =>
              rw [hfn] at h
              obtain ⟨pre, m, post, hm1, _, hm3⟩ := find_name_split _ _ _ i hfn
              right
              left
              exact ⟨pre, m, post, hm1, by rw [← h.2]; exact hm3⟩
          · cases hfn : find_name p.name p.namelen s.macros <;>
              simp [directive_act, h6, h5, h34.1, h34.2, hf, hfn, h2] at h
            right
            right
            rw [← h.2]

/-- A property of the entries that the empty entry has, that the clearing of
`len` keeps and that the entry of a parsed line with a name has, holds in the
table after a call of `directive()` when it held before. -/
theorem directive_table_inv (P : macro_t → Prop) (s s1 : Tables) (lineno : Nat)
    (ibuf : List Char) (r : Int) (h0 : P ⟨0, [], []⟩)
    (hclear : ∀ m, P m → P { m with len := 0 })
    (hnew : ∀ p t q, directive_parse ibuf = .ok (some p) → p.name = t ++ q →
      p.namelen = t.length → is_ident t = true →
      P ⟨t.length, t, p.value.take p.valuelen⟩)
    (hs : ∀ m ∈ s.macros, P m) (h : directive s lineno ibuf = .ok (r, s1)) :
    ∀ m ∈ s1.macros, P m := by
  unfold directive at h
  split at h
  · exact absurd h (by simp)
  · simp only [Except.ok.injEq, Prod.mk.injEq] at h
    rw [← h.2]
    exact hs
  · rename_i p hp
    have hentry : P ⟨p.namelen, p.name.take p.namelen, p.value.take p.valuelen⟩ := by
      rcases directive_parse_ok hp with ⟨_, h1, h2, h3, h4⟩ | ⟨_, ⟨t, q, ht1, ht2, ht3⟩, _, _, _⟩
      · rw [h1, h2, h3, h4]
        exact h0
      · have := hnew p t q hp ht1 ht2 ht3
        rw [ht1, ht2, List.take_left' rfl]
        exact this
    rcases act_frame s s1 lineno p r h with hf | ⟨pre, m, post, hf1, hf2⟩ | hf
    · rw [hf]
      exact hs
    · rw [hf2]
      rw [hf1] at hs
      intro m1 hm1
      rcases List.mem_append.mp hm1 with hm | hm
      · exact hs m1 (List.mem_append_left _ hm)
      · rcases List.mem_cons.mp hm with hm | hm
        · rw [hm]
          exact hclear m (hs m (List.mem_append_right _ (List.mem_cons_self _ _)))
        · exact hs m1 (List.mem_append_right _ (List.mem_cons_of_mem _ hm))
    · rw [hf]
      intro m1 hm1
      rcases List.mem_append.mp hm1 with hm | hm
      · exact hs m1 hm
      · rw [List.mem_singleton.mp hm]
        exact hentry

/-- A call of `directive()` on a line with one newline, at its end, keeps
the values of the table free of newlines. -/
theorem directive_values (s s1 : Tables) (lineno : Nat) (x : List Char) (r : Int)
    (hx : '\n' ∉ x) (hs : ∀ m ∈ s.macros, '\n' ∉ m.value)
    (h : directive s lineno (x ++ ['\n']) = .ok (r, s1)) :
    ∀ m ∈ s1.macros, '\n' ∉ m.value :=
  directive_table_inv (fun m => '\n' ∉ m.value) s s1 lineno _ r (by simp) (fun _ hm => hm)
    (fun _ _ _ hp _ _ _ => (directive_parse_entry hp hx).2) hs h

/-- A call of `directive()` on a line with one newline, at its end, keeps
the entries named and their values free of newlines, the empty entry
apart. -/
theorem directive_entries (s s1 : Tables) (lineno : Nat) (x : List Char) (r : Int)
    (hx : '\n' ∉ x)
    (hs : ∀ m ∈ s.macros, entry_named m = true ∨ m = ⟨0, [], []⟩)
    (h : directive s lineno (x ++ ['\n']) = .ok (r, s1)) :
    ∀ m ∈ s1.macros, entry_named m = true ∨ m = ⟨0, [], []⟩ := by
  apply directive_table_inv (fun m => entry_named m = true ∨ m = ⟨0, [], []⟩) s s1 lineno _ r
    (Or.inr rfl) ?_ ?_ hs h
  · intro m hm
    rcases hm with hm | hm
    · exact Or.inl hm
    · right
      rw [hm]
  · intro p t q hp _ _ ht
    left
    have := (directive_parse_entry hp hx).2
    simp only [entry_named, ht, Bool.true_and, Bool.not_eq_true', List.contains_eq_any_beq,
      List.any_eq_false, beq_iff_eq]
    intro c hc hcn
    rw [← hcn] at hc
    exact this hc

/-- C32 (the code departs from it). A call of `directive()` that returns
leaves the table as it was on an `ifdef`, `ifndef` or `endif` line and on a
line with no keyword; on a `define` line it leaves the table or appends one
active entry behind the others; on an `undef` line it leaves the table or
sets the `len` of one active entry to 0, the other entries and the name and
value of that entry staying. On an `else` line it leaves the table when
`in_if` was `IF_TRUE`, and otherwise, so when it turns `in_if` from
`IF_FALSE` to `IF_TRUE`, it appends an entry of `len` 0 with an empty name
and value: `ifdef X`, `else` with `X` not defined leaves a table of one
entry. -/
theorem else_appends_an_entry :
    (∀ s lineno ibuf ip op r s1, keyword ibuf = some (op, ip) →
      directive s lineno ibuf = .ok (r, s1) →
      ((op = OP_IFDEF ∨ op = OP_IFNDEF ∨ op = OP_ENDIF) → s1.macros = s.macros) ∧
      (op = OP_DEFINE → s1.macros = s.macros ∨
        ∃ m, m.len ≠ 0 ∧ s1.macros = s.macros ++ [m]) ∧
      (op = OP_UNDEF → s1.macros = s.macros ∨
        ∃ pre m post, s.macros = pre ++ m :: post ∧ m.len ≠ 0 ∧
          s1.macros = pre ++ { m with len := 0 } :: post) ∧
      (op = OP_ELSE → (s.in_if = IF_TRUE ∧ s1.macros = s.macros) ∨
        (s.in_if ≠ IF_TRUE ∧ s1.macros = s.macros ++ [⟨0, [], []⟩]))) ∧
    (∀ s lineno ibuf r s1, keyword ibuf = none → directive s lineno ibuf = .ok (r, s1) →
      s1 = s) ∧
    (∀ s lineno, s.in_if = IF_FALSE → (∀ m ∈ s.macros, m.len ≠ 0) →
      directive s lineno "#else\n".toList =
        .ok (0, ⟨s.macros ++ [⟨0, [], []⟩], IF_TRUE, s.if_lineno⟩)) ∧
    directive ⟨[], IF_NONE, 0⟩ 1 "#ifdef X\n".toList = .ok (1, ⟨[], IF_FALSE, 1⟩) ∧
    directive ⟨[], IF_FALSE, 1⟩ 2 "#else\n".toList =
      .ok (0, ⟨[⟨0, [], []⟩], IF_TRUE, 1⟩) ∧
    directive ⟨[⟨1, "A".toList, "1".toList⟩], IF_FALSE, 2⟩ 3 "#else\n".toList =
      .ok (0, ⟨[⟨1, "A".toList, "1".toList⟩, ⟨0, [], []⟩], IF_TRUE, 2⟩) := by
  refine ⟨?_, ?_, directive_else_appends, by decide, by decide, by decide⟩
  · intro s lineno ibuf ip op r s1 hk h
    exact directive_frame s lineno ibuf ip op r s1 hk h
  · intro s lineno ibuf r s1 hk h
    rcases directive_ret _ _ _ _ _ h with ⟨_, _, h1⟩ | ⟨h1, _⟩
    · exact h1
    · rw [hk] at h1
      exact absurd h1 (by simp)

/-- C33 (the code departs from it). A call of `directive()` on a line with
one newline, at its end, keeps this: every entry of the table has a name
`[A-Za-z_][A-Za-z0-9_]*` and a value with no newline, or is the empty entry
(`len` 0, empty name, empty value). The empty entry does come into the
table: the run on `ifdef X`, `else` with `X` not defined reaches a state
whose table is one entry with an empty name, and the run on `ifdef X`,
`else`, `endif` ends without an error. -/
theorem empty_name_in_table :
    (∀ s s1 lineno x r, '\n' ∉ x →
      (∀ m ∈ s.macros, entry_named m = true ∨ m = ⟨0, [], []⟩) →
      directive s lineno (x ++ ['\n']) = .ok (r, s1) →
      ∀ m ∈ s1.macros, entry_named m = true ∨ m = ⟨0, [], []⟩) ∧
    (∃ s, Reach (plain_env ["#ifdef X\n".toList, "#else\n".toList]) s ∧
      s.t.macros = [⟨0, [], []⟩] ∧ entries_named s.t.macros = false) ∧
    entry_named ⟨0, [], []⟩ = false ∧
    main (plain_env ["#ifdef X\n".toList, "#else\n".toList, "#endif\n".toList]) 4 =
      .exit0 ["# 1 \"<stdin>\"\n".toList, "\n".toList, "\n".toList, "\n".toList] := by
  refine ⟨?_, ?_, by decide, by decide⟩
  · intro s s1 lineno x r hx hs h
    exact directive_entries s s1 lineno x r hx hs h
  · refine ⟨⟨⟨[⟨0, [], []⟩], IF_TRUE, 1⟩, 0, 0, ⟨"<stdin>".toList, [], 2⟩, [],
      ["# 1 \"<stdin>\"\n".toList, "\n".toList, "\n".toList]⟩, ?_, rfl, by decide⟩
    have h0 : start (plain_env ["#ifdef X\n".toList, "#else\n".toList]) =
        .ok ⟨⟨[], IF_NONE, 0⟩, 0, 0,
          ⟨"<stdin>".toList, ["#ifdef X\n".toList, "#else\n".toList], 0⟩, [],
          ["# 1 \"<stdin>\"\n".toList]⟩ := by decide
    have h1 : step (plain_env ["#ifdef X\n".toList, "#else\n".toList])
        ⟨⟨[], IF_NONE, 0⟩, 0, 0,
          ⟨"<stdin>".toList, ["#ifdef X\n".toList, "#else\n".toList], 0⟩, [],
          ["# 1 \"<stdin>\"\n".toList]⟩ =
        .cont ⟨⟨[], IF_FALSE, 1⟩, 1, 0, ⟨"<stdin>".toList, ["#else\n".toList], 1⟩, [],
          ["# 1 \"<stdin>\"\n".toList, "\n".toList]⟩ := by decide
    have h2 : step (plain_env ["#ifdef X\n".toList, "#else\n".toList])
        ⟨⟨[], IF_FALSE, 1⟩, 1, 0, ⟨"<stdin>".toList, ["#else\n".toList], 1⟩, [],
          ["# 1 \"<stdin>\"\n".toList, "\n".toList]⟩ =
        .cont ⟨⟨[⟨0, [], []⟩], IF_TRUE, 1⟩, 0, 0, ⟨"<stdin>".toList, [], 2⟩, [],
          ["# 1 \"<stdin>\"\n".toList, "\n".toList, "\n".toList]⟩ := by decide
    exact Reach.next _ _ (Reach.next _ _ (Reach.first _ h0) h1) h2

/-! ## The end of the scan of `do_macro()` -/

theorem isalnum_not_end {c : Char} (h : isalnum c = true) : c ≠ '\n' ∧ c ≠ NUL := by
  constructor <;>
  · intro hc
    rw [hc] at h
    revert h
    decide

/-- What the token test gives: the scan stops at `ip`, or it stops behind
the `}` at `ip`, or it goes on, and then `ip` is the start of the token, or
holds a byte of the line that is no newline, or lies inside a brace. -/
theorem tok_end_cases (r : Bool) (tp ip : List Char) :
    tok_end r tp ip = (true, ip) ∨
    (tok_end r tp ip = (true, ip.tail) ∧ cur ip = '}') ∨
    (tok_end r tp ip = (false, ip) ∧
      (tp.length - ip.length = 0 ∨ (cur ip ≠ '\n' ∧ cur ip ≠ NUL) ∨
        (r = true ∧ 3 ≤ tp.length - ip.length ∧ cur (tp.drop 1) = '{'))) := by
  unfold tok_end
  simp only
  by_cases hk0 : (tp.length - ip.length == 0) = true
  · rw [if_pos hk0]
    right
    right
    exact ⟨rfl, Or.inl (by simpa using hk0)⟩
  · rw [if_neg hk0]
    simp only [beq_iff_eq] at hk0
    cases r with
    | false =>
      simp only [Bool.false_eq_true, if_false]
      by_cases hc : (!isalnum (cur ip) && cur ip != '_') = true
      · rw [if_pos hc]
        exact Or.inl rfl
      · rw [if_neg hc]
        right
        right
        refine ⟨rfl, Or.inr (Or.inl ?_)⟩
        simp only [Bool.and_eq_true, Bool.not_eq_true', bne_iff_ne, ne_eq, not_and,
          not_not] at hc
        by_cases ha : isalnum (cur ip) = true
        · exact isalnum_not_end ha
        · have := hc (by simpa using ha)
          rw [this]
          exact ⟨by decide, by decide⟩
    | true =>
      simp only [if_true]
      by_cases hk1 : (tp.length - ip.length == 1) = true
      · rw [if_pos hk1]
        by_cases hc : (cur ip == '{' || isalnum (cur ip)) = true
        · rw [if_pos hc]
          right
          right
          refine ⟨rfl, Or.inr (Or.inl ?_)⟩
          simp only [Bool.or_eq_true, beq_iff_eq] at hc
          rcases hc with hc | hc
          · rw [hc]
            exact ⟨by decide, by decide⟩
          · exact isalnum_not_end hc
        · rw [if_neg hc]
          exact Or.inl rfl
      · rw [if_neg hk1]
        simp only [beq_iff_eq] at hk1
        by_cases hk2 : (tp.length - ip.length == 2 && cur (tp.drop 1) == '{') = true
        · rw [if_pos hk2]
          by_cases hc : isalnum (cur ip) = true
          · rw [if_pos hc]
            right
            right
            exact ⟨rfl, Or.inr (Or.inl (isalnum_not_end hc))⟩
          · rw [if_neg hc]
            exact Or.inl rfl
        · rw [if_neg hk2]
          by_cases hn : (cur (tp.drop 1) != '{' && (isalnum (cur ip) || cur ip == '_')) = true
          · rw [if_pos hn]
            right
            right
            refine ⟨rfl, Or.inr (Or.inl ?_)⟩
            simp only [Bool.and_eq_true, Bool.or_eq_true, beq_iff_eq] at hn
            rcases hn.2 with hc | hc
            · exact isalnum_not_end hc
            · rw [hc]
              exact ⟨by decide, by decide⟩
          · rw [if_neg hn]
            by_cases hb : (cur (tp.drop 1) == '{') = true
            · rw [if_pos hb]
              by_cases hc : (cur ip != '}') = true
              · rw [if_pos hc]
                right
                right
                refine ⟨rfl, Or.inr (Or.inr ⟨trivial, ?_, by simpa using hb⟩)⟩
                simp only [Bool.and_eq_true, beq_iff_eq, not_and] at hk2
                have : tp.length - ip.length ≠ 2 := fun h => hk2 h (by simpa using hb)
                omega
              · rw [if_neg hc]
                right
                left
                exact ⟨rfl, by simpa using hc⟩
            · rw [if_neg hb]
              exact Or.inl rfl

/-- The scan ends within as many iterations as the line has bytes left, and
one more. -/
theorem loop_fuel (r : Bool) (ctl : Char) (ms : List macro_t) :
    ∀ (fuel : Nat) (tp ip op : List Char) (sub : Nat), ip.length < fuel →
      do_macro_loop r ctl ms fuel tp ip op sub ≠ .nofuel := by
  intro fuel
  induction fuel with
  | zero => intro tp ip op sub h; exact absurd h (by omega)
  | succ f ih =>
    intro tp ip op sub h
    have hdrop : ∀ (ip1 : List Char) (c : Char) (ip2 : List Char),
        ip1.length ≤ ip.length → ip1.dropWhile (not_start r ctl) = c :: ip2 →
        ip2.length < f := by
      intro ip1 c ip2 h1 h2
      have := (List.dropWhile_suffix (not_start r ctl) (l := ip1)).length_le
      rw [h2] at this
      simp only [List.length_cons] at this
      omega
    unfold do_macro_loop
    rcases tok_end_cases r tp ip with h1 | ⟨h1, _⟩ | ⟨h1, _⟩
    · rw [h1]
      simp only [if_true]
      split
      · simp
      · rename_i c ip2 hd
        exact ih _ _ _ _ (hdrop ip c ip2 (Nat.le_refl _) hd)
    · rw [h1]
      simp only [if_true]
      split
      · simp
      · rename_i c ip2 hd
        exact ih _ _ _ _ (hdrop ip.tail c ip2 (by simp) hd)
    · rw [h1]
      simp only [Bool.false_eq_true, if_false]
      split
      · simp
      · rename_i c ip2
        exact ih _ _ _ _ (by simp only [List.length_cons] at h; omega)

/-- In the default grammar the scan does not step over the end of the
line. -/
theorem loop_default_safe (ctl : Char) (ms : List macro_t) :
    ∀ (fuel : Nat) (tp ip op : List Char) (sub : Nat), ip.length ≤ tp.length →
      (ip.length < tp.length ∨ ip ≠ []) →
      do_macro_loop false ctl ms fuel tp ip op sub ≠ .overrun := by
  intro fuel
  induction fuel with
  | zero => intro tp ip op sub _ _; simp [do_macro_loop]
  | succ f ih =>
    intro tp ip op sub hle hne
    unfold do_macro_loop
    rcases tok_end_cases false tp ip with h1 | ⟨h1, _⟩ | ⟨h1, h2⟩
    · rw [h1]
      simp only [if_true]
      split
      · simp
      · rename_i c ip2 hd
        rw [hd]
        exact ih (c :: ip2) ip2 _ _ (by simp) (Or.inl (by simp))
    · rw [h1]
      simp only [if_true]
      split
      · simp
      · rename_i c ip2 hd
        rw [hd]
        exact ih (c :: ip2) ip2 _ _ (by simp) (Or.inl (by simp))
    · rw [h1]
      simp only [Bool.false_eq_true, if_false]
      have hip : ip ≠ [] := by
        rcases h2 with h2 | h2 | h2
        · rcases hne with hne | hne
          · omega
          · exact hne
        · intro hc
          rw [hc, cur_nil] at h2
          exact h2.2 rfl
        · exact absurd h2.1 (by simp)
      cases ip with
      | nil => exact absurd rfl hip
      | cons c ip2 =>
        simp only
        exact ih _ _ _ _ (by simp only [List.length_cons] at hle; omega)
          (Or.inl (by simp only [List.length_cons] at hle; omega))

theorem do_macro_default_safe (ctl : Char) (ms : List macro_t) (ibuf : List Char) :
    do_macro false ctl ms ibuf ≠ none := by
  unfold do_macro
  simp only
  split
  · simp
  · rename_i c ip2 hd
    rw [hd]
    have hf := loop_fuel false ctl ms (ibuf.length + 1) (c :: ip2) (c :: ip2)
      (ibuf.takeWhile (not_start false ctl)) 0 (by
        have := (List.dropWhile_suffix (not_start false ctl) (l := ibuf)).length_le
        rw [hd] at this
        omega)
    have hs := loop_default_safe ctl ms (ibuf.length + 1) (c :: ip2) (c :: ip2)
      (ibuf.takeWhile (not_start false ctl)) 0 (Nat.le_refl _) (Or.inr (by simp))
    cases hl : do_macro_loop false ctl ms (ibuf.length + 1) (c :: ip2) (c :: ip2)
        (ibuf.takeWhile (not_start false ctl)) 0 with
    | done tmp sub =>
      show (if sub != 0 then some tmp else some ibuf) ≠ none
      split <;> simp
    | overrun => exact absurd hl hs
    | nofuel => exact absurd hl hf

/-- Inside a brace that is not closed, the scan of the restricted grammar
steps over the end of the line. -/
theorem loop_brace_unclosed (ctl : Char) (ms : List macro_t) (w : List Char) :
    ∀ (pre op tp : List Char) (sub fuel : Nat), tp = pre ++ w →
      3 ≤ pre.length → cur (tp.drop 1) = '{' → '}' ∉ w → w.length + 1 ≤ fuel →
      do_macro_loop true ctl ms fuel tp w op sub = .overrun := by
  induction w with
  | nil =>
    intro pre op tp sub fuel htp hpre h1 _ hf
    obtain ⟨f, rfl⟩ : ∃ f, fuel = f + 1 := ⟨fuel - 1, by omega⟩
    have hk : 3 ≤ tp.length - ([] : List Char).length := by rw [htp]; simp; omega
    rw [do_macro_loop, tok_end_r_brace_in _ _ hk h1 (by rw [cur_nil]; decide)]
    rfl
  | cons c w ih =>
    intro pre op tp sub fuel htp hpre h1 hw hf
    obtain ⟨f, rfl⟩ : ∃ f, fuel = f + 1 := ⟨fuel - 1, by omega⟩
    simp only [List.mem_cons, not_or] at hw
    have hk : 3 ≤ tp.length - (c :: w).length := by
      rw [htp]; simp; omega
    have hc : cur (c :: w) ≠ '}' := by
      rw [cur_cons]; exact fun h => hw.1 h.symm
    have h2 : do_macro_loop true ctl ms (f + 1) tp (c :: w) op sub
        = do_macro_loop true ctl ms f tp w op sub := by
      rw [do_macro_loop, tok_end_r_brace_in _ _ hk h1 hc]
      simp
    rw [h2]
    exact ih (pre ++ [c]) op tp sub f (by rw [htp]; simp) (by simp; omega) h1 hw.2
      (by simp at hf; omega)

/-- The restricted grammar on a line with `CTL{`, a letter or digit, and no
`}` behind it. -/
theorem do_macro_unclosed_brace (ctl : Char) (ms : List macro_t) (pre : List Char) (c1 : Char)
    (w : List Char) (hpre : ctl ∉ pre) (ha1 : isalnum c1 = true) (ha2 : '}' ∉ c1 :: w) :
    do_macro true ctl ms (pre ++ ctl :: '{' :: c1 :: w) = none := by
  simp only [List.mem_cons, not_or] at ha2
  have hx : not_start true ctl ctl = false := by simp [not_start]
  have htw := takeWhile_stop (not_start true ctl) pre ('{' :: c1 :: w) ctl
    (not_start_restricted ctl pre hpre) hx
  have hlen : (pre ++ ctl :: '{' :: c1 :: w).length = pre.length + w.length + 3 := by
    simp; omega
  have h0 : tok_end true (ctl :: '{' :: c1 :: w) (ctl :: '{' :: c1 :: w) =
      (false, ctl :: '{' :: c1 :: w) := by simp [tok_end]
  have h1 : tok_end true (ctl :: '{' :: c1 :: w) ('{' :: c1 :: w) = (false, '{' :: c1 :: w) :=
    tok_end_r_first _ _ (by simp) (by simp [cur_cons])
  have hbr : cur (List.drop 1 (ctl :: '{' :: c1 :: w)) = '{' := rfl
  have h1b : tok_end true (ctl :: '{' :: c1 :: w) (c1 :: w) = (false, c1 :: w) :=
    tok_end_r_brace_first _ _ (by simp) hbr (by simpa [cur_cons] using ha1)
  have h2 := loop_brace_unclosed ctl ms w [ctl, '{', c1] pre (ctl :: '{' :: c1 :: w) 0
    (pre.length + w.length + 1) (by simp) (by simp) hbr ha2.2 (by omega)
  unfold do_macro
  simp only [htw.1, htw.2, hlen]
  rw [show pre.length + w.length + 3 + 1 = (pre.length + w.length + 1) + 1 + 1 + 1 from by omega]
  rw [do_macro_loop, h0]
  simp only [Bool.false_eq_true, if_false]
  rw [do_macro_loop, h1]
  simp only [Bool.false_eq_true, if_false]
  rw [do_macro_loop, h1b]
  simp only [Bool.false_eq_true, if_false]
  rw [h2]

/-- When `do_macro` gives no line, its scan has stepped over the end of the
line. -/
theorem do_macro_none (r : Bool) (ctl : Char) (ms : List macro_t) (ibuf : List Char)
    (h : do_macro r ctl ms ibuf = none) :
    ∃ c ip1, ibuf.dropWhile (not_start r ctl) = c :: ip1 ∧
      do_macro_loop r ctl ms (ibuf.length + 1) (c :: ip1) (c :: ip1)
        (ibuf.takeWhile (not_start r ctl)) 0 = .overrun := by
  unfold do_macro at h
  simp only at h
  split at h
  · exact absurd h (by simp)
  · rename_i c ip2 hd
    rw [hd] at h
    refine ⟨c, ip2, hd, ?_⟩
    have hf := loop_fuel r ctl ms (ibuf.length + 1) (c :: ip2) (c :: ip2)
      (ibuf.takeWhile (not_start r ctl)) 0 (by
        have := (List.dropWhile_suffix (not_start r ctl) (l := ibuf)).length_le
        rw [hd] at this
        omega)
    cases hl : do_macro_loop r ctl ms (ibuf.length + 1) (c :: ip2) (c :: ip2)
        (ibuf.takeWhile (not_start r ctl)) 0 with
    | done tmp sub =>
      rw [hl] at h
      simp only at h
      split at h <;> exact absurd h (by simp)
    | overrun => rfl
    | nofuel => exact absurd hl hf

/-- C37 (the code departs from it). The scan of `do_macro()` ends in both
grammars: it takes at most one iteration for each byte of the line left and
one more. In the default grammar it never steps over the terminating NUL,
for every line and every table. In the restricted grammar it does: on a line
with `CTL{`, a letter or digit and no `}` behind it, the test for `}` goes on
over the newline and over the NUL, and bytes behind the end of the line are
read (`#{A` with a macro defined). When the scan gives no line it has
stepped over the end in this way. -/
theorem restricted_brace_overruns :
    (∀ r ctl ms fuel tp ip op sub, ip.length < fuel →
      do_macro_loop r ctl ms fuel tp ip op sub ≠ .nofuel) ∧
    (∀ ctl ms ibuf, do_macro false ctl ms ibuf ≠ none) ∧
    (∀ r ctl ms ibuf, do_macro r ctl ms ibuf = none →
      ∃ c ip1, ibuf.dropWhile (not_start r ctl) = c :: ip1 ∧
        do_macro_loop r ctl ms (ibuf.length + 1) (c :: ip1) (c :: ip1)
          (ibuf.takeWhile (not_start r ctl)) 0 = .overrun) ∧
    (∀ ctl ms pre c1 w, ctl ∉ pre → isalnum c1 = true → '}' ∉ c1 :: w →
      do_macro true ctl ms (pre ++ ctl :: '{' :: c1 :: w) = none) ∧
    do_macro true '#' [⟨1, "A".toList, "1".toList⟩] "#\x7bA\n".toList = none ∧
    do_macro_loop true '#' [⟨1, "A".toList, "1".toList⟩] 5 "#\x7bA\n".toList "#\x7bA\n".toList []
      0 = .overrun ∧
    do_macro true '#' [⟨1, "A".toList, "1".toList⟩] "#\x7bA\x7d\n".toList = some "1\n".toList ∧
    main (restricted_env ["#define A 1\n".toList, "#\x7bA\n".toList]) 3 =
      .overrun ["# 1 \"<stdin>\"\n".toList, "\n".toList] := by
  exact ⟨loop_fuel, do_macro_default_safe, do_macro_none, do_macro_unclosed_brace, by decide,
    by decide, by decide, by decide⟩

/-! ## One line written for each line read -/

theorem one_line_iff (l : List Char) :
    one_line l = true ↔ ∃ y, l = y ++ ['\n'] ∧ '\n' ∉ y := by
  constructor
  · intro h
    simp only [one_line, Bool.and_eq_true, beq_iff_eq, Bool.not_eq_true',
      List.contains_eq_any_beq, List.any_eq_false, beq_iff_eq] at h
    refine ⟨l.dropLast, (List.dropLast_append_getLast? '\n' (by simp [h.1])).symm, ?_⟩
    intro hc
    exact h.2 _ hc rfl
  · rintro ⟨y, rfl, hy⟩
    simp only [one_line, List.getLast?_concat, beq_self_eq_true, List.dropLast_concat,
      Bool.true_and, Bool.not_eq_true', List.contains_eq_any_beq, List.any_eq_false,
      beq_iff_eq]
    intro c hc hcn
    rw [← hcn] at hc
    exact hy hc

theorem line_split {a b y : List Char} {c : Char} (h : a ++ c :: b = y ++ ['\n'])
    (hy : '\n' ∉ y) (hc : c ≠ '\n') : '\n' ∉ a ∧ ∃ y1, b = y1 ++ ['\n'] ∧ '\n' ∉ y1 := by
  rcases List.eq_nil_or_concat b with hb | ⟨L, d, hb⟩
  · subst hb
    have h1 : a ++ [c] = y ++ ['\n'] := h
    have := (List.append_inj' h1 rfl).2
    simp only [List.cons.injEq, and_true] at this
    exact absurd this hc
  · subst hb
    have h1 : (a ++ c :: L) ++ [d] = y ++ ['\n'] := by
      rw [← h]
      simp
    have h2 := List.append_inj' h1 rfl
    simp only [List.cons.injEq, and_true] at h2
    rw [← h2.1] at hy
    simp only [List.mem_append, List.mem_cons, not_or] at hy
    exact ⟨hy.1, L, by rw [h2.2]; simp, hy.2.2⟩

theorem find_token_mem (token : List Char) (tlen : Int) :
    ∀ (ms : List macro_t) (m : macro_t), find_token token tlen ms = some m → m ∈ ms := by
  intro ms
  induction ms with
  | nil => intro m h; exact absurd h (by simp [find_token])
  | cons a ms ih =>
    intro m h
    unfold find_token at h
    split at h
    · simp only [Option.some.injEq] at h
      rw [← h]
      exact List.mem_cons_self _ _
    · exact List.mem_cons_of_mem _ (ih m h)

theorem ite_none_some {α : Type} {c : Prop} [Decidable c] {x : Option α} {m : α}
    (h : (if c then x else none) = some m) : x = some m := by
  split at h
  · exact h
  · exact absurd h (by simp)

theorem expand_token_no_newline (r : Bool) (ms : List macro_t) (tp : List Char) (len : Nat)
    (hms : ∀ m ∈ ms, '\n' ∉ m.value) (htp : '\n' ∉ tp.take len) :
    '\n' ∉ (expand_token r ms tp len).1 := by
  unfold expand_token
  simp only
  split
  · rename_i m hm
    exact hms m (find_token_mem _ _ _ _ (ite_none_some hm))
  · exact htp

theorem loop_brace_end (ctl : Char) (ms : List macro_t) (fuel : Nat) (tp op : List Char)
    (sub : Nat) (hk : 3 ≤ tp.length) (h1 : cur (tp.drop 1) = '{') (o : List Char) (sub1 : Nat) :
    do_macro_loop true ctl ms fuel tp [] op sub ≠ .done o sub1 := by
  cases fuel with
  | zero => simp [do_macro_loop]
  | succ f =>
    rw [do_macro_loop, tok_end_r_brace_in _ _ (by simpa using hk) h1 (by rw [cur_nil]; decide)]
    simp

/-- The scan of a line with one newline, at its end, over a table whose
values hold no newline: what it writes is one line. -/
theorem loop_one_line (r : Bool) (ctl : Char) (ms : List macro_t)
    (hms : ∀ m ∈ ms, '\n' ∉ m.value) (hns : not_start r ctl '\n' = true) :
    ∀ (fuel : Nat) (tp ip op : List Char) (sub : Nat) (o : List Char) (sub1 : Nat)
      (w y : List Char), tp = w ++ ip → '\n' ∉ w → ip = y ++ ['\n'] → '\n' ∉ y →
      cur tp ≠ '\n' → '\n' ∉ op →
      do_macro_loop r ctl ms fuel tp ip op sub = .done o sub1 →
      ∃ z, o = z ++ ['\n'] ∧ '\n' ∉ z := by
  intro fuel
  induction fuel with
  | zero =>
    intro tp ip op sub o sub1 w y _ _ _ _ _ _ h
    simp [do_macro_loop] at h
  | succ f ih =>
    intro tp ip op sub o sub1 w y htp hw hip hy hcur hop h
    have closed : ∀ (ip1 w1 y1 : List Char), tp = w1 ++ ip1 → '\n' ∉ w1 →
        ip1 = y1 ++ ['\n'] → '\n' ∉ y1 →
        (match ip1.dropWhile (not_start r ctl) with
          | [] => Scan.done
              (op ++ (if tp.length - ip1.length > 0 then
                expand_token r ms tp (tp.length - ip1.length) else ([], false)).1 ++
                ip1.takeWhile (not_start r ctl))
              (if (if tp.length - ip1.length > 0 then
                expand_token r ms tp (tp.length - ip1.length) else ([], false)).2
                then sub + 1 else sub)
          | _ :: ip2 => do_macro_loop r ctl ms f (ip1.dropWhile (not_start r ctl)) ip2
              (op ++ (if tp.length - ip1.length > 0 then
                expand_token r ms tp (tp.length - ip1.length) else ([], false)).1 ++
                ip1.takeWhile (not_start r ctl))
              (if (if tp.length - ip1.length > 0 then
                expand_token r ms tp (tp.length - ip1.length) else ([], false)).2
                then sub + 1 else sub)) = .done o sub1 →
        ∃ z, o = z ++ ['\n'] ∧ '\n' ∉ z := by
      intro ip1 w1 y1 htp1 hw1 hip1 hy1 hm
      have hlen : tp.length - ip1.length = w1.length := by
        rw [htp1]
        simp
      have htake : tp.take w1.length = w1 := by
        rw [htp1]
        exact List.take_left' rfl
      have hX : '\n' ∉ (if tp.length - ip1.length > 0 then
          expand_token r ms tp (tp.length - ip1.length) else ([], false)).1 := by
        split
        · apply expand_token_no_newline r ms tp _ hms
          rw [hlen, htake]
          exact hw1
        · simp
      generalize (if tp.length - ip1.length > 0 then
          expand_token r ms tp (tp.length - ip1.length) else ([], false)) = X at hm hX
      have hsplit := List.takeWhile_append_dropWhile (not_start r ctl) ip1
      cases hd : ip1.dropWhile (not_start r ctl) with
      | nil =>
        rw [hd] at hm hsplit
        simp only [Scan.done.injEq] at hm
        rw [List.append_nil] at hsplit
        rw [hsplit, hip1] at hm
        refine ⟨op ++ X.1 ++ y1, by rw [← hm.1]; simp, ?_⟩
        simp only [List.mem_append, not_or]
        exact ⟨⟨hop, hX⟩, hy1⟩
      | cons c ip2 =>
        rw [hd] at hm hsplit
        simp only at hm
        have hc : not_start r ctl c = false := by
          have := List.head_dropWhile_not (not_start r ctl) ip1 (by rw [hd]; simp)
          simp only [hd, List.head_cons] at this
          simpa using this
        have hcn : c ≠ '\n' := by
          intro hcc
          rw [hcc, hns] at hc
          exact absurd hc (by simp)
        rw [hip1] at hsplit
        obtain ⟨ha, y2, hy2, hy2n⟩ := line_split hsplit hy1 hcn
        apply ih (c :: ip2) ip2 _ _ o sub1 [c] y2 rfl (by simpa using hcn.symm) hy2 hy2n
          (by rw [cur_cons]; exact hcn) ?_ hm
        simp only [List.mem_append, not_or]
        rw [← hip1] at ha
        exact ⟨⟨hop, hX⟩, ha⟩
    unfold do_macro_loop at h
    rcases tok_end_cases r tp ip with h1 | ⟨h1, h2⟩ | ⟨h1, h2⟩
    · rw [h1] at h
      simp only [if_true] at h
      exact closed ip w y htp hw hip hy h
    · rw [h1] at h
      simp only [if_true] at h
      cases y with
      | nil =>
        rw [hip] at h2
        exact absurd h2 (by decide)
      | cons c y1 =>
        rw [hip, List.cons_append, cur_cons] at h2
        simp only [List.mem_cons, not_or] at hy
        have hip2 : ip.tail = y1 ++ ['\n'] := by rw [hip]; rfl
        apply closed ip.tail (w ++ [c]) y1 ?_ ?_ hip2 hy.2 h
        · rw [htp, hip]
          simp
        · simp only [List.mem_append, List.mem_singleton, not_or]
          exact ⟨hw, hy.1⟩
    · rw [h1] at h
      simp only [Bool.false_eq_true, if_false] at h
      cases y with
      | nil =>
        rw [List.nil_append] at hip
        rw [hip] at h
        simp only at h
        rcases h2 with h2 | h2 | h2
        · exfalso
          rw [htp, hip] at h2
          simp only [List.length_append, List.length_cons, List.length_nil] at h2
          have hw0 : w = [] := List.length_eq_zero.mp (by omega)
          rw [htp, hw0, hip] at hcur
          exact hcur rfl
        · rw [hip] at h2
          exact absurd rfl h2.1
        · rw [h2.1] at h
          rw [hip] at h2
          exact absurd h (loop_brace_end ctl ms f tp op sub
            (by have := h2.2.1; simp only [List.length_cons, List.length_nil] at this; omega)
            h2.2.2 o sub1)
      | cons c y1 =>
        rw [hip] at h
        simp only [List.cons_append] at h
        simp only [List.mem_cons, not_or] at hy
        apply ih tp (y1 ++ ['\n']) op sub o sub1 (w ++ [c]) y1 ?_ ?_ rfl hy.2 hcur hop h
        · rw [htp, hip]
          simp
        · simp only [List.mem_append, List.mem_singleton, not_or]
          exact ⟨hw, hy.1⟩

theorem not_start_newline (r : Bool) (ctl : Char) (h : ctl ≠ '\n') :
    not_start r ctl '\n' = true := by
  cases r with
  | true => simpa [not_start] using h.symm
  | false =>
    simp only [not_start, Bool.false_eq_true, if_false]
    decide

theorem do_macro_one_line (r : Bool) (ctl : Char) (ms : List macro_t) (ibuf o y : List Char)
    (hms : ∀ m ∈ ms, '\n' ∉ m.value) (hctl : ctl ≠ '\n') (hib : ibuf = y ++ ['\n'])
    (hy : '\n' ∉ y) (h : do_macro r ctl ms ibuf = some o) :
    ∃ z, o = z ++ ['\n'] ∧ '\n' ∉ z := by
  have hns := not_start_newline r ctl hctl
  unfold do_macro at h
  simp only at h
  have hsplit := List.takeWhile_append_dropWhile (not_start r ctl) ibuf
  cases hd : ibuf.dropWhile (not_start r ctl) with
  | nil =>
    rw [hd] at h
    simp only [Option.some.injEq] at h
    exact ⟨y, by rw [← h, hib], hy⟩
  | cons c ip2 =>
    rw [hd] at h hsplit
    simp only at h
    have hc : not_start r ctl c = false := by
      have := List.head_dropWhile_not (not_start r ctl) ibuf (by rw [hd]; simp)
      simp only [hd, List.head_cons] at this
      simpa using this
    have hcn : c ≠ '\n' := by
      intro hcc
      rw [hcc, hns] at hc
      exact absurd hc (by simp)
    rw [hib] at hsplit
    obtain ⟨ha, y2, hy2, hy2n⟩ := line_split hsplit hy hcn
    rw [← hib] at ha
    cases hl : do_macro_loop r ctl ms (ibuf.length + 1) (c :: ip2) (c :: ip2)
        (ibuf.takeWhile (not_start r ctl)) 0 with
    | done tmp sub =>
      rw [hl] at h
      simp only at h
      split at h
      · simp only [Option.some.injEq] at h
        rw [← h]
        exact loop_one_line r ctl ms hms hns _ _ _ _ _ _ _ [] (c :: y2) rfl (by simp)
          (by rw [hy2]; rfl) (by simp only [List.mem_cons, not_or]; exact ⟨hcn.symm, hy2n⟩)
          (by show cur (c :: ip2) ≠ '\n'; rw [cur_cons]; exact hcn) ha hl
      · simp only [Option.some.injEq] at h
        exact ⟨y, by rw [← h, hib], hy⟩
    | overrun => rw [hl] at h; exact absurd h (by simp)
    | nofuel => rw [hl] at h; exact absurd h (by simp)

theorem process_one_line (e : Env) (s s1 : State) (ibuf y : List Char)
    (hms : ∀ m ∈ s.t.macros, '\n' ∉ m.value) (hctl : e.ctl ≠ '\n') (hib : ibuf = y ++ ['\n'])
    (hy : '\n' ∉ y) (h : process e s ibuf = .cont s1) :
    ∃ o, s1 = { s with out := s.out ++ [o] } ∧ one_line o = true := by
  unfold process at h
  split at h
  · split at h
    · rename_i o ho
      simp only [Next.cont.injEq] at h
      exact ⟨o, h.symm, (one_line_iff o).mpr
        (do_macro_one_line _ _ _ ibuf o y hms hctl hib hy ho)⟩
    · exact absurd h (by simp)
  · simp only [Next.cont.injEq] at h
    exact ⟨ibuf, h.symm, (one_line_iff ibuf).mpr ⟨y, hib, hy⟩⟩

/-- The buffer after the comment scan and the trimming of a line as `fgets`
gives it: one line. -/
theorem trimmed_line (ln inc : Nat) (l : List Char) (hl : '\n' ∉ l.dropLast) :
    ∃ x, trim_line (strip_comments ln inc l).2 = x ++ ['\n'] ∧ '\n' ∉ x := by
  have hs := strip_newline ln l.length l inc (Nat.le_refl _) hl
  obtain ⟨t, ws, h1, _, h3, h4⟩ := trim_line_spec (strip_comments ln inc l).2
  refine ⟨t, h4, ?_⟩
  rw [h1] at hs
  rcases List.eq_nil_or_concat ws with hw | ⟨L, d, hw⟩
  · subst hw
    rw [List.append_nil] at hs
    rcases List.eq_nil_or_concat t with ht | ⟨T, c, ht⟩
    · rw [ht]
      simp
    · have ht1 : t = T ++ [c] := by rw [ht]; simp
      rw [ht1] at hs h3 ⊢
      rw [List.dropLast_concat] at hs
      have hc := h3 c (by simp)
      simp only [List.mem_append, List.mem_singleton, not_or]
      refine ⟨hs, fun hcn => ?_⟩
      rw [← hcn] at hc
      exact absurd hc (by decide)
  · have hw1 : ws = L ++ [d] := by rw [hw]; simp
    rw [hw1, ← List.append_assoc, List.dropLast_concat] at hs
    intro hc
    exact hs (List.mem_append_left _ hc)

theorem strip_keeps_start (ln : Nat) (n : Nat) :
    ∀ (line : List Char) (inc : Nat) (k : List Char), line.length ≤ n →
      (∀ c ∈ k, c ≠ ' ') → k <+: (strip_comments ln inc line).2 → k <+: line := by
  induction n with
  | zero =>
    intro line inc k hn _ h
    have : line = [] := List.length_eq_zero.mp (Nat.le_zero.mp hn)
    subst this
    simp [strip_comments] at h
    rw [h]
  | succ n ih =>
    intro line inc k hn hk h
    cases k with
    | nil => exact List.nil_prefix
    | cons x k1 =>
      have hx : x ≠ ' ' := hk x (List.mem_cons_self _ _)
      have hk1 : ∀ c ∈ k1, c ≠ ' ' := fun c hc => hk c (List.mem_cons_of_mem _ hc)
      match line, hn, h with
      | [], _, h => simp [strip_comments] at h
      | [c], _, h =>
        simp only [strip_comments] at h
        split at h
        · rw [List.cons_prefix_cons] at h
          exact absurd h.1 hx
        · exact h
      | c :: d :: cs, hn, h =>
        have h1 : (d :: cs).length ≤ n := by simp at hn ⊢; omega
        simp only [strip_comments] at h
        split at h
        · split at h
          · rw [List.cons_prefix_cons] at h
            exact absurd h.1 hx
          · rw [List.cons_prefix_cons] at h
            exact absurd h.1 hx
        · split at h
          · rw [List.cons_prefix_cons] at h
            exact absurd h.1 hx
          · rw [List.cons_prefix_cons] at h
            rw [List.cons_prefix_cons]
            exact ⟨h.1, ih _ _ _ h1 hk1 h.2⟩

theorem trim_keeps_start (r k : List Char) (hk : ∀ c ∈ k, isspace c = false)
    (h : k <+: trim_line r) : k <+: r := by
  obtain ⟨t, ws, h1, _, _, h4⟩ := trim_line_spec r
  rw [h4, List.prefix_concat_iff] at h
  rcases h with h | h
  · have := hk '\n' (by rw [h]; simp)
    exact absurd this (by decide)
  · rw [h1]
    exact h.trans (List.prefix_append _ _)

/-- A line that does not start with the control character and `include` is
no `include` line for the loop. -/
theorem not_include_pass (ctl : Char) (ln inc : Nat) (l : List Char)
    (hc2 : isspace ctl = false) (hni : ¬ (ctl :: "include".toList) <+: l) :
    ¬ (cur (trim_line (strip_comments ln inc l).2) = ctl ∧
      strncmp_eq ((trim_line (strip_comments ln inc l).2).drop 1) "include".toList
        "include".length = true) := by
  rintro ⟨h1, h2⟩
  apply hni
  have hsp : ∀ c ∈ ctl :: "include".toList, isspace c = false := by
    intro c hc
    rcases List.mem_cons.mp hc with h | h
    · rw [h]
      exact hc2
    · simp only [include_chars, List.mem_cons, List.mem_singleton, List.not_mem_nil,
        or_false] at h
      rcases h with h | h | h | h | h | h | h <;> rw [h] <;> decide
  have hbl : ∀ c ∈ ctl :: "include".toList, c ≠ ' ' := by
    intro c hc hcc
    have := hsp c hc
    rw [hcc] at this
    exact absurd this (by decide)
  apply strip_keeps_start ln l.length l inc _ (Nat.le_refl _) hbl
  apply trim_keeps_start _ _ hsp
  generalize trim_line (strip_comments ln inc l).2 = ibuf at h1 h2
  cases ibuf with
  | nil => exact absurd h2 (by decide)
  | cons c rest =>
    rw [cur_cons] at h1
    rw [h1, List.cons_prefix_cons]
    refine ⟨rfl, ?_⟩
    have h7 : "include".length = 7 := rfl
    simp only [List.drop_succ_cons, List.drop_zero, strncmp_eq, h7, beq_iff_eq] at h2
    have h3 : "include".toList.take 7 = "include".toList := rfl
    rw [h3] at h2
    rw [← h2]
    exact List.take_prefix _ _

theorem do_include_not_exit0 (e : Env) (s : State) (ibuf : List Char)
    (out : List (List Char)) : do_include e s ibuf ≠ .halt (.exit0 out) := by
  intro h
  unfold do_include at h
  split at h
  · exact absurd h (by simp)
  · simp only at h
    repeat'
      first
        | (split at h)
    all_goals exact absurd h (by simp)

theorem step_exit0 (e : Env) (s : State) (out : List (List Char))
    (h : step e s = .halt (.exit0 out)) : s.currfile.fin = [] ∧ s.below = [] ∧ out = s.out := by
  unfold step at h
  split at h
  · rename_i hfin
    split at h
    · rename_i hb
      simp only [Next.halt.injEq, finish] at h
      split at h
      · exact absurd h (by simp)
      · split at h
        · exact absurd h (by simp)
        · simp only [Outcome.exit0.injEq] at h
          exact ⟨hfin, hb, h.symm⟩
    · exact absurd h (by simp)
  · simp only at h
    split at h
    · exact absurd h (by simp)
    · split at h
      · split at h
        · exact absurd h (do_include_not_exit0 e _ _ out)
        · split at h
          · exact absurd h (by simp)
          · split at h
            · split at h
              · have := process_halt e _ _ _ h
                exact absurd this (by simp)
              · exact absurd h (by simp)
            · exact absurd h (by simp)
      · split at h
        · exact absurd h (by simp)
        · have := process_halt e _ _ _ h
          exact absurd this (by simp)

/-- With the markers on, the pass over a line as `fgets` gives it that is no
`include` line, over a table whose values hold no newline: when the pass
goes on it has written one line, the line is counted, the stack of files is
as it was and the values of the table hold no newline. -/
theorem step_line (e : Env) (s s1 : State) (l : List Char) (rest : List (List Char))
    (hs : e.style = STYLE_C) (hc2 : isspace e.ctl = false)
    (hfin : s.currfile.fin = l :: rest) (hl : '\n' ∉ l.dropLast)
    (hni : ¬ (e.ctl :: "include".toList) <+: l)
    (hms : ∀ m ∈ s.t.macros, '\n' ∉ m.value) (h : step e s = .cont s1) :
    ∃ o, s1.out = s.out ++ [o] ∧ one_line o = true ∧
      s1.currfile = ⟨s.currfile.fname, rest, s.currfile.lineno + 1⟩ ∧
      s1.below = s.below ∧ ∀ m ∈ s1.t.macros, '\n' ∉ m.value := by
  obtain ⟨t, skip, inc, ⟨fname, fin, lineno⟩, below, out⟩ := s
  simp only at hfin hms
  subst hfin
  have hcn := not_space_ne_newline hc2
  have hctl : e.ctl ≠ '\n' := by simpa using hcn
  obtain ⟨x, hx1, hx2⟩ := trimmed_line (lineno + 1) inc l hl
  have hnot := not_include_pass e.ctl (lineno + 1) inc l hc2 hni
  have hput : ∀ (o : List (List Char)) (a : List Char), put_c e o a = o ++ [a] := by
    intro o a
    simp [put_c, hs]
  have hnl : one_line ['\n'] = true := by decide
  unfold step at h
  simp only at h
  generalize (strip_comments (lineno + 1) inc l).1 = inc1 at h
  generalize trim_line (strip_comments (lineno + 1) inc l).2 = ibuf at h hx1 hnot
  split at h
  · simp only [Next.cont.injEq] at h
    rw [← h]
    exact ⟨['\n'], hput _ _, hnl, rfl, rfl, hms⟩
  · split at h
    · rename_i hcur
      split at h
      · rename_i hinc
        exact absurd ⟨by simpa using hcur, hinc⟩ hnot
      · split at h
        · exact absurd h (by simp)
        · rename_i r t1 hd
          have hv := directive_values t t1 (lineno + 1) x r hx2 hms (by rw [← hx1]; exact hd)
          split at h
          · split at h
            · obtain ⟨o, ho1, ho2⟩ := process_one_line e _ s1 ibuf x hv hctl hx1 hx2 h
              rw [ho1]
              exact ⟨o, rfl, ho2, rfl, rfl, hv⟩
            · exact absurd h (by simp)
          · simp only [Next.cont.injEq] at h
            rw [← h]
            exact ⟨['\n'], hput _ _, hnl, rfl, rfl, hv⟩
    · split at h
      · simp only [Next.cont.injEq] at h
        rw [← h]
        exact ⟨['\n'], hput _ _, hnl, rfl, rfl, hms⟩
      · obtain ⟨o, ho1, ho2⟩ := process_one_line e _ s1 ibuf x hms hctl hx1 hx2 h
        rw [ho1]
        exact ⟨o, rfl, ho2, rfl, rfl, hms⟩

/-- The passes over the lines of the top level file, with the markers on:
a run that ends well has written one line for each line read, and after `k`
lines read the lines written are the first of those of the run. -/
theorem run_line_numbers (e : Env) (hs : e.style = STYLE_C) (hc2 : isspace e.ctl = false) :
    ∀ (lines : List (List Char)) (s : State) (fuel : Nat) (out : List (List Char)),
      Reach e s → s.currfile.fin = lines → s.below = [] →
      (∀ l ∈ lines, '\n' ∉ l.dropLast) →
      (∀ l ∈ lines, ¬ (e.ctl :: "include".toList) <+: l) →
      (∀ m ∈ s.t.macros, '\n' ∉ m.value) → run e fuel s = .exit0 out →
      out.length = s.out.length + lines.length ∧ out.take s.out.length = s.out ∧
      (∀ o ∈ out.drop s.out.length, one_line o = true) ∧
      ∀ k, k ≤ lines.length → ∃ sk, Reach e sk ∧ sk.currfile.fin = lines.drop k ∧
        sk.currfile.lineno = s.currfile.lineno + k ∧ sk.below = [] ∧
        sk.out = out.take (s.out.length + k) ∧
        (k < lines.length → ∃ sk1, step e sk = .cont sk1 ∧
          sk1.out = out.take (s.out.length + k + 1)) := by
  intro lines
  induction lines with
  | nil =>
    intro s fuel out hr hfin hb _ _ _ h
    cases fuel with
    | zero => exact absurd h (by simp [run])
    | succ f =>
      have hstep : step e s = .halt (finish s) := by simp [step, hfin, hb]
      simp only [run, hstep] at h
      have hout : out = s.out := by
        unfold finish at h
        split at h
        · exact absurd h (by simp)
        · split at h
          · exact absurd h (by simp)
          · simp only [Outcome.exit0.injEq] at h
            exact h.symm
      subst hout
      refine ⟨rfl, by simp, by simp, ?_⟩
      intro k hk
      have hk0 : k = 0 := by simpa using hk
      subst hk0
      exact ⟨s, hr, by rw [hfin]; rfl, rfl, hb, by simp, fun hlt => absurd hlt (by simp)⟩
  | cons l rest ih =>
    intro s fuel out hr hfin hb hl hni hms h
    cases fuel with
    | zero => exact absurd h (by simp [run])
    | succ f =>
      cases hstep : step e s with
      | halt o =>
        simp only [run, hstep] at h
        subst h
        have := (step_exit0 e s out hstep).1
        rw [hfin] at this
        exact absurd this (by simp)
      | cont s1 =>
        rw [run_cont e f s s1 hstep] at h
        obtain ⟨o, ho1, ho2, ho3, ho4, ho5⟩ := step_line e s s1 l rest hs hc2 hfin
          (hl l (List.mem_cons_self _ _)) (hni l (List.mem_cons_self _ _)) hms hstep
        have hr1 : Reach e s1 := Reach.next s s1 hr hstep
        obtain ⟨h1, h2, h3, h4⟩ := ih s1 f out hr1 (by rw [ho3]) (by rw [ho4, hb])
          (fun a ha => hl a (List.mem_cons_of_mem _ ha))
          (fun a ha => hni a (List.mem_cons_of_mem _ ha)) ho5 h
        have hlen1 : s1.out.length = s.out.length + 1 := by rw [ho1]; simp
        rw [hlen1] at h1 h2 h3
        have hout : out = s.out ++ o :: out.drop (s.out.length + 1) := by
          conv_lhs => rw [← List.take_append_drop (s.out.length + 1) out, h2, ho1]
          simp
        have htake : out.take s.out.length = s.out := by
          conv_lhs => rw [hout]
          exact List.take_left' rfl
        have hdrop : out.drop s.out.length = o :: out.drop (s.out.length + 1) := by
          conv_lhs => rw [hout]
          exact List.drop_left' rfl
        refine ⟨by simp only [List.length_cons]; omega, htake, ?_, ?_⟩
        · intro o1 ho
          rw [hdrop] at ho
          rcases List.mem_cons.mp ho with hh | hh
          · rw [hh]
            exact ho2
          · exact h3 o1 hh
        · intro k hk
          cases k with
          | zero =>
            exact ⟨s, hr, hfin, rfl, hb, by rw [Nat.add_zero, htake],
              fun _ => ⟨s1, hstep, by rw [Nat.add_zero, h2]⟩⟩
          | succ k1 =>
            obtain ⟨sk, hk1, hk2, hk3, hk4, hk5, hk6⟩ := h4 k1
              (by simp only [List.length_cons] at hk; omega)
            refine ⟨sk, hk1, hk2, ?_, hk4, ?_, ?_⟩
            · rw [hk3, ho3]
              simp only
              omega
            · rw [hk5, hlen1]
              congr 1
              omega
            · intro hlt
              obtain ⟨sk1, hq1, hq2⟩ := hk6 (by simp only [List.length_cons] at hlt; omega)
              refine ⟨sk1, hq1, ?_⟩
              rw [hq2, hlen1]
              congr 1
              omega

/-- With the markers on, a pass that goes on over a line blanked inside a
comment, over a directive line or over a line inside a false block writes a
blank line. -/
theorem step_blank (e : Env) (hs : e.style = STYLE_C) (s s1 : State)
    (h : step e s = .cont s1)
    (hk : pass_kind e s = .blanked ∨ pass_kind e s = .control ∨ pass_kind e s = .suppressed) :
    s1.out = s.out ++ [['\n']] := by
  have hput : ∀ out l, put_c e out l = out ++ [l] := by
    intro out l
    simp [put_c, hs]
  unfold pass_kind at hk
  unfold step at h
  cases hfin : s.currfile.fin with
  | nil =>
    rw [hfin] at hk
    simp only at hk
    split at hk <;> simp at hk
  | cons l rest =>
    rw [hfin] at h hk
    simp only at h hk
    generalize strip_comments (s.currfile.lineno + 1) s.incomment l = r at h hk
    generalize trim_line r.2 = ibuf at h hk
    by_cases c1 : (r.1 != 0 && cur ibuf == '\n') = true
    · simp only [c1, if_true, Next.cont.injEq] at h
      subst h
      simp [hput]
    · simp only [c1, Bool.false_eq_true, if_false] at h hk
      by_cases c2 : (cur ibuf == e.ctl) = true
      · simp only [c2, if_true] at h hk
        by_cases c3 : strncmp_eq (ibuf.drop 1) "include".toList "include".length = true
        · simp only [c3, if_true] at hk
          rcases hk with hk | hk | hk <;> cases hk
        · simp only [c3, Bool.false_eq_true, if_false] at h hk
          cases hd : directive s.t (s.currfile.lineno + 1) ibuf with
          | error err => rw [hd] at h; simp at h
          | ok rt =>
            obtain ⟨r1, t1⟩ := rt
            rw [hd] at h
            simp only at h
            rcases directive_ret _ _ _ _ _ hd with ⟨hkw, hr, _⟩ | ⟨hkw, hr⟩
            · subst hr
              simp only [beq_self_eq_true, if_true] at h
              cases hres : e.restricted with
              | false => rw [hres] at h; simp at h
              | true =>
                simp only [hres, hkw, Option.isNone_none, Bool.and_self, if_true] at hk
                rcases hk with hk | hk | hk <;> cases hk
            · have hne : (r1 == -1) = false := by
                rcases hr with hr | hr <;> subst hr <;> decide
              simp only [hne, Bool.false_eq_true, if_false, Next.cont.injEq] at h
              subst h
              simp [hput]
      · simp only [c2, Bool.false_eq_true, if_false] at h hk
        by_cases c4 : (s.skip_if_false != 0) = true
        · simp only [c4, if_true, Next.cont.injEq] at h
          subst h
          simp [hput]
        · simp only [c4, Bool.false_eq_true, if_false] at hk
          rcases hk with hk | hk | hk <;> cases hk

/-- C36. With the markers on, take a run whose options `-D` leave a table
with no newline in a value, whose input is lines as `fgets` gives them (no
newline before the last byte), none of which starts with the control
character and `include`, and which ends with exit status 0. It has written
the marker and then one line for each line read: as many lines as read and
one more; each of them ends in a newline and holds no other. Before the line
`k + 1` is read, the marker and `k` lines are written, and the pass over that
line adds the line `k + 2` of the output; that line is blank when the line
read is blanked inside a comment, is a directive line, or lies inside a
false block. -/
theorem line_numbers_kept (e : Env) (t : Tables) (lines : List (List Char)) (fuel : Nat)
    (out : List (List Char)) (hs : e.style = STYLE_C) (hc2 : isspace e.ctl = false)
    (ht : define_options ⟨[], IF_NONE, 0⟩ e.defines = .ok t)
    (hms : values_plain t.macros = true) (hin : input_lines e = some lines)
    (hl : ∀ l ∈ lines, '\n' ∉ l.dropLast)
    (hni : ∀ l ∈ lines, (e.ctl :: "include".toList).isPrefixOf l = false)
    (h : main e fuel = .exit0 out) :
    out.length = lines.length + 1 ∧
    out.take 1 = [marker ⟨input_name e, lines, 0⟩] ∧
    (∀ o ∈ out.drop 1, one_line o = true) ∧
    ∀ k, k < lines.length → ∃ sk sk1 o, Reach e sk ∧ sk.currfile.fin = lines.drop k ∧
      sk.currfile.lineno = k ∧ sk.below = [] ∧ sk.out = out.take (k + 1) ∧
      step e sk = .cont sk1 ∧ sk1.out = out.take (k + 2) ∧
      out.take (k + 2) = out.take (k + 1) ++ [o] ∧ one_line o = true ∧
      ((pass_kind e sk = .blanked ∨ pass_kind e sk = .control ∨
        pass_kind e sk = .suppressed) → o = ['\n']) := by
  have hstart := start_ok e t lines ht hin
  have hput : put_c e [] (marker ⟨input_name e, lines, 0⟩) =
      [marker ⟨input_name e, lines, 0⟩] := by
    simp [put_c, hs]
  rw [hput] at hstart
  have hreach := Reach.first _ hstart
  have hrun : run e fuel ⟨t, 0, 0, ⟨input_name e, lines, 0⟩, [],
      [marker ⟨input_name e, lines, 0⟩]⟩ = .exit0 out := by
    simp only [main, hstart] at h
    exact h
  have hv : ∀ m ∈ t.macros, '\n' ∉ m.value := by
    intro m hm hc
    simp only [values_plain, List.all_eq_true, Bool.not_eq_true', List.contains_eq_any_beq,
      List.any_eq_false, beq_iff_eq] at hms
    exact hms m hm _ hc rfl
  have hni1 : ∀ l ∈ lines, ¬ (e.ctl :: "include".toList) <+: l := by
    intro l hlm hp
    have := hni l hlm
    rw [List.isPrefixOf_iff_prefix.mpr hp] at this
    exact absurd this (by simp)
  obtain ⟨h1, h2, h3, h4⟩ := run_line_numbers e hs hc2 lines _ fuel out hreach rfl rfl hl hni1
    hv hrun
  simp only [List.length_singleton] at h1 h2 h3 h4
  refine ⟨by omega, h2, h3, ?_⟩
  intro k hk
  obtain ⟨sk, hk1, hk2, hk3, hk4, hk5, hk6⟩ := h4 k (Nat.le_of_lt hk)
  obtain ⟨sk1, hq1, hq2⟩ := hk6 hk
  have hlt : k + 1 < out.length := by omega
  have ht2 : out.take (k + 2) = out.take (k + 1) ++ [out.get ⟨k + 1, hlt⟩] := by
    rw [List.take_succ, List.getElem?_eq_getElem hlt]
    rfl
  have hmem : out.get ⟨k + 1, hlt⟩ ∈ out.drop 1 := by
    have hd : k < (out.drop 1).length := by simp; omega
    have := List.getElem_mem hd
    rw [List.getElem_drop] at this
    simpa [Nat.add_comm] using this
  refine ⟨sk, sk1, out.get ⟨k + 1, hlt⟩, hk1, hk2, by rw [hk3]; simp, hk4,
    by rw [hk5, Nat.add_comm], hq1, by rw [hq2]; congr 1; omega, ht2, h3 _ hmem, ?_⟩
  intro hkind
  have hb := step_blank e hs sk sk1 hq1 hkind
  have h5 : out.take (k + 2) = out.take (k + 1) ++ [['\n']] := by
    have e1 : sk1.out = out.take (k + 2) := by rw [hq2]; congr 1; omega
    have e2 : sk.out = out.take (k + 1) := by rw [hk5, Nat.add_comm]
    rw [← e1, hb, e2]
  rw [ht2] at h5
  have := List.append_cancel_left h5
  simpa using this

theorem line_numbers_kept_witness :
    ["# 1 \"<stdin>\"\n".toList, "\n".toList, "1 2\n".toList, "\n".toList, "\n".toList,
        "\n".toList, "\n".toList, "x\n".toList, "\n".toList, "z\n".toList].length =
      ["#define A 1\n".toList, "A B /* c\n".toList, "still */\n".toList, "#ifdef C\n".toList,
        "hidden\n".toList, "#else\n".toList, "x  \n".toList, "#endif\n".toList,
        "z".toList].length + 1 :=
  (line_numbers_kept
    (defines_env false ["B=2".toList]
      ["#define A 1\n".toList, "A B /* c\n".toList, "still */\n".toList, "#ifdef C\n".toList,
        "hidden\n".toList, "#else\n".toList, "x  \n".toList, "#endif\n".toList, "z".toList])
    ⟨[⟨1, ['B'], ['2']⟩], IF_NONE, 0⟩
    ["#define A 1\n".toList, "A B /* c\n".toList, "still */\n".toList, "#ifdef C\n".toList,
      "hidden\n".toList, "#else\n".toList, "x  \n".toList, "#endif\n".toList, "z".toList] 10
    ["# 1 \"<stdin>\"\n".toList, "\n".toList, "1 2\n".toList, "\n".toList, "\n".toList,
      "\n".toList, "\n".toList, "x\n".toList, "\n".toList, "z\n".toList]
    rfl (by decide) (by decide) (by decide) rfl (by decide) (by decide) (by decide)).1

/-! ## The bound of `tmp[]` -/

theorem do_macro_scan_resume (ctl : Char) (ms : List macro_t) (line : List Char) :
    do_macro_scan false ctl ms line = resume ctl ms line.length line [] 0 := by
  unfold do_macro_scan resume
  cases hd : List.dropWhile (not_start false ctl) line with
  | nil => simp
  | cons c ip1 =>
    have h0 : tok_end false (c :: ip1) (c :: ip1) = (false, c :: ip1) := by
      simp [tok_end]
    simp only [do_macro_loop, h0, List.nil_append]
    simp

theorem do_macro_scan_segs (ctl : Char) (ms : List macro_t) (hwf : wf_table ms = true)
    (segs : List Seg) (htk : tokenized segs = true) :
    do_macro_scan false ctl ms (texts segs) = .done (substs ms segs) (hits ms segs) := by
  rw [do_macro_scan_resume, resume_segs ctl ms hwf segs htk _ [] 0 (Nat.le_refl _)]
  simp

/-- The function with `tmp[]` unbounded gives what the scan leaves. -/
theorem do_macro_of_scan (r : Bool) (ctl : Char) (ms : List macro_t) (ibuf : List Char) :
    do_macro r ctl ms ibuf =
      match do_macro_scan r ctl ms ibuf with
      | .done tmp sub => if sub != 0 then some tmp else some ibuf
      | .overrun => none
      | .nofuel => none := by
  unfold do_macro do_macro_scan
  simp only
  split
  · simp
  · rfl

/-- When no byte is stored outside `tmp[]`, the bound changes nothing. -/
theorem do_macro_tmp_line (r : Bool) (ctl : Char) (ms : List macro_t) (ibuf l : List Char)
    (h : do_macro_tmp r ctl ms ibuf = .line l) : do_macro r ctl ms ibuf = some l := by
  rw [do_macro_of_scan]
  unfold do_macro_tmp at h
  cases hs : do_macro_scan r ctl ms ibuf with
  | done tmp sub =>
    rw [hs] at h
    by_cases h0 : sub = 0
    · subst h0
      simp only [bne_self_eq_false, Bool.false_eq_true, if_false] at h ⊢
      split at h
      · exact absurd h (by simp)
      · simp only [Stored.line.injEq] at h
        rw [h]
    · have hb : (sub != 0) = true := by simpa using h0
      simp only [hb, if_true] at h ⊢
      split at h
      · exact absurd h (by simp)
      · simp only [Stored.line.injEq] at h
        rw [h]
  | overrun => rw [hs] at h; exact absurd h (by simp)
  | nofuel => rw [hs] at h; exact absurd h (by simp)

theorem do_macro_tmp_segs (ctl : Char) (ms : List macro_t) (hwf : wf_table ms = true)
    (segs : List Seg) (htk : tokenized segs = true) :
    do_macro_tmp false ctl ms (texts segs) =
      if (substs ms segs).length + (if hits ms segs != 0 then 1 else 0) > TMPSIZE then
        .overflow ((substs ms segs).length + (if hits ms segs != 0 then 1 else 0))
      else .line (substs ms segs) := by
  unfold do_macro_tmp
  rw [do_macro_scan_segs ctl ms hwf segs htk]
  by_cases h : hits ms segs = 0
  · simp only [h, bne_self_eq_false, Bool.false_eq_true, if_false,
      substs_of_no_hit ms segs h]
  · have hb : (hits ms segs != 0) = true := by simpa using h
    simp only [hb, if_true]

/-- The line `X X X` over the table that holds `X` with the value `v`. -/
theorem do_macro_tmp_three (ctl : Char) (v : List Char) :
    do_macro_tmp false ctl [⟨1, ['X'], v⟩] "X X X\n".toList =
      if 3 * v.length + 4 > TMPSIZE then .overflow (3 * v.length + 4)
      else .line (v ++ ' ' :: (v ++ ' ' :: (v ++ ['\n']))) := by
  have h := do_macro_tmp_segs ctl [⟨1, ['X'], v⟩] rfl
    [.tok ['X'], .chr ' ', .tok ['X'], .chr ' ', .tok ['X'], .chr '\n'] (by decide)
  have hl : lookup_value [⟨1, ['X'], v⟩] ['X'] = some v := rfl
  have hs : substs [⟨1, ['X'], v⟩]
      [.tok ['X'], .chr ' ', .tok ['X'], .chr ' ', .tok ['X'], .chr '\n'] =
      v ++ ' ' :: (v ++ ' ' :: (v ++ ['\n'])) := by
    simp [substs, subst_seg, hl]
  have hh : hits [⟨1, ['X'], v⟩]
      [.tok ['X'], .chr ' ', .tok ['X'], .chr ' ', .tok ['X'], .chr '\n'] = 3 := by
    simp [hits, hl]
  have ht : texts [.tok ['X'], .chr ' ', .tok ['X'], .chr ' ', .tok ['X'], .chr '\n'] =
      "X X X\n".toList := by decide
  have hlen : (v ++ ' ' :: (v ++ ' ' :: (v ++ ['\n']))).length + 1 = 3 * v.length + 4 := by
    simp only [List.length_append, List.length_cons, List.length_nil]
    omega
  rw [ht, hs, hh] at h
  simp only [show ((3 : Nat) != 0) = true from rfl, if_true, hlen] at h
  exact h

/-- A `define` line for `X` with a value of no white space and no leading
quote, read with an empty table. -/
theorem directive_define_x (v : List Char) (hv : ∀ c ∈ v, isspace c = false)
    (hq : cur v ≠ SQUOTE ∧ cur v ≠ '"') :
    directive ⟨[], IF_NONE, 0⟩ 1 ("#define X ".toList ++ v ++ ['\n']) =
      .ok (0, ⟨[⟨1, ['X'], v⟩], IF_NONE, 0⟩) := by
  have hp := define_line_parse_value '#' ['X'] v (by decide) hv hq
  have hline : "#define X ".toList ++ v ++ ['\n'] =
      '#' :: ("define".toList ++ ([' '] ++ (['X'] ++ (' ' :: (v ++ ['\n']))))) := by
    have h0 : "#define X ".toList = '#' :: ("define".toList ++ [' ', 'X', ' ']) := rfl
    rw [h0]
    simp
  rw [hline, directive_define_free ⟨[], IF_NONE, 0⟩ 1 _ ['X'] v hp (by decide) (by decide)
    (by decide)]
  rfl

/-- C1 (the code departs from it). In the default grammar, for every line
and every well-formed table, the line splits into maximal runs
`[A-Za-z_][A-Za-z0-9_]*` and the bytes between them, and `do_macro()` leaves
in `ibuf` the line in which each run that is the name of an active entry is
replaced by the value of the first such entry and every other piece is
copied unchanged and in order, when that line, and its closing NUL when a run
was replaced, fit `tmp[256]`. When they do not fit, the unchecked stores
through `op` write outside `tmp[]`: with `X` defined as a value of 100 bytes
(the line `#define X` and the value is a line of 111 bytes) the line `X X X`
makes `do_macro()` store 304 bytes in `tmp[256]`, where the line the
substitution gives has 303 bytes. -/
theorem do_macro_overflows_tmp :
    (∀ ctl ms line, wf_table ms = true →
      (∃ segs, tokenized segs = true ∧ texts segs = line) ∧
      ∀ segs, tokenized segs = true → texts segs = line →
        do_macro_tmp false ctl ms line =
          if (substs ms segs).length + (if hits ms segs != 0 then 1 else 0) > TMPSIZE then
            .overflow ((substs ms segs).length + (if hits ms segs != 0 then 1 else 0))
          else .line (substs ms segs)) ∧
    (∀ r ctl ms ibuf l, do_macro_tmp r ctl ms ibuf = .line l →
      do_macro r ctl ms ibuf = some l) ∧
    (∀ ctl v, do_macro_tmp false ctl [⟨1, ['X'], v⟩] "X X X\n".toList =
      if 3 * v.length + 4 > TMPSIZE then .overflow (3 * v.length + 4)
      else .line (v ++ ' ' :: (v ++ ' ' :: (v ++ ['\n'])))) ∧
    directive ⟨[], IF_NONE, 0⟩ 1 ("#define X ".toList ++ List.replicate 100 'v' ++ ['\n']) =
      .ok (0, ⟨[⟨1, ['X'], List.replicate 100 'v'⟩], IF_NONE, 0⟩) ∧
    ("#define X ".toList ++ List.replicate 100 'v' ++ ['\n']).length = 111 ∧
    do_macro_tmp false '#' [⟨1, ['X'], List.replicate 100 'v'⟩] "X X X\n".toList =
      .overflow 304 ∧
    do_macro_tmp false '#' [⟨1, ['X'], List.replicate 50 'v'⟩] "X X X\n".toList =
      .line (List.replicate 50 'v' ++ ' ' :: (List.replicate 50 'v' ++ ' ' ::
        (List.replicate 50 'v' ++ ['\n']))) ∧
    do_macro_tmp false '#' [⟨3, "FOO".toList, "baz".toList⟩, ⟨0, "Z".toList, "9".toList⟩]
      "FOO+Z 1FOO FOO1\n".toList = .line "baz+Z 1baz FOO1\n".toList := by
  refine ⟨?_, do_macro_tmp_line, do_macro_tmp_three, ?_, ?_, ?_, ?_, by decide⟩
  · intro ctl ms line hwf
    refine ⟨exists_tokenized line.length line (Nat.le_refl _), ?_⟩
    intro segs htk htx
    rw [← htx]
    exact do_macro_tmp_segs ctl ms hwf segs htk
  · apply directive_define_x
    · intro c hc
      rw [List.eq_of_mem_replicate hc]
      decide
    · exact ⟨by decide, by decide⟩
  · simp
  · rw [do_macro_tmp_three]
    simp [TMPSIZE]
  · rw [do_macro_tmp_three]
    simp [TMPSIZE]

end Pmcpp


